import Mathlib

/-!
# B+ tree index of `btree.cpp` (BadgerDB): shallow embedding

The development embeds `src/src/btree.cpp` and the scan driver `intScan` of
`src/src/main.cpp`.

Conventions of the embedding

* Keys are C `int`s.  The code only compares and copies keys, so they are
  embedded as `Int` without wrap-around.
* A node array is a `List` of the array's physical length (`L` for a leaf,
  `M` keys and `M + 1` children for an internal node); `arr[i]` is `getD`/`set`.
* The capacities `INTARRAYLEAFSIZE` and `INTARRAYNONLEAFSIZE` come from the
  header `btree.h`, which the repository's sources do not include; they are
  the parameters `L` and `M` of every function that uses them.
* A pointer into the buffer pool (`Page*`) is the id of the page it points at;
  dereferencing it looks the page up in the pool, so a pointer always sees
  the current contents of its page.
* Loops that the source leaves unbounded (`while (true)`, `while (!found)`,
  the recursion of `insertEntryHelper`) take a fuel argument and end in
  `Outcome.outOfFuel` when it runs out.
-/

namespace badgerdb

/-! ## Data model -/

/-- Modelled from the spec: the page id type of the paged file layer, a 32-bit integer naming a page. -/
abbrev PageId := Nat

/-- Modelled from the spec: `Page::INVALID_NUMBER`, the invalid page-id sentinel, which is `0`. -/
def INVALID_NUMBER : PageId := 0

/-- Modelled from the spec: a record id `(page_number, slot_number)` of the heap file. -/
structure RecordId where
  page_number : PageId
  slot_number : Nat
  deriving DecidableEq, Repr, Inhabited

/-- Modelled from the spec: the operator tags `LT, LTE, GTE, GT` of `btree.h`. -/
inductive Operator where
  | LT
  | LTE
  | GTE
  | GT
  deriving DecidableEq, Repr, Inhabited

/-- Modelled from the spec: the type tags of `btree.h`; only `INTEGER` is implemented. -/
inductive Datatype where
  | INTEGER
  | DOUBLE
  | STRING
  deriving DecidableEq, Repr, Inhabited

/-- Modelled from the spec: the header page `IndexMetaInfo` of `btree.h`. -/
structure IndexMetaInfo where
  relationName : List Char
  attrByteOffset : Int
  attrType : Datatype
  rootPageNo : PageId
  deriving DecidableEq, Repr

/-- Modelled from the spec: the leaf node `LeafNodeInt` of `btree.h`, with the `size` field this repository adds. -/
structure LeafNodeInt where
  keyArray : List Int
  ridArray : List RecordId
  rightSibPageNo : PageId
  size : Nat
  deriving DecidableEq, Repr

/-- Modelled from the spec: the internal node `NonLeafNodeInt` of `btree.h`, with the `size` field this repository adds. -/
structure NonLeafNodeInt where
  level : Int
  keyArray : List Int
  pageNoArray : List PageId
  size : Nat
  deriving DecidableEq, Repr

/-- Contents of one page of the index file.  `zero` is a page of zero bytes
(after `memset(page, 0, Page::SIZE)`), which every struct overlay reads as
the all-zero struct.  Reading a page through the overlay of another node
kind depends on the byte layout of `btree.h` and is not given a value. -/
inductive Page where
  | zero
  | header (m : IndexMetaInfo)
  | leaf (n : LeafNodeInt)
  | nonLeaf (n : NonLeafNodeInt)
  deriving DecidableEq, Repr

/-- The exceptions that the index raises, and `InvalidPage` for the error of
the file layer on a page id that the file does not hold. -/
inductive Exn where
  | BadOpcodes
  | BadScanrange
  | NoSuchKeyFound
  | ScanNotInitialized
  | IndexScanCompleted
  | BadIndexInfo
  | InvalidPage
  deriving DecidableEq, Repr

/-- How a call ends: it returns, it throws, it runs into behaviour the C++
standard leaves undefined (an access outside an array, a cast to the wrong
node kind), or the fuel of the embedding runs out. -/
inductive Outcome (α : Type) where
  | returned (a : α)
  | threw (e : Exn)
  | undefined
  | outOfFuel
  deriving DecidableEq, Repr

/-- The all-zero leaf that a zeroed page is read as. -/
def LeafNodeInt.zeroed (L : Nat) : LeafNodeInt :=
  { keyArray := List.replicate L 0
    ridArray := List.replicate L { page_number := 0, slot_number := 0 }
    rightSibPageNo := 0
    size := 0 }

/-- The all-zero internal node that a zeroed page is read as. -/
def NonLeafNodeInt.zeroed (M : Nat) : NonLeafNodeInt :=
  { level := 0
    keyArray := List.replicate M 0
    pageNoArray := List.replicate (M + 1) 0
    size := 0 }

/-- The cast `(LeafNodeInt*) page`. -/
def Page.asLeaf (L : Nat) : Page → Option LeafNodeInt
  | .zero => some (LeafNodeInt.zeroed L)
  | .leaf n => some n
  | _ => none

/-- The cast `(NonLeafNodeInt*) page`. -/
def Page.asNonLeaf (M : Nat) : Page → Option NonLeafNodeInt
  | .zero => some (NonLeafNodeInt.zeroed M)
  | .nonLeaf n => some n
  | _ => none

/-- The cast `(IndexMetaInfo*) page`. -/
def Page.asHeader : Page → Option IndexMetaInfo
  | .zero => some { relationName := [], attrByteOffset := 0, attrType := .INTEGER, rootPageNo := 0 }
  | .header m => some m
  | _ => none

/-! ## Buffer manager and index file -/

/-- Modelled from the spec: the buffer manager together with the pages of the
index file (`readPage`, `allocPage`, `unPinPage` of section 6).  Page `p >= 1`
is `pages[p - 1]`, its pin count is `pinCnt[p - 1]`, and `unPinLog` records
every `unPinPage(file, p, dirty)` in call order.  The pool is unbounded and
nothing is evicted. -/
structure BufMgr where
  pages : List Page
  pinCnt : List Nat
  unPinLog : List (PageId × Bool)
  deriving DecidableEq, Repr

/-- The empty index file. -/
def BufMgr.empty : BufMgr := { pages := [], pinCnt := [], unPinLog := [] }

/-- Contents of page `p`, if the file holds it. -/
def BufMgr.page (bm : BufMgr) (p : PageId) : Option Page :=
  if p = INVALID_NUMBER then none else bm.pages[p - 1]?

/-- Write through a pointer to the pinned page `p`. -/
def BufMgr.setPage (bm : BufMgr) (p : PageId) (pg : Page) : BufMgr :=
  if p = INVALID_NUMBER then bm else { bm with pages := bm.pages.set (p - 1) pg }

/-- Modelled from the spec: `readPage(file, pid)` pins the page; a page id the
file does not hold (`INVALID_NUMBER` included) is an error of the file layer. -/
def BufMgr.readPage (bm : BufMgr) (p : PageId) : Option BufMgr :=
  match bm.page p with
  | none => none
  | some _ => some { bm with pinCnt := bm.pinCnt.set (p - 1) (bm.pinCnt.getD (p - 1) 0 + 1) }

/-- Modelled from the spec: `allocPage(file)` appends a page to the file and
returns its id with the page pinned. -/
def BufMgr.allocPage (bm : BufMgr) : PageId × BufMgr :=
  (bm.pages.length + 1, { bm with pages := bm.pages ++ [Page.zero], pinCnt := bm.pinCnt ++ [1] })

/-- Modelled from the spec: `unPinPage(file, pid, dirty)` releases one pin.
The call is logged; a page without a pin keeps the count `0`. -/
def BufMgr.unPinPage (bm : BufMgr) (p : PageId) (dirty : Bool) : BufMgr :=
  { bm with
    pinCnt := if p = INVALID_NUMBER then bm.pinCnt
              else bm.pinCnt.set (p - 1) (bm.pinCnt.getD (p - 1) 0 - 1)
    unPinLog := bm.unPinLog ++ [(p, dirty)] }

/-- Dereference of a `LeafNodeInt*` that points at page `p`. -/
def BufMgr.leafAt (L : Nat) (bm : BufMgr) (p : PageId) : Option LeafNodeInt :=
  (bm.page p).bind (Page.asLeaf L)

/-- Dereference of a `NonLeafNodeInt*` that points at page `p`. -/
def BufMgr.nonLeafAt (M : Nat) (bm : BufMgr) (p : PageId) : Option NonLeafNodeInt :=
  (bm.page p).bind (Page.asNonLeaf M)

/-- Dereference of an `IndexMetaInfo*` that points at page `p`. -/
def BufMgr.headerAt (bm : BufMgr) (p : PageId) : Option IndexMetaInfo :=
  (bm.page p).bind Page.asHeader

/-- The members of `BTreeIndex` that `btree.cpp` reads or writes, with the
buffer manager and the index file it works on.  `currentPageData` is the
id of the page the pointer of that name points at. -/
structure BTreeIndex where
  bufMgr : BufMgr
  headerPageNum : PageId
  rootPageNum : PageId
  rootIsLeaf : Bool
  attrByteOffset : Int
  attributeType : Datatype
  scanExecuting : Bool
  nextEntry : Nat
  currentPageNum : PageId
  currentPageData : PageId
  lowValInt : Int
  highValInt : Int
  lowOp : Operator
  highOp : Operator
  deriving DecidableEq, Repr

/-! ## Node operations (`insertLeafNode`, `insertNonLeafNode`) -/

/-- The library call `memmove(&arr[dst], &arr[src], count * sizeof(arr[0]))`
inside one array. -/
def memmove {α : Type} (arr : List α) (dst src count : Nat) : List α :=
  arr.take dst ++ (arr.drop src).take count ++ arr.drop (dst + count)

/-- `BTreeIndex::insertLeafNode` (btree.cpp 134-148).  With `index >= L` the
element count of the `memmove` is negative and the write to `keyArray[index]`
is outside the array: `none`. -/
def insertLeafNode (L : Nat) (key : Int) (rid : RecordId) (node : LeafNodeInt)
    (index : Nat) : Option LeafNodeInt :=
  if index < L then
    some { node with
      keyArray := (memmove node.keyArray (index + 1) index (L - index - 1)).set index key
      ridArray := (memmove node.ridArray (index + 1) index (L - index - 1)).set index rid
      size := node.size + 1 }
  else none

/-- `BTreeIndex::insertNonLeafNode` (btree.cpp 158-172).  With `index >= M`
the element count of the `memmove` is negative: `none`. -/
def insertNonLeafNode (M : Nat) (key : Int) (childPageId : PageId) (node : NonLeafNodeInt)
    (index : Nat) : Option NonLeafNodeInt :=
  if index < M then
    some { node with
      keyArray := (memmove node.keyArray (index + 1) index (M - index - 1)).set index key
      pageNoArray :=
        (memmove node.pageNoArray (index + 2) (index + 1) (M - index - 1)).set (index + 1) childPageId
      size := node.size + 1 }
  else none

/-! ## Insertion (`insertEntryHelper`, `insertEntry`) -/

/-- The search loop `for (i = 0; i < size; i++) if (keyArray[i] > key) { index = i; break; }`
with `index` initialised to `size` (btree.cpp 200-206, 269-275, 292-298):
`findIndexFrom keyArray key size n i` runs the loop from `i` for at most `n`
iterations. -/
def findIndexFrom (keyArray : List Int) (key : Int) (size : Nat) : Nat → Nat → Nat
  | 0, _ => size
  | n + 1, i => if keyArray.getD i 0 > key then i else findIndexFrom keyArray key size n (i + 1)

/-- Index of the first of the `size` keys that is greater than `key`, else `size`. -/
def findIndex (keyArray : List Int) (key : Int) (size : Nat) : Nat :=
  findIndexFrom keyArray key size size 0

/-- The copy loop of the leaf split (btree.cpp 231-236), over the indices `is`. -/
def splitLeafLoop (mid : Nat) : LeafNodeInt → LeafNodeInt → List Nat → LeafNodeInt × LeafNodeInt
  | cur, new, [] => (cur, new)
  | cur, new, i :: is =>
    let new1 := { new with
      keyArray := new.keyArray.set (i - mid) (cur.keyArray.getD i 0)
      ridArray := new.ridArray.set (i - mid) (cur.ridArray.getD i default) }
    let cur1 := { cur with
      keyArray := cur.keyArray.set i 0
      ridArray := cur.ridArray.set i { cur.ridArray.getD i default with page_number := INVALID_NUMBER } }
    splitLeafLoop mid cur1 new1 is

/-- The copy loop of the internal split, case 1 (btree.cpp 322-327). -/
def splitNonLeafLoop1 (mid : Nat) :
    NonLeafNodeInt → NonLeafNodeInt → List Nat → NonLeafNodeInt × NonLeafNodeInt
  | cur, new, [] => (cur, new)
  | cur, new, i :: is =>
    let new1 := { new with
      keyArray := new.keyArray.set (i - mid) (cur.keyArray.getD i 0)
      pageNoArray := new.pageNoArray.set (i - mid + 1) (cur.pageNoArray.getD (i + 1) 0) }
    let cur1 := { cur with
      keyArray := cur.keyArray.set i 0
      pageNoArray := cur.pageNoArray.set (i + 1) INVALID_NUMBER }
    splitNonLeafLoop1 mid cur1 new1 is

/-- The copy loop of the internal split, case 2 (btree.cpp 347-352). -/
def splitNonLeafLoop2 (mid : Nat) :
    NonLeafNodeInt → NonLeafNodeInt → List Nat → NonLeafNodeInt × NonLeafNodeInt
  | cur, new, [] => (cur, new)
  | cur, new, i :: is =>
    let new1 := { new with
      keyArray := new.keyArray.set (i - mid - 1) (cur.keyArray.getD i 0)
      pageNoArray := new.pageNoArray.set (i - mid - 1) (cur.pageNoArray.getD i 0) }
    let cur1 := { cur with
      keyArray := cur.keyArray.set i 0
      pageNoArray := cur.pageNoArray.set i INVALID_NUMBER }
    splitNonLeafLoop2 mid cur1 new1 is

/-- The leaf case of `insertEntryHelper` once the page is pinned (btree.cpp 197-262). -/
def insertIntoLeaf (L : Nat) (bm : BufMgr) (key : Int) (rid : RecordId) (currPageId : PageId) :
    BufMgr × Outcome (Int × PageId) :=
  match bm.leafAt L currPageId with
  | none => (bm, .undefined)
  | some currLeafNode =>
    let index := findIndex currLeafNode.keyArray key currLeafNode.size
    if (currLeafNode.ridArray.getD (L - 1) default).page_number = INVALID_NUMBER then
      match insertLeafNode L key rid currLeafNode index with
      | none => (bm, .undefined)
      | some n => ((bm.setPage currPageId (.leaf n)).unPinPage currPageId true, .returned (0, 0))
    else
      let (newPageId, bm1) := bm.allocPage
      let bm2 := bm1.setPage newPageId .zero
      let mid := if L % 2 = 1 ∧ index > L / 2 then L / 2 + 1 else L / 2
      let (cur1, new1) :=
        splitLeafLoop mid currLeafNode (LeafNodeInt.zeroed L) (List.range' mid (L - mid))
      let new2 := { new1 with size := L - mid }
      let cur2 := { cur1 with size := mid }
      let inserted : Option (LeafNodeInt × LeafNodeInt) :=
        if index > L / 2 then (insertLeafNode L key rid new2 (index - mid)).map (fun n => (cur2, n))
        else (insertLeafNode L key rid cur2 index).map (fun n => (n, new2))
      match inserted with
      | none => (bm2, .undefined)
      | some (cur3, new3) =>
        let new4 := { new3 with rightSibPageNo := cur3.rightSibPageNo }
        let cur4 := { cur3 with rightSibPageNo := newPageId }
        let bm3 := (bm2.setPage currPageId (.leaf cur4)).setPage newPageId (.leaf new4)
        ((bm3.unPinPage currPageId true).unPinPage newPageId true,
          .returned (new4.keyArray.getD 0 0, newPageId))

/-- The internal case of `insertEntryHelper` after the child has split and
returned `(newChildMiddleKey, newChildId)` (btree.cpp 290-376). -/
def insertIntoNonLeaf (M : Nat) (bm : BufMgr) (currPageId : PageId)
    (newChildMiddleKey : Int) (newChildId : PageId) : BufMgr × Outcome (Int × PageId) :=
  match bm.nonLeafAt M currPageId with
  | none => (bm, .undefined)
  | some currNonLeafNode =>
    let index := findIndex currNonLeafNode.keyArray newChildMiddleKey currNonLeafNode.size
    if currNonLeafNode.pageNoArray.getD M 0 = INVALID_NUMBER then
      match insertNonLeafNode M newChildMiddleKey newChildId currNonLeafNode index with
      | none => (bm, .undefined)
      | some n => ((bm.setPage currPageId (.nonLeaf n)).unPinPage currPageId true, .returned (0, 0))
    else
      let (newPageId, bm1) := bm.allocPage
      let bm2 := bm1.setPage newPageId .zero
      let new0 := { NonLeafNodeInt.zeroed M with level := currNonLeafNode.level }
      if index = M / 2 then
        let mid := M / 2
        let (cur1, new1) := splitNonLeafLoop1 mid currNonLeafNode new0 (List.range' mid (M - mid))
        let new2 := { new1 with pageNoArray := new1.pageNoArray.set 0 newChildId, size := M - mid }
        let cur2 := { cur1 with size := mid }
        let bm3 := (bm2.setPage currPageId (.nonLeaf cur2)).setPage newPageId (.nonLeaf new2)
        ((bm3.unPinPage currPageId true).unPinPage newPageId true,
          .returned (newChildMiddleKey, newPageId))
      else
        let mid := if M % 2 = 0 ∧ index < M / 2 then M / 2 - 1 else M / 2
        let (cur1, new1) :=
          splitNonLeafLoop2 mid currNonLeafNode new0 (List.range' (mid + 1) (M - (mid + 1)))
        let middleValue := cur1.keyArray.getD mid 0
        let cur2 := { cur1 with keyArray := cur1.keyArray.set mid 0, size := mid }
        let new2 := { new1 with size := M - mid - 1 }
        let inserted : Option (NonLeafNodeInt × NonLeafNodeInt) :=
          if index < M / 2 then
            (insertNonLeafNode M newChildMiddleKey newChildId cur2 index).map (fun n => (n, new2))
          else
            (insertNonLeafNode M newChildMiddleKey newChildId new2 (index - mid)).map
              (fun n => (cur2, n))
        match inserted with
        | none => (bm2, .undefined)
        | some (cur3, new3) =>
          let bm3 := (bm2.setPage currPageId (.nonLeaf cur3)).setPage newPageId (.nonLeaf new3)
          ((bm3.unPinPage currPageId true).unPinPage newPageId true,
            .returned (middleValue, newPageId))

/-- `BTreeIndex::insertEntryHelper` (btree.cpp 184-379).  The result pair is
`(*middleValueFromChild, *newlyCreatedPageId)`.  An exception of the
recursive call leaves the function at once, the current page still pinned. -/
def insertEntryHelper (L M : Nat) :
    Nat → BufMgr → Int → RecordId → PageId → Bool → BufMgr × Outcome (Int × PageId)
  | 0, bm, _, _, _, _ => (bm, .outOfFuel)
  | fuel + 1, bm, key, rid, currPageId, isLeafBool =>
    match bm.readPage currPageId with
    | none => (bm, .threw .InvalidPage)
    | some bm1 =>
      if isLeafBool then insertIntoLeaf L bm1 key rid currPageId
      else
        match bm1.nonLeafAt M currPageId with
        | none => (bm1, .undefined)
        | some currNonLeafNode =>
          let childIndex := findIndex currNonLeafNode.keyArray key currNonLeafNode.size
          let currChildId := currNonLeafNode.pageNoArray.getD childIndex 0
          match insertEntryHelper L M fuel bm1 key rid currChildId
              (decide (currNonLeafNode.level = 1)) with
          | (bm2, .returned (newChildMiddleKey, newChildId)) =>
            if newChildId = 0 then (bm2.unPinPage currPageId false, .returned (0, 0))
            else insertIntoNonLeaf M bm2 currPageId newChildMiddleKey newChildId
          | (bm2, o) => (bm2, o)

/-- `BTreeIndex::insertEntry` (btree.cpp 385-424). -/
def insertEntry (L M fuel : Nat) (s : BTreeIndex) (key : Int) (rid : RecordId) :
    BTreeIndex × Outcome Unit :=
  match insertEntryHelper L M fuel s.bufMgr key rid s.rootPageNum s.rootIsLeaf with
  | (bm, .returned (middleValueFromChild, newlyCreatedPageId)) =>
    if newlyCreatedPageId ≠ 0 then
      let (newPageId, bm1) := bm.allocPage
      let newRoot : NonLeafNodeInt :=
        { NonLeafNodeInt.zeroed M with
          keyArray := (List.replicate M 0).set 0 middleValueFromChild
          pageNoArray := ((List.replicate (M + 1) 0).set 0 s.rootPageNum).set 1 newlyCreatedPageId
          size := 1
          level := if s.rootIsLeaf then 1 else 0 }
      let bm2 := bm1.setPage newPageId (.nonLeaf newRoot)
      match bm2.readPage s.headerPageNum with
      | none =>
        ({ s with bufMgr := bm2, rootIsLeaf := false }, .threw .InvalidPage)
      | some bm3 =>
        match bm3.headerAt s.headerPageNum with
        | none => ({ s with bufMgr := bm3, rootIsLeaf := false }, .undefined)
        | some metadata =>
          let bm4 := bm3.setPage s.headerPageNum (.header { metadata with rootPageNo := newPageId })
          ({ s with
              bufMgr := (bm4.unPinPage newPageId true).unPinPage s.headerPageNum true
              rootIsLeaf := false
              rootPageNum := newPageId }, .returned ())
    else ({ s with bufMgr := bm }, .returned ())
  | (bm, .threw e) => ({ s with bufMgr := bm }, .threw e)
  | (bm, .undefined) => ({ s with bufMgr := bm }, .undefined)
  | (bm, .outOfFuel) => ({ s with bufMgr := bm }, .outOfFuel)

/-! ## Range scan (`startScan`, `scanNext`, `endScan`) -/

/-- The test `(highOp == LT && key >= highValInt) || (highOp == LTE && key > highValInt)`
(btree.cpp 505 and 555). -/
def exceedsHigh (highOp : Operator) (highValInt key : Int) : Bool :=
  (highOp == .LT && decide (key ≥ highValInt)) || (highOp == .LTE && decide (key > highValInt))

/-- The test `(lowOp == GT && key > lowValInt) || (lowOp == GTE && key >= lowValInt)`
(btree.cpp 511). -/
def satisfiesLow (lowOp : Operator) (lowValInt key : Int) : Bool :=
  (lowOp == .GT && decide (key > lowValInt)) || (lowOp == .GTE && decide (key ≥ lowValInt))

/-- The loop `while (index < INTARRAYNONLEAFSIZE && inner->keyArray[index] < lowValInt) index++`
of the descent (btree.cpp 465-468): `descendIndexFrom keyArray lowValInt n index`
runs it from `index` with `n = INTARRAYNONLEAFSIZE - index`. -/
def descendIndexFrom (keyArray : List Int) (lowValInt : Int) : Nat → Nat → Nat
  | 0, index => index
  | n + 1, index =>
    if keyArray.getD index 0 < lowValInt then descendIndexFrom keyArray lowValInt n (index + 1)
    else index

/-- The descent `while (true)` of `startScan` (btree.cpp 460-478).  The source
unpins the node before it reads the node's fields; the contents of the page
are the same at both points. -/
def startScanDescend (M : Nat) : Nat → BTreeIndex → BTreeIndex × Outcome Unit
  | 0, s => (s, .outOfFuel)
  | fuel + 1, s =>
    match s.bufMgr.nonLeafAt M s.currentPageData with
    | none => (s, .undefined)
    | some inner =>
      let s1 := { s with bufMgr := s.bufMgr.unPinPage s.currentPageNum false }
      let index := descendIndexFrom inner.keyArray s1.lowValInt M 0
      let s2 := { s1 with currentPageNum := inner.pageNoArray.getD index 0 }
      match s2.bufMgr.readPage s2.currentPageNum with
      | none => (s2, .threw .InvalidPage)
      | some bm =>
        let s3 := { s2 with bufMgr := bm, currentPageData := s2.currentPageNum }
        if inner.level = 1 then (s3, .returned ()) else startScanDescend M fuel s3

/-- Result of the inner loop of the leaf search of `startScan`. -/
inductive LeafSearch where
  | found (index : Nat)
  | exceeded
  | notFound
  deriving DecidableEq, Repr

/-- The inner loop `while (index < INTARRAYLEAFSIZE)` of `startScan`
(btree.cpp 495-520) for the bounds `lowOp lowValInt highOp highValInt` of
the handle: `leafSearchFrom ... leaf n index` runs it from `index` with
`n = INTARRAYLEAFSIZE - index`. -/
def leafSearchFrom (lowOp : Operator) (lowValInt : Int) (highOp : Operator) (highValInt : Int)
    (leaf : LeafNodeInt) : Nat → Nat → LeafSearch
  | 0, _ => .notFound
  | n + 1, index =>
    let key := leaf.keyArray.getD index 0
    let record := leaf.ridArray.getD index default
    if record.page_number = INVALID_NUMBER then .notFound
    else if exceedsHigh highOp highValInt key then .exceeded
    else if satisfiesLow lowOp lowValInt key then .found index
    else leafSearchFrom lowOp lowValInt highOp highValInt leaf n (index + 1)

/-- The loop `while (!found)` of `startScan` (btree.cpp 483-536).  Line 534,
`currentPageNum = leaf->rightSibPageNo`, is commented out in the source, so
line 535 reads the page `currentPageNum` again. -/
def startScanLeaves (L : Nat) : Nat → BTreeIndex → BTreeIndex × Outcome Unit
  | 0, s => (s, .outOfFuel)
  | fuel + 1, s =>
    match s.bufMgr.leafAt L s.currentPageData with
    | none => (s, .undefined)
    | some leaf =>
      match leafSearchFrom s.lowOp s.lowValInt s.highOp s.highValInt leaf L 0 with
      | .exceeded =>
        ({ s with bufMgr := s.bufMgr.unPinPage s.currentPageNum false }, .threw .NoSuchKeyFound)
      | .found index => ({ s with nextEntry := index }, .returned ())
      | .notFound =>
        let s1 := { s with bufMgr := s.bufMgr.unPinPage s.currentPageNum false }
        if leaf.rightSibPageNo = INVALID_NUMBER then (s1, .threw .NoSuchKeyFound)
        else
          match s1.bufMgr.readPage s1.currentPageNum with
          | none => (s1, .threw .InvalidPage)
          | some bm =>
            startScanLeaves L fuel { s1 with bufMgr := bm, currentPageData := s1.currentPageNum }

/-- `BTreeIndex::startScan` (btree.cpp 430-537); the two value parameters are
the integers behind the `void*` arguments. -/
def startScan (L M fuel : Nat) (s : BTreeIndex) (lowValParm : Int) (lowOpParm : Operator)
    (highValParm : Int) (highOpParm : Operator) : BTreeIndex × Outcome Unit :=
  let s0 := { s with currentPageNum := INVALID_NUMBER }
  if lowOpParm ≠ .GT ∧ lowOpParm ≠ .GTE then (s0, .threw .BadOpcodes)
  else if highOpParm ≠ .LT ∧ highOpParm ≠ .LTE then (s0, .threw .BadOpcodes)
  else
    let s1 := { s0 with
      scanExecuting := true
      lowValInt := lowValParm
      highValInt := highValParm
      lowOp := lowOpParm
      highOp := highOpParm }
    if s1.lowValInt > s1.highValInt then (s1, .threw .BadScanrange)
    else
      let s2 := { s1 with currentPageNum := s1.rootPageNum }
      match s2.bufMgr.readPage s2.currentPageNum with
      | none => (s2, .threw .InvalidPage)
      | some bm =>
        let s3 := { s2 with bufMgr := bm, currentPageData := s2.currentPageNum }
        if s3.rootIsLeaf then startScanLeaves L fuel s3
        else
          match startScanDescend M fuel s3 with
          | (s4, .returned ()) => startScanLeaves L fuel s4
          | (s4, o) => (s4, o)

/-- `BTreeIndex::scanNext` (btree.cpp 543-577).  The second component is the
value of the reference parameter `outRid` after the call: line 552 assigns
it before any of the checks.  Reading slot `nextEntry` at line 551 with
`nextEntry >= INTARRAYLEAFSIZE` is outside the arrays.  At line 566 the
source reads `ridArray[nextEntry]` before it tests `nextEntry >=
INTARRAYLEAFSIZE`; when the index is outside the array the second operand
holds, so the condition is true whatever was read. -/
def scanNext (L : Nat) (s : BTreeIndex) (outRid : RecordId) :
    BTreeIndex × RecordId × Outcome Unit :=
  if !s.scanExecuting then (s, outRid, .threw .ScanNotInitialized)
  else
    match s.bufMgr.leafAt L s.currentPageData with
    | none => (s, outRid, .undefined)
    | some leaf =>
      match leaf.keyArray[s.nextEntry]?, leaf.ridArray[s.nextEntry]? with
      | some key, some rid =>
        if exceedsHigh s.highOp s.highValInt key then (s, rid, .threw .IndexScanCompleted)
        else if rid.page_number = INVALID_NUMBER then (s, rid, .threw .IndexScanCompleted)
        else
          let s1 := { s with nextEntry := s.nextEntry + 1 }
          if (leaf.ridArray.getD s1.nextEntry default).page_number = INVALID_NUMBER
              ∨ s1.nextEntry ≥ L then
            let s2 := { s1 with bufMgr := s1.bufMgr.unPinPage s1.currentPageNum false }
            if leaf.rightSibPageNo = INVALID_NUMBER then (s2, rid, .threw .IndexScanCompleted)
            else
              let s3 := { s2 with currentPageNum := leaf.rightSibPageNo }
              match s3.bufMgr.readPage s3.currentPageNum with
              | none => (s3, rid, .threw .InvalidPage)
              | some bm =>
                ({ s3 with bufMgr := bm, currentPageData := s3.currentPageNum, nextEntry := 0 },
                  rid, .returned ())
          else (s1, rid, .returned ())
      | _, _ => (s, outRid, .undefined)

/-- `BTreeIndex::endScan` (btree.cpp 583-595). -/
def endScan (s : BTreeIndex) : BTreeIndex × Outcome Unit :=
  if !s.scanExecuting then (s, .threw .ScanNotInitialized)
  else
    let s1 := { s with scanExecuting := false }
    if s1.currentPageNum ≠ INVALID_NUMBER then
      ({ s1 with bufMgr := s1.bufMgr.unPinPage s1.currentPageNum false }, .returned ())
    else (s1, .returned ())

/-! ## Constructor -/

/-- The bulk load of the constructor (btree.cpp 94-105): one `insertEntry` per
record of the relation, given as the key at `attrByteOffset` and the record id. -/
def bulkLoad (L M fuel : Nat) : BTreeIndex → List (Int × RecordId) → BTreeIndex × Outcome Unit
  | s, [] => (s, .returned ())
  | s, (key, rid) :: rest =>
    match insertEntry L M fuel s key rid with
    | (s1, .returned ()) => bulkLoad L M fuel s1 rest
    | (s1, o) => (s1, o)

/-- `BTreeIndex::BTreeIndex` (btree.cpp 29-108).  `uninit` holds the values
of the members before the constructor runs: the constructor assigns only
some of them.  `existing` is the index file `relationName.attrByteOffset`
when it exists (the `try` branch), with its first page at id `1`;
`relation` is what the heap-file scanner yields. -/
def BTreeIndex.construct (L M fuel : Nat) (uninit : BTreeIndex) (existing : Option BufMgr)
    (relationName : List Char) (relation : List (Int × RecordId))
    (attrByteOffset : Int) (attrType : Datatype) : BTreeIndex × Outcome Unit :=
  let s0 := { uninit with
    attrByteOffset := attrByteOffset
    attributeType := attrType
    scanExecuting := false }
  match existing with
  | some file =>
    let s1 := { s0 with bufMgr := file, headerPageNum := 1 }
    match s1.bufMgr.readPage s1.headerPageNum with
    | none => (s1, .threw .InvalidPage)
    | some bm =>
      match bm.headerAt s1.headerPageNum with
      | none => ({ s1 with bufMgr := bm }, .undefined)
      | some metadata =>
        ({ s1 with
            bufMgr := bm.unPinPage s1.headerPageNum false
            rootPageNum := metadata.rootPageNo }, .returned ())
  | none =>
    let (headerPageNum, bm1) := BufMgr.empty.allocPage
    let (rootPageNum, bm2) := bm1.allocPage
    let metadata : IndexMetaInfo :=
      { relationName := relationName.take 20
        attrByteOffset := attrByteOffset
        attrType := attrType
        rootPageNo := rootPageNum }
    let bm3 := (bm2.setPage headerPageNum (.header metadata)).setPage rootPageNum
      (.leaf { LeafNodeInt.zeroed L with size := 0 })
    let s1 := { s0 with
      bufMgr := (bm3.unPinPage headerPageNum true).unPinPage rootPageNum true
      headerPageNum := headerPageNum
      rootPageNum := rootPageNum
      rootIsLeaf := true }
    bulkLoad L M fuel s1 relation

/-- Member values of an object on which no constructor has run yet, all zero. -/
def BTreeIndex.blank : BTreeIndex :=
  { bufMgr := BufMgr.empty
    headerPageNum := 0
    rootPageNum := 0
    rootIsLeaf := false
    attrByteOffset := 0
    attributeType := .INTEGER
    scanExecuting := false
    nextEntry := 0
    currentPageNum := 0
    currentPageData := 0
    lowValInt := 0
    highValInt := 0
    lowOp := .LT
    highOp := .LT }

/-! ## The scan driver of the tests (`intScan`, main.cpp 402-460) -/

/-- The loop `while (1) { try { scanNext ... } catch (IndexScanCompleted) { break; } numResults++; }`
of `intScan`.  The reads of the relation file between `scanNext` and
`numResults++` do not touch the index. -/
def intScanLoop (L : Nat) : Nat → BTreeIndex → RecordId → Nat → BTreeIndex × Outcome Nat
  | 0, s, _, _ => (s, .outOfFuel)
  | fuel + 1, s, scanRid, numResults =>
    match scanNext L s scanRid with
    | (s1, scanRid1, .returned ()) => intScanLoop L fuel s1 scanRid1 (numResults + 1)
    | (s1, _, .threw .IndexScanCompleted) => (s1, .returned numResults)
    | (s1, _, .threw e) => (s1, .threw e)
    | (s1, _, .undefined) => (s1, .undefined)
    | (s1, _, .outOfFuel) => (s1, .outOfFuel)

/-- The function `intScan` of main.cpp: the number of `scanNext` calls that
return between `startScan` and `IndexScanCompleted`, `0` when `startScan`
raises `NoSuchKeyFound`. -/
def intScan (L M fuel : Nat) (s : BTreeIndex) (lowVal : Int) (lowOp : Operator)
    (highVal : Int) (highOp : Operator) : BTreeIndex × Outcome Nat :=
  match startScan L M fuel s lowVal lowOp highVal highOp with
  | (s1, .threw .NoSuchKeyFound) => (s1, .returned 0)
  | (s1, .threw e) => (s1, .threw e)
  | (s1, .undefined) => (s1, .undefined)
  | (s1, .outOfFuel) => (s1, .outOfFuel)
  | (s1, .returned ()) =>
    match intScanLoop L fuel s1 { page_number := 0, slot_number := 0 } 0 with
    | (s2, .returned numResults) =>
      match endScan s2 with
      | (s3, .returned ()) => (s3, .returned numResults)
      | (s3, .threw e) => (s3, .threw e)
      | (s3, .undefined) => (s3, .undefined)
      | (s3, .outOfFuel) => (s3, .outOfFuel)
    | (s2, o) => (s2, o)

/-! ## Inputs of the evaluated scenarios -/

/-- The operator tags `startScan` accepts: `lowOp` in `{GT, GTE}` and `highOp` in `{LT, LTE}`. -/
abbrev validOps (lo ho : Operator) : Prop := (lo = .GT ∨ lo = .GTE) ∧ (ho = .LT ∨ ho = .LTE)

/-- Record id of the record with key `key` in the relations used below. -/
def testRid (key : Int) : RecordId := { page_number := 1, slot_number := key.toNat }

/-- The index that the constructor builds in a new file over a relation
whose records have the keys `keys`, in this order. -/
def buildIndex (L M : Nat) (keys : List Int) : BTreeIndex × Outcome Unit :=
  BTreeIndex.construct L M 8 BTreeIndex.blank none ['r', 'e', 'l', 'A']
    (keys.map fun k => (k, testRid k)) 0 .INTEGER

/-! ## Node invariants of section 3 of the specification -/

/-- The keys of the occupied slots of a leaf, `keyArray[0..size)`. -/
def LeafNodeInt.keys (n : LeafNodeInt) : List Int := n.keyArray.take n.size

/-- The rids of the occupied slots of a leaf, `ridArray[0..size)`. -/
def LeafNodeInt.rids (n : LeafNodeInt) : List RecordId := n.ridArray.take n.size

/-- The leaf invariant: both arrays have the physical length `L`,
`size <= L`, the keys of the occupied slots are non-decreasing, the slots
`[0, size)` hold rids with `page_number != INVALID` and the slots
`[size, L)` hold `page_number == INVALID`. -/
structure LeafInv (L : Nat) (n : LeafNodeInt) : Prop where
  keyLen : n.keyArray.length = L
  ridLen : n.ridArray.length = L
  sizeLe : n.size ≤ L
  sorted : n.keys.Pairwise (· ≤ ·)
  occupied : ∀ r, r ∈ n.rids → r.page_number ≠ INVALID_NUMBER
  free : ∀ j, n.size ≤ j → j < L → (n.ridArray.getD j default).page_number = INVALID_NUMBER

/-- The split of a full leaf with the insertion of the new pair (btree.cpp
226-249), as `insertIntoLeaf` performs it: the current leaf and the new
right leaf before the sibling pointers are set. -/
def splitLeaf (L : Nat) (key : Int) (rid : RecordId) (currLeafNode : LeafNodeInt) (index : Nat) :
    Option (LeafNodeInt × LeafNodeInt) :=
  let mid := if L % 2 = 1 ∧ index > L / 2 then L / 2 + 1 else L / 2
  let (cur1, new1) :=
    splitLeafLoop mid currLeafNode (LeafNodeInt.zeroed L) (List.range' mid (L - mid))
  let new2 := { new1 with size := L - mid }
  let cur2 := { cur1 with size := mid }
  if index > L / 2 then (insertLeafNode L key rid new2 (index - mid)).map (fun n => (cur2, n))
  else (insertLeafNode L key rid cur2 index).map (fun n => (n, new2))

/-- Every leaf page of the index file satisfies the leaf invariant. -/
def AllLeavesInv (L : Nat) (bm : BufMgr) : Prop :=
  ∀ n, Page.leaf n ∈ bm.pages → LeafInv L n

/-- A sequence of `insertEntry` calls, one per pair of the list; a call that
ends in an exception does not stop the sequence. -/
def insertEntries (L M fuel : Nat) : BTreeIndex → List (Int × RecordId) → BTreeIndex
  | s, [] => s
  | s, (key, rid) :: rest => insertEntries L M fuel (insertEntry L M fuel s key rid).1 rest

/-- The split of a full internal node with the placement of the child's
separator (btree.cpp 315-370), as `insertIntoNonLeaf` performs it: the
current node, the new right node and the key passed to the parent. -/
def splitNonLeaf (M : Nat) (newChildMiddleKey : Int) (newChildId : PageId)
    (currNonLeafNode : NonLeafNodeInt) (index : Nat) :
    Option (NonLeafNodeInt × NonLeafNodeInt × Int) :=
  let new0 := { NonLeafNodeInt.zeroed M with level := currNonLeafNode.level }
  if index = M / 2 then
    let mid := M / 2
    let (cur1, new1) := splitNonLeafLoop1 mid currNonLeafNode new0 (List.range' mid (M - mid))
    let new2 := { new1 with pageNoArray := new1.pageNoArray.set 0 newChildId, size := M - mid }
    let cur2 := { cur1 with size := mid }
    some (cur2, new2, newChildMiddleKey)
  else
    let mid := if M % 2 = 0 ∧ index < M / 2 then M / 2 - 1 else M / 2
    let (cur1, new1) :=
      splitNonLeafLoop2 mid currNonLeafNode new0 (List.range' (mid + 1) (M - (mid + 1)))
    let middleValue := cur1.keyArray.getD mid 0
    let cur2 := { cur1 with keyArray := cur1.keyArray.set mid 0, size := mid }
    let new2 := { new1 with size := M - mid - 1 }
    if index < M / 2 then
      (insertNonLeafNode M newChildMiddleKey newChildId cur2 index).map
        (fun n => (n, new2, middleValue))
    else
      (insertNonLeafNode M newChildMiddleKey newChildId new2 (index - mid)).map
        (fun n => (cur2, n, middleValue))

/-- Children of every internal node have a smaller rank than the node: the
pages of the file form a forest under the child pointers. -/
def ChildrenBelow (M : Nat) (bm : BufMgr) (rank : PageId → Nat) : Prop :=
  ∀ p n, bm.nonLeafAt M p = some n → ∀ i, i ≤ n.size → rank (n.pageNoArray.getD i 0) < rank p

/-- The effect of an insertion on pins, unpin log and pages: pin counts are
as before (new pages have count `0`), no page is unpinned twice and the
header page is not unpinned, a page whose contents changed was unpinned
dirty, a page unpinned clean is an unchanged internal node, and every
unpinned page is new or of rank below `r`. -/
def InsertEffect (M : Nat) (rank : PageId → Nat) (bm bm' : BufMgr) (r : Nat) : Prop :=
  bm.pages.length ≤ bm'.pages.length ∧
  bm'.pinCnt = bm.pinCnt ++ List.replicate (bm'.pages.length - bm.pages.length) 0 ∧
  ∃ suffix, bm'.unPinLog = bm.unPinLog ++ suffix ∧
    (suffix.map Prod.fst).Nodup ∧
    (∀ q d, (q, d) ∈ suffix → ∀ m, bm.page q ≠ some (.header m)) ∧
    (∀ q, bm'.page q ≠ bm.page q → (q, true) ∈ suffix) ∧
    (∀ q, (q, false) ∈ suffix → bm'.page q = bm.page q ∧ ∃ n, bm.nonLeafAt M q = some n) ∧
    (∀ q d, (q, d) ∈ suffix → q ≠ INVALID_NUMBER ∧ q ≤ bm'.pages.length ∧
      (bm.pages.length < q ∨ rank q < r))

/-! ## Tree-level properties of section 8 of the specification -/

/-- The keys stored in the leaves that are reachable from page `p` through
the children `pageNoArray[0..size]` of internal nodes; `isLeaf` tells whether
`p` is a leaf, as `level` does for the children of a node. -/
def subtreeKeys (L M : Nat) (bm : BufMgr) : Nat → PageId → Bool → List Int
  | 0, _, _ => []
  | fuel + 1, p, isLeaf =>
    if isLeaf then
      match bm.leafAt L p with
      | some n => n.keys
      | none => []
    else
      match bm.nonLeafAt M p with
      | some n =>
        ((n.pageNoArray.take (n.size + 1)).map
          (fun c => subtreeKeys L M bm fuel c (decide (n.level = 1)))).foldr (· ++ ·) []
      | none => []

/-- Routing correctness of one internal node: for every `i < size`, the keys
reachable from child `i` are `< keyArray[i]` and the keys reachable from
child `i + 1` are `>= keyArray[i]`. -/
def routingHolds (L M : Nat) (bm : BufMgr) (fuel : Nat) (n : NonLeafNodeInt) : Prop :=
  ∀ i, i < n.size →
    (∀ k, k ∈ subtreeKeys L M bm fuel (n.pageNoArray.getD i 0) (decide (n.level = 1)) →
      k < n.keyArray.getD i 0) ∧
    (∀ k, k ∈ subtreeKeys L M bm fuel (n.pageNoArray.getD (i + 1) 0) (decide (n.level = 1)) →
      n.keyArray.getD i 0 ≤ k)

/-- The leaves of the tree below page `p`, from left to right. -/
def treeLeaves (M : Nat) (bm : BufMgr) : Nat → PageId → Bool → List PageId
  | 0, _, _ => []
  | fuel + 1, p, isLeaf =>
    if isLeaf then [p]
    else
      match bm.nonLeafAt M p with
      | some n =>
        ((n.pageNoArray.take (n.size + 1)).map
          (fun c => treeLeaves M bm fuel c (decide (n.level = 1)))).foldr (· ++ ·) []
      | none => []

/-- The leftmost leaf below page `p`: child `0` all the way down. -/
def leftmostLeaf (M : Nat) (bm : BufMgr) : Nat → PageId → Bool → PageId
  | 0, p, _ => p
  | fuel + 1, p, isLeaf =>
    if isLeaf then p
    else
      match bm.nonLeafAt M p with
      | some n => leftmostLeaf M bm fuel (n.pageNoArray.getD 0 0) (decide (n.level = 1))
      | none => p

/-- The pages visited by following `rightSibPageNo` from leaf `p` until the
pointer is `INVALID`; `none` when the walk meets a page that is not a leaf or
does not end within `fuel` steps. -/
def leafChain (L : Nat) (bm : BufMgr) : Nat → PageId → Option (List PageId)
  | 0, _ => none
  | fuel + 1, p =>
    if p = INVALID_NUMBER then some []
    else
      match bm.leafAt L p with
      | none => none
      | some n => (leafChain L bm fuel n.rightSibPageNo).map (fun ps => p :: ps)

/-- Every key of the leaf at position `i` of the list of pages is `<=` every
key of the leaf at position `i + 1`. -/
def chainOrdered (L : Nat) (bm : BufMgr) (chain : List PageId) : Prop :=
  ∀ i, i + 1 < chain.length → ∀ n m, bm.leafAt L (chain.getD i 0) = some n →
    bm.leafAt L (chain.getD (i + 1) 0) = some m → ∀ a, a ∈ n.keys → ∀ b, b ∈ m.keys → a ≤ b

/-- What the two-level proof records of a leaf: the leaf invariant, strictly
increasing keys, and every stored key among the inserted keys `ks`. -/
structure LeafOK (L : Nat) (ks : List Int) (n : LeafNodeInt) : Prop where
  inv : LeafInv L n
  strict : n.keys.Pairwise (· < ·)
  sub : ∀ k, k ∈ n.keys → k ∈ ks

/-- The index while its root is a leaf: the file holds the header page and
the root leaf. -/
structure LeafRootInv (L : Nat) (ks : List Int) (s : BTreeIndex) : Prop where
  isLeaf : s.rootIsLeaf = true
  len : s.bufMgr.pages.length = 2
  hdr : ∃ m, s.bufMgr.page s.headerPageNum = some (.header m)
  root : ∃ n, s.bufMgr.page s.rootPageNum = some (.leaf n) ∧ LeafOK L ks n ∧
    n.rightSibPageNo = INVALID_NUMBER

/-- The index while its root `r` is the only internal node: `r` has level 1,
its children `pageNoArray[0..size]` are distinct leaves, each within the
bounds of the neighbouring separator keys and linked to the next child, and
the child slots after `size` are `INVALID`. -/
structure NodeRootInv (L M : Nat) (ks : List Int) (s : BTreeIndex) (r : NonLeafNodeInt) :
    Prop where
  notLeaf : s.rootIsLeaf = false
  hdr : ∃ m, s.bufMgr.page s.headerPageNum = some (.header m)
  root : s.bufMgr.page s.rootPageNum = some (.nonLeaf r)
  onlyRoot : ∀ p n, s.bufMgr.page p = some (.nonLeaf n) → p = s.rootPageNum
  level : r.level = 1
  keyLen : r.keyArray.length = M
  pageLen : r.pageNoArray.length = M + 1
  sizePos : 1 ≤ r.size
  sizeLe : r.size ≤ M
  len : s.bufMgr.pages.length = r.size + 3
  keysSorted : ∀ a b, a ≤ b → b < r.size → r.keyArray.getD a 0 ≤ r.keyArray.getD b 0
  trailing : ∀ j, r.size < j → j ≤ M → r.pageNoArray.getD j 0 = INVALID_NUMBER
  child : ∀ i, i ≤ r.size → ∃ n,
    s.bufMgr.page (r.pageNoArray.getD i 0) = some (.leaf n) ∧ LeafOK L ks n ∧
    (∀ k, k ∈ n.keys → i < r.size → k < r.keyArray.getD i 0) ∧
    (∀ k, k ∈ n.keys → 0 < i → r.keyArray.getD (i - 1) 0 ≤ k) ∧
    n.rightSibPageNo = (if i < r.size then r.pageNoArray.getD (i + 1) 0 else INVALID_NUMBER)
  inj : ∀ i j, i ≤ r.size → j ≤ r.size →
    r.pageNoArray.getD i 0 = r.pageNoArray.getD j 0 → i = j

/-- The invariant of an index in which no internal node has split. -/
def TreeInv (L M : Nat) (ks : List Int) (s : BTreeIndex) : Prop :=
  LeafRootInv L ks s ∨ ∃ r, NodeRootInv L M ks s r

/-! ## Frame of the scan functions -/

/-- What a scan function may do to the buffer manager: the pages of the file
are the same, and the unpin log grows by calls with `dirty = false`. -/
def BufFrame (bm bm1 : BufMgr) : Prop :=
  bm1.pages = bm.pages ∧
  ∃ suffix, bm1.unPinLog = bm.unPinLog ++ suffix ∧ ∀ e, e ∈ suffix → e.2 = false

/-- What a scan function may do to the handle: every member besides the scan
fields is the same, and the buffer manager is within `BufFrame`. -/
def ScanFrame (s s1 : BTreeIndex) : Prop :=
  s1.headerPageNum = s.headerPageNum ∧ s1.rootPageNum = s.rootPageNum ∧
  s1.rootIsLeaf = s.rootIsLeaf ∧ s1.attrByteOffset = s.attrByteOffset ∧
  s1.attributeType = s.attributeType ∧ BufFrame s.bufMgr s1.bufMgr
/-! ## Array reads of `scanNext` -/

/-- A read of slot `index` of `keyArray` or of `ridArray` of the leaf under
the cursor. -/
inductive LeafRead where
  | key (index : Nat)
  | rid (index : Nat)
  deriving DecidableEq, Repr

/-- The slots of the leaf under the cursor that `BTreeIndex::scanNext` reads
(btree.cpp 543-577), in the order of the reads: `keyArray[nextEntry]` and
`ridArray[nextEntry]` at lines 550-551, and, when neither of the two checks
raises `IndexScanCompleted`, `ridArray[nextEntry]` with the incremented
`nextEntry` at line 566, where it is the first operand of `||` and so is
read before `nextEntry >= INTARRAYLEAFSIZE` is tested. -/
def scanNextReads (L : Nat) (s : BTreeIndex) : List LeafRead :=
  if !s.scanExecuting then []
  else
    [.key s.nextEntry, .rid s.nextEntry] ++
    match s.bufMgr.leafAt L s.currentPageData with
    | none => []
    | some leaf =>
      match leaf.keyArray[s.nextEntry]?, leaf.ridArray[s.nextEntry]? with
      | some key, some rid =>
        if exceedsHigh s.highOp s.highValInt key then []
        else if rid.page_number = INVALID_NUMBER then []
        else [.rid (s.nextEntry + 1)]
      | _, _ => []

/-! ## Well-formed index files (C30) -/

/-- Shape of a leaf on which the leaf case of `insertEntryHelper` stays inside
the arrays: both arrays have the physical length `L`, `size <= L`, and the
sentinel test `ridArray[L-1].page_number == INVALID` holds only on a leaf
that is not full. -/
def LeafShape (L : Nat) (n : LeafNodeInt) : Prop :=
  n.keyArray.length = L ∧ n.ridArray.length = L ∧ n.size ≤ L ∧
  ((n.ridArray.getD (L - 1) default).page_number = INVALID_NUMBER → n.size < L)

/-- Shape of an internal node on which the internal case of
`insertEntryHelper` stays inside the arrays: the arrays have the physical
lengths `M` and `M + 1`, `size <= M`, and the sentinel test
`pageNoArray[M] == INVALID` holds only on a node that is not full. -/
def NodeShape (M : Nat) (n : NonLeafNodeInt) : Prop :=
  n.keyArray.length = M ∧ n.pageNoArray.length = M + 1 ∧ n.size ≤ M ∧
  (n.pageNoArray.getD M 0 = INVALID_NUMBER → n.size < M)

/-- A well-formed index file: no page is left zeroed, every leaf page and
every internal page has the shape above, the children `pageNoArray[0..size]`
of a node of level 1 are leaf pages and those of any other node are internal
pages, and every child has a smaller rank than its parent (no page is its own
descendant). -/
def FileWellFormed (L M : Nat) (bm : BufMgr) (rank : PageId → Nat) : Prop :=
  (∀ p, bm.page p ≠ some .zero) ∧
  (∀ p leaf, bm.page p = some (.leaf leaf) → LeafShape L leaf) ∧
  (∀ p n, bm.page p = some (.nonLeaf n) → NodeShape M n ∧
    ∀ i, i ≤ n.size →
      rank (n.pageNoArray.getD i 0) < rank p ∧
      (if n.level = 1 then ∃ leaf, bm.page (n.pageNoArray.getD i 0) = some (.leaf leaf)
       else ∃ m, bm.page (n.pageNoArray.getD i 0) = some (.nonLeaf m)))

/-- The internal nodes that `insertEntryHelper` visits, from the current page
down, each with the outcome of the test `*newlyCreatedPageId == 0` of
btree.cpp 282 in its frame: `true` when the recursive call on the child has
handed back a new page (the child has split), `false` when it has not. -/
def internalFrames (L M : Nat) :
    Nat → BufMgr → Int → RecordId → PageId → Bool → List (PageId × Bool)
  | 0, _, _, _, _, _ => []
  | fuel + 1, bm, key, rid, currPageId, isLeafBool =>
    if isLeafBool then []
    else
      match bm.readPage currPageId with
      | none => []
      | some bm1 =>
        match bm1.nonLeafAt M currPageId with
        | none => []
        | some currNonLeafNode =>
          let childIndex := findIndex currNonLeafNode.keyArray key currNonLeafNode.size
          let currChildId := currNonLeafNode.pageNoArray.getD childIndex 0
          let childSplit :=
            match insertEntryHelper L M fuel bm1 key rid currChildId
                (decide (currNonLeafNode.level = 1)) with
            | (_, .returned (_, newChildId)) => decide (newChildId ≠ 0)
            | _ => false
          (currPageId, childSplit) ::
            internalFrames L M fuel bm1 key rid currChildId (decide (currNonLeafNode.level = 1))

/-! # Theorems -/

/-! ## Facts about the buffer manager -/

theorem BufMgr.page_of_pages_eq {bm bm1 : BufMgr} (h : bm1.pages = bm.pages) (p : PageId) :
    bm1.page p = bm.page p := by
  simp [BufMgr.page, h]

theorem BufMgr.leafAt_of_pages_eq {bm bm1 : BufMgr} (h : bm1.pages = bm.pages) (L : Nat)
    (p : PageId) : bm1.leafAt L p = bm.leafAt L p := by
  simp [BufMgr.leafAt, BufMgr.page_of_pages_eq h]

theorem BufMgr.unPinPage_pages (bm : BufMgr) (p : PageId) (d : Bool) :
    (bm.unPinPage p d).pages = bm.pages := rfl

theorem BufMgr.readPage_pages {bm bm1 : BufMgr} {p : PageId} (h : bm.readPage p = some bm1) :
    bm1.pages = bm.pages := by
  unfold BufMgr.readPage at h
  split at h
  · cases h
  · cases h; rfl

theorem BufMgr.readPage_isSome_of_leafAt {bm : BufMgr} {L : Nat} {p : PageId} {leaf : LeafNodeInt}
    (h : bm.leafAt L p = some leaf) : ∃ bm1, bm.readPage p = some bm1 := by
  unfold BufMgr.leafAt at h
  unfold BufMgr.readPage
  cases hp : bm.page p with
  | none => simp [hp] at h
  | some pg => exact ⟨_, rfl⟩

/-- When the leaf under the cursor holds no entry that ends the search and
has a right sibling, the loop of `startScan` reads the same leaf again and
again: it uses up any amount of fuel. -/
theorem startScanLeaves_stuck (L : Nat) (leaf : LeafNodeInt) :
    ∀ (fuel : Nat) (s : BTreeIndex),
      s.currentPageData = s.currentPageNum →
      s.bufMgr.leafAt L s.currentPageNum = some leaf →
      leafSearchFrom s.lowOp s.lowValInt s.highOp s.highValInt leaf L 0 = .notFound →
      leaf.rightSibPageNo ≠ INVALID_NUMBER →
      (startScanLeaves L fuel s).2 = .outOfFuel := by
  intro fuel
  induction fuel with
  | zero => intro s _ _ _ _; rfl
  | succ n ih =>
    intro s hptr hleaf hsearch hsib
    have hleaf1 : (s.bufMgr.unPinPage s.currentPageNum false).leafAt L s.currentPageNum
        = some leaf := by
      rw [BufMgr.leafAt_of_pages_eq (BufMgr.unPinPage_pages _ _ _)]; exact hleaf
    obtain ⟨bm1, hread⟩ := BufMgr.readPage_isSome_of_leafAt hleaf1
    have hpages : bm1.pages = s.bufMgr.pages := by
      rw [BufMgr.readPage_pages hread, BufMgr.unPinPage_pages]
    unfold startScanLeaves
    simp only [hptr, hleaf, hsearch, hsib, if_false, hread]
    apply ih
    · rfl
    · simpa [BufMgr.leafAt_of_pages_eq hpages] using hleaf
    · exact hsearch
    · exact hsib

theorem BufMgr.nonLeafAt_of_pages_eq {bm bm1 : BufMgr} (h : bm1.pages = bm.pages) (M : Nat)
    (p : PageId) : bm1.nonLeafAt M p = bm.nonLeafAt M p := by
  simp [BufMgr.nonLeafAt, BufMgr.page_of_pages_eq h]

theorem BufMgr.readPage_isSome_of_nonLeafAt {bm : BufMgr} {M : Nat} {p : PageId}
    {inner : NonLeafNodeInt} (h : bm.nonLeafAt M p = some inner) :
    ∃ bm1, bm.readPage p = some bm1 := by
  unfold BufMgr.nonLeafAt at h
  unfold BufMgr.readPage
  cases hp : bm.page p with
  | none => simp [hp] at h
  | some pg => exact ⟨_, rfl⟩

/-- A scan whose descent from a level-1 root reaches a leaf that holds no
entry ending the search, while the leaf has a right sibling, never returns. -/
theorem startScan_stuck (L M : Nat) (s : BTreeIndex) (lv hv : Int) (lo ho : Operator)
    (inner : NonLeafNodeInt) (leaf : LeafNodeInt)
    (hlo : lo = .GT ∨ lo = .GTE) (hho : ho = .LT ∨ ho = .LTE) (hrange : lv ≤ hv)
    (hroot : s.rootIsLeaf = false)
    (hinner : s.bufMgr.nonLeafAt M s.rootPageNum = some inner)
    (hlevel : inner.level = 1)
    (hleaf : s.bufMgr.leafAt L
      (inner.pageNoArray.getD (descendIndexFrom inner.keyArray lv M 0) 0) = some leaf)
    (hsearch : leafSearchFrom lo lv ho hv leaf L 0 = .notFound)
    (hsib : leaf.rightSibPageNo ≠ INVALID_NUMBER) (fuel : Nat) :
    (startScan L M fuel s lv lo hv ho).2 = .outOfFuel := by
  obtain ⟨bm1, hread1⟩ := BufMgr.readPage_isSome_of_nonLeafAt hinner
  have hpages1 : bm1.pages = s.bufMgr.pages := BufMgr.readPage_pages hread1
  have hlo1 : ¬ (lo ≠ .GT ∧ lo ≠ .GTE) := by rcases hlo with h | h <;> simp [h]
  have hho1 : ¬ (ho ≠ .LT ∧ ho ≠ .LTE) := by rcases hho with h | h <;> simp [h]
  unfold startScan
  simp only [hlo1, hho1, if_false, not_lt.mpr hrange, hread1, hroot]
  cases fuel with
  | zero => rfl
  | succ n =>
    have hinner1 : bm1.nonLeafAt M s.rootPageNum = some inner := by
      rw [BufMgr.nonLeafAt_of_pages_eq hpages1]; exact hinner
    have hleaf1 : (bm1.unPinPage s.rootPageNum false).leafAt L
        (inner.pageNoArray.getD (descendIndexFrom inner.keyArray lv M 0) 0) = some leaf := by
      have hp : (bm1.unPinPage s.rootPageNum false).pages = s.bufMgr.pages := by
        rw [BufMgr.unPinPage_pages, hpages1]
      rw [BufMgr.leafAt_of_pages_eq hp]; exact hleaf
    obtain ⟨bm2, hread2⟩ := BufMgr.readPage_isSome_of_leafAt hleaf1
    have hpages2 : bm2.pages = s.bufMgr.pages := by
      rw [BufMgr.readPage_pages hread2, BufMgr.unPinPage_pages, hpages1]
    unfold startScanDescend
    simp only [hinner1, hread2, hlevel, if_true]
    apply startScanLeaves_stuck L leaf
    · rfl
    · simpa [BufMgr.leafAt_of_pages_eq hpages2] using hleaf
    · exact hsearch
    · exact hsib

/-! ## Which exceptions `startScan` can raise -/

theorem startScanLeaves_threw (L : Nat) :
    ∀ (fuel : Nat) (s : BTreeIndex) (e : Exn),
      (startScanLeaves L fuel s).2 = .threw e → e = .NoSuchKeyFound ∨ e = .InvalidPage := by
  intro fuel
  induction fuel with
  | zero => intro s e h; simp [startScanLeaves] at h
  | succ n ih =>
    intro s e h
    unfold startScanLeaves at h
    split at h
    · simp at h
    · split at h
      · simp at h; exact Or.inl h.symm
      · simp at h
      · simp only at h
        split at h
        · simp at h; exact Or.inl h.symm
        · split at h
          · simp at h; exact Or.inr h.symm
          · exact ih _ _ h

theorem startScanDescend_threw (M : Nat) :
    ∀ (fuel : Nat) (s : BTreeIndex) (e : Exn),
      (startScanDescend M fuel s).2 = .threw e → e = .InvalidPage := by
  intro fuel
  induction fuel with
  | zero => intro s e h; simp [startScanDescend] at h
  | succ n ih =>
    intro s e h
    unfold startScanDescend at h
    split at h
    · simp at h
    · simp only at h
      split at h
      · simp at h; exact h.symm
      · split at h
        · simp at h
        · exact ih _ _ h

theorem startScan_threw (L M fuel : Nat) (s : BTreeIndex) (lv hv : Int) (lo ho : Operator)
    (e : Exn) (h : (startScan L M fuel s lv lo hv ho).2 = .threw e) :
    (e = .BadOpcodes ∧ ¬ validOps lo ho) ∨
    (e = .BadScanrange ∧ validOps lo ho ∧ lv > hv) ∨
    ((e = .NoSuchKeyFound ∨ e = .InvalidPage) ∧ validOps lo ho ∧ lv ≤ hv) := by
  unfold startScan at h
  simp only at h
  split at h
  · rename_i hlo
    simp at h
    refine Or.inl ⟨h.symm, ?_⟩
    rintro ⟨h1 | h1, _⟩ <;> simp [h1] at hlo
  · rename_i hlo
    split at h
    · rename_i hho
      simp at h
      refine Or.inl ⟨h.symm, ?_⟩
      rintro ⟨_, h1 | h1⟩ <;> simp [h1] at hho
    · rename_i hho
      have hv1 : validOps lo ho := by
        constructor
        · cases lo <;> simp at hlo ⊢
        · cases ho <;> simp at hho ⊢
      split at h
      · rename_i hr
        simp at h
        exact Or.inr (Or.inl ⟨h.symm, hv1, hr⟩)
      · rename_i hr
        refine Or.inr (Or.inr ⟨?_, hv1, not_lt.mp hr⟩)
        split at h
        · simp at h; exact Or.inr h.symm
        · split at h
          · exact startScanLeaves_threw _ _ _ _ h
          · split at h
            · exact startScanLeaves_threw _ _ _ _ h
            · rename_i s4 o hne heq
              simp only at h
              have := startScanDescend_threw M fuel _ e (by rw [heq]; exact h)
              exact Or.inr this

theorem insertEntry_scanExecuting (L M fuel : Nat) (s : BTreeIndex) (key : Int) (rid : RecordId) :
    (insertEntry L M fuel s key rid).1.scanExecuting = s.scanExecuting := by
  unfold insertEntry
  split
  · split
    · simp only
      split
      · rfl
      · split <;> rfl
    · rfl
  all_goals rfl

theorem bulkLoad_scanExecuting (L M fuel : Nat) :
    ∀ (relation : List (Int × RecordId)) (s : BTreeIndex),
      (bulkLoad L M fuel s relation).1.scanExecuting = s.scanExecuting := by
  intro relation
  induction relation with
  | nil => intro s; rfl
  | cons r rest ih =>
    intro s
    obtain ⟨key, rid⟩ := r
    unfold bulkLoad
    have h := insertEntry_scanExecuting L M fuel s key rid
    split
    · rename_i s1 heq
      rw [ih]; rw [heq] at h; exact h
    · rename_i s1 o hne heq
      rw [heq] at h; exact h

theorem construct_scanExecuting (L M fuel : Nat) (uninit : BTreeIndex) (existing : Option BufMgr)
    (relationName : List Char) (relation : List (Int × RecordId)) (attrByteOffset : Int)
    (attrType : Datatype) :
    (BTreeIndex.construct L M fuel uninit existing relationName relation attrByteOffset
      attrType).1.scanExecuting = false := by
  unfold BTreeIndex.construct
  cases existing with
  | some file =>
    simp only
    split
    · rfl
    · split <;> rfl
  | none =>
    simp only
    rw [bulkLoad_scanExecuting]

theorem leafSearchFrom_zeroed (lo : Operator) (lv : Int) (ho : Operator) (hv : Int) (L n : Nat) :
    leafSearchFrom lo lv ho hv (LeafNodeInt.zeroed L) n 0 = .notFound := by
  cases n with
  | zero => rfl
  | succ n =>
    cases L with
    | zero => rfl
    | succ L => rfl

theorem intScan_of_NoSuchKeyFound (L M fuel : Nat) (s : BTreeIndex) (lv : Int) (lo : Operator)
    (hv : Int) (ho : Operator)
    (h : (startScan L M fuel s lv lo hv ho).2 = .threw .NoSuchKeyFound) :
    (intScan L M fuel s lv lo hv ho).2 = .returned 0 := by
  unfold intScan
  generalize startScan L M fuel s lv lo hv ho = r at h
  obtain ⟨s1, o⟩ := r
  simp only at h
  subst h
  rfl

/-- The entry under the cursor is the last one of the leaf chain (no entry
after it in the leaf, no right sibling) and lies within the high bound:
`scanNext` assigns its rid to `outRid` and raises `IndexScanCompleted`. -/
theorem scanNext_last_entry_of_chain (L : Nat) (s : BTreeIndex) (outRid : RecordId)
    (leaf : LeafNodeInt) (key : Int) (rid : RecordId)
    (hscan : s.scanExecuting = true)
    (hleaf : s.bufMgr.leafAt L s.currentPageData = some leaf)
    (hkey : leaf.keyArray[s.nextEntry]? = some key)
    (hrid : leaf.ridArray[s.nextEntry]? = some rid)
    (hhigh : exceedsHigh s.highOp s.highValInt key = false)
    (hvalid : rid.page_number ≠ INVALID_NUMBER)
    (hlast : (leaf.ridArray.getD (s.nextEntry + 1) default).page_number = INVALID_NUMBER
      ∨ s.nextEntry + 1 ≥ L)
    (hsib : leaf.rightSibPageNo = INVALID_NUMBER) :
    (scanNext L s outRid).2 = (rid, .threw .IndexScanCompleted) := by
  unfold scanNext
  simp only [hscan, hleaf, hkey, hrid, hhigh, hvalid, hlast, hsib, Bool.not_true,
    Bool.false_eq_true, if_false, if_true]

/-! ## Insert-then-scan (C1 - C4) -/

/-- C1, evaluated with `L = M = 4` on the index that holds the single key `5`:
`startScan(5, GTE, 5, LTE)` succeeds, but the first `scanNext` assigns the
rid of key `5` to `outRid` and then raises `IndexScanCompleted`, because the
advance step finds no further entry and no right sibling; `intScan` counts
`0` rids where the claim says `N = 1`. -/
theorem c1_single_key_scan_counts_zero :
    (buildIndex 4 4 [5]).2 = .returned () ∧
    (startScan 4 4 8 (buildIndex 4 4 [5]).1 5 .GTE 5 .LTE).2 = .returned () ∧
    (scanNext 4 (startScan 4 4 8 (buildIndex 4 4 [5]).1 5 .GTE 5 .LTE).1 ⟨0, 0⟩).2
      = (testRid 5, .threw .IndexScanCompleted) ∧
    (intScan 4 4 8 (buildIndex 4 4 [5]).1 5 .GTE 5 .LTE).2 = .returned 0 := by
  decide

/-- C2, evaluated with `L = M = 4` on the index that holds the keys `10, 20, 30`:
the range `[20, 30]` with `GTE/LTE` holds two stored keys and `intScan`
counts `1`; the range `[30, 30]` holds the stored key `30` and `intScan`
counts `0`; the range `[10, 20]`, which ends before the last entry, counts `2`. -/
theorem c2_scan_count_misses_last_entry :
    (buildIndex 4 4 [10, 20, 30]).2 = .returned () ∧
    (intScan 4 4 8 (buildIndex 4 4 [10, 20, 30]).1 20 .GTE 30 .LTE).2 = .returned 1 ∧
    (intScan 4 4 8 (buildIndex 4 4 [10, 20, 30]).1 30 .GTE 30 .LTE).2 = .returned 0 ∧
    (intScan 4 4 8 (buildIndex 4 4 [10, 20, 30]).1 10 .GTE 20 .LTE).2 = .returned 2 := by
  decide

/-- C3, evaluated with `L = M = 4` on the keys `0..4` inserted forward and
backward: the two indexes hold the same pairs, the scan `[2, 4)` with
`GTE/LT` returns two rids on the backward index, and on the forward index
(whose root separator is `2`) `startScan` never returns, whatever the fuel. -/
theorem c3_forward_and_backward_scans_differ :
    (buildIndex 4 4 [0, 1, 2, 3, 4]).2 = .returned () ∧
    (buildIndex 4 4 [4, 3, 2, 1, 0]).2 = .returned () ∧
    (intScan 4 4 8 (buildIndex 4 4 [4, 3, 2, 1, 0]).1 2 .GTE 4 .LT).2 = .returned 2 ∧
    (∀ fuel, (startScan 4 4 fuel (buildIndex 4 4 [0, 1, 2, 3, 4]).1 2 .GTE 4 .LT).2
      = .outOfFuel) := by
  refine ⟨by decide, by decide, by decide, fun fuel => ?_⟩
  exact startScan_stuck 4 4 _ 2 4 .GTE .LT
    { level := 1, keyArray := [2, 0, 0, 0], pageNoArray := [2, 3, 0, 0, 0], size := 1 }
    { keyArray := [0, 1, 0, 0]
      ridArray := [testRid 0, testRid 1, ⟨0, 2⟩, ⟨0, 3⟩]
      rightSibPageNo := 3
      size := 2 }
    (by decide) (by decide) (by decide) (by decide) (by decide) (by decide) (by decide)
    (by decide) (by decide) fuel

/-- C4, evaluated with `L = M = 4` on the keys `20, 40, 60, 80, 100` inserted
in this order (leaves `[20, 40]` and `[60, 80, 100]`, root separator `60`):
no stored key lies in the empty range `(60, 60)`, yet `startScan(60, GT, 60, LT)`
does not raise `NoSuchKeyFound`: it never returns, whatever the fuel.  On
the same index `startScan(20, GT, 20, LT)` does raise `NoSuchKeyFound`. -/
theorem c4_empty_range_at_separator_never_returns :
    (buildIndex 4 4 [20, 40, 60, 80, 100]).2 = .returned () ∧
    (startScan 4 4 8 (buildIndex 4 4 [20, 40, 60, 80, 100]).1 20 .GT 20 .LT).2
      = .threw .NoSuchKeyFound ∧
    (∀ fuel, (startScan 4 4 fuel (buildIndex 4 4 [20, 40, 60, 80, 100]).1 60 .GT 60 .LT).2
      = .outOfFuel) := by
  refine ⟨by decide, by decide, fun fuel => ?_⟩
  exact startScan_stuck 4 4 _ 60 60 .GT .LT
    { level := 1, keyArray := [60, 0, 0, 0], pageNoArray := [2, 3, 0, 0, 0], size := 1 }
    { keyArray := [20, 40, 0, 0]
      ridArray := [testRid 20, testRid 40, ⟨0, 60⟩, ⟨0, 80⟩]
      rightSibPageNo := 3
      size := 2 }
    (by decide) (by decide) (by decide) (by decide) (by decide) (by decide) (by decide)
    (by decide) (by decide) fuel

/-! ## Error handling of the scan (C5 - C9) -/

/-- C5: on the index that the constructor creates over an empty relation the
root is a leaf with `size = 0`, every rid slot `INVALID` and no right
sibling; for all capacities, every range with valid opcodes and
`lowVal <= highVal` makes `startScan` raise `NoSuchKeyFound`, and `intScan`
counts zero results. -/
theorem c5_empty_index_scan_raises_NoSuchKeyFound (L M fuel fuel1 : Nat) (uninit : BTreeIndex)
    (relationName : List Char) (attrByteOffset : Int) (attrType : Datatype)
    (lv hv : Int) (lo ho : Operator) (hops : validOps lo ho) (hrange : lv ≤ hv) :
    (BTreeIndex.construct L M fuel uninit none relationName [] attrByteOffset attrType).2
      = .returned () ∧
    (BTreeIndex.construct L M fuel uninit none relationName [] attrByteOffset attrType).1.rootIsLeaf
      = true ∧
    (BTreeIndex.construct L M fuel uninit none relationName [] attrByteOffset
      attrType).1.bufMgr.leafAt L
        (BTreeIndex.construct L M fuel uninit none relationName [] attrByteOffset
          attrType).1.rootPageNum = some (LeafNodeInt.zeroed L) ∧
    (startScan L M (fuel1 + 1)
      (BTreeIndex.construct L M fuel uninit none relationName [] attrByteOffset attrType).1
      lv lo hv ho).2 = .threw .NoSuchKeyFound ∧
    (intScan L M (fuel1 + 1)
      (BTreeIndex.construct L M fuel uninit none relationName [] attrByteOffset attrType).1
      lv lo hv ho).2 = .returned 0 := by
  have hlo1 : ¬ (lo ≠ .GT ∧ lo ≠ .GTE) := by rcases hops.1 with h | h <;> simp [h]
  have hho1 : ¬ (ho ≠ .LT ∧ ho ≠ .LTE) := by rcases hops.2 with h | h <;> simp [h]
  have hscan : (startScan L M (fuel1 + 1)
      (BTreeIndex.construct L M fuel uninit none relationName [] attrByteOffset attrType).1
      lv lo hv ho).2 = .threw .NoSuchKeyFound := by
    unfold startScan
    simp only [hlo1, hho1, if_false, not_lt.mpr hrange]
    simp [BTreeIndex.construct, bulkLoad, BufMgr.allocPage, BufMgr.empty, BufMgr.setPage,
      BufMgr.unPinPage, BufMgr.readPage, BufMgr.page, INVALID_NUMBER, startScanLeaves,
      BufMgr.leafAt, Page.asLeaf]
    have hz : leafSearchFrom lo lv ho hv
        { keyArray := (LeafNodeInt.zeroed L).keyArray, ridArray := (LeafNodeInt.zeroed L).ridArray,
          rightSibPageNo := (LeafNodeInt.zeroed L).rightSibPageNo, size := 0 } L 0
        = .notFound := leafSearchFrom_zeroed lo lv ho hv L L
    rw [hz]
    simp [LeafNodeInt.zeroed]
  refine ⟨rfl, rfl, ?_, hscan, ?_⟩
  · simp [BTreeIndex.construct, bulkLoad, BufMgr.allocPage, BufMgr.empty, BufMgr.setPage,
      BufMgr.unPinPage, BufMgr.page, INVALID_NUMBER, BufMgr.leafAt, Page.asLeaf,
      LeafNodeInt.zeroed]
  · exact intScan_of_NoSuchKeyFound _ _ _ _ _ _ _ _ hscan

/-- Witness of C5 at the capacities of an 8 KB page and the range `(25, 40)` of `EmptyIntTests`. -/
theorem c5_witness :
    validOps .GT .LT ∧ (25 : Int) ≤ 40 ∧
    (intScan 682 1023 1 (BTreeIndex.construct 682 1023 8 BTreeIndex.blank none
      ['r', 'e', 'l', 'A'] [] 0 .INTEGER).1 25 .GT 40 .LT).2 = .returned 0 :=
  ⟨by decide, by decide,
    (c5_empty_index_scan_raises_NoSuchKeyFound 682 1023 8 0 BTreeIndex.blank ['r', 'e', 'l', 'A']
      0 .INTEGER 25 40 .GT .LT (by decide) (by decide)).2.2.2.2⟩

/-- C6: for every handle, all capacities and all values of `lowVal` and
`highVal` (also `lowVal > highVal`), `startScan` raises `BadOpcodes` exactly
when `lowOp` is neither `GT` nor `GTE` or `highOp` is neither `LT` nor `LTE`. -/
theorem c6_startScan_BadOpcodes_iff (L M fuel : Nat) (s : BTreeIndex) (lv hv : Int)
    (lo ho : Operator) :
    (startScan L M fuel s lv lo hv ho).2 = .threw .BadOpcodes ↔
      ((lo ≠ .GT ∧ lo ≠ .GTE) ∨ (ho ≠ .LT ∧ ho ≠ .LTE)) := by
  constructor
  · intro h
    rcases startScan_threw L M fuel s lv hv lo ho _ h with ⟨_, hn⟩ | ⟨he, _⟩ | ⟨he, _⟩
    · by_contra hc
      apply hn
      cases lo <;> cases ho <;> simp [validOps] at hc ⊢
    · cases he
    · rcases he with he | he <;> cases he
  · intro h
    unfold startScan
    by_cases hlo : lo ≠ .GT ∧ lo ≠ .GTE
    · rw [if_pos hlo]
    · have hho : ho ≠ .LT ∧ ho ≠ .LTE := by
        rcases h with h | h
        · exact absurd h hlo
        · exact h
      rw [if_neg hlo, if_pos hho]

/-- C7: with `lowOp` in `{GT, GTE}` and `highOp` in `{LT, LTE}`, `startScan`
raises `BadScanrange` exactly when `lowVal > highVal`. -/
theorem c7_startScan_BadScanrange_iff (L M fuel : Nat) (s : BTreeIndex) (lv hv : Int)
    (lo ho : Operator) (hops : validOps lo ho) :
    (startScan L M fuel s lv lo hv ho).2 = .threw .BadScanrange ↔ lv > hv := by
  have hlo1 : ¬ (lo ≠ .GT ∧ lo ≠ .GTE) := by rcases hops.1 with h | h <;> simp [h]
  have hho1 : ¬ (ho ≠ .LT ∧ ho ≠ .LTE) := by rcases hops.2 with h | h <;> simp [h]
  constructor
  · intro h
    rcases startScan_threw L M fuel s lv hv lo ho _ h with ⟨he, _⟩ | ⟨_, _, hr⟩ | ⟨he, _⟩
    · cases he
    · exact hr
    · rcases he with he | he <;> cases he
  · intro h
    unfold startScan
    rw [if_neg hlo1, if_neg hho1]
    simp only [h, if_true]

/-- Witness of C7 at the call `startScan(5, GTE, 2, LTE)` of `errorTests`. -/
theorem c7_witness :
    validOps .GTE .LTE ∧
    ((startScan 4 4 8 (buildIndex 4 4 [0, 1, 2, 3, 4, 5, 6, 7, 8, 9]).1 5 .GTE 2 .LTE).2
      = .threw .BadScanrange ↔ (5 : Int) > 2) :=
  ⟨by decide,
    c7_startScan_BadScanrange_iff 4 4 8 (buildIndex 4 4 [0, 1, 2, 3, 4, 5, 6, 7, 8, 9]).1 5 2
      .GTE .LTE (by decide)⟩

/-- C8, evaluated with `L = M = 4` on the index of `errorTests` (keys `0..9`),
a handle without an active scan: `startScan(5, GTE, 2, LTE)` raises
`BadScanrange` and `startScan(0, GT, 1, LT)` raises `NoSuchKeyFound`, and
both leave `scanExecuting == true`, so a following `endScan` returns
instead of raising `ScanNotInitialized`; only the `BadOpcodes` path leaves
the flag `false`. -/
theorem c8_failed_startScan_leaves_scanExecuting_set :
    (buildIndex 4 4 [0, 1, 2, 3, 4, 5, 6, 7, 8, 9]).2 = .returned () ∧
    (buildIndex 4 4 [0, 1, 2, 3, 4, 5, 6, 7, 8, 9]).1.scanExecuting = false ∧
    (startScan 4 4 8 (buildIndex 4 4 [0, 1, 2, 3, 4, 5, 6, 7, 8, 9]).1 5 .GTE 2 .LTE).2
      = .threw .BadScanrange ∧
    (startScan 4 4 8 (buildIndex 4 4 [0, 1, 2, 3, 4, 5, 6, 7, 8, 9]).1 5 .GTE 2
      .LTE).1.scanExecuting = true ∧
    (endScan (startScan 4 4 8 (buildIndex 4 4 [0, 1, 2, 3, 4, 5, 6, 7, 8, 9]).1 5 .GTE 2
      .LTE).1).2 = .returned () ∧
    (startScan 4 4 8 (buildIndex 4 4 [0, 1, 2, 3, 4, 5, 6, 7, 8, 9]).1 0 .GT 1 .LT).2
      = .threw .NoSuchKeyFound ∧
    (startScan 4 4 8 (buildIndex 4 4 [0, 1, 2, 3, 4, 5, 6, 7, 8, 9]).1 0 .GT 1
      .LT).1.scanExecuting = true ∧
    (endScan (startScan 4 4 8 (buildIndex 4 4 [0, 1, 2, 3, 4, 5, 6, 7, 8, 9]).1 0 .GT 1
      .LT).1).2 = .returned () ∧
    (startScan 4 4 8 (buildIndex 4 4 [0, 1, 2, 3, 4, 5, 6, 7, 8, 9]).1 2 .LTE 5 .LTE).2
      = .threw .BadOpcodes ∧
    (startScan 4 4 8 (buildIndex 4 4 [0, 1, 2, 3, 4, 5, 6, 7, 8, 9]).1 2 .LTE 5
      .LTE).1.scanExecuting = false := by
  decide

/-- C9: on a handle without an active scan, `scanNext` and `endScan` raise
`ScanNotInitialized` and leave the whole handle unchanged, pin counts and
unpin log of the buffer manager included.  No scan is active on a handle
that the constructor has just returned (new or existing index file), nor
after any `endScan`. -/
theorem c9_ScanNotInitialized_without_active_scan (L M fuel : Nat) (s uninit : BTreeIndex)
    (outRid : RecordId) (existing : Option BufMgr) (relationName : List Char)
    (relation : List (Int × RecordId)) (attrByteOffset : Int) (attrType : Datatype) :
    (s.scanExecuting = false →
      scanNext L s outRid = (s, outRid, .threw .ScanNotInitialized) ∧
      endScan s = (s, .threw .ScanNotInitialized)) ∧
    (BTreeIndex.construct L M fuel uninit existing relationName relation attrByteOffset
      attrType).1.scanExecuting = false ∧
    (endScan s).1.scanExecuting = false := by
  refine ⟨fun h => ⟨?_, ?_⟩, construct_scanExecuting _ _ _ _ _ _ _ _ _, ?_⟩
  · simp [scanNext, h]
  · simp [endScan, h]
  · unfold endScan
    by_cases h : s.scanExecuting = true
    · simp only [h, Bool.not_true, Bool.false_eq_true, if_false]
      split <;> rfl
    · simp at h
      simp [h]

/-- Witness of C9 on the handle of `errorTests` before any `startScan`. -/
theorem c9_witness :
    (buildIndex 4 4 [0, 1, 2, 3, 4, 5, 6, 7, 8, 9]).1.scanExecuting = false ∧
    scanNext 4 (buildIndex 4 4 [0, 1, 2, 3, 4, 5, 6, 7, 8, 9]).1 ⟨0, 0⟩
      = ((buildIndex 4 4 [0, 1, 2, 3, 4, 5, 6, 7, 8, 9]).1, ⟨0, 0⟩, .threw .ScanNotInitialized) ∧
    endScan (buildIndex 4 4 [0, 1, 2, 3, 4, 5, 6, 7, 8, 9]).1
      = ((buildIndex 4 4 [0, 1, 2, 3, 4, 5, 6, 7, 8, 9]).1, .threw .ScanNotInitialized) :=
  ⟨by decide,
    (c9_ScanNotInitialized_without_active_scan 4 4 8
      (buildIndex 4 4 [0, 1, 2, 3, 4, 5, 6, 7, 8, 9]).1 BTreeIndex.blank ⟨0, 0⟩ none [] [] 0
      .INTEGER).1 (by decide)⟩

/-! ## Opening an existing index (C10) -/

/-- C10 as stated fails: the index file created with `attrByteOffset = 0` and
`attrType = INTEGER` is opened with `attrByteOffset = 8` and
`attrType = DOUBLE`; the header holds `0` and `INTEGER`, and the constructor
returns instead of raising `BadIndexInfo`. -/
theorem c10_open_with_other_metadata_returns :
    (buildIndex 4 4 [0, 1, 2]).1.bufMgr.headerAt 1
      = some { relationName := ['r', 'e', 'l', 'A'], attrByteOffset := 0, attrType := .INTEGER,
               rootPageNo := 2 } ∧
    (BTreeIndex.construct 4 4 8 BTreeIndex.blank (some (buildIndex 4 4 [0, 1, 2]).1.bufMgr)
      ['r', 'e', 'l', 'A'] [] 8 .DOUBLE).2 = .returned () ∧
    (BTreeIndex.construct 4 4 8 BTreeIndex.blank (some (buildIndex 4 4 [0, 1, 2]).1.bufMgr)
      ['r', 'e', 'l', 'A'] [] 8 .DOUBLE).2 ≠ .threw .BadIndexInfo := by
  decide

/-- C10 amended: opening an index whose file already exists never raises
`BadIndexInfo`.  Whatever `attrByteOffset` and `attrType` are passed, when
the first page of the file is a header page the constructor returns with
`rootPageNum` set to the header's `rootPageNo`, with the arguments stored in
the handle and the pages of the file unchanged; the header's
`attrByteOffset` and `attrType` are not compared with the arguments. -/
theorem c10_open_existing_never_raises_BadIndexInfo (L M fuel : Nat) (uninit : BTreeIndex)
    (file : BufMgr) (relationName : List Char) (relation : List (Int × RecordId))
    (attrByteOffset : Int) (attrType : Datatype) (metadata : IndexMetaInfo)
    (hheader : file.headerAt 1 = some metadata) :
    (BTreeIndex.construct L M fuel uninit (some file) relationName relation attrByteOffset
      attrType).2 = .returned () ∧
    (BTreeIndex.construct L M fuel uninit (some file) relationName relation attrByteOffset
      attrType).1.rootPageNum = metadata.rootPageNo ∧
    (BTreeIndex.construct L M fuel uninit (some file) relationName relation attrByteOffset
      attrType).1.attrByteOffset = attrByteOffset ∧
    (BTreeIndex.construct L M fuel uninit (some file) relationName relation attrByteOffset
      attrType).1.attributeType = attrType ∧
    (BTreeIndex.construct L M fuel uninit (some file) relationName relation attrByteOffset
      attrType).1.bufMgr.pages = file.pages := by
  have hpage : ∃ pg, file.page 1 = some pg := by
    unfold BufMgr.headerAt at hheader
    cases hp : file.page 1 with
    | none => simp [hp] at hheader
    | some pg => exact ⟨pg, rfl⟩
  obtain ⟨pg, hpg⟩ := hpage
  have hread : ∃ bm1, file.readPage 1 = some bm1 := by
    simp [BufMgr.readPage, hpg]
  obtain ⟨bm1, hread⟩ := hread
  have hpages : bm1.pages = file.pages := BufMgr.readPage_pages hread
  have hheader1 : bm1.headerAt 1 = some metadata := by
    rw [← hheader]
    simp [BufMgr.headerAt, BufMgr.page_of_pages_eq hpages]
  unfold BTreeIndex.construct
  simp only [hread, hheader1]
  simp [BufMgr.unPinPage, hpages]

/-- Witness of the amended C10 on the file created over the keys `0, 1, 2`. -/
theorem c10_witness :
    (BTreeIndex.construct 4 4 8 BTreeIndex.blank (some (buildIndex 4 4 [0, 1, 2]).1.bufMgr)
      ['r', 'e', 'l', 'A'] [] 8 .DOUBLE).1.rootPageNum = 2 :=
  (c10_open_existing_never_raises_BadIndexInfo 4 4 8 BTreeIndex.blank
    (buildIndex 4 4 [0, 1, 2]).1.bufMgr ['r', 'e', 'l', 'A'] [] 8 .DOUBLE
    { relationName := ['r', 'e', 'l', 'A'], attrByteOffset := 0, attrType := .INTEGER,
      rootPageNo := 2 } (by decide)).2.1

/-! ## Arrays: `memmove`, shift-insert and the search loop -/

theorem take_succ_set_last {α : Type} (arr : List α) (i : Nat) (x : α) (hi : i < arr.length) :
    (arr.take (i + 1)).set i x = arr.take i ++ [x] := by
  rw [List.take_succ, List.set_append_right _ _ (by simp [List.length_take])]
  simp [List.length_take, Nat.min_eq_left (Nat.le_of_lt hi), List.getElem?_eq_getElem hi]

/-- Shifting the tail of an array of length `n` one slot to the right from
`i` and writing `x` at `i` (the `memmove` followed by the assignment of
`insertLeafNode` and `insertNonLeafNode`) gives the elements before `i`,
then `x`, then the elements from `i` on without the last one. -/
theorem memmove_set_eq {α : Type} (arr : List α) (i : Nat) (x : α) (hi : i < arr.length) :
    (memmove arr (i + 1) i (arr.length - i - 1)).set i x
      = arr.take i ++ x :: (arr.drop i).take (arr.length - i - 1) := by
  unfold memmove
  have h1 : i + 1 + (arr.length - i - 1) = arr.length := by omega
  rw [h1, List.drop_length, List.append_nil]
  rw [List.set_append_left _ _ (by simp; omega), take_succ_set_last arr i x hi]
  simp

theorem shiftInsert_length {α : Type} (arr : List α) (i : Nat) (x : α) (hi : i < arr.length) :
    (arr.take i ++ x :: (arr.drop i).take (arr.length - i - 1)).length = arr.length := by
  simp [List.length_take, List.length_drop]
  omega

theorem shiftInsert_getElem? {α : Type} (arr : List α) (i : Nat) (x : α) (hi : i < arr.length)
    (j : Nat) :
    (arr.take i ++ x :: (arr.drop i).take (arr.length - i - 1))[j]?
      = if j < i then arr[j]? else if j = i then some x
        else if j < arr.length then arr[j - 1]? else none := by
  by_cases h1 : j < i
  · simp [h1, List.getElem?_append_left, List.length_take, Nat.min_eq_left (Nat.le_of_lt hi),
      List.getElem?_take]
  · simp only [h1, if_false]
    rw [List.getElem?_append_right (by simp [List.length_take]; omega)]
    simp only [List.length_take, Nat.min_eq_left (Nat.le_of_lt hi)]
    by_cases h2 : j = i
    · simp [h2]
    · simp only [h2, if_false]
      obtain ⟨k, hk⟩ : ∃ k, j - i = k + 1 := ⟨j - i - 1, by omega⟩
      rw [hk, List.getElem?_cons_succ]
      by_cases h3 : j < arr.length
      · simp only [h3, if_true]
        rw [List.getElem?_take_of_lt (by omega), List.getElem?_drop]
        congr 1; omega
      · simp only [h3, if_false]
        rw [List.getElem?_eq_none]
        simp [List.length_take, List.length_drop]; omega

theorem shiftInsert_getD {α : Type} (arr : List α) (i : Nat) (x d : α) (hi : i < arr.length)
    (j : Nat) :
    (arr.take i ++ x :: (arr.drop i).take (arr.length - i - 1)).getD j d
      = if j < i then arr.getD j d else if j = i then x
        else if j < arr.length then arr.getD (j - 1) d else d := by
  simp only [List.getD_eq_getElem?_getD, shiftInsert_getElem? arr i x hi j]
  split_ifs <;> rfl

theorem findIndexFrom_spec (keyArray : List Int) (key : Int) (size : Nat) :
    ∀ (n i : Nat), i + n = size →
      i ≤ findIndexFrom keyArray key size n i ∧
      findIndexFrom keyArray key size n i ≤ size ∧
      (∀ j, i ≤ j → j < findIndexFrom keyArray key size n i → keyArray.getD j 0 ≤ key) ∧
      (findIndexFrom keyArray key size n i < size →
        keyArray.getD (findIndexFrom keyArray key size n i) 0 > key) := by
  intro n
  induction n with
  | zero =>
    intro i h
    simp only [findIndexFrom]
    refine ⟨by omega, le_refl _, fun j h1 h2 => by omega, fun h1 => absurd h1 (lt_irrefl _)⟩
  | succ n ih =>
    intro i h
    unfold findIndexFrom
    by_cases hgt : keyArray.getD i 0 > key
    · rw [if_pos hgt]
      exact ⟨le_refl _, by omega, fun j h1 h2 => by omega, fun _ => hgt⟩
    · rw [if_neg hgt]
      obtain ⟨h1, h2, h3, h4⟩ := ih (i + 1) (by omega)
      refine ⟨by omega, h2, fun j hj1 hj2 => ?_, h4⟩
      by_cases hji : j = i
      · subst hji; exact not_lt.mp hgt
      · exact h3 j (by omega) hj2

/-- The search loop returns the first of the `size` slots whose key is
greater than `key`, and `size` when there is none. -/
theorem findIndex_spec (keyArray : List Int) (key : Int) (size : Nat) :
    findIndex keyArray key size ≤ size ∧
    (∀ j, j < findIndex keyArray key size → keyArray.getD j 0 ≤ key) ∧
    (findIndex keyArray key size < size →
      keyArray.getD (findIndex keyArray key size) 0 > key) := by
  obtain ⟨_, h2, h3, h4⟩ := findIndexFrom_spec keyArray key size size 0 (by omega)
  exact ⟨h2, fun j hj => h3 j (Nat.zero_le _) hj, h4⟩

theorem insertLeafNode_eq (L : Nat) (key : Int) (rid : RecordId) (node : LeafNodeInt) (i : Nat)
    (hk : node.keyArray.length = L) (hr : node.ridArray.length = L) (hi : i < L) :
    insertLeafNode L key rid node i = some
      { node with
        keyArray := node.keyArray.take i ++ key :: (node.keyArray.drop i).take (L - i - 1)
        ridArray := node.ridArray.take i ++ rid :: (node.ridArray.drop i).take (L - i - 1)
        size := node.size + 1 } := by
  unfold insertLeafNode
  simp only [hi, if_true]
  have h1 := memmove_set_eq node.keyArray i key (by omega)
  have h2 := memmove_set_eq node.ridArray i rid (by omega)
  rw [hk] at h1
  rw [hr] at h2
  rw [h1, h2]

theorem insertNonLeafNode_eq (M : Nat) (key : Int) (childPageId : PageId) (node : NonLeafNodeInt)
    (i : Nat) (hk : node.keyArray.length = M) (hp : node.pageNoArray.length = M + 1)
    (hi : i < M) :
    insertNonLeafNode M key childPageId node i = some
      { node with
        keyArray := node.keyArray.take i ++ key :: (node.keyArray.drop i).take (M - i - 1)
        pageNoArray := node.pageNoArray.take (i + 1)
          ++ childPageId :: (node.pageNoArray.drop (i + 1)).take (M - i - 1)
        size := node.size + 1 } := by
  unfold insertNonLeafNode
  simp only [hi, if_true]
  have h1 := memmove_set_eq node.keyArray i key (by omega)
  have h2 := memmove_set_eq node.pageNoArray (i + 1) childPageId (by omega)
  rw [hk] at h1
  rw [hp] at h2
  have h3 : M + 1 - (i + 1) - 1 = M - i - 1 := by omega
  rw [h3] at h2
  rw [h1, h2]

/-! ## The copy loop of the leaf split -/

theorem set_take_succ {α : Type} (arr : List α) (a : Nat) (x : α) (ha : a < arr.length) :
    (arr.set a x).take (a + 1) = arr.take a ++ [x] := by
  apply List.ext_getElem?
  intro j
  by_cases h1 : j < a
  · rw [List.getElem?_take_of_lt (by omega), List.getElem?_set_ne (by omega),
      List.getElem?_append_left (by simp [List.length_take]; omega),
      List.getElem?_take_of_lt h1]
  · by_cases h2 : j = a
    · subst h2
      rw [List.getElem?_take_of_lt (by omega), List.getElem?_set_self ha,
        List.getElem?_append_right (by simp [List.length_take])]
      simp [List.length_take, Nat.min_eq_left (Nat.le_of_lt ha), List.getElem?_eq_getElem ha]
    · rw [List.getElem?_eq_none (by simp [List.length_take]; omega),
        List.getElem?_eq_none (by simp [List.length_take]; omega)]

theorem set_drop_succ {α : Type} (arr : List α) (a b : Nat) (x : α) (hab : a < b) :
    (arr.set a x).drop b = arr.drop b := by
  apply List.ext_getElem?
  intro j
  rw [List.getElem?_drop, List.getElem?_drop, List.getElem?_set_ne (by omega)]

theorem set_take_same {α : Type} (arr : List α) (a : Nat) (x : α) :
    (arr.set a x).take a = arr.take a := by
  apply List.ext_getElem?
  intro j
  by_cases h1 : j < a
  · rw [List.getElem?_take_of_lt h1, List.getElem?_take_of_lt h1,
      List.getElem?_set_ne (by omega)]
  · rw [List.getElem?_eq_none (by simp [List.length_take]; omega),
      List.getElem?_eq_none (by simp [List.length_take]; omega)]

theorem getD_cons_drop {α : Type} (arr : List α) (a : Nat) (d : α) (ha : a < arr.length) :
    arr.getD a d :: arr.drop (a + 1) = arr.drop a := by
  rw [List.drop_eq_getElem_cons ha]
  simp [List.getD_eq_getElem?_getD, List.getElem?_eq_getElem ha]

/-- The copy loop of the leaf split over the indices `[a, a + n)`, in closed
form: the current leaf keeps the slots before `a` and has the others
cleared (key `0`, `page_number` `INVALID`, `slot_number` kept), the new leaf
receives the moved slots from position `a - mid` on. -/
theorem splitLeafLoop_range (mid : Nat) :
    ∀ (n a : Nat) (cur new : LeafNodeInt),
      mid ≤ a → a + n = cur.keyArray.length → cur.ridArray.length = cur.keyArray.length →
      a - mid + n ≤ new.keyArray.length → new.ridArray.length = new.keyArray.length →
      splitLeafLoop mid cur new (List.range' a n) =
        ({ cur with
            keyArray := cur.keyArray.take a ++ List.replicate n 0
            ridArray := cur.ridArray.take a ++ (cur.ridArray.drop a).map
              (fun r => { r with page_number := INVALID_NUMBER }) },
         { new with
            keyArray := new.keyArray.take (a - mid) ++ cur.keyArray.drop a
              ++ new.keyArray.drop (a - mid + n)
            ridArray := new.ridArray.take (a - mid) ++ cur.ridArray.drop a
              ++ new.ridArray.drop (a - mid + n) }) := by
  intro n
  induction n with
  | zero =>
    intro a cur new _ h1 h2 _ _
    have hk : cur.keyArray.drop a = [] := List.drop_eq_nil_of_le (by omega)
    have hr : cur.ridArray.drop a = [] := List.drop_eq_nil_of_le (by omega)
    have hk2 : cur.keyArray.take a = cur.keyArray := List.take_of_length_le (by omega)
    have hr2 : cur.ridArray.take a = cur.ridArray := List.take_of_length_le (by omega)
    simp [splitLeafLoop, hk, hr, hk2, hr2]
  | succ n ih =>
    intro a cur new hmid h1 h2 h3 h4
    have hak : a < cur.keyArray.length := by omega
    have har : a < cur.ridArray.length := by omega
    have hnk : a - mid < new.keyArray.length := by omega
    have hnr : a - mid < new.ridArray.length := by omega
    rw [List.range'_succ]
    simp only [splitLeafLoop]
    rw [ih (a + 1) _ _ (by omega) (by simp; omega) (by simp; omega) (by simp; omega)
      (by simp; omega)]
    have e1 : a + 1 - mid = a - mid + 1 := by omega
    simp only [e1]
    congr 1
    · congr 1
      · rw [set_take_succ _ _ _ hak, List.append_assoc]
        rfl
      · rw [set_take_succ _ _ _ har, set_drop_succ _ _ _ _ (Nat.lt_succ_self a),
          List.append_assoc, ← getD_cons_drop cur.ridArray a default har]
        rfl
    · congr 1
      · rw [set_take_succ _ _ _ hnk, set_drop_succ _ a (a + 1) _ (Nat.lt_succ_self a),
          set_drop_succ _ (a - mid) (a - mid + 1 + n) _ (by omega),
          ← getD_cons_drop cur.keyArray a 0 hak]
        simp [Nat.add_assoc, Nat.add_comm 1 n]
      · rw [set_take_succ _ _ _ hnr, set_drop_succ _ a (a + 1) _ (Nat.lt_succ_self a),
          set_drop_succ _ (a - mid) (a - mid + 1 + n) _ (by omega),
          ← getD_cons_drop cur.ridArray a default har]
        simp [Nat.add_assoc, Nat.add_comm 1 n]

/-! ## Leaf insert and leaf split on the occupied slots -/

theorem shiftInsert_take {α : Type} (arr : List α) (i s : Nat) (x : α) (his : i ≤ s)
    (hs : s < arr.length) :
    (arr.take i ++ x :: (arr.drop i).take (arr.length - i - 1)).take (s + 1)
      = (arr.take s).take i ++ x :: (arr.take s).drop i := by
  rw [List.take_append_eq_append_take]
  have h1 : (arr.take i).length = i := by simp [List.length_take]; omega
  rw [h1, List.take_of_length_le (by omega : (arr.take i).length ≤ s + 1)]
  have h2 : s + 1 - i = (s - i) + 1 := by omega
  rw [h2, List.take_succ_cons, List.take_take, Nat.min_eq_left (by omega),
    List.take_take, Nat.min_eq_left his, List.drop_take]

theorem getD_take_of_lt {α : Type} (arr : List α) (s j : Nat) (d : α) (h : j < s) :
    (arr.take s).getD j d = arr.getD j d := by
  simp [List.getD_eq_getElem?_getD, List.getElem?_take_of_lt h]

theorem mem_take_getD {α : Type} (arr : List α) (s : Nat) (d x : α) (h : x ∈ arr.take s) :
    ∃ j, j < s ∧ j < arr.length ∧ arr.getD j d = x := by
  obtain ⟨j, hj, hx⟩ := List.getElem_of_mem h
  simp only [List.length_take] at hj
  refine ⟨j, by omega, by omega, ?_⟩
  rw [List.getElem_take] at hx
  simp [List.getD_eq_getElem?_getD, List.getElem?_eq_getElem (by omega : j < arr.length), hx]

/-- Insertion into a leaf that has room, on the occupied slots: the keys and
rids of the result are the old ones with the new pair inserted at `i`. -/
theorem insertLeafNode_occupied (L : Nat) (key : Int) (rid : RecordId) (node : LeafNodeInt)
    (i : Nat) (hk : node.keyArray.length = L) (hr : node.ridArray.length = L)
    (hi : i ≤ node.size) (hsize : node.size < L) :
    ∃ n, insertLeafNode L key rid node i = some n ∧
      n.keyArray.length = L ∧ n.ridArray.length = L ∧ n.size = node.size + 1 ∧
      n.rightSibPageNo = node.rightSibPageNo ∧
      n.keys = node.keys.take i ++ key :: node.keys.drop i ∧
      n.rids = node.rids.take i ++ rid :: node.rids.drop i ∧
      (∀ j, node.size + 1 ≤ j → j < L →
        n.ridArray.getD j default = node.ridArray.getD (j - 1) default) := by
  have hiL : i < L := by omega
  refine ⟨_, insertLeafNode_eq L key rid node i hk hr hiL, ?_, ?_, rfl, rfl, ?_, ?_, ?_⟩
  · have := shiftInsert_length node.keyArray i key (by omega)
    rw [hk] at this; exact this
  · have := shiftInsert_length node.ridArray i rid (by omega)
    rw [hr] at this; exact this
  · have := shiftInsert_take node.keyArray i node.size key hi (by omega)
    rw [hk] at this
    exact this
  · have := shiftInsert_take node.ridArray i node.size rid hi (by omega)
    rw [hr] at this
    exact this
  · intro j hj1 hj2
    have h2 := shiftInsert_getD node.ridArray i rid default (by omega) j
    rw [hr] at h2
    have e1 : ¬ (j < i) := by omega
    have e2 : ¬ (j = i) := by omega
    simp only [e1, e2, hj2, if_false, if_true] at h2
    exact h2

theorem insertIntoLeaf_full (L : Nat) (bm : BufMgr) (key : Int) (rid : RecordId)
    (currPageId : PageId) (leaf : LeafNodeInt) (hleaf : bm.leafAt L currPageId = some leaf)
    (hfull : (leaf.ridArray.getD (L - 1) default).page_number ≠ INVALID_NUMBER) :
    insertIntoLeaf L bm key rid currPageId =
      match splitLeaf L key rid leaf (findIndex leaf.keyArray key leaf.size) with
      | none => ((bm.allocPage.2).setPage bm.allocPage.1 .zero, .undefined)
      | some (cur3, new3) =>
        (BufMgr.unPinPage (BufMgr.unPinPage (BufMgr.setPage (BufMgr.setPage
            (BufMgr.setPage bm.allocPage.2 bm.allocPage.1 .zero) currPageId
            (.leaf { cur3 with rightSibPageNo := bm.allocPage.1 })) bm.allocPage.1
            (.leaf { new3 with rightSibPageNo := cur3.rightSibPageNo })) currPageId true)
            bm.allocPage.1 true,
          .returned (new3.keyArray.getD 0 0, bm.allocPage.1)) := by
  unfold insertIntoLeaf splitLeaf
  simp only [hleaf, hfull, if_false]

theorem insertIntoLeaf_room (L : Nat) (bm : BufMgr) (key : Int) (rid : RecordId)
    (currPageId : PageId) (leaf : LeafNodeInt) (hleaf : bm.leafAt L currPageId = some leaf)
    (hroom : (leaf.ridArray.getD (L - 1) default).page_number = INVALID_NUMBER) :
    insertIntoLeaf L bm key rid currPageId =
      match insertLeafNode L key rid leaf (findIndex leaf.keyArray key leaf.size) with
      | none => (bm, .undefined)
      | some n =>
        ((bm.setPage currPageId (.leaf n)).unPinPage currPageId true, .returned (0, 0)) := by
  unfold insertIntoLeaf
  simp only [hleaf, hroom, if_true]

theorem findIndex_keys (n : LeafNodeInt) (key : Int) (hlen : n.size ≤ n.keyArray.length)
    (hsorted : n.keys.Pairwise (· ≤ ·)) :
    findIndex n.keyArray key n.size ≤ n.size ∧
    (∀ a, a ∈ n.keys.take (findIndex n.keyArray key n.size) → a ≤ key) ∧
    (∀ b, b ∈ n.keys.drop (findIndex n.keyArray key n.size) → key < b) := by
  obtain ⟨h1, h2, h3⟩ := findIndex_spec n.keyArray key n.size
  refine ⟨h1, ?_, ?_⟩
  · intro a ha
    unfold LeafNodeInt.keys at ha
    rw [List.take_take, Nat.min_eq_left h1] at ha
    obtain ⟨j, hj1, _, hj3⟩ := mem_take_getD _ _ 0 _ ha
    rw [← hj3]
    exact h2 j hj1
  · intro b hb
    have hklen : n.keys.length = n.size := by
      simp [LeafNodeInt.keys, List.length_take, Nat.min_eq_left hlen]
    by_cases hi : findIndex n.keyArray key n.size < n.size
    · have hi2 : findIndex n.keyArray key n.size < n.keys.length := by omega
      have hhead : n.keys[findIndex n.keyArray key n.size] > key := by
        have := h3 hi
        simp only [LeafNodeInt.keys, List.getElem_take]
        simpa [List.getD_eq_getElem?_getD,
          List.getElem?_eq_getElem (by omega : findIndex n.keyArray key n.size
            < n.keyArray.length)] using this
      rw [List.drop_eq_getElem_cons hi2] at hb
      have hp : (n.keys.drop (findIndex n.keyArray key n.size)).Pairwise (· ≤ ·) :=
        hsorted.sublist (List.drop_sublist _ _)
      rw [List.drop_eq_getElem_cons hi2, List.pairwise_cons] at hp
      rcases List.mem_cons.mp hb with hb | hb
      · rw [hb]; exact hhead
      · exact lt_of_lt_of_le hhead (hp.1 b hb)
    · rw [List.drop_eq_nil_of_le (by omega)] at hb
      cases hb

/-- Insertion at a position `i` that keeps the keys in order, into a leaf
that satisfies the invariant and has room, gives a leaf that satisfies the
invariant. -/
theorem insertLeafNode_LeafInv (L : Nat) (key : Int) (rid : RecordId) (node : LeafNodeInt)
    (i : Nat) (hinv : LeafInv L node) (hi : i ≤ node.size) (hsize : node.size < L)
    (hrid : rid.page_number ≠ INVALID_NUMBER)
    (hle : ∀ a, a ∈ node.keys.take i → a ≤ key) (hge : ∀ b, b ∈ node.keys.drop i → key ≤ b) :
    ∃ n, insertLeafNode L key rid node i = some n ∧ LeafInv L n ∧
      n.size = node.size + 1 ∧ n.rightSibPageNo = node.rightSibPageNo ∧
      n.keys = node.keys.take i ++ key :: node.keys.drop i ∧
      n.rids = node.rids.take i ++ rid :: node.rids.drop i := by
  obtain ⟨n, h1, h2, h3, h4, h5, h6, h7, h8⟩ :=
    insertLeafNode_occupied L key rid node i hinv.keyLen hinv.ridLen hi hsize
  refine ⟨n, h1, ⟨h2, h3, by omega, ?_, ?_, ?_⟩, h4, h5, h6, h7⟩
  · rw [h6, List.pairwise_append]
    refine ⟨hinv.sorted.sublist (List.take_sublist _ _), ?_, ?_⟩
    · rw [List.pairwise_cons]
      exact ⟨hge, hinv.sorted.sublist (List.drop_sublist _ _)⟩
    · intro a ha b hb
      rcases List.mem_cons.mp hb with hb | hb
      · rw [hb]; exact hle a ha
      · exact le_trans (hle a ha) (hge b hb)
  · intro r hr
    rw [h7] at hr
    rcases List.mem_append.mp hr with hr | hr
    · exact hinv.occupied r (List.mem_of_mem_take hr)
    · rcases List.mem_cons.mp hr with hr | hr
      · rw [hr]; exact hrid
      · exact hinv.occupied r (List.mem_of_mem_drop hr)
  · intro j hj1 hj2
    rw [h8 j (by omega) hj2]
    exact hinv.free (j - 1) (by omega) (by omega)

theorem LeafInv.keys_length {L : Nat} {n : LeafNodeInt} (h : LeafInv L n) :
    n.keys.length = n.size := by
  simp [LeafNodeInt.keys, List.length_take, h.keyLen, h.sizeLe]

theorem LeafInv.rids_length {L : Nat} {n : LeafNodeInt} (h : LeafInv L n) :
    n.rids.length = n.size := by
  simp [LeafNodeInt.rids, List.length_take, h.ridLen, h.sizeLe]

/-- The left half of a split full leaf: slots `[0, mid)` keep their entries,
the moved slots are cleared. -/
theorem leftHalf_LeafInv (L mid : Nat) (leaf c : LeafNodeInt) (hinv : LeafInv L leaf)
    (hfull : leaf.size = L) (hmid : mid ≤ L)
    (hk : c.keyArray = leaf.keyArray.take mid ++ List.replicate (L - mid) 0)
    (hr : c.ridArray = leaf.ridArray.take mid ++ (leaf.ridArray.drop mid).map
      (fun r => { r with page_number := INVALID_NUMBER }))
    (hs : c.size = mid) :
    LeafInv L c ∧ c.keys = leaf.keys.take mid ∧ c.rids = leaf.rids.take mid := by
  have hkl := hinv.keyLen
  have hrl := hinv.ridLen
  have hkeys : c.keys = leaf.keys.take mid := by
    unfold LeafNodeInt.keys
    rw [hk, hs, hfull, List.take_left' (by simp [List.length_take]; omega), List.take_take,
      Nat.min_eq_left hmid]
  have hrids : c.rids = leaf.rids.take mid := by
    unfold LeafNodeInt.rids
    rw [hr, hs, hfull, List.take_left' (by simp [List.length_take]; omega), List.take_take,
      Nat.min_eq_left hmid]
  refine ⟨⟨?_, ?_, by omega, ?_, ?_, ?_⟩, hkeys, hrids⟩
  · rw [hk]; simp [List.length_take]; omega
  · rw [hr]; simp [List.length_take, List.length_drop]; omega
  · rw [hkeys]; exact hinv.sorted.sublist (List.take_sublist _ _)
  · intro r hr1
    rw [hrids] at hr1
    exact hinv.occupied r (List.mem_of_mem_take hr1)
  · intro j hj1 hj2
    rw [hs] at hj1
    rw [hr, List.getD_eq_getElem?_getD,
      List.getElem?_append_right (by simp [List.length_take]; omega)]
    simp only [List.length_take, hrl, Nat.min_eq_left hmid, List.getElem?_map]
    cases h : (leaf.ridArray.drop mid)[j - mid]? with
    | none => rfl
    | some r => rfl

/-- The right half of a split full leaf: the entries of the slots `[mid, L)`
followed by zeroed slots. -/
theorem rightHalf_LeafInv (L mid : Nat) (leaf c : LeafNodeInt) (hinv : LeafInv L leaf)
    (hfull : leaf.size = L) (hmid : mid ≤ L)
    (hk : c.keyArray = leaf.keyArray.drop mid ++ List.replicate mid 0)
    (hr : c.ridArray = leaf.ridArray.drop mid
      ++ List.replicate mid { page_number := 0, slot_number := 0 })
    (hs : c.size = L - mid) :
    LeafInv L c ∧ c.keys = leaf.keys.drop mid ∧ c.rids = leaf.rids.drop mid := by
  have hkl := hinv.keyLen
  have hrl := hinv.ridLen
  have hkeys : c.keys = leaf.keys.drop mid := by
    unfold LeafNodeInt.keys
    rw [hk, hs, hfull, List.take_left' (by simp [List.length_drop]; omega),
      List.take_of_length_le (by omega)]
  have hrids : c.rids = leaf.rids.drop mid := by
    unfold LeafNodeInt.rids
    rw [hr, hs, hfull, List.take_left' (by simp [List.length_drop]; omega),
      List.take_of_length_le (by omega)]
  refine ⟨⟨?_, ?_, by omega, ?_, ?_, ?_⟩, hkeys, hrids⟩
  · rw [hk]; simp [List.length_drop]; omega
  · rw [hr]; simp [List.length_drop]; omega
  · rw [hkeys]; exact hinv.sorted.sublist (List.drop_sublist _ _)
  · intro r hr1
    rw [hrids] at hr1
    exact hinv.occupied r (List.mem_of_mem_drop hr1)
  · intro j hj1 hj2
    rw [hs] at hj1
    rw [hr, List.getD_eq_getElem?_getD,
      List.getElem?_append_right (by simp [List.length_drop]; omega)]
    simp only [List.length_drop, hrl]
    rw [List.getElem?_replicate_of_lt (by omega)]
    rfl

/-- The split of a full leaf that satisfies the invariant: both resulting
leaves satisfy the invariant, and their occupied slots, taken in order, are
the old entries with the new pair inserted at the search position. -/
theorem splitLeaf_spec (L : Nat) (key : Int) (rid : RecordId) (leaf : LeafNodeInt)
    (hinv : LeafInv L leaf) (hfull : leaf.size = L) (hL : 1 ≤ L) :
    ∃ cur new, splitLeaf L key rid leaf (findIndex leaf.keyArray key leaf.size) = some (cur, new) ∧
      (rid.page_number ≠ INVALID_NUMBER → LeafInv L cur ∧ LeafInv L new) ∧
      (cur.keyArray.length = L ∧ cur.ridArray.length = L ∧
        new.keyArray.length = L ∧ new.ridArray.length = L) ∧
      cur.keys ++ new.keys
        = leaf.keys.take (findIndex leaf.keyArray key leaf.size)
          ++ key :: leaf.keys.drop (findIndex leaf.keyArray key leaf.size) ∧
      cur.rids ++ new.rids
        = leaf.rids.take (findIndex leaf.keyArray key leaf.size)
          ++ rid :: leaf.rids.drop (findIndex leaf.keyArray key leaf.size) ∧
      cur.rightSibPageNo = leaf.rightSibPageNo ∧ new.rightSibPageNo = 0 ∧
      1 ≤ new.size ∧ (2 ≤ L → 1 ≤ cur.size) ∧ cur.size + new.size = L + 1 := by
  obtain ⟨hi, hle, hge⟩ := findIndex_keys leaf key (by rw [hinv.keyLen]; exact hinv.sizeLe)
    hinv.sorted
  generalize findIndex leaf.keyArray key leaf.size = i at hi hle hge
  rw [hfull] at hi
  have hkl := hinv.keyLen
  have hrl := hinv.ridLen
  have hge1 : ∀ b, b ∈ leaf.keys.drop i → key ≤ b := fun b hb => le_of_lt (hge b hb)
  have hklen : leaf.keys.length = L := by rw [hinv.keys_length, hfull]
  have hrlen : leaf.rids.length = L := by rw [hinv.rids_length, hfull]
  -- the split point
  obtain ⟨mid, hmiddef, hmidle, hcase⟩ :
      ∃ mid, mid = (if L % 2 = 1 ∧ i > L / 2 then L / 2 + 1 else L / 2) ∧ mid ≤ L ∧
        ((i > L / 2 ∧ mid ≤ i ∧ 1 ≤ mid ∧ (2 ≤ L → mid < L + 1)) ∨
         (¬ i > L / 2 ∧ i ≤ mid ∧ mid < L ∧ (2 ≤ L → 1 ≤ mid))) := by
    refine ⟨_, rfl, ?_, ?_⟩
    · split_ifs <;> omega
    · by_cases h : i > L / 2
      · left; split_ifs <;> omega
      · right; split_ifs <;> omega
  have hloop := splitLeafLoop_range mid (L - mid) mid leaf (LeafNodeInt.zeroed L) (le_refl _)
    (by rw [hkl]; omega) (by rw [hkl, hrl])
    (by simp [LeafNodeInt.zeroed]) (by simp [LeafNodeInt.zeroed])
  unfold splitLeaf
  simp only [← hmiddef]
  rw [hloop]
  simp only
  obtain ⟨hcinv, hckeys, hcrids⟩ := leftHalf_LeafInv L mid leaf
    { keyArray := leaf.keyArray.take mid ++ List.replicate (L - mid) 0
      ridArray := leaf.ridArray.take mid ++ (leaf.ridArray.drop mid).map
        (fun r => { r with page_number := INVALID_NUMBER })
      rightSibPageNo := leaf.rightSibPageNo
      size := mid } hinv hfull hmidle rfl rfl rfl
  obtain ⟨hninv, hnkeys, hnrids⟩ := rightHalf_LeafInv L mid leaf
    { keyArray := (LeafNodeInt.zeroed L).keyArray.take (mid - mid) ++ leaf.keyArray.drop mid
        ++ (LeafNodeInt.zeroed L).keyArray.drop (mid - mid + (L - mid))
      ridArray := (LeafNodeInt.zeroed L).ridArray.take (mid - mid) ++ leaf.ridArray.drop mid
        ++ (LeafNodeInt.zeroed L).ridArray.drop (mid - mid + (L - mid))
      rightSibPageNo := (LeafNodeInt.zeroed L).rightSibPageNo
      size := L - mid } hinv hfull hmidle
    (by simp [LeafNodeInt.zeroed]; omega) (by simp [LeafNodeInt.zeroed]; omega) rfl
  rcases hcase with ⟨hgt, hmi, hm1, hm2⟩ | ⟨hngt, him, hmL, hm1⟩
  · -- the new pair goes to the right leaf
    simp only [hgt, if_true]
    have hle2 : ∀ a, a ∈ (leaf.keys.drop mid).take (i - mid) → a ≤ key := by
      intro a ha
      apply hle a
      have : leaf.keys.take i = leaf.keys.take mid ++ (leaf.keys.drop mid).take (i - mid) := by
        have h := List.take_add leaf.keys mid (i - mid)
        rw [show mid + (i - mid) = i by omega] at h
        exact h
      rw [this]
      exact List.mem_append_right _ ha
    have hge2 : ∀ b, b ∈ (leaf.keys.drop mid).drop (i - mid) → key ≤ b := by
      intro b hb
      rw [List.drop_drop, show mid + (i - mid) = i by omega] at hb
      exact hge1 b hb
    rw [← hnkeys] at hle2 hge2
    obtain ⟨n, hn1, hnk, hnr, hn3, hn4, hn5, hn6, _⟩ := insertLeafNode_occupied L key rid _
      (i - mid) hninv.keyLen hninv.ridLen (by simp only; omega) (by simp only; omega)
    have hcond : rid.page_number ≠ INVALID_NUMBER → LeafInv L n := by
      intro hrid
      obtain ⟨n1, hn1a, hn2, _⟩ := insertLeafNode_LeafInv L key rid _ (i - mid)
        hninv (by simp only; omega) (by simp only; omega) hrid hle2 hge2
      rw [hn1] at hn1a
      cases hn1a
      exact hn2
    rw [hn1]
    refine ⟨_, n, rfl, fun hrid => ⟨hcinv, hcond hrid⟩,
      ⟨hcinv.keyLen, hcinv.ridLen, hnk, hnr⟩, ?_, ?_, rfl, ?_, by omega, ?_, ?_⟩
    · rw [hn5, hckeys, hnkeys, List.drop_drop, show mid + (i - mid) = i by omega,
        ← List.append_assoc]
      congr 1
      have h := List.take_add leaf.keys mid (i - mid)
      rw [show mid + (i - mid) = i by omega] at h
      exact h.symm
    · rw [hn6, hcrids, hnrids, List.drop_drop, show mid + (i - mid) = i by omega,
        ← List.append_assoc]
      congr 1
      have h := List.take_add leaf.rids mid (i - mid)
      rw [show mid + (i - mid) = i by omega] at h
      exact h.symm
    · rw [hn4]; rfl
    · intro _; simp only; omega
    · rw [hn3]; simp only; omega
  · -- the new pair goes to the left leaf
    simp only [hngt, if_false]
    have hle2 : ∀ a, a ∈ (leaf.keys.take mid).take i → a ≤ key := by
      intro a ha
      rw [List.take_take, Nat.min_eq_left him] at ha
      exact hle a ha
    have hge2 : ∀ b, b ∈ (leaf.keys.take mid).drop i → key ≤ b := by
      intro b hb
      apply hge1 b
      have : leaf.keys.drop i = (leaf.keys.take mid).drop i ++ leaf.keys.drop mid := by
        conv_lhs => rw [← List.take_append_drop mid leaf.keys]
        rw [List.drop_append_of_le_length (by simp [List.length_take]; omega)]
      rw [this]
      exact List.mem_append_left _ hb
    rw [← hckeys] at hle2 hge2
    obtain ⟨n, hn1, hnk, hnr, hn3, hn4, hn5, hn6, _⟩ := insertLeafNode_occupied L key rid _
      i hcinv.keyLen hcinv.ridLen (by simp only; omega) (by simp only; omega)
    have hcond : rid.page_number ≠ INVALID_NUMBER → LeafInv L n := by
      intro hrid
      obtain ⟨n1, hn1a, hn2, _⟩ := insertLeafNode_LeafInv L key rid _ i
        hcinv (by simp only; omega) (by simp only; omega) hrid hle2 hge2
      rw [hn1] at hn1a
      cases hn1a
      exact hn2
    rw [hn1]
    refine ⟨n, _, rfl, fun hrid => ⟨hcond hrid, hninv⟩,
      ⟨hnk, hnr, hninv.keyLen, hninv.ridLen⟩, ?_, ?_, hn4, rfl, by simp only; omega, ?_, ?_⟩
    · rw [hn5, hckeys, hnkeys, List.take_take, Nat.min_eq_left him, List.append_assoc]
      congr 1
      rw [List.cons_append]
      congr 1
      conv_rhs => rw [← List.take_append_drop mid leaf.keys]
      rw [List.drop_append_of_le_length (by simp [List.length_take]; omega)]
    · rw [hn6, hcrids, hnrids, List.take_take, Nat.min_eq_left him, List.append_assoc]
      congr 1
      rw [List.cons_append]
      congr 1
      conv_rhs => rw [← List.take_append_drop mid leaf.rids]
      rw [List.drop_append_of_le_length (by simp [List.length_take]; omega)]
    · intro h; rw [hn3]; simp only; omega
    · rw [hn3]; simp only; omega

/-! ## Pages of the file under the buffer-manager operations -/

theorem BufMgr.page_eq_some_iff (bm : BufMgr) (p : PageId) (pg : Page) :
    bm.page p = some pg ↔ p ≠ INVALID_NUMBER ∧ bm.pages[p - 1]? = some pg := by
  unfold BufMgr.page
  by_cases h : p = INVALID_NUMBER <;> simp [h]

theorem BufMgr.mem_of_page {bm : BufMgr} {p : PageId} {pg : Page} (h : bm.page p = some pg) :
    pg ∈ bm.pages := by
  rw [BufMgr.page_eq_some_iff] at h
  exact List.getElem?_mem h.2

theorem BufMgr.setPage_pages_mem {bm : BufMgr} {p : PageId} {pg x : Page}
    (h : x ∈ (bm.setPage p pg).pages) : x = pg ∨ x ∈ bm.pages := by
  unfold BufMgr.setPage at h
  split at h
  · exact Or.inr h
  · rcases List.mem_or_eq_of_mem_set h with h | h
    · exact Or.inr h
    · exact Or.inl h

theorem BufMgr.allocPage_pages (bm : BufMgr) : bm.allocPage.2.pages = bm.pages ++ [Page.zero] :=
  rfl

theorem zeroed_LeafInv (L : Nat) : LeafInv L (LeafNodeInt.zeroed L) := by
  refine ⟨by simp [LeafNodeInt.zeroed], by simp [LeafNodeInt.zeroed], Nat.zero_le _, ?_, ?_, ?_⟩
  · simp [LeafNodeInt.keys, LeafNodeInt.zeroed]
  · intro r hr; simp [LeafNodeInt.rids, LeafNodeInt.zeroed] at hr
  · intro j _ hj
    simp [LeafNodeInt.zeroed, List.getD_eq_getElem?_getD, List.getElem?_replicate_of_lt hj,
      INVALID_NUMBER]

theorem LeafInv.of_rightSib {L : Nat} {n : LeafNodeInt} (h : LeafInv L n) (sib : PageId) :
    LeafInv L { n with rightSibPageNo := sib } :=
  ⟨h.keyLen, h.ridLen, h.sizeLe, h.sorted, h.occupied, h.free⟩

theorem AllLeavesInv.leafAt {L : Nat} {bm : BufMgr} (h : AllLeavesInv L bm) {p : PageId}
    {leaf : LeafNodeInt} (hleaf : bm.leafAt L p = some leaf) : LeafInv L leaf := by
  unfold BufMgr.leafAt at hleaf
  cases hp : bm.page p with
  | none => simp [hp] at hleaf
  | some pg =>
    simp only [hp, Option.some_bind] at hleaf
    cases pg with
    | zero => simp [Page.asLeaf] at hleaf; rw [← hleaf]; exact zeroed_LeafInv L
    | leaf n =>
      simp [Page.asLeaf] at hleaf
      rw [← hleaf]
      exact h n (BufMgr.mem_of_page hp)
    | header m => simp [Page.asLeaf] at hleaf
    | nonLeaf n => simp [Page.asLeaf] at hleaf

theorem AllLeavesInv.setPage {L : Nat} {bm : BufMgr} (h : AllLeavesInv L bm) (p : PageId)
    (pg : Page) (hpg : ∀ n, pg = .leaf n → LeafInv L n) : AllLeavesInv L (bm.setPage p pg) := by
  intro n hn
  rcases BufMgr.setPage_pages_mem hn with hn | hn
  · exact hpg n hn.symm
  · exact h n hn

theorem AllLeavesInv.of_pages_eq {L : Nat} {bm bm1 : BufMgr} (h : AllLeavesInv L bm)
    (hp : bm1.pages = bm.pages) : AllLeavesInv L bm1 := by
  intro n hn
  rw [hp] at hn
  exact h n hn

theorem AllLeavesInv.allocPage {L : Nat} {bm : BufMgr} (h : AllLeavesInv L bm) :
    AllLeavesInv L bm.allocPage.2 := by
  intro n hn
  rw [BufMgr.allocPage_pages] at hn
  rcases List.mem_append.mp hn with hn | hn
  · exact h n hn
  · simp at hn

theorem AllLeavesInv.unPinPage {L : Nat} {bm : BufMgr} (h : AllLeavesInv L bm) (p : PageId)
    (d : Bool) : AllLeavesInv L (bm.unPinPage p d) :=
  h.of_pages_eq (BufMgr.unPinPage_pages bm p d)

/-! ## Every insertion keeps the leaf invariant (C11) -/

theorem LeafInv.last_mem_rids {L : Nat} {n : LeafNodeInt} (h : LeafInv L n) (hL : 1 ≤ L)
    (hfull : n.size = L) : n.ridArray.getD (L - 1) default ∈ n.rids := by
  unfold LeafNodeInt.rids
  rw [hfull, List.take_of_length_le (by rw [h.ridLen])]
  have hlt : L - 1 < n.ridArray.length := by rw [h.ridLen]; omega
  rw [List.getD_eq_getElem?_getD, List.getElem?_eq_getElem hlt]
  exact List.getElem_mem _

theorem LeafInv.size_lt_of_room {L : Nat} {n : LeafNodeInt} (h : LeafInv L n) (hL : 1 ≤ L)
    (hroom : (n.ridArray.getD (L - 1) default).page_number = INVALID_NUMBER) : n.size < L := by
  by_contra hc
  have hfull : n.size = L := le_antisymm h.sizeLe (not_lt.mp hc)
  exact h.occupied _ (h.last_mem_rids hL hfull) hroom

theorem LeafInv.full_of_not_room {L : Nat} {n : LeafNodeInt} (h : LeafInv L n)
    (hfull : (n.ridArray.getD (L - 1) default).page_number ≠ INVALID_NUMBER) :
    1 ≤ L ∧ n.size = L := by
  have hL : 1 ≤ L := by
    by_contra hc
    have h0 : L = 0 := by omega
    apply hfull
    have hnil : n.ridArray = [] := List.eq_nil_of_length_eq_zero (by rw [h.ridLen, h0])
    rw [hnil]
    rfl
  refine ⟨hL, ?_⟩
  by_contra hc
  exact hfull (h.free (L - 1) (by have := h.sizeLe; omega) (by omega))

theorem insertIntoLeaf_AllLeavesInv (L : Nat) (bm : BufMgr) (key : Int) (rid : RecordId)
    (p : PageId) (h : AllLeavesInv L bm) (hrid : rid.page_number ≠ INVALID_NUMBER) :
    AllLeavesInv L (insertIntoLeaf L bm key rid p).1 := by
  cases hleaf : bm.leafAt L p with
  | none =>
    unfold insertIntoLeaf
    simp only [hleaf]
    exact h
  | some leaf =>
    have hinv := h.leafAt hleaf
    have hlen : leaf.size ≤ leaf.keyArray.length := by rw [hinv.keyLen]; exact hinv.sizeLe
    obtain ⟨hi, hle, hge⟩ := findIndex_keys leaf key hlen hinv.sorted
    by_cases hroom : (leaf.ridArray.getD (L - 1) default).page_number = INVALID_NUMBER
    · rw [insertIntoLeaf_room L bm key rid p leaf hleaf hroom]
      cases hins : insertLeafNode L key rid leaf (findIndex leaf.keyArray key leaf.size) with
      | none => exact h
      | some n =>
        simp only
        have hL : 1 ≤ L := by
          unfold insertLeafNode at hins
          split at hins
          · omega
          · cases hins
        obtain ⟨n1, hn1, hn2, _⟩ := insertLeafNode_LeafInv L key rid leaf _ hinv hi
          (hinv.size_lt_of_room hL hroom) hrid hle (fun b hb => le_of_lt (hge b hb))
        rw [hins] at hn1
        cases hn1
        apply AllLeavesInv.unPinPage
        apply AllLeavesInv.setPage h
        intro m hm
        cases hm
        exact hn2
    · rw [insertIntoLeaf_full L bm key rid p leaf hleaf hroom]
      obtain ⟨hL, hfull⟩ := hinv.full_of_not_room hroom
      obtain ⟨cur, new, hsplit, hboth, _⟩ := splitLeaf_spec L key rid leaf hinv hfull hL
      obtain ⟨hcur, hnew⟩ := hboth hrid
      rw [hsplit]
      simp only
      apply AllLeavesInv.unPinPage
      apply AllLeavesInv.unPinPage
      apply AllLeavesInv.setPage
      · apply AllLeavesInv.setPage
        · apply AllLeavesInv.setPage h.allocPage
          intro m hm; cases hm
        · intro m hm; cases hm; exact hcur.of_rightSib _
      · intro m hm; cases hm; exact hnew.of_rightSib _

theorem insertIntoNonLeaf_AllLeavesInv (L M : Nat) (bm : BufMgr) (p : PageId) (k : Int)
    (c : PageId) (h : AllLeavesInv L bm) :
    AllLeavesInv L (insertIntoNonLeaf M bm p k c).1 := by
  unfold insertIntoNonLeaf
  simp only [BufMgr.allocPage]
  have halloc : AllLeavesInv L
      { pages := bm.pages ++ [Page.zero], pinCnt := bm.pinCnt ++ [1], unPinLog := bm.unPinLog } :=
    h.allocPage
  split
  · exact h
  · split
    · split
      · exact h
      · apply AllLeavesInv.unPinPage
        apply AllLeavesInv.setPage h
        intro m hm; cases hm
    · split
      · apply AllLeavesInv.unPinPage
        apply AllLeavesInv.unPinPage
        apply AllLeavesInv.setPage
        · apply AllLeavesInv.setPage
          · apply AllLeavesInv.setPage halloc
            intro m hm; cases hm
          · intro m hm; cases hm
        · intro m hm; cases hm
      · split
        · apply AllLeavesInv.setPage halloc
          intro m hm; cases hm
        · apply AllLeavesInv.unPinPage
          apply AllLeavesInv.unPinPage
          apply AllLeavesInv.setPage
          · apply AllLeavesInv.setPage
            · apply AllLeavesInv.setPage halloc
              intro m hm; cases hm
            · intro m hm; cases hm
          · intro m hm; cases hm

theorem AllLeavesInv.readPage {L : Nat} {bm bm1 : BufMgr} (h : AllLeavesInv L bm) {p : PageId}
    (hr : bm.readPage p = some bm1) : AllLeavesInv L bm1 :=
  h.of_pages_eq (BufMgr.readPage_pages hr)

theorem insertEntryHelper_AllLeavesInv (L M : Nat) (key : Int) (rid : RecordId)
    (hrid : rid.page_number ≠ INVALID_NUMBER) :
    ∀ (fuel : Nat) (bm : BufMgr) (p : PageId) (isLeaf : Bool), AllLeavesInv L bm →
      AllLeavesInv L (insertEntryHelper L M fuel bm key rid p isLeaf).1 := by
  intro fuel
  induction fuel with
  | zero => intro bm p isLeaf h; exact h
  | succ n ih =>
    intro bm p isLeaf h
    unfold insertEntryHelper
    cases hread : bm.readPage p with
    | none => exact h
    | some bm1 =>
      have h1 : AllLeavesInv L bm1 := h.readPage hread
      simp only
      cases isLeaf with
      | true =>
        simp only [if_true]
        exact insertIntoLeaf_AllLeavesInv L bm1 key rid p h1 hrid
      | false =>
        simp only [Bool.false_eq_true, if_false]
        cases hnode : bm1.nonLeafAt M p with
        | none => exact h1
        | some node =>
          simp only
          have h2 := ih bm1 (node.pageNoArray.getD (findIndex node.keyArray key node.size) 0)
            (decide (node.level = 1)) h1
          split
          · rename_i bm2 mk cid heq
            rw [heq] at h2
            split
            · exact AllLeavesInv.unPinPage h2 _ _
            · exact insertIntoNonLeaf_AllLeavesInv L M bm2 p mk cid h2
          · rename_i bm2 o hne heq
            rw [heq] at h2
            exact h2

theorem insertEntry_AllLeavesInv (L M fuel : Nat) (s : BTreeIndex) (key : Int) (rid : RecordId)
    (hrid : rid.page_number ≠ INVALID_NUMBER) (h : AllLeavesInv L s.bufMgr) :
    AllLeavesInv L (insertEntry L M fuel s key rid).1.bufMgr := by
  have h1 := insertEntryHelper_AllLeavesInv L M key rid hrid fuel s.bufMgr s.rootPageNum
    s.rootIsLeaf h
  unfold insertEntry
  split
  · rename_i bm mk cid heq
    rw [heq] at h1
    have h2 : AllLeavesInv L (bm.allocPage.2.setPage bm.allocPage.1
        (.nonLeaf
          { NonLeafNodeInt.zeroed M with
            keyArray := (List.replicate M 0).set 0 mk
            pageNoArray := ((List.replicate (M + 1) 0).set 0 s.rootPageNum).set 1 cid
            size := 1
            level := if s.rootIsLeaf then 1 else 0 })) :=
      AllLeavesInv.setPage h1.allocPage _ _ (by intro m hm; cases hm)
    split
    · simp only
      split
      · exact h2
      · rename_i bm3 hread
        have h3 : AllLeavesInv L bm3 := h2.readPage hread
        split
        · exact h3
        · apply AllLeavesInv.unPinPage
          apply AllLeavesInv.unPinPage
          apply AllLeavesInv.setPage h3
          intro m hm; cases hm
    · exact h1
  all_goals (rename_i bm heq; rw [heq] at h1; exact h1)

theorem insertEntries_AllLeavesInv (L M fuel : Nat) :
    ∀ (pairs : List (Int × RecordId)) (s : BTreeIndex),
      (∀ kr, kr ∈ pairs → kr.2.page_number ≠ INVALID_NUMBER) → AllLeavesInv L s.bufMgr →
      AllLeavesInv L (insertEntries L M fuel s pairs).bufMgr := by
  intro pairs
  induction pairs with
  | nil => intro s _ h; exact h
  | cons kr rest ih =>
    intro s hr h
    obtain ⟨key, rid⟩ := kr
    unfold insertEntries
    apply ih
    · intro kr hkr; exact hr kr (List.mem_cons_of_mem _ hkr)
    · exact insertEntry_AllLeavesInv L M fuel s key rid (hr (key, rid) (List.mem_cons_self _ _)) h

theorem construct_empty_AllLeavesInv (L M fuel : Nat) (uninit : BTreeIndex)
    (relationName : List Char) (attrByteOffset : Int) (attrType : Datatype) :
    AllLeavesInv L (BTreeIndex.construct L M fuel uninit none relationName [] attrByteOffset
      attrType).1.bufMgr := by
  intro n hn
  simp [BTreeIndex.construct, bulkLoad, BufMgr.allocPage, BufMgr.empty, BufMgr.setPage,
    BufMgr.unPinPage, INVALID_NUMBER] at hn
  rw [hn]
  exact zeroed_LeafInv L

/-! ## Node operations (C18, C19) -/

/-- C18: `insertLeafNode` at position `i <= size` on a leaf of capacity `L`
whose occupied slots are `[0, size)` and whose last slot is empty: the call
is inside the arrays, slots before `i` are unchanged, slot `i` holds the new
`(key, rid)`, every old slot `j` in `[i, L-1)` is found at `j+1`, `size`
grows by one, `rightSibPageNo` is unchanged and every slot from the new
`size` on has `page_number == INVALID`. -/
theorem c18_insertLeafNode_shifts_and_writes (L : Nat) (key : Int) (rid : RecordId)
    (node : LeafNodeInt) (i : Nat)
    (hk : node.keyArray.length = L) (hr : node.ridArray.length = L) (hL : 1 ≤ L)
    (hi : i ≤ node.size)
    (hocc : ∀ j, j < node.size → j < L →
      (node.ridArray.getD j default).page_number ≠ INVALID_NUMBER)
    (hfree : ∀ j, node.size ≤ j → j < L →
      (node.ridArray.getD j default).page_number = INVALID_NUMBER)
    (hlast : (node.ridArray.getD (L - 1) default).page_number = INVALID_NUMBER) :
    ∃ n, insertLeafNode L key rid node i = some n ∧
      n.keyArray.length = L ∧ n.ridArray.length = L ∧
      (∀ j, j < i → n.keyArray.getD j 0 = node.keyArray.getD j 0 ∧
        n.ridArray.getD j default = node.ridArray.getD j default) ∧
      n.keyArray.getD i 0 = key ∧ n.ridArray.getD i default = rid ∧
      (∀ j, i ≤ j → j < L - 1 → n.keyArray.getD (j + 1) 0 = node.keyArray.getD j 0 ∧
        n.ridArray.getD (j + 1) default = node.ridArray.getD j default) ∧
      n.size = node.size + 1 ∧
      n.rightSibPageNo = node.rightSibPageNo ∧
      (∀ j, n.size ≤ j → j < L → (n.ridArray.getD j default).page_number = INVALID_NUMBER) := by
  have hsize : node.size < L := by
    by_contra hc
    exact hocc (L - 1) (by omega) (by omega) hlast
  have hiL : i < L := by omega
  have hkl : i < node.keyArray.length := by omega
  have hrl : i < node.ridArray.length := by omega
  refine ⟨_, insertLeafNode_eq L key rid node i hk hr hiL, ?_, ?_, ?_, ?_, ?_, ?_, rfl, rfl, ?_⟩
  · have := shiftInsert_length node.keyArray i key hkl
    rw [hk] at this; exact this
  · have := shiftInsert_length node.ridArray i rid hrl
    rw [hr] at this; exact this
  · intro j hj
    have h1 := shiftInsert_getD node.keyArray i key 0 hkl j
    have h2 := shiftInsert_getD node.ridArray i rid default hrl j
    rw [hk] at h1; rw [hr] at h2
    simp only [hj, if_true] at h1 h2
    exact ⟨h1, h2⟩
  · have h1 := shiftInsert_getD node.keyArray i key 0 hkl i
    rw [hk] at h1
    simpa using h1
  · have h2 := shiftInsert_getD node.ridArray i rid default hrl i
    rw [hr] at h2
    simpa using h2
  · intro j hj1 hj2
    have h1 := shiftInsert_getD node.keyArray i key 0 hkl (j + 1)
    have h2 := shiftInsert_getD node.ridArray i rid default hrl (j + 1)
    rw [hk] at h1; rw [hr] at h2
    have e1 : ¬ (j + 1 < i) := by omega
    have e2 : ¬ (j + 1 = i) := by omega
    have e3 : j + 1 < L := by omega
    simp only [e1, e2, e3, if_false, if_true, Nat.add_sub_cancel] at h1 h2
    exact ⟨h1, h2⟩
  · intro j hj1 hj2
    have h2 := shiftInsert_getD node.ridArray i rid default hrl j
    rw [hr] at h2
    simp only at hj1
    have e1 : ¬ (j < i) := by omega
    have e2 : ¬ (j = i) := by omega
    simp only [e1, e2, hj2, if_false, if_true] at h2
    simp only
    rw [h2]
    exact hfree (j - 1) (by omega) (by omega)

/-- C19: `insertNonLeafNode` at position `i <= size < M`: `keyArray[i]` is
the new key and the old keys from `i` on sit one slot to the right,
`pageNoArray[i+1]` is the new child and the old children from `i+1` on sit
one slot to the right, `keyArray[0..i)` and `pageNoArray[0..i]` are
unchanged, `size` grows by one and `level` is unchanged. -/
theorem c19_insertNonLeafNode_shifts_and_writes (M : Nat) (newKey : Int)
    (newChildPageId : PageId) (node : NonLeafNodeInt) (i : Nat)
    (hk : node.keyArray.length = M) (hp : node.pageNoArray.length = M + 1)
    (hi : i ≤ node.size) (hsize : node.size < M) :
    ∃ n, insertNonLeafNode M newKey newChildPageId node i = some n ∧
      n.keyArray.length = M ∧ n.pageNoArray.length = M + 1 ∧
      n.keyArray.getD i 0 = newKey ∧
      (∀ j, i ≤ j → j < node.size → n.keyArray.getD (j + 1) 0 = node.keyArray.getD j 0) ∧
      n.pageNoArray.getD (i + 1) 0 = newChildPageId ∧
      (∀ j, i + 1 ≤ j → j ≤ node.size →
        n.pageNoArray.getD (j + 1) 0 = node.pageNoArray.getD j 0) ∧
      (∀ j, j < i → n.keyArray.getD j 0 = node.keyArray.getD j 0) ∧
      (∀ j, j ≤ i → n.pageNoArray.getD j 0 = node.pageNoArray.getD j 0) ∧
      n.size = node.size + 1 ∧
      n.level = node.level := by
  have hiM : i < M := by omega
  have hkl : i < node.keyArray.length := by omega
  have hpl : i + 1 < node.pageNoArray.length := by omega
  have e : M - i - 1 = node.pageNoArray.length - (i + 1) - 1 := by omega
  refine ⟨_, insertNonLeafNode_eq M newKey newChildPageId node i hk hp hiM,
    ?_, ?_, ?_, ?_, ?_, ?_, ?_, ?_, rfl, rfl⟩
  · have := shiftInsert_length node.keyArray i newKey hkl
    rw [hk] at this; exact this
  · have := shiftInsert_length node.pageNoArray (i + 1) newChildPageId hpl
    simp only [e]; rw [this, hp]
  · have h1 := shiftInsert_getD node.keyArray i newKey 0 hkl i
    rw [hk] at h1
    simpa using h1
  · intro j hj1 hj2
    have h1 := shiftInsert_getD node.keyArray i newKey 0 hkl (j + 1)
    rw [hk] at h1
    have e1 : ¬ (j + 1 < i) := by omega
    have e2 : ¬ (j + 1 = i) := by omega
    have e3 : j + 1 < M := by omega
    simp only [e1, e2, e3, if_false, if_true, Nat.add_sub_cancel] at h1
    exact h1
  · have h1 := shiftInsert_getD node.pageNoArray (i + 1) newChildPageId 0 hpl (i + 1)
    simp only [e]
    simpa using h1
  · intro j hj1 hj2
    have h1 := shiftInsert_getD node.pageNoArray (i + 1) newChildPageId 0 hpl (j + 1)
    have e1 : ¬ (j + 1 < i + 1) := by omega
    have e2 : ¬ (j + 1 = i + 1) := by omega
    have e3 : j + 1 < node.pageNoArray.length := by omega
    simp only [e1, e2, e3, if_false, if_true, Nat.add_sub_cancel] at h1
    simp only [e]
    exact h1
  · intro j hj
    have h1 := shiftInsert_getD node.keyArray i newKey 0 hkl j
    rw [hk] at h1
    simp only [hj, if_true] at h1
    exact h1
  · intro j hj
    have h1 := shiftInsert_getD node.pageNoArray (i + 1) newChildPageId 0 hpl j
    have e1 : j < i + 1 := by omega
    simp only [e1, if_true] at h1
    simp only [e]
    exact h1

/-- Witness of C18: key `20` inserted at position `1` of the leaf `[10, 30]`
with `L = 4`. -/
theorem c18_witness :
    ∃ n : LeafNodeInt,
      insertLeafNode 4 20 ⟨1, 2⟩
        { keyArray := [10, 30, 0, 0], ridArray := [⟨1, 1⟩, ⟨1, 3⟩, ⟨0, 0⟩, ⟨0, 0⟩],
          rightSibPageNo := 7, size := 2 } 1 = some n ∧
      n.keyArray.getD 1 0 = 20 ∧ n.size = 3 ∧ n.rightSibPageNo = 7 :=
  match c18_insertLeafNode_shifts_and_writes 4 20 ⟨1, 2⟩
    { keyArray := [10, 30, 0, 0], ridArray := [⟨1, 1⟩, ⟨1, 3⟩, ⟨0, 0⟩, ⟨0, 0⟩],
      rightSibPageNo := 7, size := 2 } 1 (by decide) (by decide) (by decide) (by decide)
    (by decide)
    (by
      intro j h1 h2
      have h3 : j = 2 ∨ j = 3 := by
        change 2 ≤ j at h1
        omega
      rcases h3 with h3 | h3 <;> subst h3 <;> decide)
    (by decide) with
  | ⟨n, h1, _, _, _, h5, _, _, h8, h9, _⟩ => ⟨n, h1, h5, h8, h9⟩

/-- Witness of C19: separator `20` with child `9` inserted at position `1` of
the internal node with keys `[10, 30]` and children `[2, 3, 4]`, `M = 4`. -/
theorem c19_witness :
    ∃ n : NonLeafNodeInt,
      insertNonLeafNode 4 20 9
        { level := 1, keyArray := [10, 30, 0, 0], pageNoArray := [2, 3, 4, 0, 0], size := 2 } 1
        = some n ∧
      n.keyArray.getD 1 0 = 20 ∧ n.pageNoArray.getD 2 0 = 9 ∧ n.size = 3 ∧ n.level = 1 :=
  match c19_insertNonLeafNode_shifts_and_writes 4 20 9
    { level := 1, keyArray := [10, 30, 0, 0], pageNoArray := [2, 3, 4, 0, 0], size := 2 } 1
    (by decide) (by decide) (by decide) (by decide) with
  | ⟨n, h1, _, _, h4, _, h6, _, _, _, h10, h11⟩ => ⟨n, h1, h4, h6, h10, h11⟩

theorem getD_mem_take {α : Type} (arr : List α) (s j : Nat) (d : α) (hj : j < s)
    (hs : s ≤ arr.length) : arr.getD j d ∈ arr.take s := by
  have hlt : j < (arr.take s).length := by simp [List.length_take]; omega
  have : (arr.take s)[j] = arr.getD j d := by
    rw [List.getElem_take]
    simp [List.getD_eq_getElem?_getD, List.getElem?_eq_getElem (by omega : j < arr.length)]
  rw [← this]
  exact List.getElem_mem _

/-- The leaf invariant slot by slot. -/
theorem LeafInv.pointwise {L : Nat} {n : LeafNodeInt} (h : LeafInv L n) :
    n.size ≤ L ∧
    (∀ i j, i < j → j < n.size → n.keyArray.getD i 0 ≤ n.keyArray.getD j 0) ∧
    (∀ i, i < n.size → (n.ridArray.getD i default).page_number ≠ INVALID_NUMBER) ∧
    (∀ i, n.size ≤ i → i < L → (n.ridArray.getD i default).page_number = INVALID_NUMBER) := by
  refine ⟨h.sizeLe, ?_, ?_, h.free⟩
  · intro i j hij hj
    have hp := List.pairwise_iff_getElem.mp h.sorted i j
      (by rw [h.keys_length]; omega) (by rw [h.keys_length]; omega) hij
    have hs := h.sizeLe
    have hk := h.keyLen
    simp only [LeafNodeInt.keys, List.getElem_take] at hp
    simpa [List.getD_eq_getElem?_getD, List.getElem?_eq_getElem (by omega : i < n.keyArray.length),
      List.getElem?_eq_getElem (by omega : j < n.keyArray.length)] using hp
  · intro i hi
    exact h.occupied _ (getD_mem_take n.ridArray n.size i default hi (by rw [h.ridLen]; exact h.sizeLe))

/-- C11 (sorted leaves): after any sequence of `insertEntry` calls with rids
whose `page_number` is not `INVALID` on a freshly created index, every leaf
page of the file has `size <= L`, `keyArray[0..size)` non-decreasing,
`ridArray[i].page_number != INVALID` for every `i < size` and
`ridArray[i].page_number == INVALID` for every `i` in `[size, L)`; this
holds for all capacities, whatever the calls return or raise. -/
theorem c11_leaves_sorted_and_packed (L M fuel : Nat) (uninit : BTreeIndex)
    (relationName : List Char) (attrByteOffset : Int) (attrType : Datatype)
    (pairs : List (Int × RecordId))
    (hrids : ∀ kr, kr ∈ pairs → kr.2.page_number ≠ INVALID_NUMBER)
    (n : LeafNodeInt)
    (hn : Page.leaf n ∈ (insertEntries L M fuel
      (BTreeIndex.construct L M fuel uninit none relationName [] attrByteOffset attrType).1
      pairs).bufMgr.pages) :
    n.keyArray.length = L ∧ n.ridArray.length = L ∧ n.size ≤ L ∧
    (∀ i j, i < j → j < n.size → n.keyArray.getD i 0 ≤ n.keyArray.getD j 0) ∧
    (∀ i, i < n.size → (n.ridArray.getD i default).page_number ≠ INVALID_NUMBER) ∧
    (∀ i, n.size ≤ i → i < L → (n.ridArray.getD i default).page_number = INVALID_NUMBER) := by
  have hinv : LeafInv L n :=
    insertEntries_AllLeavesInv L M fuel pairs _ hrids
      (construct_empty_AllLeavesInv L M fuel uninit relationName attrByteOffset attrType) n hn
  exact ⟨hinv.keyLen, hinv.ridLen, hinv.pointwise⟩

/-- Witness of C11: the leaf `[1, 3, 4, 5]` of the index built with
`L = M = 4` from the keys `9, 3, 7, 1, 5, 4` in this order. -/
theorem c11_witness :
    ([1, 3, 4, 5] : List Int).getD 0 0 ≤ ([1, 3, 4, 5] : List Int).getD 3 0 ∧
    ([testRid 1, testRid 3, testRid 4, testRid 5].getD 3 default).page_number
      ≠ INVALID_NUMBER :=
  ⟨(c11_leaves_sorted_and_packed 4 4 8 BTreeIndex.blank ['r', 'e', 'l', 'A'] 0 .INTEGER
      [(9, testRid 9), (3, testRid 3), (7, testRid 7), (1, testRid 1), (5, testRid 5),
        (4, testRid 4)]
      (by decide)
      { keyArray := [1, 3, 4, 5]
        ridArray := [testRid 1, testRid 3, testRid 4, testRid 5]
        rightSibPageNo := 3
        size := 4 }
      (by decide)).2.2.2.1 0 3 (by decide) (by decide),
    (c11_leaves_sorted_and_packed 4 4 8 BTreeIndex.blank ['r', 'e', 'l', 'A'] 0 .INTEGER
      [(9, testRid 9), (3, testRid 3), (7, testRid 7), (1, testRid 1), (5, testRid 5),
        (4, testRid 4)]
      (by decide)
      { keyArray := [1, 3, 4, 5]
        ridArray := [testRid 1, testRid 3, testRid 4, testRid 5]
        rightSibPageNo := 3
        size := 4 }
      (by decide)).2.2.2.2.1 3 (by decide)⟩

/-! ## Leaf split inside `insertEntryHelper` (C20) -/

theorem BufMgr.page_isSome_iff (bm : BufMgr) (p : PageId) :
    (∃ pg, bm.page p = some pg) ↔ p ≠ INVALID_NUMBER ∧ p ≤ bm.pages.length := by
  unfold BufMgr.page
  by_cases h : p = INVALID_NUMBER
  · simp [h]
  · simp only [h, if_false, ne_eq, not_false_eq_true, true_and]
    have h0 : p ≠ 0 := h
    constructor
    · rintro ⟨pg, hpg⟩
      have := (List.getElem?_eq_some.mp hpg).1
      unfold PageId at *
      omega
    · intro hle
      exact ⟨_, List.getElem?_eq_getElem (by unfold PageId at *; omega)⟩

theorem BufMgr.page_setPage_same (bm : BufMgr) (p : PageId) (pg : Page)
    (h : p ≠ INVALID_NUMBER ∧ p ≤ bm.pages.length) : (bm.setPage p pg).page p = some pg := by
  have h0 : p ≠ 0 := h.1
  unfold BufMgr.setPage BufMgr.page
  simp only [h.1, if_false]
  rw [List.getElem?_set_self (by unfold PageId at *; omega)]

theorem BufMgr.page_setPage_other (bm : BufMgr) (p q : PageId) (pg : Page) (h : q ≠ p)
    (hq : q ≠ INVALID_NUMBER) : (bm.setPage p pg).page q = bm.page q := by
  have h0 : q ≠ 0 := hq
  unfold BufMgr.setPage BufMgr.page
  by_cases hp : p = INVALID_NUMBER
  · simp [hp]
  · have hp0 : p ≠ 0 := hp
    simp only [hp, hq, if_false]
    rw [List.getElem?_set_ne (by unfold PageId at *; omega)]

theorem BufMgr.setPage_length (bm : BufMgr) (p : PageId) (pg : Page) :
    (bm.setPage p pg).pages.length = bm.pages.length := by
  unfold BufMgr.setPage
  split <;> simp

theorem BufMgr.page_allocPage_old (bm : BufMgr) (q : PageId) (h : q ≤ bm.pages.length) :
    bm.allocPage.2.page q = bm.page q := by
  unfold BufMgr.page
  by_cases hq : q = INVALID_NUMBER
  · simp [hq]
  · have h0 : q ≠ 0 := hq
    simp only [hq, if_false, BufMgr.allocPage_pages]
    rw [List.getElem?_append_left (by unfold PageId at *; omega)]

theorem pairwise_insert (ks : List Int) (i : Nat) (key : Int) (hs : ks.Pairwise (· ≤ ·))
    (hle : ∀ a, a ∈ ks.take i → a ≤ key) (hge : ∀ b, b ∈ ks.drop i → key ≤ b) :
    (ks.take i ++ key :: ks.drop i).Pairwise (· ≤ ·) := by
  rw [List.pairwise_append]
  refine ⟨hs.sublist (List.take_sublist _ _), ?_, ?_⟩
  · rw [List.pairwise_cons]
    exact ⟨hge, hs.sublist (List.drop_sublist _ _)⟩
  · intro a ha b hb
    rcases List.mem_cons.mp hb with hb | hb
    · rw [hb]; exact hle a ha
    · exact le_trans (hle a ha) (hge b hb)

theorem keys_eq_head_cons (n : LeafNodeInt) (hsize : 1 ≤ n.size) (hlen : 1 ≤ n.keyArray.length) :
    n.keys = n.keyArray.getD 0 0 :: (n.keyArray.take n.size).tail := by
  unfold LeafNodeInt.keys
  cases hk : n.keyArray with
  | nil => rw [hk] at hlen; simp at hlen
  | cons a rest =>
    obtain ⟨s, hs⟩ : ∃ s, n.size = s + 1 := ⟨n.size - 1, by omega⟩
    rw [hs]
    simp

/-- The leaf split as a whole: the pages of the current leaf and of the new
right leaf after `insertIntoLeaf` on a full leaf that satisfies the
invariant. -/
theorem insertIntoLeaf_split (L : Nat) (bm : BufMgr) (key : Int) (rid : RecordId) (p : PageId)
    (leaf : LeafNodeInt) (hleaf : bm.leafAt L p = some leaf) (hinv : LeafInv L leaf)
    (hL : 1 ≤ L) (hfull : leaf.size = L) :
    ∃ cur new, splitLeaf L key rid leaf (findIndex leaf.keyArray key leaf.size) = some (cur, new) ∧
      (insertIntoLeaf L bm key rid p).2
        = .returned (new.keyArray.getD 0 0, bm.pages.length + 1) ∧
      (insertIntoLeaf L bm key rid p).1.leafAt L p
        = some { cur with rightSibPageNo := bm.pages.length + 1 } ∧
      (insertIntoLeaf L bm key rid p).1.leafAt L (bm.pages.length + 1)
        = some { new with rightSibPageNo := cur.rightSibPageNo } ∧
      (insertIntoLeaf L bm key rid p).1.pages.length = bm.pages.length + 1 ∧
      (∀ q, q ≠ p → q ≠ bm.pages.length + 1 →
        (insertIntoLeaf L bm key rid p).1.page q = bm.page q) := by
  have hsent : (leaf.ridArray.getD (L - 1) default).page_number ≠ INVALID_NUMBER :=
    hinv.occupied _ (hinv.last_mem_rids hL hfull)
  obtain ⟨cur, new, hsplit, _⟩ := splitLeaf_spec L key rid leaf hinv hfull hL
  have hp : p ≠ INVALID_NUMBER ∧ p ≤ bm.pages.length := by
    apply (BufMgr.page_isSome_iff bm p).mp
    unfold BufMgr.leafAt at hleaf
    cases hpg : bm.page p with
    | none => simp [hpg] at hleaf
    | some pg => exact ⟨pg, rfl⟩
  have hpR : p ≠ bm.pages.length + 1 := by
    have := hp.2
    unfold PageId at *
    omega
  have hR0 : bm.pages.length + 1 ≠ INVALID_NUMBER := by simp [INVALID_NUMBER]
  have hR : bm.allocPage.1 = bm.pages.length + 1 := rfl
  have hlenY : ((bm.allocPage.2.setPage (bm.pages.length + 1) Page.zero).setPage p
      (.leaf { cur with rightSibPageNo := bm.pages.length + 1 })).pages.length
      = bm.pages.length + 1 := by
    rw [BufMgr.setPage_length, BufMgr.setPage_length]
    simp [BufMgr.allocPage_pages]
  have hlenX : (bm.allocPage.2.setPage (bm.pages.length + 1) Page.zero).pages.length
      = bm.pages.length + 1 := by
    rw [BufMgr.setPage_length]
    simp [BufMgr.allocPage_pages]
  have hple : p ≤ bm.pages.length + 1 := by
    have := hp.2
    unfold PageId at *
    omega
  refine ⟨cur, new, hsplit, ?_, ?_, ?_, ?_, ?_⟩
  all_goals rw [insertIntoLeaf_full L bm key rid p leaf hleaf hsent, hsplit]
  all_goals simp only [hR]
  · simp only [BufMgr.leafAt]
    rw [BufMgr.page_of_pages_eq (BufMgr.unPinPage_pages _ _ _),
      BufMgr.page_of_pages_eq (BufMgr.unPinPage_pages _ _ _),
      BufMgr.page_setPage_other _ _ _ _ hpR hp.1,
      BufMgr.page_setPage_same _ _ _ ⟨hp.1, by rw [hlenX]; exact hple⟩]
    rfl
  · simp only [BufMgr.leafAt]
    rw [BufMgr.page_of_pages_eq (BufMgr.unPinPage_pages _ _ _),
      BufMgr.page_of_pages_eq (BufMgr.unPinPage_pages _ _ _),
      BufMgr.page_setPage_same _ _ _ ⟨hR0, by rw [hlenY]⟩]
    rfl
  · simp only [BufMgr.unPinPage_pages, BufMgr.setPage_length, BufMgr.allocPage_pages,
      List.length_append, List.length_singleton]
  · intro q hq1 hq2
    rw [BufMgr.page_of_pages_eq (BufMgr.unPinPage_pages _ _ _),
      BufMgr.page_of_pages_eq (BufMgr.unPinPage_pages _ _ _)]
    by_cases hq0 : q = INVALID_NUMBER
    · simp [BufMgr.page, hq0]
    · rw [BufMgr.page_setPage_other _ _ _ _ hq2 hq0,
        BufMgr.page_setPage_other _ _ _ _ hq1 hq0,
        BufMgr.page_setPage_other _ _ _ _ hq2 hq0]
      by_cases hle : q ≤ bm.pages.length
      · exact BufMgr.page_allocPage_old bm q hle
      · have h1 : bm.page q = none := by
          cases h : bm.page q with
          | none => rfl
          | some pg => exact absurd ((BufMgr.page_isSome_iff bm q).mp ⟨pg, h⟩).2 hle
        have h2 : bm.allocPage.2.page q = none := by
          cases h : bm.allocPage.2.page q with
          | none => rfl
          | some pg =>
            have := ((BufMgr.page_isSome_iff _ q).mp ⟨pg, h⟩).2
            simp [BufMgr.allocPage_pages] at this
            unfold PageId at *
            omega
        rw [h1, h2]

/-- C20 (leaf split): `insertEntryHelper` on a full leaf (`size == L`) that
satisfies the leaf invariant, with `i` the insertion index of the search
loop.  The call returns `(R.keyArray[0], pageId(R))` with `R` the newly
allocated page; the occupied slots of the current leaf followed by those of
`R` are the old `L` entries with `(key, rid)` inserted at position `i`;
`R.keyArray[0]` is `>=` every key left in the current leaf and `<=` every
key of `R`; and the sibling pointers thread `R` after the current leaf. -/
theorem c20_leaf_split_distributes_entries (L M fuel : Nat) (bm : BufMgr) (key : Int)
    (rid : RecordId) (p : PageId) (leaf : LeafNodeInt)
    (hleaf : bm.leafAt L p = some leaf) (hinv : LeafInv L leaf) (hL : 1 ≤ L)
    (hfull : leaf.size = L) :
    ∃ bm1 cur new,
      insertEntryHelper L M (fuel + 1) bm key rid p true
        = (bm1, .returned (new.keyArray.getD 0 0, bm.pages.length + 1)) ∧
      bm1.leafAt L p = some cur ∧ bm1.leafAt L (bm.pages.length + 1) = some new ∧
      cur.keys ++ new.keys
        = leaf.keys.take (findIndex leaf.keyArray key leaf.size)
          ++ key :: leaf.keys.drop (findIndex leaf.keyArray key leaf.size) ∧
      cur.rids ++ new.rids
        = leaf.rids.take (findIndex leaf.keyArray key leaf.size)
          ++ rid :: leaf.rids.drop (findIndex leaf.keyArray key leaf.size) ∧
      cur.keys.length = cur.rids.length ∧ new.keys.length = new.rids.length ∧
      (∀ a, a ∈ cur.keys → a ≤ new.keyArray.getD 0 0) ∧
      (∀ b, b ∈ new.keys → new.keyArray.getD 0 0 ≤ b) ∧
      cur.rightSibPageNo = bm.pages.length + 1 ∧
      new.rightSibPageNo = leaf.rightSibPageNo := by
  obtain ⟨bm0, hread⟩ := BufMgr.readPage_isSome_of_leafAt hleaf
  have hpages : bm0.pages = bm.pages := BufMgr.readPage_pages hread
  have hleaf0 : bm0.leafAt L p = some leaf := by
    rw [BufMgr.leafAt_of_pages_eq hpages]; exact hleaf
  obtain ⟨cur, new, hsplit, hout, hcurAt, hnewAt, _, _⟩ :=
    insertIntoLeaf_split L bm0 key rid p leaf hleaf0 hinv hL hfull
  obtain ⟨cur1, new1, hsplit1, _, ⟨hck, hcr, hnk, hnr⟩, hkeys, hrids, hcsib, hnsib, hnsize,
    _, _⟩ := splitLeaf_spec L key rid leaf hinv hfull hL
  rw [hsplit] at hsplit1
  cases hsplit1
  obtain ⟨hi, hle, hge⟩ := findIndex_keys leaf key (by rw [hinv.keyLen]; exact hinv.sizeLe)
    hinv.sorted
  have hsorted : (cur.keys ++ new.keys).Pairwise (· ≤ ·) := by
    rw [hkeys]
    exact pairwise_insert _ _ _ hinv.sorted hle (fun b hb => le_of_lt (hge b hb))
  have hhead := keys_eq_head_cons new hnsize (by rw [hnk]; exact hL)
  rw [List.pairwise_append] at hsorted
  obtain ⟨_, hnsorted, hcross⟩ := hsorted
  have hmem : new.keyArray.getD 0 0 ∈ new.keys := by rw [hhead]; exact List.mem_cons_self _ _
  refine ⟨(insertIntoLeaf L bm0 key rid p).1,
    { cur with rightSibPageNo := bm0.pages.length + 1 },
    { new with rightSibPageNo := cur.rightSibPageNo }, ?_, hcurAt, ?_, hkeys, hrids, ?_, ?_,
    ?_, ?_, ?_, ?_⟩
  · unfold insertEntryHelper
    simp only [hread, if_true]
    rw [← hpages]
    exact Prod.ext rfl hout
  · rw [← hpages]; exact hnewAt
  · simp [LeafNodeInt.keys, LeafNodeInt.rids, List.length_take, hck, hcr]
  · simp [LeafNodeInt.keys, LeafNodeInt.rids, List.length_take, hnk, hnr]
  · intro a ha
    exact hcross a ha _ hmem
  · intro b hb
    have hb1 : b ∈ new.keys := hb
    rw [hhead] at hb1 hnsorted
    rcases List.mem_cons.mp hb1 with hb1 | hb1
    · rw [hb1]
    · exact (List.pairwise_cons.mp hnsorted).1 b hb1
  · simp only [hpages]
  · simp only [hcsib]

/-- Witness of C20: the full leaf `[10, 20, 30, 40]` of the index built with
`L = M = 4`, into which key `25` is inserted. -/
theorem c20_witness :
    ∃ (bm1 : BufMgr) (cur new : LeafNodeInt),
      insertEntryHelper 4 4 1 (buildIndex 4 4 [10, 20, 30, 40]).1.bufMgr 25 (testRid 25) 2 true
        = (bm1, .returned (new.keyArray.getD 0 0, 3)) ∧
      cur.keys ++ new.keys = [10, 20, 25, 30, 40] :=
  match c20_leaf_split_distributes_entries 4 4 0 (buildIndex 4 4 [10, 20, 30, 40]).1.bufMgr 25
    (testRid 25) 2
    { keyArray := [10, 20, 30, 40]
      ridArray := [testRid 10, testRid 20, testRid 30, testRid 40]
      rightSibPageNo := 0
      size := 4 }
    (by decide)
    ⟨by decide, by decide, by decide, by decide, by decide,
      fun j h1 h2 => absurd h2 (Nat.not_lt.mpr h1)⟩
    (by decide) (by decide) with
  | ⟨bm1, cur, new, h1, _, _, h4, _⟩ => ⟨bm1, cur, new, h1, h4⟩

/-! ## Internal nodes after an internal split (C14, C15) -/

/-- C14, evaluated with `L = M = 2` on the keys `3, 4, 8, 1, 5, 2, 7, 6`
inserted in this order into a fresh index: every call returns normally,
after the first seven the internal node on page 7 has `size = 2 = M` while
`pageNoArray[M]` is `INVALID` (the internal split of case 2 left it one
child short), so the eighth call takes the in-place branch and the node
ends with `size = 3 > M`. -/
theorem c14_internal_node_size_exceeds_capacity :
    (buildIndex 2 2 [3, 4, 8, 1, 5, 2, 7]).2 = .returned () ∧
    (buildIndex 2 2 [3, 4, 8, 1, 5, 2, 7]).1.bufMgr.nonLeafAt 2 7
      = some { level := 1, keyArray := [5, 8], pageNoArray := [3, 9, 0], size := 2 } ∧
    (buildIndex 2 2 [3, 4, 8, 1, 5, 2, 7, 6]).2 = .returned () ∧
    (buildIndex 2 2 [3, 4, 8, 1, 5, 2, 7, 6]).1.bufMgr.nonLeafAt 2 7
      = some { level := 1, keyArray := [5, 7], pageNoArray := [3, 9, 10], size := 3 } := by
  decide

/-- C15, evaluated with `L = M = 4` on the keys `0..12` inserted in this
order into a fresh index.  After the keys `0..11` the root (page 4) is full.
Key `12` splits it by case 2: the copy loop stops before `pageNoArray[M]`,
so the left node (page 4) keeps the stale child `7` in `pageNoArray[4]`
with `size = 2 < M`, and the right node (page 9) has `size = 2` with
`INVALID` in `pageNoArray[1]` and `pageNoArray[2]` and a child in
`pageNoArray[3]`.  The sentinel test then calls page 4 full. -/
theorem c15_internal_split_breaks_child_array :
    (buildIndex 4 4 [0, 1, 2, 3, 4, 5, 6, 7, 8, 9, 10, 11]).1.bufMgr.nonLeafAt 4 4
      = some { level := 1, keyArray := [2, 4, 6, 8], pageNoArray := [2, 3, 5, 6, 7],
               size := 4 } ∧
    (buildIndex 4 4 [0, 1, 2, 3, 4, 5, 6, 7, 8, 9, 10, 11, 12]).2 = .returned () ∧
    (buildIndex 4 4 [0, 1, 2, 3, 4, 5, 6, 7, 8, 9, 10, 11, 12]).1.bufMgr.nonLeafAt 4 4
      = some { level := 1, keyArray := [2, 4, 0, 0], pageNoArray := [2, 3, 5, 0, 7],
               size := 2 } ∧
    (buildIndex 4 4 [0, 1, 2, 3, 4, 5, 6, 7, 8, 9, 10, 11, 12]).1.bufMgr.nonLeafAt 4 9
      = some { level := 1, keyArray := [8, 0, 10, 0], pageNoArray := [6, 0, 0, 8, 0],
               size := 2 } := by
  decide

/-! ## Pins of a scan (C16) -/

/-- C16, evaluated with `L = M = 4` on the index that holds the single key
`5`: `startScan(5, GTE, 5, LTE)` pins the leaf (page 2) once; `scanNext`
unpins it and raises `IndexScanCompleted`; `endScan` then unpins page 2
again although its pin count is already `0`.  The scan pinned page 2 once
and unpinned it twice. -/
theorem c16_endScan_unpins_leaf_twice :
    (buildIndex 4 4 [5]).1.bufMgr.pinCnt = [0, 0] ∧
    (startScan 4 4 8 (buildIndex 4 4 [5]).1 5 .GTE 5 .LTE).2 = .returned () ∧
    (startScan 4 4 8 (buildIndex 4 4 [5]).1 5 .GTE 5 .LTE).1.bufMgr.pinCnt = [0, 1] ∧
    (scanNext 4 (startScan 4 4 8 (buildIndex 4 4 [5]).1 5 .GTE 5 .LTE).1 ⟨0, 0⟩).2.2
      = .threw .IndexScanCompleted ∧
    (scanNext 4 (startScan 4 4 8 (buildIndex 4 4 [5]).1 5 .GTE 5 .LTE).1
      ⟨0, 0⟩).1.bufMgr.pinCnt = [0, 0] ∧
    (endScan (scanNext 4 (startScan 4 4 8 (buildIndex 4 4 [5]).1 5 .GTE 5 .LTE).1
      ⟨0, 0⟩).1).2 = .returned () ∧
    (endScan (scanNext 4 (startScan 4 4 8 (buildIndex 4 4 [5]).1 5 .GTE 5 .LTE).1
      ⟨0, 0⟩).1).1.bufMgr.unPinLog
      = (buildIndex 4 4 [5]).1.bufMgr.unPinLog ++ [(2, false), (2, false)] := by
  decide

/-! ## Reopening an index (C17) -/

/-- C17, evaluated with `L = M = 4`.  The index over the keys `10, 20, 30`
has a leaf root; before the close the scan `[10, 20]` returns 2 rids.  The
constructor on the existing file restores `rootPageNum` but assigns nothing
to `rootIsLeaf`: on a handle whose member held `false` the same scan casts
the leaf root to an internal node, on one whose member held `true` it
returns 2 rids again.  For the index over `0..4`, whose root is an internal
node, a handle whose member held `true` casts the root to a leaf. -/
theorem c17_reopen_leaves_rootIsLeaf_unassigned :
    (buildIndex 4 4 [10, 20, 30]).1.rootIsLeaf = true ∧
    (intScan 4 4 8 (buildIndex 4 4 [10, 20, 30]).1 10 .GTE 20 .LTE).2 = .returned 2 ∧
    (BTreeIndex.construct 4 4 8 BTreeIndex.blank (some (buildIndex 4 4 [10, 20, 30]).1.bufMgr)
      ['r', 'e', 'l', 'A'] [] 0 .INTEGER).2 = .returned () ∧
    (BTreeIndex.construct 4 4 8 BTreeIndex.blank (some (buildIndex 4 4 [10, 20, 30]).1.bufMgr)
      ['r', 'e', 'l', 'A'] [] 0 .INTEGER).1.rootPageNum
      = (buildIndex 4 4 [10, 20, 30]).1.rootPageNum ∧
    (BTreeIndex.construct 4 4 8 BTreeIndex.blank (some (buildIndex 4 4 [10, 20, 30]).1.bufMgr)
      ['r', 'e', 'l', 'A'] [] 0 .INTEGER).1.rootIsLeaf = false ∧
    (intScan 4 4 8
      (BTreeIndex.construct 4 4 8 BTreeIndex.blank (some (buildIndex 4 4 [10, 20, 30]).1.bufMgr)
        ['r', 'e', 'l', 'A'] [] 0 .INTEGER).1 10 .GTE 20 .LTE).2 = .undefined ∧
    (intScan 4 4 8
      (BTreeIndex.construct 4 4 8 { BTreeIndex.blank with rootIsLeaf := true }
        (some (buildIndex 4 4 [10, 20, 30]).1.bufMgr)
        ['r', 'e', 'l', 'A'] [] 0 .INTEGER).1 10 .GTE 20 .LTE).2 = .returned 2 ∧
    (buildIndex 4 4 [0, 1, 2, 3, 4]).1.rootIsLeaf = false ∧
    (intScan 4 4 8 (buildIndex 4 4 [0, 1, 2, 3, 4]).1 0 .GTE 1 .LTE).2 = .returned 2 ∧
    (intScan 4 4 8
      (BTreeIndex.construct 4 4 8 { BTreeIndex.blank with rootIsLeaf := true }
        (some (buildIndex 4 4 [0, 1, 2, 3, 4]).1.bufMgr)
        ['r', 'e', 'l', 'A'] [] 0 .INTEGER).1 0 .GTE 1 .LTE).2 = .undefined := by
  decide

/-! ## Internal split, case 2, and the level of a node (C23, C25) -/

/-- C23, evaluated with `L = M = 4`.  Keys `12, 11, ..., 1` inserted in this
order fill the root (page 4) with the keys `5, 7, 9, 11` and the children
`2, 7, 6, 5, 3`.  Key `0` then splits leaf 2 and hands `(3, 8)` to the root
at position `i = 0 != M/2`.  The keys come out as the claim says (`3, 5`,
promoted `7`, `9, 11`), but the children of the two nodes are `2, 8, 7` and
`6, 5, INVALID`: the old child `3` in `pageNoArray[M]` is in neither node
and `R` (page 9) holds two valid children for two keys.  With the keys
`0..12` inserted upwards the separator arrives at `i = 4 > M/2` and `R`
receives it at slot `i - mid = 2`, behind an unused slot: `R.keyArray` is
`8, 0, 10, 0` with `size = 2`. -/
theorem c23_internal_split_case2_loses_last_child :
    (buildIndex 4 4 [12, 11, 10, 9, 8, 7, 6, 5, 4, 3, 2, 1]).1.bufMgr.nonLeafAt 4 4
      = some { level := 1, keyArray := [5, 7, 9, 11], pageNoArray := [2, 7, 6, 5, 3],
               size := 4 } ∧
    (buildIndex 4 4 [12, 11, 10, 9, 8, 7, 6, 5, 4, 3, 2, 1, 0]).2 = .returned () ∧
    (buildIndex 4 4 [12, 11, 10, 9, 8, 7, 6, 5, 4, 3, 2, 1, 0]).1.bufMgr.nonLeafAt 4 4
      = some { level := 1, keyArray := [3, 5, 0, 0], pageNoArray := [2, 8, 7, 0, 0],
               size := 2 } ∧
    (buildIndex 4 4 [12, 11, 10, 9, 8, 7, 6, 5, 4, 3, 2, 1, 0]).1.bufMgr.nonLeafAt 4 9
      = some { level := 1, keyArray := [9, 11, 0, 0], pageNoArray := [6, 5, 0, 0, 0],
               size := 2 } ∧
    (buildIndex 4 4 [12, 11, 10, 9, 8, 7, 6, 5, 4, 3, 2, 1, 0]).1.bufMgr.nonLeafAt 4 10
      = some { level := 0, keyArray := [7, 0, 0, 0], pageNoArray := [4, 9, 0, 0, 0],
               size := 1 } ∧
    ((buildIndex 4 4 [0, 1, 2, 3, 4, 5, 6, 7, 8, 9, 10, 11, 12]).1.bufMgr.nonLeafAt 4 9).map
      (fun n => (n.keyArray, n.size)) = some ([8, 0, 10, 0], 2) := by
  decide

/-- C25, evaluated with `L = M = 4` on the keys `12, 11, ..., 0` inserted in
this order into a fresh index.  The root (page 10) has level `0` and the two
internal children `4` and `9`.  Node 9 has level `1` and `size = 2`, so its
children are the slots `0..2`; slot `2` holds `INVALID`, which is no leaf
(page `0` does not exist), and the leaf on page 3, which held that place
before the split, is a child of no node. -/
theorem c25_level1_node_with_invalid_child :
    (buildIndex 4 4 [12, 11, 10, 9, 8, 7, 6, 5, 4, 3, 2, 1, 0]).2 = .returned () ∧
    (buildIndex 4 4 [12, 11, 10, 9, 8, 7, 6, 5, 4, 3, 2, 1, 0]).1.rootIsLeaf = false ∧
    (buildIndex 4 4 [12, 11, 10, 9, 8, 7, 6, 5, 4, 3, 2, 1, 0]).1.rootPageNum = 10 ∧
    ((buildIndex 4 4 [12, 11, 10, 9, 8, 7, 6, 5, 4, 3, 2, 1, 0]).1.bufMgr.nonLeafAt 4 10).map
      (fun n => (n.level, n.size, n.pageNoArray.take (n.size + 1))) = some (0, 1, [4, 9]) ∧
    ((buildIndex 4 4 [12, 11, 10, 9, 8, 7, 6, 5, 4, 3, 2, 1, 0]).1.bufMgr.nonLeafAt 4 9).map
      (fun n => (n.level, n.size, n.pageNoArray.take (n.size + 1))) = some (1, 2, [6, 5, 0]) ∧
    (buildIndex 4 4 [12, 11, 10, 9, 8, 7, 6, 5, 4, 3, 2, 1, 0]).1.bufMgr.page 0 = none ∧
    ((buildIndex 4 4 [12, 11, 10, 9, 8, 7, 6, 5, 4, 3, 2, 1, 0]).1.bufMgr.leafAt 4 3).map
      (fun n => n.keys) = some [11, 12] ∧
    ((buildIndex 4 4 [12, 11, 10, 9, 8, 7, 6, 5, 4, 3, 2, 1, 0]).1.bufMgr.nonLeafAt 4 4).map
      (fun n => n.pageNoArray) = some [2, 8, 7, 0, 0] := by
  decide

/-! ## The descent of `startScan` (C26) -/

/-- C26, evaluated with `L = M = 4` on the keys `0..4` inserted in this
order: the root (page 4) has `size = 1`, the separator `2`, the children `2`
and `3`, zeros in the unused key slots and `INVALID` in the unused child
slots.  For `lowVal = 3` the loop of the descent passes the unused key slots
(`0 < 3`) and stops at `index = M = 4 > size`; the page followed is
`pageNoArray[4] = INVALID` and `startScan(3, GTE, 10, LTE)` ends in the
error of `readPage`, although the keys `3` and `4` are in the range.  For
`lowVal = -3` the descent stops at index `0`. -/
theorem c26_descent_runs_past_size :
    (buildIndex 4 4 [0, 1, 2, 3, 4]).2 = .returned () ∧
    (buildIndex 4 4 [0, 1, 2, 3, 4]).1.rootIsLeaf = false ∧
    (buildIndex 4 4 [0, 1, 2, 3, 4]).1.bufMgr.nonLeafAt 4
        (buildIndex 4 4 [0, 1, 2, 3, 4]).1.rootPageNum
      = some { level := 1, keyArray := [2, 0, 0, 0], pageNoArray := [2, 3, 0, 0, 0],
               size := 1 } ∧
    descendIndexFrom [2, 0, 0, 0] 3 4 0 = 4 ∧
    ([2, 3, 0, 0, 0] : List PageId).getD 4 0 = INVALID_NUMBER ∧
    (startScan 4 4 8 (buildIndex 4 4 [0, 1, 2, 3, 4]).1 3 .GTE 10 .LTE).2
      = .threw .InvalidPage ∧
    (startScan 4 4 8 (buildIndex 4 4 [0, 1, 2, 3, 4]).1 3 .GTE 10 .LTE).1.currentPageNum
      = INVALID_NUMBER ∧
    descendIndexFrom [2, 0, 0, 0] (-3) 4 0 = 0 ∧
    (intScan 4 4 8 (buildIndex 4 4 [0, 1, 2, 3, 4]).1 (-3) .GTE 1 .LTE).2 = .returned 2 := by
  decide

/-! ## The leaf search of `startScan` does not move to the right sibling (C27) -/

/-- The leaf search on a leaf without an entry that ends it, and with a
right sibling, keeps `currentPageNum` on that leaf. -/
theorem startScanLeaves_stuck_page (L : Nat) (leaf : LeafNodeInt) :
    ∀ (fuel : Nat) (s : BTreeIndex),
      s.currentPageData = s.currentPageNum →
      s.bufMgr.leafAt L s.currentPageNum = some leaf →
      leafSearchFrom s.lowOp s.lowValInt s.highOp s.highValInt leaf L 0 = .notFound →
      leaf.rightSibPageNo ≠ INVALID_NUMBER →
      (startScanLeaves L fuel s).1.currentPageNum = s.currentPageNum := by
  intro fuel
  induction fuel with
  | zero => intro s _ _ _ _; rfl
  | succ n ih =>
    intro s hptr hleaf hsearch hsib
    have hleaf1 : (s.bufMgr.unPinPage s.currentPageNum false).leafAt L s.currentPageNum
        = some leaf := by
      rw [BufMgr.leafAt_of_pages_eq (BufMgr.unPinPage_pages _ _ _)]; exact hleaf
    obtain ⟨bm1, hread⟩ := BufMgr.readPage_isSome_of_leafAt hleaf1
    have hpages : bm1.pages = s.bufMgr.pages := by
      rw [BufMgr.readPage_pages hread, BufMgr.unPinPage_pages]
    unfold startScanLeaves
    simp only [hptr, hleaf, hsearch, hsib, if_false, hread]
    have h2 : bm1.leafAt L s.currentPageNum = some leaf := by
      rw [BufMgr.leafAt_of_pages_eq hpages]; exact hleaf
    exact ih { s with bufMgr := bm1, currentPageData := s.currentPageNum } rfl h2 hsearch hsib

/-- C27: a scan on a tree whose root is a level-1 node, when the leaf that
the descent reaches (`leaf`, the child at the descent index) holds no entry
that satisfies the low bound and none that exceeds the high bound, and has a
valid right sibling.  Whatever the fuel, `startScan` does not return and
does not raise; after the descent `currentPageNum` stays on `leaf`: the
search reads the same page again and never examines the sibling. -/
theorem c27_startScan_never_reaches_right_sibling (L M : Nat) (s : BTreeIndex) (lv hv : Int)
    (lo ho : Operator) (inner : NonLeafNodeInt) (leaf : LeafNodeInt)
    (hlo : lo = .GT ∨ lo = .GTE) (hho : ho = .LT ∨ ho = .LTE) (hrange : lv ≤ hv)
    (hroot : s.rootIsLeaf = false)
    (hinner : s.bufMgr.nonLeafAt M s.rootPageNum = some inner)
    (hlevel : inner.level = 1)
    (hleaf : s.bufMgr.leafAt L
      (inner.pageNoArray.getD (descendIndexFrom inner.keyArray lv M 0) 0) = some leaf)
    (hsearch : leafSearchFrom lo lv ho hv leaf L 0 = .notFound)
    (hsib : leaf.rightSibPageNo ≠ INVALID_NUMBER) (fuel : Nat) :
    (startScan L M fuel s lv lo hv ho).2 = .outOfFuel ∧
    (startScan L M (fuel + 1) s lv lo hv ho).1.currentPageNum
      = inner.pageNoArray.getD (descendIndexFrom inner.keyArray lv M 0) 0 := by
  refine ⟨startScan_stuck L M s lv hv lo ho inner leaf hlo hho hrange hroot hinner hlevel hleaf
    hsearch hsib fuel, ?_⟩
  obtain ⟨bm1, hread1⟩ := BufMgr.readPage_isSome_of_nonLeafAt hinner
  have hpages1 : bm1.pages = s.bufMgr.pages := BufMgr.readPage_pages hread1
  have hlo1 : ¬ (lo ≠ .GT ∧ lo ≠ .GTE) := by rcases hlo with h | h <;> simp [h]
  have hho1 : ¬ (ho ≠ .LT ∧ ho ≠ .LTE) := by rcases hho with h | h <;> simp [h]
  unfold startScan
  simp only [hlo1, hho1, if_false, not_lt.mpr hrange, hread1, hroot]
  have hinner1 : bm1.nonLeafAt M s.rootPageNum = some inner := by
    rw [BufMgr.nonLeafAt_of_pages_eq hpages1]; exact hinner
  have hleaf1 : (bm1.unPinPage s.rootPageNum false).leafAt L
      (inner.pageNoArray.getD (descendIndexFrom inner.keyArray lv M 0) 0) = some leaf := by
    have hp : (bm1.unPinPage s.rootPageNum false).pages = s.bufMgr.pages := by
      rw [BufMgr.unPinPage_pages, hpages1]
    rw [BufMgr.leafAt_of_pages_eq hp]; exact hleaf
  obtain ⟨bm2, hread2⟩ := BufMgr.readPage_isSome_of_leafAt hleaf1
  have hpages2 : bm2.pages = s.bufMgr.pages := by
    rw [BufMgr.readPage_pages hread2, BufMgr.unPinPage_pages, hpages1]
  unfold startScanDescend
  simp only [hinner1, hread2, hlevel, if_true, Bool.false_eq_true, if_false]
  rw [startScanLeaves_stuck_page L leaf]
  · rfl
  · simpa [BufMgr.leafAt_of_pages_eq hpages2] using hleaf
  · exact hsearch
  · exact hsib

/-- C27 at a concrete input: `L = M = 4`, keys `20, 40, 60, 80, 100`, scan
`[50, 70]`.  The descent reaches the leaf `[20, 40]` (page 2), whose right
sibling (page 3) holds the key `60` of the range; `startScan` never gets
there. -/
theorem c27_witness :
    (buildIndex 4 4 [20, 40, 60, 80, 100]).1.bufMgr.leafAt 4 3
      = some { keyArray := [60, 80, 100, 0]
               ridArray := [testRid 60, testRid 80, testRid 100, ⟨0, 0⟩]
               rightSibPageNo := 0
               size := 3 } ∧
    (startScan 4 4 100 (buildIndex 4 4 [20, 40, 60, 80, 100]).1 50 .GTE 70 .LTE).2
      = .outOfFuel ∧
    (startScan 4 4 101 (buildIndex 4 4 [20, 40, 60, 80, 100]).1 50 .GTE 70 .LTE).1.currentPageNum
      = 2 :=
  ⟨by decide,
   c27_startScan_never_reaches_right_sibling 4 4 (buildIndex 4 4 [20, 40, 60, 80, 100]).1 50 70
    .GTE .LTE
    { level := 1, keyArray := [60, 0, 0, 0], pageNoArray := [2, 3, 0, 0, 0], size := 1 }
    { keyArray := [20, 40, 0, 0]
      ridArray := [testRid 20, testRid 40, ⟨0, 60⟩, ⟨0, 80⟩]
      rightSibPageNo := 3
      size := 2 }
    (by decide) (by decide) (by decide) (by decide) (by decide) (by decide) (by decide)
    (by decide) (by decide) 100⟩

/-! ## `scanNext` on an entry within the range (C28) -/

/-- C28: `scanNext` with an active scan whose cursor is on an occupied slot
(`rid.page_number != INVALID`) with a key within the high bound.  When the
next slot of the leaf is occupied the call returns the rid and moves the
cursor to the next slot.  When the entry is the last one of its leaf and the
leaf has a right sibling, the call returns the rid and moves the cursor to
slot `0` of the sibling.  When the entry is the last one of its leaf and the
leaf has no right sibling - the last entry of the chain - the call assigns
the rid to `outRid` and raises `IndexScanCompleted`. -/
theorem c28_scanNext_on_occupied_slot (L : Nat) (s : BTreeIndex) (outRid : RecordId)
    (leaf : LeafNodeInt) (key : Int) (rid : RecordId)
    (hscan : s.scanExecuting = true)
    (hleaf : s.bufMgr.leafAt L s.currentPageData = some leaf)
    (hkey : leaf.keyArray[s.nextEntry]? = some key)
    (hrid : leaf.ridArray[s.nextEntry]? = some rid)
    (hhigh : exceedsHigh s.highOp s.highValInt key = false)
    (hvalid : rid.page_number ≠ INVALID_NUMBER) :
    ((leaf.ridArray.getD (s.nextEntry + 1) default).page_number ≠ INVALID_NUMBER →
      s.nextEntry + 1 < L →
      scanNext L s outRid = ({ s with nextEntry := s.nextEntry + 1 }, rid, .returned ())) ∧
    (((leaf.ridArray.getD (s.nextEntry + 1) default).page_number = INVALID_NUMBER
        ∨ s.nextEntry + 1 ≥ L) →
      leaf.rightSibPageNo ≠ INVALID_NUMBER →
      ∀ bm, (s.bufMgr.unPinPage s.currentPageNum false).readPage leaf.rightSibPageNo = some bm →
      scanNext L s outRid
        = ({ s with
              bufMgr := bm
              currentPageNum := leaf.rightSibPageNo
              currentPageData := leaf.rightSibPageNo
              nextEntry := 0 }, rid, .returned ())) ∧
    (((leaf.ridArray.getD (s.nextEntry + 1) default).page_number = INVALID_NUMBER
        ∨ s.nextEntry + 1 ≥ L) →
      leaf.rightSibPageNo = INVALID_NUMBER →
      scanNext L s outRid
        = ({ s with
              bufMgr := s.bufMgr.unPinPage s.currentPageNum false
              nextEntry := s.nextEntry + 1 }, rid, .threw .IndexScanCompleted)) := by
  refine ⟨?_, ?_, ?_⟩
  · intro hnext hlt
    unfold scanNext
    have hcond : ¬ ((leaf.ridArray.getD (s.nextEntry + 1) default).page_number = INVALID_NUMBER
        ∨ s.nextEntry + 1 ≥ L) := by
      rintro (h | h)
      · exact hnext h
      · omega
    simp only [hscan, hleaf, hkey, hrid, hhigh, hvalid, hcond, Bool.not_true,
      Bool.false_eq_true, if_false]
  · intro hlast hsib bm hread
    unfold scanNext
    simp only [hscan, hleaf, hkey, hrid, hhigh, hvalid, hlast, hsib, hread, Bool.not_true,
      Bool.false_eq_true, if_false, if_true]
  · intro hlast hsib
    unfold scanNext
    simp only [hscan, hleaf, hkey, hrid, hhigh, hvalid, hlast, hsib, Bool.not_true,
      Bool.false_eq_true, if_false, if_true]

/-- C28 at a concrete input: `L = M = 4`, index over the keys `10, 20`, scan
`[20, 30]`.  After `startScan` the cursor is on slot `1` of the root leaf,
the entry of key `20`; it is the last entry of the chain and `scanNext`
raises `IndexScanCompleted`. -/
theorem c28_witness :
    (startScan 4 4 8 (buildIndex 4 4 [10, 20]).1 20 .GTE 30 .LTE).2 = .returned () ∧
    (startScan 4 4 8 (buildIndex 4 4 [10, 20]).1 20 .GTE 30 .LTE).1.nextEntry = 1 ∧
    (scanNext 4 (startScan 4 4 8 (buildIndex 4 4 [10, 20]).1 20 .GTE 30 .LTE).1 ⟨0, 0⟩).2
      = (testRid 20, .threw .IndexScanCompleted) :=
  ⟨by decide, by decide,
   congrArg Prod.snd
    ((c28_scanNext_on_occupied_slot 4
      (startScan 4 4 8 (buildIndex 4 4 [10, 20]).1 20 .GTE 30 .LTE).1 ⟨0, 0⟩
      { keyArray := [10, 20, 0, 0]
        ridArray := [testRid 10, testRid 20, ⟨0, 0⟩, ⟨0, 0⟩]
        rightSibPageNo := 0
        size := 2 }
      20 (testRid 20) (by decide) (by decide) (by decide) (by decide) (by decide)
      (by decide)).2.2 (by decide) (by decide))⟩

/-! ## Internal split (C21, C22) -/

theorem insertIntoNonLeaf_full (M : Nat) (bm : BufMgr) (currPageId : PageId) (k : Int)
    (c : PageId) (node : NonLeafNodeInt) (hnode : bm.nonLeafAt M currPageId = some node)
    (hfull : node.pageNoArray.getD M 0 ≠ INVALID_NUMBER) :
    insertIntoNonLeaf M bm currPageId k c =
      match splitNonLeaf M k c node (findIndex node.keyArray k node.size) with
      | none => ((bm.allocPage.2).setPage bm.allocPage.1 .zero, .undefined)
      | some (cur3, new3, middleValue) =>
        (BufMgr.unPinPage (BufMgr.unPinPage (BufMgr.setPage (BufMgr.setPage
            (BufMgr.setPage bm.allocPage.2 bm.allocPage.1 .zero) currPageId
            (.nonLeaf cur3)) bm.allocPage.1 (.nonLeaf new3)) currPageId true)
            bm.allocPage.1 true,
          .returned (middleValue, bm.allocPage.1)) := by
  unfold insertIntoNonLeaf splitNonLeaf
  simp only [hnode, hfull, if_false]
  by_cases h1 : findIndex node.keyArray k node.size = M / 2
  · simp only [h1, if_true]
  · simp only [h1, if_false]
    by_cases h2 : findIndex node.keyArray k node.size < M / 2
    · simp only [h2, if_true]
      cases insertNonLeafNode M k c _ (findIndex node.keyArray k node.size) <;> rfl
    · simp only [h2, if_false]
      cases insertNonLeafNode M k c _ _ <;> rfl

theorem insertIntoNonLeaf_room (M : Nat) (bm : BufMgr) (currPageId : PageId) (k : Int)
    (c : PageId) (node : NonLeafNodeInt) (hnode : bm.nonLeafAt M currPageId = some node)
    (hroom : node.pageNoArray.getD M 0 = INVALID_NUMBER) :
    insertIntoNonLeaf M bm currPageId k c =
      match insertNonLeafNode M k c node (findIndex node.keyArray k node.size) with
      | none => (bm, .undefined)
      | some n =>
        ((bm.setPage currPageId (.nonLeaf n)).unPinPage currPageId true, .returned (0, 0)) := by
  unfold insertIntoNonLeaf
  simp only [hnode, hroom, if_true]

/-- The pages after a split: the current page holds `X`, the newly allocated
page holds `Y`, every other page is as before. -/
theorem splitPages_spec (bm : BufMgr) (p : PageId) (X Y : Page)
    (hp : p ≠ INVALID_NUMBER ∧ p ≤ bm.pages.length) :
    (BufMgr.unPinPage (BufMgr.unPinPage (BufMgr.setPage (BufMgr.setPage
        (BufMgr.setPage bm.allocPage.2 bm.allocPage.1 .zero) p X) bm.allocPage.1 Y) p true)
        bm.allocPage.1 true).page p = some X ∧
    (BufMgr.unPinPage (BufMgr.unPinPage (BufMgr.setPage (BufMgr.setPage
        (BufMgr.setPage bm.allocPage.2 bm.allocPage.1 .zero) p X) bm.allocPage.1 Y) p true)
        bm.allocPage.1 true).page (bm.pages.length + 1) = some Y ∧
    (BufMgr.unPinPage (BufMgr.unPinPage (BufMgr.setPage (BufMgr.setPage
        (BufMgr.setPage bm.allocPage.2 bm.allocPage.1 .zero) p X) bm.allocPage.1 Y) p true)
        bm.allocPage.1 true).pages.length = bm.pages.length + 1 ∧
    (∀ q, q ≠ p → q ≠ bm.pages.length + 1 →
      (BufMgr.unPinPage (BufMgr.unPinPage (BufMgr.setPage (BufMgr.setPage
        (BufMgr.setPage bm.allocPage.2 bm.allocPage.1 .zero) p X) bm.allocPage.1 Y) p true)
        bm.allocPage.1 true).page q = bm.page q) := by
  have hpR : p ≠ bm.pages.length + 1 := by
    have := hp.2
    unfold PageId at *
    omega
  have hR0 : bm.pages.length + 1 ≠ INVALID_NUMBER := by simp [INVALID_NUMBER]
  have hR : bm.allocPage.1 = bm.pages.length + 1 := rfl
  have hlenY : ((bm.allocPage.2.setPage (bm.pages.length + 1) Page.zero).setPage p
      X).pages.length = bm.pages.length + 1 := by
    rw [BufMgr.setPage_length, BufMgr.setPage_length]
    simp [BufMgr.allocPage_pages]
  have hlenX : (bm.allocPage.2.setPage (bm.pages.length + 1) Page.zero).pages.length
      = bm.pages.length + 1 := by
    rw [BufMgr.setPage_length]
    simp [BufMgr.allocPage_pages]
  have hple : p ≤ bm.pages.length + 1 := by
    have := hp.2
    unfold PageId at *
    omega
  simp only [hR]
  refine ⟨?_, ?_, ?_, ?_⟩
  · rw [BufMgr.page_of_pages_eq (BufMgr.unPinPage_pages _ _ _),
      BufMgr.page_of_pages_eq (BufMgr.unPinPage_pages _ _ _),
      BufMgr.page_setPage_other _ _ _ _ hpR hp.1,
      BufMgr.page_setPage_same _ _ _ ⟨hp.1, by rw [hlenX]; exact hple⟩]
  · rw [BufMgr.page_of_pages_eq (BufMgr.unPinPage_pages _ _ _),
      BufMgr.page_of_pages_eq (BufMgr.unPinPage_pages _ _ _),
      BufMgr.page_setPage_same _ _ _ ⟨hR0, by rw [hlenY]⟩]
  · simp only [BufMgr.unPinPage_pages, BufMgr.setPage_length, BufMgr.allocPage_pages,
      List.length_append, List.length_singleton]
  · intro q hq1 hq2
    rw [BufMgr.page_of_pages_eq (BufMgr.unPinPage_pages _ _ _),
      BufMgr.page_of_pages_eq (BufMgr.unPinPage_pages _ _ _)]
    by_cases hq0 : q = INVALID_NUMBER
    · simp [BufMgr.page, hq0]
    · rw [BufMgr.page_setPage_other _ _ _ _ hq2 hq0,
        BufMgr.page_setPage_other _ _ _ _ hq1 hq0,
        BufMgr.page_setPage_other _ _ _ _ hq2 hq0]
      by_cases hle : q ≤ bm.pages.length
      · exact BufMgr.page_allocPage_old bm q hle
      · have h1 : bm.page q = none := by
          cases h : bm.page q with
          | none => rfl
          | some pg => exact absurd ((BufMgr.page_isSome_iff bm q).mp ⟨pg, h⟩).2 hle
        have h2 : bm.allocPage.2.page q = none := by
          cases h : bm.allocPage.2.page q with
          | none => rfl
          | some pg =>
            have := ((BufMgr.page_isSome_iff _ q).mp ⟨pg, h⟩).2
            simp [BufMgr.allocPage_pages] at this
            unfold PageId at *
            omega
        rw [h1, h2]

theorem BufMgr.valid_of_nonLeafAt {bm : BufMgr} {M : Nat} {p : PageId} {n : NonLeafNodeInt}
    (h : bm.nonLeafAt M p = some n) : p ≠ INVALID_NUMBER ∧ p ≤ bm.pages.length := by
  apply (BufMgr.page_isSome_iff bm p).mp
  unfold BufMgr.nonLeafAt at h
  cases hpg : bm.page p with
  | none => simp [hpg] at h
  | some pg => exact ⟨pg, rfl⟩

theorem BufMgr.valid_of_leafAt {bm : BufMgr} {L : Nat} {p : PageId} {n : LeafNodeInt}
    (h : bm.leafAt L p = some n) : p ≠ INVALID_NUMBER ∧ p ≤ bm.pages.length := by
  apply (BufMgr.page_isSome_iff bm p).mp
  unfold BufMgr.leafAt at h
  cases hpg : bm.page p with
  | none => simp [hpg] at h
  | some pg => exact ⟨pg, rfl⟩

theorem insertLeafNode_size {L : Nat} {key : Int} {rid : RecordId} {n m : LeafNodeInt} {i : Nat}
    (h : insertLeafNode L key rid n i = some m) : m.size = n.size + 1 := by
  unfold insertLeafNode at h
  split at h
  · cases h; rfl
  · cases h

theorem insertNonLeafNode_size {M : Nat} {k : Int} {c : PageId} {n m : NonLeafNodeInt} {i : Nat}
    (h : insertNonLeafNode M k c n i = some m) :
    m.size = n.size + 1 ∧ m.level = n.level ∧ i < M := by
  unfold insertNonLeafNode at h
  split at h
  · cases h; exact ⟨rfl, rfl, by assumption⟩
  · cases h

/-- The sizes after a leaf split with the insertion. -/
theorem splitLeaf_sizes (L : Nat) (key : Int) (rid : RecordId) (leaf : LeafNodeInt) (i : Nat)
    (cur new : LeafNodeInt) (h : splitLeaf L key rid leaf i = some (cur, new)) :
    cur.size + new.size = L + 1 ∧ cur.size ≤ new.size + 1 ∧ new.size ≤ cur.size + 1 := by
  unfold splitLeaf at h
  simp only at h
  split at h
  · obtain ⟨n, hn, he⟩ := Option.map_eq_some'.mp h
    cases he
    have hs := insertLeafNode_size hn
    simp only at hs
    rw [hs]
    simp only
    split_ifs <;> omega
  · obtain ⟨n, hn, he⟩ := Option.map_eq_some'.mp h
    cases he
    have hs := insertLeafNode_size hn
    simp only at hs
    rw [hs]
    simp only
    split_ifs <;> omega

theorem splitNonLeafLoop1_level (mid : Nat) :
    ∀ (is : List Nat) (cur new : NonLeafNodeInt),
      (splitNonLeafLoop1 mid cur new is).1.level = cur.level ∧
      (splitNonLeafLoop1 mid cur new is).2.level = new.level := by
  intro is
  induction is with
  | nil => intro cur new; exact ⟨rfl, rfl⟩
  | cons i is ih => intro cur new; simp only [splitNonLeafLoop1]; exact ih _ _

theorem splitNonLeafLoop2_level (mid : Nat) :
    ∀ (is : List Nat) (cur new : NonLeafNodeInt),
      (splitNonLeafLoop2 mid cur new is).1.level = cur.level ∧
      (splitNonLeafLoop2 mid cur new is).2.level = new.level := by
  intro is
  induction is with
  | nil => intro cur new; exact ⟨rfl, rfl⟩
  | cons i is ih => intro cur new; simp only [splitNonLeafLoop2]; exact ih _ _

theorem splitMid_cases (M i : Nat) :
    (i < M / 2 → M % 2 = 0 →
      (if M % 2 = 0 ∧ i < M / 2 then M / 2 - 1 else M / 2) = M / 2 - 1) ∧
    (i < M / 2 → M % 2 = 1 →
      (if M % 2 = 0 ∧ i < M / 2 then M / 2 - 1 else M / 2) = M / 2) ∧
    (¬ i < M / 2 → (if M % 2 = 0 ∧ i < M / 2 then M / 2 - 1 else M / 2) = M / 2) := by
  refine ⟨fun h1 h2 => by rw [if_pos ⟨h2, h1⟩], fun h1 h2 => ?_, fun h1 => ?_⟩
  · rw [if_neg]; omega
  · rw [if_neg]; omega

/-- The sizes and levels after an internal split with the placement of the
separator. -/
theorem splitNonLeaf_sizes (M : Nat) (k : Int) (c : PageId) (node : NonLeafNodeInt) (i : Nat)
    (cur new : NonLeafNodeInt) (mv : Int) (h : splitNonLeaf M k c node i = some (cur, new, mv)) :
    cur.size + new.size = M ∧ cur.size ≤ new.size + 1 ∧ new.size ≤ cur.size + 1 ∧
    cur.level = node.level ∧ new.level = node.level := by
  unfold splitNonLeaf at h
  simp only at h
  obtain ⟨hm1, hm2, hm3⟩ := splitMid_cases M i
  generalize (if M % 2 = 0 ∧ i < M / 2 then M / 2 - 1 else M / 2) = mid at h hm1 hm2 hm3
  split at h
  · cases h
    simp only
    refine ⟨by omega, by omega, by omega, (splitNonLeafLoop1_level _ _ _ _).1, ?_⟩
    exact (splitNonLeafLoop1_level _ _ _ _).2
  · split at h
    · obtain ⟨n, hn, he⟩ := Option.map_eq_some'.mp h
      cases he
      obtain ⟨hs, hl, hlt⟩ := insertNonLeafNode_size hn
      simp only at hs hl
      rw [hs, hl]
      simp only
      refine ⟨?_, ?_, ?_, (splitNonLeafLoop2_level _ _ _ _).1, (splitNonLeafLoop2_level _ _ _ _).2⟩
      all_goals rcases Nat.mod_two_eq_zero_or_one M with hp | hp
      all_goals first | (have hx := hm1 (by assumption) hp; omega) | (have hx := hm2 (by assumption) hp; omega)
    · obtain ⟨n, hn, he⟩ := Option.map_eq_some'.mp h
      cases he
      obtain ⟨hs, hl, hlt⟩ := insertNonLeafNode_size hn
      simp only at hs hl
      rw [hs, hl]
      simp only
      have := hm3 (by assumption)
      refine ⟨?_, ?_, ?_, (splitNonLeafLoop2_level _ _ _ _).1, (splitNonLeafLoop2_level _ _ _ _).2⟩
      all_goals omega

/-- For `M >= 2` and a position `i <= M` the internal split is defined. -/
theorem splitNonLeaf_isSome (M : Nat) (k : Int) (c : PageId) (node : NonLeafNodeInt) (i : Nat)
    (hM : 2 ≤ M) (hi : i ≤ M) : ∃ r, splitNonLeaf M k c node i = some r := by
  unfold splitNonLeaf
  simp only
  obtain ⟨hm1, hm2, hm3⟩ := splitMid_cases M i
  generalize (if M % 2 = 0 ∧ i < M / 2 then M / 2 - 1 else M / 2) = mid at hm1 hm2 hm3
  split
  · exact ⟨_, rfl⟩
  · split
    · unfold insertNonLeafNode
      rw [if_pos (by omega)]
      exact ⟨_, rfl⟩
    · unfold insertNonLeafNode
      have := hm3 (by assumption)
      rw [if_pos (by omega)]
      exact ⟨_, rfl⟩
/-- The copy loop of case 1 of the internal split over the indices
`[a, a + n)`, in closed form: the current node keeps the keys before `a` and
the children up to `a`, the other slots are cleared; the new node receives
the moved keys from position `a - mid` on and the moved children from
position `a - mid + 1` on. -/
theorem splitNonLeafLoop1_range (mid : Nat) :
    ∀ (n a : Nat) (cur new : NonLeafNodeInt),
      mid ≤ a → a + n = cur.keyArray.length →
      cur.pageNoArray.length = cur.keyArray.length + 1 →
      a - mid + n ≤ new.keyArray.length →
      new.pageNoArray.length = new.keyArray.length + 1 →
      splitNonLeafLoop1 mid cur new (List.range' a n) =
        ({ cur with
            keyArray := cur.keyArray.take a ++ List.replicate n 0
            pageNoArray := cur.pageNoArray.take (a + 1) ++ List.replicate n INVALID_NUMBER },
         { new with
            keyArray := new.keyArray.take (a - mid) ++ cur.keyArray.drop a
              ++ new.keyArray.drop (a - mid + n)
            pageNoArray := new.pageNoArray.take (a - mid + 1) ++ cur.pageNoArray.drop (a + 1)
              ++ new.pageNoArray.drop (a - mid + 1 + n) }) := by
  intro n
  induction n with
  | zero =>
    intro a cur new _ h1 h2 _ _
    have hk : cur.keyArray.drop a = [] := List.drop_eq_nil_of_le (by omega)
    have hr : cur.pageNoArray.drop (a + 1) = [] := List.drop_eq_nil_of_le (by omega)
    have hk2 : cur.keyArray.take a = cur.keyArray := List.take_of_length_le (by omega)
    have hr2 : cur.pageNoArray.take (a + 1) = cur.pageNoArray :=
      List.take_of_length_le (by omega)
    simp [splitNonLeafLoop1, hk, hr, hk2, hr2]
  | succ n ih =>
    intro a cur new hmid h1 h2 h3 h4
    have hak : a < cur.keyArray.length := by omega
    have har : a + 1 < cur.pageNoArray.length := by omega
    have hnk : a - mid < new.keyArray.length := by omega
    have hnr : a - mid + 1 < new.pageNoArray.length := by omega
    rw [List.range'_succ]
    simp only [splitNonLeafLoop1]
    rw [ih (a + 1) _ _ (by omega) (by simp; omega) (by simp; omega) (by simp; omega)
      (by simp; omega)]
    have e1 : a + 1 - mid = a - mid + 1 := by omega
    simp only [e1]
    congr 1
    · congr 1
      · rw [set_take_succ _ _ _ hak, List.append_assoc]
        rfl
      · rw [set_take_succ _ _ _ har, List.append_assoc]
        rfl
    · congr 1
      · rw [set_take_succ _ _ _ hnk, set_drop_succ _ a (a + 1) _ (Nat.lt_succ_self a),
          set_drop_succ _ (a - mid) (a - mid + 1 + n) _ (by omega),
          ← getD_cons_drop cur.keyArray a 0 hak]
        simp [Nat.add_assoc, Nat.add_comm 1 n]
      · rw [set_take_succ _ _ _ hnr, set_drop_succ _ (a + 1) (a + 1 + 1) _ (Nat.lt_succ_self _),
          set_drop_succ _ (a - mid + 1) (a - mid + 1 + 1 + n) _ (by omega),
          ← getD_cons_drop cur.pageNoArray (a + 1) 0 har]
        simp [Nat.add_assoc, Nat.add_comm 1 n]
        congr 1
        omega

/-- Case 1 of the internal split (`index == M / 2`) in closed form. -/
theorem splitNonLeaf_case1 (M : Nat) (k : Int) (c : PageId) (node : NonLeafNodeInt)
    (hkl : node.keyArray.length = M) (hpl : node.pageNoArray.length = M + 1) :
    splitNonLeaf M k c node (M / 2) = some
      ({ node with
          keyArray := node.keyArray.take (M / 2) ++ List.replicate (M - M / 2) 0
          pageNoArray := node.pageNoArray.take (M / 2 + 1)
            ++ List.replicate (M - M / 2) INVALID_NUMBER
          size := M / 2 },
       { level := node.level
         keyArray := node.keyArray.drop (M / 2) ++ List.replicate (M / 2) 0
         pageNoArray := c :: node.pageNoArray.drop (M / 2 + 1)
           ++ List.replicate (M / 2) INVALID_NUMBER
         size := M - M / 2 }, k) := by
  unfold splitNonLeaf
  simp only [if_true]
  rw [splitNonLeafLoop1_range (M / 2) (M - M / 2) (M / 2) node
    { NonLeafNodeInt.zeroed M with level := node.level } (le_refl _) (by rw [hkl]; omega)
    (by rw [hpl, hkl]) (by simp [NonLeafNodeInt.zeroed]) (by simp [NonLeafNodeInt.zeroed])]
  simp only [NonLeafNodeInt.zeroed, Nat.sub_self, List.take_zero, List.nil_append, Nat.zero_add]
  have e1 : List.drop (M - M / 2) (List.replicate M (0 : Int)) = List.replicate (M / 2) 0 := by
    rw [List.drop_replicate]
    congr 1
    omega
  have e2 : List.take 1 (List.replicate (M + 1) (0 : PageId)) = [0] := rfl
  have e3 : List.drop (1 + (M - M / 2)) (List.replicate (M + 1) (0 : PageId))
      = List.replicate (M / 2) INVALID_NUMBER := by
    rw [List.drop_replicate]
    unfold INVALID_NUMBER
    congr 1
    omega
  rw [e1, e2, e3]
  rfl
/-- The internal split as a whole: the pages of the current node and of the
new right node after `insertIntoNonLeaf` on a node whose fullness sentinel
is set, when the split is defined. -/
theorem insertIntoNonLeaf_split (M : Nat) (bm : BufMgr) (p : PageId) (k : Int) (c : PageId)
    (node cur new : NonLeafNodeInt) (mv : Int)
    (hnode : bm.nonLeafAt M p = some node)
    (hfull : node.pageNoArray.getD M 0 ≠ INVALID_NUMBER)
    (hsplit : splitNonLeaf M k c node (findIndex node.keyArray k node.size) = some (cur, new, mv)) :
    (insertIntoNonLeaf M bm p k c).2 = .returned (mv, bm.pages.length + 1) ∧
    (insertIntoNonLeaf M bm p k c).1.nonLeafAt M p = some cur ∧
    (insertIntoNonLeaf M bm p k c).1.nonLeafAt M (bm.pages.length + 1) = some new ∧
    (insertIntoNonLeaf M bm p k c).1.pages.length = bm.pages.length + 1 ∧
    (∀ q, q ≠ p → q ≠ bm.pages.length + 1 →
      (insertIntoNonLeaf M bm p k c).1.page q = bm.page q) := by
  have hp := BufMgr.valid_of_nonLeafAt hnode
  obtain ⟨h1, h2, h3, h4⟩ := splitPages_spec bm p (.nonLeaf cur) (.nonLeaf new) hp
  rw [insertIntoNonLeaf_full M bm p k c node hnode hfull, hsplit]
  refine ⟨rfl, ?_, ?_, h3, h4⟩
  · simp only [BufMgr.nonLeafAt]
    rw [h1]
    rfl
  · simp only [BufMgr.nonLeafAt]
    rw [h2]
    rfl

/-- C21: splits are balanced.  Leaf: `insertIntoLeaf` on a full leaf
(`size == L`, `L >= 1`) that satisfies the leaf invariant returns with the
current leaf and the new leaf holding `L + 1` entries together, their sizes
differing by at most `1`, whatever the key (so for every insertion index in
`[0, L]`).  Internal: `insertIntoNonLeaf` on a node with `size <= M`,
`M >= 2`, whose fullness sentinel `pageNoArray[M]` is set, returns with the
`size` fields of the current node and the new node summing to `M` and
differing by at most `1`, whatever the separator (so for every position in
`[0, M]`). -/
theorem c21_splits_are_balanced (L M : Nat) (bm : BufMgr) (p : PageId) :
    (∀ (leaf : LeafNodeInt) (key : Int) (rid : RecordId),
      1 ≤ L → bm.leafAt L p = some leaf → LeafInv L leaf → leaf.size = L →
      ∃ (k : Int) (cur new : LeafNodeInt),
        (insertIntoLeaf L bm key rid p).2 = .returned (k, bm.pages.length + 1) ∧
        (insertIntoLeaf L bm key rid p).1.leafAt L p = some cur ∧
        (insertIntoLeaf L bm key rid p).1.leafAt L (bm.pages.length + 1) = some new ∧
        cur.size + new.size = L + 1 ∧ cur.size ≤ new.size + 1 ∧ new.size ≤ cur.size + 1) ∧
    (∀ (node : NonLeafNodeInt) (k : Int) (c : PageId),
      2 ≤ M → bm.nonLeafAt M p = some node → node.size ≤ M →
      node.pageNoArray.getD M 0 ≠ INVALID_NUMBER →
      ∃ (mv : Int) (cur new : NonLeafNodeInt),
        (insertIntoNonLeaf M bm p k c).2 = .returned (mv, bm.pages.length + 1) ∧
        (insertIntoNonLeaf M bm p k c).1.nonLeafAt M p = some cur ∧
        (insertIntoNonLeaf M bm p k c).1.nonLeafAt M (bm.pages.length + 1) = some new ∧
        cur.size + new.size = M ∧ cur.size ≤ new.size + 1 ∧ new.size ≤ cur.size + 1) := by
  refine ⟨?_, ?_⟩
  · intro leaf key rid hL hleaf hinv hfull
    obtain ⟨cur, new, hsplit, h1, h2, h3, _, _⟩ :=
      insertIntoLeaf_split L bm key rid p leaf hleaf hinv hL hfull
    obtain ⟨s1, s2, s3⟩ := splitLeaf_sizes L key rid leaf _ cur new hsplit
    exact ⟨_, _, _, h1, h2, h3, s1, s2, s3⟩
  · intro node k c hM hnode hsize hfull
    obtain ⟨⟨cur, new, mv⟩, hsplit⟩ := splitNonLeaf_isSome M k c node
      (findIndex node.keyArray k node.size) hM
      (le_trans (findIndex_spec node.keyArray k node.size).1 hsize)
    obtain ⟨h1, h2, h3, _, _⟩ := insertIntoNonLeaf_split M bm p k c node cur new mv hnode hfull hsplit
    obtain ⟨s1, s2, s3, _, _⟩ := splitNonLeaf_sizes M k c node _ cur new mv hsplit
    exact ⟨mv, cur, new, h1, h2, h3, s1, s2, s3⟩

/-- C21 at concrete inputs, `L = M = 4`: the full leaf `[10, 20, 30, 40]`
(page 2 of the index over these keys) receiving key `25`, and the full root
of the index over the keys `0..11` (page 4) receiving the separator `12`. -/
theorem c21_witness :
    (∃ (k : Int) (cur new : LeafNodeInt),
      (insertIntoLeaf 4 (buildIndex 4 4 [10, 20, 30, 40]).1.bufMgr 25 (testRid 25) 2).2
        = .returned (k, 3) ∧
      cur.size + new.size = 5 ∧ cur.size ≤ new.size + 1 ∧ new.size ≤ cur.size + 1) ∧
    (∃ (mv : Int) (cur new : NonLeafNodeInt),
      (insertIntoNonLeaf 4 (buildIndex 4 4 [0, 1, 2, 3, 4, 5, 6, 7, 8, 9, 10, 11]).1.bufMgr 4
        12 9).2 = .returned (mv, 8) ∧
      cur.size + new.size = 4 ∧ cur.size ≤ new.size + 1 ∧ new.size ≤ cur.size + 1) :=
  ⟨match (c21_splits_are_balanced 4 4 (buildIndex 4 4 [10, 20, 30, 40]).1.bufMgr 2).1
      { keyArray := [10, 20, 30, 40]
        ridArray := [testRid 10, testRid 20, testRid 30, testRid 40]
        rightSibPageNo := 0
        size := 4 } 25 (testRid 25) (by decide) (by decide)
      ⟨by decide, by decide, by decide, by decide, by decide,
        fun j h1 h2 => absurd h2 (Nat.not_lt.mpr h1)⟩ (by decide) with
    | ⟨k, cur, new, h1, _, _, h4, h5, h6⟩ => ⟨k, cur, new, h1, h4, h5, h6⟩,
   match (c21_splits_are_balanced 4 4
      (buildIndex 4 4 [0, 1, 2, 3, 4, 5, 6, 7, 8, 9, 10, 11]).1.bufMgr 4).2
      { level := 1, keyArray := [2, 4, 6, 8], pageNoArray := [2, 3, 5, 6, 7], size := 4 }
      12 9 (by decide) (by decide) (by decide) (by decide) with
    | ⟨mv, cur, new, h1, _, _, h4, h5, h6⟩ => ⟨mv, cur, new, h1, h4, h5, h6⟩⟩

/-- C22 (internal split, case A): `insertIntoNonLeaf` on a full internal
node (`size == M`, all `M + 1` child slots valid) that receives the child
separator `(middleKey, newRightChild)` at the position `i == M / 2`.  The
call returns `(middleKey, pageId(R))` with `R` the newly allocated page.
With `mid = M / 2`: the current node keeps the old keys `[0, mid)` and the
old children `[0, mid]`, has `size = mid`, and its slots from `mid` (keys)
and `mid + 1` (children) on are cleared; `R` has the level of the current
node, `size = M - mid`, the old keys `[mid, M)` and the children
`newRightChild` followed by the old children `[mid + 1, M]`, its other slots
are zero.  The keys of the two nodes together are the old keys: `middleKey`
is written to neither node.  No other page changes. -/
theorem c22_internal_split_at_pivot (M : Nat) (bm : BufMgr) (p : PageId)
    (node : NonLeafNodeInt) (middleKey : Int) (newRightChild : PageId)
    (hnode : bm.nonLeafAt M p = some node)
    (hkl : node.keyArray.length = M) (hpl : node.pageNoArray.length = M + 1)
    (hsize : node.size = M)
    (hchildren : ∀ j, j ≤ node.size → node.pageNoArray.getD j 0 ≠ INVALID_NUMBER)
    (hi : findIndex node.keyArray middleKey node.size = M / 2) :
    ∃ (cur new : NonLeafNodeInt),
      (insertIntoNonLeaf M bm p middleKey newRightChild).2
        = .returned (middleKey, bm.pages.length + 1) ∧
      (insertIntoNonLeaf M bm p middleKey newRightChild).1.nonLeafAt M p = some cur ∧
      (insertIntoNonLeaf M bm p middleKey newRightChild).1.nonLeafAt M (bm.pages.length + 1)
        = some new ∧
      cur.size = M / 2 ∧ new.size = M - M / 2 ∧
      cur.level = node.level ∧ new.level = node.level ∧
      cur.keyArray = node.keyArray.take (M / 2) ++ List.replicate (M - M / 2) 0 ∧
      cur.pageNoArray
        = node.pageNoArray.take (M / 2 + 1) ++ List.replicate (M - M / 2) INVALID_NUMBER ∧
      new.keyArray = node.keyArray.drop (M / 2) ++ List.replicate (M / 2) 0 ∧
      new.pageNoArray
        = newRightChild :: node.pageNoArray.drop (M / 2 + 1)
          ++ List.replicate (M / 2) INVALID_NUMBER ∧
      cur.keyArray.take cur.size ++ new.keyArray.take new.size = node.keyArray ∧
      cur.pageNoArray.take (cur.size + 1) ++ (new.pageNoArray.take (new.size + 1)).tail
        = node.pageNoArray ∧
      (∀ q, q ≠ p → q ≠ bm.pages.length + 1 →
        (insertIntoNonLeaf M bm p middleKey newRightChild).1.page q = bm.page q) := by
  have hfull : node.pageNoArray.getD M 0 ≠ INVALID_NUMBER := hchildren M (by omega)
  obtain ⟨cur, new, hsplit, hcur, hnew⟩ : ∃ cur new,
      splitNonLeaf M middleKey newRightChild node (M / 2) = some (cur, new, middleKey) ∧
      cur = { node with
          keyArray := node.keyArray.take (M / 2) ++ List.replicate (M - M / 2) 0
          pageNoArray := node.pageNoArray.take (M / 2 + 1)
            ++ List.replicate (M - M / 2) INVALID_NUMBER
          size := M / 2 } ∧
      new = { level := node.level
              keyArray := node.keyArray.drop (M / 2) ++ List.replicate (M / 2) 0
              pageNoArray := newRightChild :: node.pageNoArray.drop (M / 2 + 1)
                ++ List.replicate (M / 2) INVALID_NUMBER
              size := M - M / 2 } :=
    ⟨_, _, splitNonLeaf_case1 M middleKey newRightChild node hkl hpl, rfl, rfl⟩
  rw [← hi] at hsplit
  obtain ⟨h1, h2, h3, _, h5⟩ := insertIntoNonLeaf_split M bm p middleKey newRightChild node
    cur new middleKey hnode hfull hsplit
  subst hcur hnew
  refine ⟨_, _, h1, h2, h3, rfl, rfl, rfl, rfl, rfl, rfl, rfl, rfl, ?_, ?_, h5⟩
  · simp only
    rw [List.take_left' (by rw [List.length_take, hkl]; omega),
      List.take_left' (by rw [List.length_drop, hkl]), List.take_append_drop]
  · simp only
    rw [List.take_left' (by rw [List.length_take, hpl]; omega),
      List.take_left' (by rw [List.length_cons, List.length_drop, hpl]; omega),
      List.tail_cons, List.take_append_drop]

/-- C22 at a concrete input, `M = 4`: the full root of the index over the
keys `0, 10, ..., 110` (page 4: keys `20, 40, 60, 80`, children
`2, 3, 5, 6, 7`) receives the separator `(42, 9)`, whose position is
`2 == M / 2`. -/
theorem c22_witness :
    ∃ (cur new : NonLeafNodeInt),
      (insertIntoNonLeaf 4
        (buildIndex 4 4 [0, 10, 20, 30, 40, 50, 60, 70, 80, 90, 100, 110]).1.bufMgr 4 42 9).2
        = .returned (42, 8) ∧
      cur.keyArray = [20, 40, 0, 0] ∧ cur.pageNoArray = [2, 3, 5, 0, 0] ∧ cur.size = 2 ∧
      new.keyArray = [60, 80, 0, 0] ∧ new.pageNoArray = [9, 6, 7, 0, 0] ∧ new.size = 2 :=
  match c22_internal_split_at_pivot 4
    (buildIndex 4 4 [0, 10, 20, 30, 40, 50, 60, 70, 80, 90, 100, 110]).1.bufMgr 4
    { level := 1, keyArray := [20, 40, 60, 80], pageNoArray := [2, 3, 5, 6, 7], size := 4 }
    42 9 (by decide) (by decide) (by decide) (by decide) (by decide) (by decide) with
  | ⟨cur, new, h1, _, _, h4, h5, _, _, h8, h9, h10, h11, _⟩ =>
    ⟨cur, new, h1, h8, h9, h4, h10, h11, h5⟩

/-! ## Pages that an insertion leaves alone -/

theorem BufMgr.valid_of_page {bm : BufMgr} {q : PageId} {pg : Page} (h : bm.page q = some pg) :
    q ≠ INVALID_NUMBER ∧ q ≤ bm.pages.length :=
  (BufMgr.page_isSome_iff bm q).mp ⟨pg, h⟩

theorem BufMgr.page_alloc_zero (bm : BufMgr) (q : PageId) (h : q ≤ bm.pages.length) :
    ((bm.allocPage.2).setPage bm.allocPage.1 .zero).page q = bm.page q := by
  by_cases hq0 : q = INVALID_NUMBER
  · simp [BufMgr.page, hq0]
  · have hne : q ≠ bm.allocPage.1 := by
      have : bm.allocPage.1 = bm.pages.length + 1 := rfl
      rw [this]
      unfold PageId at *
      omega
    rw [BufMgr.page_setPage_other _ _ _ _ hne hq0, BufMgr.page_allocPage_old bm q h]

theorem BufMgr.page_setPage_unPin_other (bm : BufMgr) (p q : PageId) (pg : Page) (d : Bool)
    (h : q ≠ p) : ((bm.setPage p pg).unPinPage p d).page q = bm.page q := by
  rw [BufMgr.page_of_pages_eq (BufMgr.unPinPage_pages _ _ _)]
  by_cases hq0 : q = INVALID_NUMBER
  · simp [BufMgr.page, hq0]
  · exact BufMgr.page_setPage_other _ _ _ _ h hq0

/-- The leaf case of `insertEntryHelper` changes no page but the current
one and the page it allocates. -/
theorem insertIntoLeaf_frame (L : Nat) (bm : BufMgr) (key : Int) (rid : RecordId) (p q : PageId)
    (hq : q ≠ p) (hle : q ≤ bm.pages.length) :
    (insertIntoLeaf L bm key rid p).1.page q = bm.page q := by
  cases hleaf : bm.leafAt L p with
  | none =>
    unfold insertIntoLeaf
    simp only [hleaf]
  | some leaf =>
    by_cases hroom : (leaf.ridArray.getD (L - 1) default).page_number = INVALID_NUMBER
    · rw [insertIntoLeaf_room L bm key rid p leaf hleaf hroom]
      cases insertLeafNode L key rid leaf (findIndex leaf.keyArray key leaf.size) with
      | none => rfl
      | some n => exact BufMgr.page_setPage_unPin_other _ _ _ _ _ hq
    · rw [insertIntoLeaf_full L bm key rid p leaf hleaf hroom]
      cases splitLeaf L key rid leaf (findIndex leaf.keyArray key leaf.size) with
      | none => exact BufMgr.page_alloc_zero bm q hle
      | some r =>
        obtain ⟨cur, new⟩ := r
        exact (splitPages_spec bm p _ _ (BufMgr.valid_of_leafAt hleaf)).2.2.2 q hq
          (by unfold PageId at *; omega)

/-- The internal case of `insertEntryHelper` changes no page but the current
one and the page it allocates. -/
theorem insertIntoNonLeaf_frame (M : Nat) (bm : BufMgr) (p : PageId) (k : Int) (c : PageId)
    (q : PageId) (hq : q ≠ p) (hle : q ≤ bm.pages.length) :
    (insertIntoNonLeaf M bm p k c).1.page q = bm.page q := by
  cases hnode : bm.nonLeafAt M p with
  | none =>
    unfold insertIntoNonLeaf
    simp only [hnode]
  | some node =>
    by_cases hroom : node.pageNoArray.getD M 0 = INVALID_NUMBER
    · rw [insertIntoNonLeaf_room M bm p k c node hnode hroom]
      cases insertNonLeafNode M k c node (findIndex node.keyArray k node.size) with
      | none => rfl
      | some n => exact BufMgr.page_setPage_unPin_other _ _ _ _ _ hq
    · rw [insertIntoNonLeaf_full M bm p k c node hnode hroom]
      cases splitNonLeaf M k c node (findIndex node.keyArray k node.size) with
      | none => exact BufMgr.page_alloc_zero bm q hle
      | some r =>
        obtain ⟨cur, new, mv⟩ := r
        exact (splitPages_spec bm p _ _ (BufMgr.valid_of_nonLeafAt hnode)).2.2.2 q hq
          (by unfold PageId at *; omega)

theorem BufMgr.leafAt_header {bm : BufMgr} {L : Nat} {q : PageId} {m : IndexMetaInfo}
    (h : bm.page q = some (.header m)) : bm.leafAt L q = none := by
  unfold BufMgr.leafAt
  rw [h]
  rfl

theorem BufMgr.nonLeafAt_header {bm : BufMgr} {M : Nat} {q : PageId} {m : IndexMetaInfo}
    (h : bm.page q = some (.header m)) : bm.nonLeafAt M q = none := by
  unfold BufMgr.nonLeafAt
  rw [h]
  rfl

/-- A page that holds the header is not changed by `insertEntryHelper`. -/
theorem insertEntryHelper_header (L M : Nat) (key : Int) (rid : RecordId) (q : PageId)
    (m : IndexMetaInfo) :
    ∀ (fuel : Nat) (bm : BufMgr) (p : PageId) (isLeaf : Bool),
      bm.page q = some (.header m) →
      (insertEntryHelper L M fuel bm key rid p isLeaf).1.page q = some (.header m) := by
  intro fuel
  induction fuel with
  | zero => intro bm p isLeaf h; exact h
  | succ n ih =>
    intro bm p isLeaf h
    unfold insertEntryHelper
    cases hread : bm.readPage p with
    | none => exact h
    | some bm1 =>
      have h1 : bm1.page q = some (.header m) := by
        rw [BufMgr.page_of_pages_eq (BufMgr.readPage_pages hread)]; exact h
      simp only
      cases isLeaf with
      | true =>
        simp only [if_true]
        by_cases hqp : q = p
        · subst hqp
          unfold insertIntoLeaf
          simp only [BufMgr.leafAt_header h1]
          exact h1
        · rw [insertIntoLeaf_frame L bm1 key rid p q hqp (BufMgr.valid_of_page h1).2]
          exact h1
      | false =>
        simp only [Bool.false_eq_true, if_false]
        cases hnode : bm1.nonLeafAt M p with
        | none => exact h1
        | some node =>
          simp only
          have hqp : q ≠ p := by
            intro hc
            subst hc
            rw [BufMgr.nonLeafAt_header h1] at hnode
            cases hnode
          have h2 := ih bm1 (node.pageNoArray.getD (findIndex node.keyArray key node.size) 0)
            (decide (node.level = 1)) h1
          split
          · rename_i bm2 mk cid heq
            rw [heq] at h2
            split
            · rw [BufMgr.page_of_pages_eq (BufMgr.unPinPage_pages _ _ _)]
              exact h2
            · rw [insertIntoNonLeaf_frame M bm2 p mk cid q hqp (BufMgr.valid_of_page h2).2]
              exact h2
          · rename_i bm2 o hne heq
            rw [heq] at h2
            exact h2

/-- When `insertEntryHelper` returns, the cast of the page to the node kind
that `isLeafBool` names was defined. -/
theorem insertEntryHelper_returned_kind (L M : Nat) (key : Int) (rid : RecordId) (fuel : Nat)
    (bm bm' : BufMgr) (p : PageId) (isLeaf : Bool) (r : Int × PageId)
    (h : insertEntryHelper L M fuel bm key rid p isLeaf = (bm', .returned r)) :
    (isLeaf = true → ∃ n, bm.leafAt L p = some n) ∧
    (isLeaf = false → ∃ n, bm.nonLeafAt M p = some n) := by
  cases fuel with
  | zero =>
    unfold insertEntryHelper at h
    cases h
  | succ n =>
    unfold insertEntryHelper at h
    cases hread : bm.readPage p with
    | none =>
      rw [hread] at h
      cases h
    | some bm1 =>
      rw [hread] at h
      simp only at h
      have hp := BufMgr.readPage_pages hread
      constructor
      · intro hl
        subst hl
        simp only [if_true] at h
        cases hleaf : bm1.leafAt L p with
        | none =>
          unfold insertIntoLeaf at h
          rw [hleaf] at h
          cases h
        | some leaf =>
          rw [BufMgr.leafAt_of_pages_eq hp] at hleaf
          exact ⟨leaf, hleaf⟩
      · intro hl
        subst hl
        simp only [Bool.false_eq_true, if_false] at h
        cases hnode : bm1.nonLeafAt M p with
        | none =>
          rw [hnode] at h
          cases h
        | some node =>
          rw [BufMgr.nonLeafAt_of_pages_eq hp] at hnode
          exact ⟨node, hnode⟩
/-! ## Root split (C24) -/

theorem newRoot_keyArray (M : Nat) (hM : 1 ≤ M) (k : Int) :
    (List.replicate M (0 : Int)).set 0 k = k :: List.replicate (M - 1) 0 := by
  obtain ⟨n, rfl⟩ : ∃ n, M = n + 1 := ⟨M - 1, by omega⟩
  simp [List.replicate_succ]

theorem newRoot_pageNoArray (M : Nat) (hM : 1 ≤ M) (a b : PageId) :
    ((List.replicate (M + 1) (0 : PageId)).set 0 a).set 1 b
      = a :: b :: List.replicate (M - 1) INVALID_NUMBER := by
  obtain ⟨n, rfl⟩ : ∃ n, M = n + 1 := ⟨M - 1, by omega⟩
  simp [List.replicate_succ, INVALID_NUMBER]

/-- The state after `insertEntry` when the top-level call of the helper has
returned a new right page. -/
theorem insertEntry_root_split (L M fuel : Nat) (s : BTreeIndex) (key : Int) (rid : RecordId)
    (m : IndexMetaInfo) (bm : BufMgr) (k : Int) (c : PageId)
    (hhdr : s.bufMgr.page s.headerPageNum = some (.header m))
    (hret : insertEntryHelper L M fuel s.bufMgr key rid s.rootPageNum s.rootIsLeaf
      = (bm, .returned (k, c)))
    (hc : c ≠ 0) :
    ∃ bm3, (bm.allocPage.2.setPage bm.allocPage.1 (.nonLeaf
        { level := if s.rootIsLeaf then 1 else 0
          keyArray := (List.replicate M 0).set 0 k
          pageNoArray := ((List.replicate (M + 1) 0).set 0 s.rootPageNum).set 1 c
          size := 1 })).readPage s.headerPageNum = some bm3 ∧
      insertEntry L M fuel s key rid =
        ({ s with
            bufMgr := ((bm3.setPage s.headerPageNum
              (.header { m with rootPageNo := bm.allocPage.1 })).unPinPage bm.allocPage.1
                true).unPinPage s.headerPageNum true
            rootIsLeaf := false
            rootPageNum := bm.allocPage.1 }, .returned ()) := by
  have hb : bm.page s.headerPageNum = some (.header m) := by
    have := insertEntryHelper_header L M key rid s.headerPageNum m fuel s.bufMgr s.rootPageNum
      s.rootIsLeaf hhdr
    rw [hret] at this
    exact this
  have hv := BufMgr.valid_of_page hb
  have hne : s.headerPageNum ≠ bm.allocPage.1 := by
    have : bm.allocPage.1 = bm.pages.length + 1 := rfl
    rw [this]
    have := hv.2
    unfold PageId at *
    omega
  have h2 : (bm.allocPage.2.setPage bm.allocPage.1 (.nonLeaf
        { level := if s.rootIsLeaf then 1 else 0
          keyArray := (List.replicate M 0).set 0 k
          pageNoArray := ((List.replicate (M + 1) 0).set 0 s.rootPageNum).set 1 c
          size := 1 })).page s.headerPageNum = some (.header m) := by
    rw [BufMgr.page_setPage_other _ _ _ _ hne hv.1, BufMgr.page_allocPage_old bm _ hv.2]
    exact hb
  cases hread : (bm.allocPage.2.setPage bm.allocPage.1 (.nonLeaf
        { level := if s.rootIsLeaf then 1 else 0
          keyArray := (List.replicate M 0).set 0 k
          pageNoArray := ((List.replicate (M + 1) 0).set 0 s.rootPageNum).set 1 c
          size := 1 })).readPage s.headerPageNum with
  | none =>
    unfold BufMgr.readPage at hread
    rw [h2] at hread
    cases hread
  | some bm3 =>
    refine ⟨bm3, rfl, ?_⟩
    have h3 : bm3.headerAt s.headerPageNum = some m := by
      unfold BufMgr.headerAt
      rw [BufMgr.page_of_pages_eq (BufMgr.readPage_pages hread), h2]
      rfl
    unfold insertEntry
    rw [hret]
    simp only [ne_eq, hc, not_false_eq_true, if_true, NonLeafNodeInt.zeroed]
    rw [hread]
    simp only [h3]
/-- The pages after the root split of `insertEntry`: the new root, the header
and the other pages. -/
theorem rootSplit_pages (bm bm3 : BufMgr) (NR : NonLeafNodeInt) (hdr : PageId)
    (m m' : IndexMetaInfo)
    (hb : bm.page hdr = some (.header m))
    (hread : (bm.allocPage.2.setPage bm.allocPage.1 (.nonLeaf NR)).readPage hdr = some bm3) :
    (((bm3.setPage hdr (.header m')).unPinPage bm.allocPage.1 true).unPinPage hdr true).page
        (bm.pages.length + 1) = some (.nonLeaf NR) ∧
    (((bm3.setPage hdr (.header m')).unPinPage bm.allocPage.1 true).unPinPage hdr true).page hdr
        = some (.header m') ∧
    (∀ q, q ≠ bm.pages.length + 1 → q ≠ hdr →
      (((bm3.setPage hdr (.header m')).unPinPage bm.allocPage.1 true).unPinPage hdr true).page q
        = bm.page q) := by
  have hv := BufMgr.valid_of_page hb
  have hR : bm.allocPage.1 = bm.pages.length + 1 := rfl
  have hR0 : bm.pages.length + 1 ≠ INVALID_NUMBER := by simp [INVALID_NUMBER]
  have hne : bm.pages.length + 1 ≠ hdr := by
    have := hv.2
    unfold PageId at *
    omega
  have hp3 := BufMgr.readPage_pages hread
  have hlen2 : (bm.allocPage.2.setPage bm.allocPage.1 (.nonLeaf NR)).pages.length
      = bm.pages.length + 1 := by
    rw [BufMgr.setPage_length]
    simp [BufMgr.allocPage_pages]
  have hlen3 : bm3.pages.length = bm.pages.length + 1 := by rw [hp3, hlen2]
  refine ⟨?_, ?_, ?_⟩
  · rw [BufMgr.page_of_pages_eq (BufMgr.unPinPage_pages _ _ _),
      BufMgr.page_of_pages_eq (BufMgr.unPinPage_pages _ _ _),
      BufMgr.page_setPage_other _ _ _ _ hne hR0, BufMgr.page_of_pages_eq hp3, hR,
      BufMgr.page_setPage_same _ _ _ ⟨hR0, by simp [BufMgr.allocPage_pages]⟩]
  · rw [BufMgr.page_of_pages_eq (BufMgr.unPinPage_pages _ _ _),
      BufMgr.page_of_pages_eq (BufMgr.unPinPage_pages _ _ _),
      BufMgr.page_setPage_same _ _ _ ⟨hv.1, by rw [hlen3]; have := hv.2; unfold PageId at *; omega⟩]
  · intro q hq1 hq2
    rw [BufMgr.page_of_pages_eq (BufMgr.unPinPage_pages _ _ _),
      BufMgr.page_of_pages_eq (BufMgr.unPinPage_pages _ _ _)]
    by_cases hq0 : q = INVALID_NUMBER
    · simp [BufMgr.page, hq0]
    · rw [BufMgr.page_setPage_other _ _ _ _ hq2 hq0, BufMgr.page_of_pages_eq hp3, hR,
        BufMgr.page_setPage_other _ _ _ _ hq1 hq0]
      by_cases hle : q ≤ bm.pages.length
      · exact BufMgr.page_allocPage_old bm q hle
      · have h1 : bm.page q = none := by
          cases h : bm.page q with
          | none => rfl
          | some pg => exact absurd (BufMgr.valid_of_page h).2 hle
        have h2 : bm.allocPage.2.page q = none := by
          cases h : bm.allocPage.2.page q with
          | none => rfl
          | some pg =>
            have := (BufMgr.valid_of_page h).2
            simp [BufMgr.allocPage_pages] at this
            unfold PageId at *
            omega
        rw [h1, h2]

/-- After `insertEntry`, however it ends, the header page records the root
of the handle. -/
theorem insertEntry_header (L M fuel : Nat) (s : BTreeIndex) (key : Int) (rid : RecordId)
    (m : IndexMetaInfo)
    (hhdr : s.bufMgr.page s.headerPageNum = some (.header m))
    (hroot : m.rootPageNo = s.rootPageNum) :
    ∃ m', (insertEntry L M fuel s key rid).1.bufMgr.page
        (insertEntry L M fuel s key rid).1.headerPageNum = some (.header m') ∧
      m'.rootPageNo = (insertEntry L M fuel s key rid).1.rootPageNum := by
  have hb := insertEntryHelper_header L M key rid s.headerPageNum m fuel s.bufMgr s.rootPageNum
    s.rootIsLeaf hhdr
  cases hr : insertEntryHelper L M fuel s.bufMgr key rid s.rootPageNum s.rootIsLeaf with
  | mk bm o =>
    rw [hr] at hb
    cases o with
    | returned kc =>
      obtain ⟨k, c⟩ := kc
      by_cases hc : c = 0
      · subst hc
        have he : insertEntry L M fuel s key rid = ({ s with bufMgr := bm }, .returned ()) := by
          unfold insertEntry
          rw [hr]
          simp
        rw [he]
        exact ⟨m, hb, hroot⟩
      · obtain ⟨bm3, hread, heq⟩ := insertEntry_root_split L M fuel s key rid m bm k c hhdr hr hc
        rw [heq]
        exact ⟨_, (rootSplit_pages bm bm3 _ s.headerPageNum m _ hb hread).2.1, rfl⟩
    | threw e =>
      have he : insertEntry L M fuel s key rid = ({ s with bufMgr := bm }, .threw e) := by
        unfold insertEntry
        rw [hr]
      rw [he]
      exact ⟨m, hb, hroot⟩
    | undefined =>
      have he : insertEntry L M fuel s key rid = ({ s with bufMgr := bm }, .undefined) := by
        unfold insertEntry
        rw [hr]
      rw [he]
      exact ⟨m, hb, hroot⟩
    | outOfFuel =>
      have he : insertEntry L M fuel s key rid = ({ s with bufMgr := bm }, .outOfFuel) := by
        unfold insertEntry
        rw [hr]
      rw [he]
      exact ⟨m, hb, hroot⟩

/-- C24 (root split): `insertEntry` on a handle whose header page records
the root (`M >= 1`).  When the top-level call of `insertEntryHelper` returns
`(k, c)` with `c != 0`, whatever `k` is (also `0`): `insertEntry` returns;
the newly allocated page holds the new root with `keyArray[0] = k`,
`pageNoArray[0]` the old root, `pageNoArray[1] = c`, `size = 1`, the other
slots zero, and `level = 1` if `rootIsLeaf` was set, else `0`;
`rootPageNum` is the new page and `rootIsLeaf` is cleared; the old root page
was read through the cast that `rootIsLeaf` names; and no page but the new
root and the header differs from the state the helper left.  When the helper
returns `(k, 0)`, `insertEntry` returns and changes nothing but the buffer
pool the helper left.  In every case, however the call ends, the header
page's `rootPageNo` equals the handle's `rootPageNum` afterwards. -/
theorem c24_root_split_installs_new_root (L M fuel : Nat) (s : BTreeIndex) (key : Int)
    (rid : RecordId) (m : IndexMetaInfo) (hM : 1 ≤ M)
    (hhdr : s.bufMgr.page s.headerPageNum = some (.header m))
    (hroot : m.rootPageNo = s.rootPageNum) :
    (∀ (bm : BufMgr) (k : Int) (c : PageId),
      insertEntryHelper L M fuel s.bufMgr key rid s.rootPageNum s.rootIsLeaf
        = (bm, .returned (k, c)) → c ≠ 0 →
      (insertEntry L M fuel s key rid).2 = .returned () ∧
      (insertEntry L M fuel s key rid).1.rootPageNum = bm.pages.length + 1 ∧
      (insertEntry L M fuel s key rid).1.rootIsLeaf = false ∧
      (insertEntry L M fuel s key rid).1.bufMgr.nonLeafAt M (bm.pages.length + 1) = some
        { level := if s.rootIsLeaf then 1 else 0
          keyArray := k :: List.replicate (M - 1) 0
          pageNoArray := s.rootPageNum :: c :: List.replicate (M - 1) INVALID_NUMBER
          size := 1 } ∧
      (s.rootIsLeaf = true → ∃ n, s.bufMgr.leafAt L s.rootPageNum = some n) ∧
      (s.rootIsLeaf = false → ∃ n, s.bufMgr.nonLeafAt M s.rootPageNum = some n) ∧
      (∀ q, q ≠ bm.pages.length + 1 → q ≠ s.headerPageNum →
        (insertEntry L M fuel s key rid).1.bufMgr.page q = bm.page q)) ∧
    (∀ (bm : BufMgr) (k : Int),
      insertEntryHelper L M fuel s.bufMgr key rid s.rootPageNum s.rootIsLeaf
        = (bm, .returned (k, 0)) →
      insertEntry L M fuel s key rid = ({ s with bufMgr := bm }, .returned ())) ∧
    (∃ m', (insertEntry L M fuel s key rid).1.bufMgr.page
        (insertEntry L M fuel s key rid).1.headerPageNum = some (.header m') ∧
      m'.rootPageNo = (insertEntry L M fuel s key rid).1.rootPageNum) := by
  refine ⟨?_, ?_, insertEntry_header L M fuel s key rid m hhdr hroot⟩
  · intro bm k c hret hc
    have hb : bm.page s.headerPageNum = some (.header m) := by
      have := insertEntryHelper_header L M key rid s.headerPageNum m fuel s.bufMgr s.rootPageNum
        s.rootIsLeaf hhdr
      rw [hret] at this
      exact this
    obtain ⟨bm3, hread, heq⟩ := insertEntry_root_split L M fuel s key rid m bm k c hhdr hret hc
    obtain ⟨p1, _, p3⟩ := rootSplit_pages bm bm3 _ s.headerPageNum m
      { m with rootPageNo := bm.allocPage.1 } hb hread
    obtain ⟨k1, k2⟩ := insertEntryHelper_returned_kind L M key rid fuel s.bufMgr bm s.rootPageNum
      s.rootIsLeaf (k, c) hret
    rw [heq]
    refine ⟨rfl, rfl, rfl, ?_, k1, k2, p3⟩
    simp only [BufMgr.nonLeafAt]
    rw [p1, newRoot_keyArray M hM, newRoot_pageNoArray M hM]
    rfl
  · intro bm k hret
    unfold insertEntry
    rw [hret]
    simp

/-- C24 at a concrete input, `L = M = 4`: the index over the keys `0..3`
has a full leaf root (page 2); inserting key `4` splits it, the helper
returns `(2, 3)`, and the new root is page 4. -/
theorem c24_witness :
    (insertEntry 4 4 8 (buildIndex 4 4 [0, 1, 2, 3]).1 4 (testRid 4)).2 = .returned () ∧
    (insertEntry 4 4 8 (buildIndex 4 4 [0, 1, 2, 3]).1 4 (testRid 4)).1.rootPageNum = 4 ∧
    (insertEntry 4 4 8 (buildIndex 4 4 [0, 1, 2, 3]).1 4 (testRid 4)).1.rootIsLeaf = false ∧
    (insertEntry 4 4 8 (buildIndex 4 4 [0, 1, 2, 3]).1 4 (testRid 4)).1.bufMgr.nonLeafAt 4 4
      = some { level := 1, keyArray := [2, 0, 0, 0], pageNoArray := [2, 3, 0, 0, 0],
               size := 1 } :=
  match (c24_root_split_installs_new_root 4 4 8 (buildIndex 4 4 [0, 1, 2, 3]).1 4 (testRid 4)
    { relationName := ['r', 'e', 'l', 'A'], attrByteOffset := 0, attrType := .INTEGER,
      rootPageNo := 2 } (by decide) (by decide) (by decide)).1
    (insertEntryHelper 4 4 8 (buildIndex 4 4 [0, 1, 2, 3]).1.bufMgr 4 (testRid 4) 2 true).1
    2 3 (by decide) (by decide) with
  | ⟨h1, h2, h3, h4, _⟩ => ⟨h1, h2, h3, h4⟩

/-! ## Pins and unpins of an insertion (C30) -/

theorem List.set_getD_self (c : List Nat) (i : Nat) : c.set i (c.getD i 0) = c := by
  apply List.ext_getElem (by simp)
  intro n hn1 hn2
  rw [List.getElem_set]
  split
  · next h =>
    subst h
    rw [List.getD_eq_getElem?_getD, List.getElem?_eq_getElem hn2]
    rfl
  · rfl

theorem pin_unpin (c Z : List Nat) (i : Nat) (hi : i < c.length) :
    ((c.set i (c.getD i 0 + 1)) ++ Z).set i
      (((c.set i (c.getD i 0 + 1)) ++ Z).getD i 0 - 1) = c ++ Z := by
  have h1 : i < (c.set i (c.getD i 0 + 1)).length := by simpa using hi
  have h2 : ((c.set i (c.getD i 0 + 1)) ++ Z).getD i 0 = c.getD i 0 + 1 := by
    rw [List.getD_eq_getElem?_getD, List.getElem?_append_left h1, List.getElem?_set_self hi]
    rfl
  rw [h2, Nat.add_sub_cancel, List.set_append_left _ _ h1, List.set_set, List.set_getD_self]

theorem BufMgr.pinCnt_setPage (bm : BufMgr) (p : PageId) (pg : Page) :
    (bm.setPage p pg).pinCnt = bm.pinCnt := by
  unfold BufMgr.setPage
  split <;> rfl

theorem BufMgr.unPinLog_setPage (bm : BufMgr) (p : PageId) (pg : Page) :
    (bm.setPage p pg).unPinLog = bm.unPinLog := by
  unfold BufMgr.setPage
  split <;> rfl

theorem BufMgr.readPage_spec {bm bm1 : BufMgr} {p : PageId} (h : bm.readPage p = some bm1) :
    bm1.pages = bm.pages ∧ bm1.unPinLog = bm.unPinLog ∧
    bm1.pinCnt = bm.pinCnt.set (p - 1) (bm.pinCnt.getD (p - 1) 0 + 1) ∧
    p ≠ INVALID_NUMBER ∧ p ≤ bm.pages.length := by
  unfold BufMgr.readPage at h
  cases hpg : bm.page p with
  | none => rw [hpg] at h; cases h
  | some pg =>
    rw [hpg] at h
    cases h
    exact ⟨rfl, rfl, rfl, BufMgr.valid_of_page hpg⟩

/-- Pin count after the in-place branch: the pin of `readPage` is released. -/
theorem inPlace_pins (bm0 bm : BufMgr) (p : PageId) (X : Page) (d : Bool) (Z : List Nat)
    (hp : p ≠ INVALID_NUMBER ∧ p ≤ bm0.pages.length)
    (hl : bm0.pinCnt.length = bm0.pages.length)
    (hpin : bm.pinCnt = (bm0.pinCnt.set (p - 1) (bm0.pinCnt.getD (p - 1) 0 + 1)) ++ Z) :
    ((bm.setPage p X).unPinPage p d).pinCnt = bm0.pinCnt ++ Z := by
  have hi : p - 1 < bm0.pinCnt.length := by
    have h0 : p ≠ 0 := hp.1
    have := hp.2
    rw [hl]
    unfold PageId at *
    omega
  unfold BufMgr.unPinPage
  simp only [hp.1, if_false, BufMgr.pinCnt_setPage, hpin]
  exact pin_unpin _ _ _ hi

theorem unPin_only_pins (bm0 bm : BufMgr) (p : PageId) (d : Bool) (Z : List Nat)
    (hp : p ≠ INVALID_NUMBER ∧ p ≤ bm0.pages.length)
    (hl : bm0.pinCnt.length = bm0.pages.length)
    (hpin : bm.pinCnt = (bm0.pinCnt.set (p - 1) (bm0.pinCnt.getD (p - 1) 0 + 1)) ++ Z) :
    (bm.unPinPage p d).pinCnt = bm0.pinCnt ++ Z := by
  have hi : p - 1 < bm0.pinCnt.length := by
    have h0 : p ≠ 0 := hp.1
    have := hp.2
    rw [hl]
    unfold PageId at *
    omega
  unfold BufMgr.unPinPage
  simp only [hp.1, if_false, hpin]
  exact pin_unpin _ _ _ hi

/-- Pin count after a split: the pin of `readPage` and the pin of
`allocPage` are released. -/
theorem split_pins (bm0 bm : BufMgr) (p : PageId) (X Y : Page) (Z : List Nat)
    (hp : p ≠ INVALID_NUMBER ∧ p ≤ bm0.pages.length)
    (hl : bm0.pinCnt.length = bm0.pages.length)
    (hl2 : bm.pinCnt.length = bm.pages.length)
    (hpin : bm.pinCnt = (bm0.pinCnt.set (p - 1) (bm0.pinCnt.getD (p - 1) 0 + 1)) ++ Z) :
    (BufMgr.unPinPage (BufMgr.unPinPage (BufMgr.setPage (BufMgr.setPage
        (BufMgr.setPage bm.allocPage.2 bm.allocPage.1 .zero) p X) bm.allocPage.1 Y) p true)
        bm.allocPage.1 true).pinCnt = bm0.pinCnt ++ Z ++ [0] := by
  have hi : p - 1 < bm0.pinCnt.length := by
    have h0 : p ≠ 0 := hp.1
    have := hp.2
    rw [hl]
    unfold PageId at *
    omega
  have hR : bm.allocPage.1 = bm.pages.length + 1 := rfl
  have hR0 : bm.pages.length + 1 ≠ INVALID_NUMBER := by simp [INVALID_NUMBER]
  have ha : bm.allocPage.2.pinCnt = bm.pinCnt ++ [1] := rfl
  unfold BufMgr.unPinPage
  simp only [hp.1, hR, hR0, if_false, BufMgr.pinCnt_setPage, ha, hpin, Nat.add_sub_cancel,
    List.append_assoc]
  rw [pin_unpin _ _ _ hi]
  have hlen : (bm0.pinCnt ++ (Z ++ [1])).length = bm.pages.length + 1 := by
    rw [← hl2, hpin]
    simp
    omega
  have hk : bm.pages.length = (bm0.pinCnt ++ Z).length := by
    rw [← hl2, hpin]
    simp
  have h3 : ((bm0.pinCnt ++ Z) ++ [1]).getD (bm0.pinCnt ++ Z).length 0 = 1 := by
    rw [List.getD_eq_getElem?_getD, List.getElem?_append_right (le_refl _)]
    simp
  rw [hk, ← List.append_assoc, h3, List.set_append_right _ _ (le_refl _)]
  simp

/-- The two ways the leaf case returns: in place, or by a split. -/
theorem insertIntoLeaf_shape (L : Nat) (bm bm' : BufMgr) (key : Int) (rid : RecordId)
    (p : PageId) (r : Int × PageId) (h : insertIntoLeaf L bm key rid p = (bm', .returned r)) :
    (p ≠ INVALID_NUMBER ∧ p ≤ bm.pages.length) ∧
    ((∃ X, bm' = (bm.setPage p X).unPinPage p true) ∨
     (∃ X Y, bm' = BufMgr.unPinPage (BufMgr.unPinPage (BufMgr.setPage (BufMgr.setPage
        (BufMgr.setPage bm.allocPage.2 bm.allocPage.1 .zero) p X) bm.allocPage.1 Y) p true)
        bm.allocPage.1 true)) := by
  cases hleaf : bm.leafAt L p with
  | none =>
    unfold insertIntoLeaf at h
    simp only [hleaf] at h
    cases h
  | some leaf =>
    refine ⟨BufMgr.valid_of_leafAt hleaf, ?_⟩
    by_cases hroom : (leaf.ridArray.getD (L - 1) default).page_number = INVALID_NUMBER
    · rw [insertIntoLeaf_room L bm key rid p leaf hleaf hroom] at h
      cases hi : insertLeafNode L key rid leaf (findIndex leaf.keyArray key leaf.size) with
      | none => rw [hi] at h; cases h
      | some n =>
        rw [hi] at h
        exact Or.inl ⟨_, (congrArg Prod.fst h).symm⟩
    · rw [insertIntoLeaf_full L bm key rid p leaf hleaf hroom] at h
      cases hi : splitLeaf L key rid leaf (findIndex leaf.keyArray key leaf.size) with
      | none => rw [hi] at h; cases h
      | some r =>
        obtain ⟨cur, new⟩ := r
        rw [hi] at h
        exact Or.inr ⟨_, _, (congrArg Prod.fst h).symm⟩

/-- The two ways the internal case returns: in place, or by a split. -/
theorem insertIntoNonLeaf_shape (M : Nat) (bm bm' : BufMgr) (p : PageId) (k : Int) (c : PageId)
    (r : Int × PageId) (h : insertIntoNonLeaf M bm p k c = (bm', .returned r)) :
    (p ≠ INVALID_NUMBER ∧ p ≤ bm.pages.length) ∧
    ((∃ X, bm' = (bm.setPage p X).unPinPage p true) ∨
     (∃ X Y, bm' = BufMgr.unPinPage (BufMgr.unPinPage (BufMgr.setPage (BufMgr.setPage
        (BufMgr.setPage bm.allocPage.2 bm.allocPage.1 .zero) p X) bm.allocPage.1 Y) p true)
        bm.allocPage.1 true)) := by
  cases hnode : bm.nonLeafAt M p with
  | none =>
    unfold insertIntoNonLeaf at h
    simp only [hnode] at h
    cases h
  | some node =>
    refine ⟨BufMgr.valid_of_nonLeafAt hnode, ?_⟩
    by_cases hroom : node.pageNoArray.getD M 0 = INVALID_NUMBER
    · rw [insertIntoNonLeaf_room M bm p k c node hnode hroom] at h
      cases hi : insertNonLeafNode M k c node (findIndex node.keyArray k node.size) with
      | none => rw [hi] at h; cases h
      | some n =>
        rw [hi] at h
        exact Or.inl ⟨_, (congrArg Prod.fst h).symm⟩
    · rw [insertIntoNonLeaf_full M bm p k c node hnode hroom] at h
      cases hi : splitNonLeaf M k c node (findIndex node.keyArray k node.size) with
      | none => rw [hi] at h; cases h
      | some r =>
        obtain ⟨cur, new, mv⟩ := r
        rw [hi] at h
        exact Or.inr ⟨_, _, (congrArg Prod.fst h).symm⟩

theorem InsertEffect.refl (M : Nat) (rank : PageId → Nat) (bm : BufMgr) (r : Nat) :
    InsertEffect M rank bm bm r := by
  refine ⟨le_refl _, by simp, [], by simp, by simp, ?_, ?_, ?_, ?_⟩
  · intro q d h
    cases h
  · intro q h
    exact absurd rfl h
  · intro q h
    cases h
  · intro q d h
    cases h

theorem BufMgr.unPinLog_split (bm : BufMgr) (p : PageId) (X Y : Page) :
    (BufMgr.unPinPage (BufMgr.unPinPage (BufMgr.setPage (BufMgr.setPage
        (BufMgr.setPage bm.allocPage.2 bm.allocPage.1 .zero) p X) bm.allocPage.1 Y) p true)
        bm.allocPage.1 true).unPinLog
      = bm.unPinLog ++ [(p, true), (bm.pages.length + 1, true)] := by
  have ha : bm.allocPage.2.unPinLog = bm.unPinLog := rfl
  have hR : bm.allocPage.1 = bm.pages.length + 1 := rfl
  unfold BufMgr.unPinPage
  simp only [BufMgr.unPinLog_setPage, ha, hR, List.append_assoc, List.singleton_append]

theorem nodup_snoc (S : List (PageId × Bool)) (p : PageId) (d : Bool)
    (hS : (S.map Prod.fst).Nodup) (hp : ∀ q e, (q, e) ∈ S → q ≠ p) :
    ((S ++ [(p, d)]).map Prod.fst).Nodup := by
  rw [List.map_append, List.nodup_append]
  refine ⟨hS, by simp, ?_⟩
  intro x hx hx2
  simp only [List.map_cons, List.map_nil, List.mem_singleton] at hx2
  subst hx2
  obtain ⟨⟨q, e⟩, hm, rfl⟩ := List.mem_map.mp hx
  exact hp _ _ hm rfl

theorem BufMgr.page_none_of_gt (bm : BufMgr) (q : PageId) (h : bm.pages.length < q) :
    bm.page q = none := by
  cases hq : bm.page q with
  | none => rfl
  | some pg =>
    have := (BufMgr.valid_of_page hq).2
    unfold PageId at *
    omega

/-- A frame of `insertEntryHelper` that ends by rewriting its page, in place
or by a split, after the call on the child had the effect `hc`. -/
theorem frame_finish (M : Nat) (rank : PageId → Nat) (bm0 bm1 bm bm' : BufMgr) (p : PageId)
    (hread : bm0.readPage p = some bm1) (hl : bm0.pinCnt.length = bm0.pages.length)
    (hc : InsertEffect M rank bm1 bm (rank p))
    (hnh : ∀ m, bm0.page p ≠ some (.header m))
    (hshape : (∃ X, bm' = (bm.setPage p X).unPinPage p true) ∨
     (∃ X Y, bm' = BufMgr.unPinPage (BufMgr.unPinPage (BufMgr.setPage (BufMgr.setPage
        (BufMgr.setPage bm.allocPage.2 bm.allocPage.1 .zero) p X) bm.allocPage.1 Y) p true)
        bm.allocPage.1 true)) :
    InsertEffect M rank bm0 bm' (rank p + 1) := by
  obtain ⟨hpg, hlg, hpc, hp⟩ := BufMgr.readPage_spec hread
  obtain ⟨hle, hpin, S, hlog, hnd, hnoh, hch, hun, htouch⟩ := hc
  rw [hpg] at hle htouch
  rw [hpg, hpc] at hpin
  rw [hlg] at hlog
  have hpage : ∀ q, bm1.page q = bm0.page q := BufMgr.page_of_pages_eq hpg
  have hnl : ∀ q, bm1.nonLeafAt M q = bm0.nonLeafAt M q := BufMgr.nonLeafAt_of_pages_eq hpg M
  have hp' : p ≠ INVALID_NUMBER ∧ p ≤ bm.pages.length := ⟨hp.1, le_trans hp.2 hle⟩
  have hl2 : bm.pinCnt.length = bm.pages.length := by
    rw [hpin]
    simp only [List.length_append, List.length_set, List.length_replicate, hl]
    omega
  have hqp : ∀ q d, (q, d) ∈ S → q ≠ p ∨ bm0.pages.length < q := by
    intro q d hq
    rcases (htouch _ _ hq).2.2 with h1 | h1
    · exact Or.inr h1
    · left
      intro e
      subst e
      omega
  have hqp2 : ∀ q d, (q, d) ∈ S → q ≠ p := by
    intro q d hq e
    rcases hqp q d hq with h | h
    · exact h e
    · subst e
      have := hp.2
      unfold PageId at *
      omega
  rcases hshape with ⟨X, rfl⟩ | ⟨X, Y, rfl⟩
  · have hlen : ((bm.setPage p X).unPinPage p true).pages.length = bm.pages.length := by
      rw [BufMgr.unPinPage_pages, BufMgr.setPage_length]
    refine ⟨by rw [hlen]; exact hle, ?_, S ++ [(p, true)], ?_, ?_, ?_, ?_, ?_, ?_⟩
    · rw [hlen]
      exact inPlace_pins bm0 bm p X true _ hp hl hpin
    · unfold BufMgr.unPinPage
      simp only [BufMgr.unPinLog_setPage, hlog, List.append_assoc]
    · exact nodup_snoc S p true hnd hqp2
    · intro q d hq
      rcases List.mem_append.mp hq with h | h
      · intro m
        rw [← hpage]
        exact hnoh q d h m
      · simp only [List.mem_singleton, Prod.mk.injEq] at h
        obtain ⟨rfl, rfl⟩ := h
        exact hnh
    · intro q hq
      by_cases e : q = p
      · subst e
        simp
      · rw [BufMgr.page_setPage_unPin_other _ _ _ _ _ e] at hq
        rw [← hpage] at hq
        exact List.mem_append_left _ (hch q hq)
    · intro q hq
      have hq1 : (q, false) ∈ S := by simpa using hq
      obtain ⟨h1, n, h2⟩ := hun q hq1
      refine ⟨?_, n, by rw [← hnl]; exact h2⟩
      rw [BufMgr.page_setPage_unPin_other _ _ _ _ _ (hqp2 _ _ hq1), h1, hpage]
    · intro q d hq
      rw [hlen]
      rcases List.mem_append.mp hq with h | h
      · obtain ⟨h1, h2, h3⟩ := htouch q d h
        refine ⟨h1, h2, ?_⟩
        rcases h3 with h3 | h3
        · exact Or.inl h3
        · exact Or.inr (by omega)
      · simp only [List.mem_singleton, Prod.mk.injEq] at h
        obtain ⟨rfl, rfl⟩ := h
        exact ⟨hp.1, hp'.2, Or.inr (by omega)⟩
  · obtain ⟨s1, s2, s3, s4⟩ := splitPages_spec bm p X Y hp'
    refine ⟨by rw [s3]; omega, ?_, S ++ [(p, true), (bm.pages.length + 1, true)],
      ?_, ?_, ?_, ?_, ?_, ?_⟩
    · rw [s3, split_pins bm0 bm p X Y _ hp hl hl2 hpin, List.append_assoc]
      congr 1
      have e : bm.pages.length + 1 - bm0.pages.length
          = (bm.pages.length - bm0.pages.length) + 1 := by omega
      rw [e, List.replicate_succ']
    · rw [BufMgr.unPinLog_split, hlog, List.append_assoc]
    · have e : S ++ [(p, true), (bm.pages.length + 1, true)]
          = (S ++ [(p, true)]) ++ [(bm.pages.length + 1, true)] := by simp
      rw [e]
      apply nodup_snoc _ _ _ (nodup_snoc S p true hnd hqp2)
      intro q d hq
      rcases List.mem_append.mp hq with h | h
      · have := (htouch q d h).2.1
        unfold PageId at *
        omega
      · simp only [List.mem_singleton, Prod.mk.injEq] at h
        obtain ⟨rfl, rfl⟩ := h
        have := hp'.2
        unfold PageId at *
        omega
    · intro q d hq
      rcases List.mem_append.mp hq with h | h
      · intro m
        rw [← hpage]
        exact hnoh q d h m
      · simp only [List.mem_cons, Prod.mk.injEq, List.mem_singleton, List.not_mem_nil,
          or_false] at h
        rcases h with ⟨rfl, rfl⟩ | ⟨rfl, rfl⟩
        · exact hnh
        · intro m
          rw [BufMgr.page_none_of_gt bm0 _ (by unfold PageId at *; omega)]
          exact fun h => Option.noConfusion h
    · intro q hq
      by_cases e : q = p
      · subst e
        simp
      · by_cases e2 : q = bm.pages.length + 1
        · subst e2
          simp
        · rw [s4 q e e2, ← hpage] at hq
          exact List.mem_append_left _ (hch q hq)
    · intro q hq
      have hq1 : (q, false) ∈ S := by simpa using hq
      obtain ⟨h1, n, h2⟩ := hun q hq1
      refine ⟨?_, n, by rw [← hnl]; exact h2⟩
      have e2 : q ≠ bm.pages.length + 1 := by
        have := (htouch q false hq1).2.1
        unfold PageId at *
        omega
      rw [s4 q (hqp2 _ _ hq1) e2, h1, hpage]
    · intro q d hq
      rw [s3]
      rcases List.mem_append.mp hq with h | h
      · obtain ⟨h1, h2, h3⟩ := htouch q d h
        refine ⟨h1, by unfold PageId at *; omega, ?_⟩
        rcases h3 with h3 | h3
        · exact Or.inl h3
        · exact Or.inr (by omega)
      · simp only [List.mem_cons, Prod.mk.injEq, List.mem_singleton, List.not_mem_nil,
          or_false] at h
        rcases h with ⟨rfl, rfl⟩ | ⟨rfl, rfl⟩
        · exact ⟨hp.1, by have := hp'.2; unfold PageId at *; omega, Or.inr (by omega)⟩
        · refine ⟨by simp [INVALID_NUMBER], le_refl _, Or.inl ?_⟩
          unfold PageId at *
          omega

/-- A frame of `insertEntryHelper` whose child did not split: the page is
unpinned clean and holds what it held. -/
theorem frame_finish_clean (M : Nat) (rank : PageId → Nat) (bm0 bm1 bm : BufMgr) (p : PageId)
    (node : NonLeafNodeInt) (hread : bm0.readPage p = some bm1)
    (hnode : bm1.nonLeafAt M p = some node)
    (hl : bm0.pinCnt.length = bm0.pages.length)
    (hc : InsertEffect M rank bm1 bm (rank p)) :
    InsertEffect M rank bm0 (bm.unPinPage p false) (rank p + 1) := by
  obtain ⟨hpg, hlg, hpc, hp⟩ := BufMgr.readPage_spec hread
  obtain ⟨hle, hpin, S, hlog, hnd, hnoh, hch, hun, htouch⟩ := hc
  rw [hpg] at hle htouch
  rw [hpg, hpc] at hpin
  rw [hlg] at hlog
  have hpage : ∀ q, bm1.page q = bm0.page q := BufMgr.page_of_pages_eq hpg
  have hnl : ∀ q, bm1.nonLeafAt M q = bm0.nonLeafAt M q := BufMgr.nonLeafAt_of_pages_eq hpg M
  have hp' : p ≠ INVALID_NUMBER ∧ p ≤ bm.pages.length := ⟨hp.1, le_trans hp.2 hle⟩
  have hqp2 : ∀ q d, (q, d) ∈ S → q ≠ p := by
    intro q d hq e
    subst e
    rcases (htouch _ _ hq).2.2 with h1 | h1
    · have := hp.2
      unfold PageId at *
      omega
    · omega
  have hnh : ∀ m, bm0.page p ≠ some (.header m) := by
    intro m h
    rw [← hpage] at h
    rw [BufMgr.nonLeafAt_header h] at hnode
    cases hnode
  have hpsame : bm.page p = bm0.page p := by
    by_contra h
    rw [← hpage] at h
    rcases (htouch _ _ (hch p h)).2.2 with h1 | h1
    · have := hp.2
      unfold PageId at *
      omega
    · omega
  have hlen : (bm.unPinPage p false).pages.length = bm.pages.length := by
    rw [BufMgr.unPinPage_pages]
  have hpq : ∀ q, (bm.unPinPage p false).page q = bm.page q :=
    BufMgr.page_of_pages_eq (BufMgr.unPinPage_pages _ _ _)
  refine ⟨by rw [hlen]; exact hle, ?_, S ++ [(p, false)], ?_, ?_, ?_, ?_, ?_, ?_⟩
  · rw [hlen]
    exact unPin_only_pins bm0 bm p false _ hp hl hpin
  · unfold BufMgr.unPinPage
    simp only [hlog, List.append_assoc]
  · exact nodup_snoc S p false hnd hqp2
  · intro q d hq
    rcases List.mem_append.mp hq with h | h
    · intro m
      rw [← hpage]
      exact hnoh q d h m
    · simp only [List.mem_singleton, Prod.mk.injEq] at h
      obtain ⟨rfl, rfl⟩ := h
      exact hnh
  · intro q hq
    rw [hpq, ← hpage] at hq
    exact List.mem_append_left _ (hch q hq)
  · intro q hq
    rcases List.mem_append.mp hq with h | h
    · obtain ⟨h1, n, h2⟩ := hun q h
      exact ⟨by rw [hpq, h1, hpage], n, by rw [← hnl]; exact h2⟩
    · simp only [List.mem_singleton, Prod.mk.injEq, and_true] at h
      subst h
      exact ⟨by rw [hpq, hpsame], node, by rw [← hnl]; exact hnode⟩
  · intro q d hq
    rw [hlen]
    rcases List.mem_append.mp hq with h | h
    · obtain ⟨h1, h2, h3⟩ := htouch q d h
      refine ⟨h1, h2, ?_⟩
      rcases h3 with h3 | h3
      · exact Or.inl h3
      · exact Or.inr (by omega)
    · simp only [List.mem_singleton, Prod.mk.injEq] at h
      obtain ⟨rfl, rfl⟩ := h
      exact ⟨hp.1, hp'.2, Or.inr (by omega)⟩

theorem InsertEffect.mono (M : Nat) (rank : PageId → Nat) (bm bm' : BufMgr) (r r' : Nat)
    (hr : r ≤ r') (h : InsertEffect M rank bm bm' r) : InsertEffect M rank bm bm' r' := by
  obtain ⟨h1, h2, S, h3, hnd, hnoh, h4, h5, h6⟩ := h
  refine ⟨h1, h2, S, h3, hnd, hnoh, h4, h5, ?_⟩
  intro q d hq
  obtain ⟨a, b, c⟩ := h6 q d hq
  refine ⟨a, b, ?_⟩
  rcases c with c | c
  · exact Or.inl c
  · exact Or.inr (by omega)

theorem ChildrenBelow.of_same_pages {M : Nat} {bm bm1 : BufMgr} {rank : PageId → Nat}
    (h : bm1.pages = bm.pages) (hc : ChildrenBelow M bm rank) : ChildrenBelow M bm1 rank := by
  intro p n hn
  rw [BufMgr.nonLeafAt_of_pages_eq h] at hn
  exact hc p n hn

/-- The effect of `insertEntryHelper`, whenever it returns, on a file whose
child pointers follow a rank. -/
theorem insertEntryHelper_effect (L M : Nat) (key : Int) (rid : RecordId)
    (rank : PageId → Nat) :
    ∀ (fuel : Nat) (bm bm' : BufMgr) (p : PageId) (isLeaf : Bool) (r : Int × PageId),
      bm.pinCnt.length = bm.pages.length → ChildrenBelow M bm rank →
      insertEntryHelper L M fuel bm key rid p isLeaf = (bm', .returned r) →
      InsertEffect M rank bm bm' (rank p + 1) := by
  intro fuel
  induction fuel with
  | zero =>
    intro bm bm' p isLeaf r _ _ h
    unfold insertEntryHelper at h
    cases h
  | succ n ih =>
    intro bm bm' p isLeaf r hl hcb h
    unfold insertEntryHelper at h
    cases hread : bm.readPage p with
    | none =>
      rw [hread] at h
      cases h
    | some bm1 =>
      rw [hread] at h
      simp only at h
      obtain ⟨hpg, hlg, hpc, hp⟩ := BufMgr.readPage_spec hread
      cases isLeaf with
      | true =>
        simp only [if_true] at h
        have hnh : ∀ m, bm.page p ≠ some (.header m) := by
          intro m hm
          rw [← BufMgr.page_of_pages_eq hpg] at hm
          unfold insertIntoLeaf at h
          simp only [BufMgr.leafAt_header hm] at h
          cases h
        exact frame_finish M rank bm bm1 bm1 bm' p hread hl (InsertEffect.refl M rank bm1 _) hnh
          (insertIntoLeaf_shape L bm1 bm' key rid p r h).2
      | false =>
        simp only [Bool.false_eq_true, if_false] at h
        cases hnode : bm1.nonLeafAt M p with
        | none =>
          rw [hnode] at h
          cases h
        | some node =>
          rw [hnode] at h
          simp only at h
          have hl1 : bm1.pinCnt.length = bm1.pages.length := by
            rw [hpc, hpg, List.length_set, hl]
          have hcb1 : ChildrenBelow M bm1 rank := ChildrenBelow.of_same_pages hpg hcb
          have hrk := hcb1 p node hnode (findIndex node.keyArray key node.size)
            (findIndex_spec node.keyArray key node.size).1
          cases hrec : insertEntryHelper L M n bm1 key rid
              (node.pageNoArray.getD (findIndex node.keyArray key node.size) 0)
              (decide (node.level = 1)) with
          | mk bm2 o =>
            rw [hrec] at h
            cases o with
            | returned kc =>
              obtain ⟨k, cid⟩ := kc
              have hc := InsertEffect.mono M rank bm1 bm2 _ (rank p) hrk
                (ih bm1 bm2 _ _ (k, cid) hl1 hcb1 hrec)
              simp only at h
              by_cases hcid : cid = 0
              · simp only [hcid, if_true] at h
                have e : bm' = bm2.unPinPage p false := (congrArg Prod.fst h).symm
                rw [e]
                exact frame_finish_clean M rank bm bm1 bm2 p node hread hnode hl hc
              · simp only [hcid, if_false] at h
                have hnh : ∀ m, bm.page p ≠ some (.header m) := by
                  intro m hm
                  rw [← BufMgr.page_of_pages_eq hpg] at hm
                  rw [BufMgr.nonLeafAt_header hm] at hnode
                  cases hnode
                exact frame_finish M rank bm bm1 bm2 bm' p hread hl hc hnh
                  (insertIntoNonLeaf_shape M bm2 bm' p k cid r h).2
            | threw e => cases h
            | undefined => cases h
            | outOfFuel => cases h

theorem root_pins (c0 : List Nat) (h : Nat) (hh : h < c0.length) :
    (((c0 ++ [1]).set h ((c0 ++ [1]).getD h 0 + 1)).set c0.length
        (((c0 ++ [1]).set h ((c0 ++ [1]).getD h 0 + 1)).getD c0.length 0 - 1)).set h
      ((((c0 ++ [1]).set h ((c0 ++ [1]).getD h 0 + 1)).set c0.length
        (((c0 ++ [1]).set h ((c0 ++ [1]).getD h 0 + 1)).getD c0.length 0 - 1)).getD h 0 - 1)
      = c0 ++ [0] := by
  have e1 : (c0 ++ [1]).getD h 0 = c0.getD h 0 := by
    rw [List.getD_eq_getElem?_getD, List.getElem?_append_left hh, List.getD_eq_getElem?_getD]
  have e2 : (c0 ++ [1]).set h (c0.getD h 0 + 1) = c0.set h (c0.getD h 0 + 1) ++ [1] :=
    List.set_append_left _ _ hh
  have hlen : (c0.set h (c0.getD h 0 + 1)).length = c0.length := by simp
  have e3 : (c0.set h (c0.getD h 0 + 1) ++ [1]).getD c0.length 0 = 1 := by
    rw [List.getD_eq_getElem?_getD, List.getElem?_append_right (by rw [hlen])]
    simp
  have e4 : (c0.set h (c0.getD h 0 + 1) ++ [1]).set c0.length 0
      = c0.set h (c0.getD h 0 + 1) ++ [0] := by
    rw [List.set_append_right _ _ (by rw [hlen])]
    simp
  rw [e1, e2, e3, Nat.sub_self, e4]
  exact pin_unpin c0 [0] h hh

theorem BufMgr.pinCnt_rootSplit (bm bm3 : BufMgr) (NR H : Page) (hdr : PageId)
    (hl : bm.pinCnt.length = bm.pages.length) (hv : hdr ≤ bm.pages.length)
    (hread : (bm.allocPage.2.setPage bm.allocPage.1 NR).readPage hdr = some bm3) :
    (((bm3.setPage hdr H).unPinPage bm.allocPage.1 true).unPinPage hdr true).pinCnt
        = bm.pinCnt ++ [0] ∧
    (((bm3.setPage hdr H).unPinPage bm.allocPage.1 true).unPinPage hdr true).unPinLog
        = bm.unPinLog ++ [(bm.pages.length + 1, true), (hdr, true)] ∧
    (((bm3.setPage hdr H).unPinPage bm.allocPage.1 true).unPinPage hdr true).pages.length
        = bm.pages.length + 1 := by
  obtain ⟨hpg, hlg, hpc, hp⟩ := BufMgr.readPage_spec hread
  have hR : bm.allocPage.1 = bm.pages.length + 1 := rfl
  have hR0 : bm.pages.length + 1 ≠ INVALID_NUMBER := by simp [INVALID_NUMBER]
  have ha : bm.allocPage.2.pinCnt = bm.pinCnt ++ [1] := rfl
  have hal : bm.allocPage.2.unPinLog = bm.unPinLog := rfl
  have hlenA : (bm.allocPage.2.setPage bm.allocPage.1 NR).pages.length = bm.pages.length + 1 := by
    rw [BufMgr.setPage_length]
    simp [BufMgr.allocPage_pages]
  rw [BufMgr.pinCnt_setPage, ha] at hpc
  rw [BufMgr.unPinLog_setPage, hal] at hlg
  refine ⟨?_, ?_, ?_⟩
  · unfold BufMgr.unPinPage
    simp only [hp.1, hR, hR0, if_false, BufMgr.pinCnt_setPage, hpc, Nat.add_sub_cancel]
    rw [← hl]
    apply root_pins
    have h0 : hdr ≠ 0 := hp.1
    unfold PageId at *
    omega
  · unfold BufMgr.unPinPage
    simp only [BufMgr.unPinLog_setPage, hlg, hR, List.append_assoc, List.singleton_append]
  · rw [BufMgr.unPinPage_pages, BufMgr.unPinPage_pages, BufMgr.setPage_length, hpg, hlenA]

/-! ## The scan on a tree with sorted, chained leaves (C29) -/

/-- C29, evaluated with `L = M = 2` on the index over the keys
`1, 2, 4, 3, 5, 6` inserted in this order.  The leaves are sorted and packed
and the chain `2 -> 3 -> 5 -> 6` holds the keys `1 | 2 3 | 4 | 5 6` in order.
The sixth insertion has split the level-1 node of page 4, which keeps
`size = 1`, the key `2` and the children `2, 3`, and, behind them, the child
`5` in `pageNoArray[2]`.  `startScan(3, GTE, 4, LTE)` descends from the root
(page 8, key `4`) to page 4, where the loop of the descent runs over all `M`
key slots: the unused slot `keyArray[1] = 0` is smaller than `3`, the index
becomes `2` and the descent continues in page 5.  `startScan` returns with
the cursor on page 5, slot 0 (key `4`); the entry with key `3` in slot 1 of
page 3, which is earlier in the chain and satisfies both bounds, is skipped,
and the scan returns one rid, that of key `4`, of the two entries in `[3, 4]`. -/
theorem c29_startScan_skips_first_matching_entry :
    (buildIndex 2 2 [1, 2, 4, 3, 5, 6]).2 = .returned () ∧
    (buildIndex 2 2 [1, 2, 4, 3, 5, 6]).1.rootPageNum = 8 ∧
    (buildIndex 2 2 [1, 2, 4, 3, 5, 6]).1.bufMgr.leafAt 2 2
      = some { keyArray := [1, 0], ridArray := [testRid 1, ⟨0, 2⟩], rightSibPageNo := 3,
               size := 1 } ∧
    (buildIndex 2 2 [1, 2, 4, 3, 5, 6]).1.bufMgr.leafAt 2 3
      = some { keyArray := [2, 3], ridArray := [testRid 2, testRid 3], rightSibPageNo := 5,
               size := 2 } ∧
    (buildIndex 2 2 [1, 2, 4, 3, 5, 6]).1.bufMgr.leafAt 2 5
      = some { keyArray := [4, 0], ridArray := [testRid 4, ⟨0, 5⟩], rightSibPageNo := 6,
               size := 1 } ∧
    (buildIndex 2 2 [1, 2, 4, 3, 5, 6]).1.bufMgr.leafAt 2 6
      = some { keyArray := [5, 6], ridArray := [testRid 5, testRid 6], rightSibPageNo := 0,
               size := 2 } ∧
    (buildIndex 2 2 [1, 2, 4, 3, 5, 6]).1.bufMgr.nonLeafAt 2 8
      = some { level := 0, keyArray := [4, 0], pageNoArray := [4, 7, 0], size := 1 } ∧
    (buildIndex 2 2 [1, 2, 4, 3, 5, 6]).1.bufMgr.nonLeafAt 2 4
      = some { level := 1, keyArray := [2, 0], pageNoArray := [2, 3, 5], size := 1 } ∧
    descendIndexFrom [2, 0] 3 2 0 = 2 ∧
    (startScan 2 2 8 (buildIndex 2 2 [1, 2, 4, 3, 5, 6]).1 3 .GTE 4 .LTE).2 = .returned () ∧
    (startScan 2 2 8 (buildIndex 2 2 [1, 2, 4, 3, 5, 6]).1 3 .GTE 4 .LTE).1.currentPageNum = 5 ∧
    (startScan 2 2 8 (buildIndex 2 2 [1, 2, 4, 3, 5, 6]).1 3 .GTE 4 .LTE).1.nextEntry = 0 ∧
    satisfiesLow .GTE 3 3 = true ∧ exceedsHigh .LTE 4 3 = false ∧
    (scanNext 2 (startScan 2 2 8 (buildIndex 2 2 [1, 2, 4, 3, 5, 6]).1 3 .GTE 4 .LTE).1
        ⟨0, 0⟩).2 = (testRid 4, .returned ()) ∧
    (intScan 2 2 8 (buildIndex 2 2 [1, 2, 4, 3, 5, 6]).1 3 .GTE 4 .LTE).2 = .returned 1 := by
  decide

/-! ## The index while no internal node has split: auxiliary facts -/

theorem BufMgr.leafAt_of_page {bm : BufMgr} {p : PageId} {n : LeafNodeInt} (L : Nat)
    (h : bm.page p = some (.leaf n)) : bm.leafAt L p = some n := by
  simp [BufMgr.leafAt, h, Page.asLeaf]

theorem BufMgr.nonLeafAt_of_page {bm : BufMgr} {p : PageId} {n : NonLeafNodeInt} (M : Nat)
    (h : bm.page p = some (.nonLeaf n)) : bm.nonLeafAt M p = some n := by
  simp [BufMgr.nonLeafAt, h, Page.asNonLeaf]

theorem BufMgr.headerAt_of_page {bm : BufMgr} {p : PageId} {m : IndexMetaInfo}
    (h : bm.page p = some (.header m)) : bm.headerAt p = some m := by
  simp [BufMgr.headerAt, h, Page.asHeader]

theorem BufMgr.readPage_of_page {bm : BufMgr} {p : PageId} {pg : Page}
    (h : bm.page p = some pg) : ∃ bm1, bm.readPage p = some bm1 ∧ bm1.pages = bm.pages := by
  have : ∃ bm1, bm.readPage p = some bm1 := by simp [BufMgr.readPage, h]
  obtain ⟨bm1, h1⟩ := this
  exact ⟨bm1, h1, BufMgr.readPage_pages h1⟩

theorem BufMgr.page_ne_of_kind {bm : BufMgr} {p q : PageId} {pg1 pg2 : Page}
    (h1 : bm.page p = some pg1) (h2 : bm.page q = some pg2) (hne : pg1 ≠ pg2) : p ≠ q := by
  intro h
  rw [h] at h1
  rw [h1] at h2
  exact hne (Option.some.inj h2)

theorem insertEntryHelper_leaf (L M f : Nat) (bm bm1 : BufMgr) (key : Int) (rid : RecordId)
    (p : PageId) (hread : bm.readPage p = some bm1) :
    insertEntryHelper L M (f + 1) bm key rid p true = insertIntoLeaf L bm1 key rid p := by
  unfold insertEntryHelper
  simp only [hread, if_true]

/-- The in-place leaf insertion as a whole: the page of the leaf after
`insertIntoLeaf` on a leaf that satisfies the invariant and has room. -/
theorem insertIntoLeaf_insert (L : Nat) (bm : BufMgr) (key : Int) (rid : RecordId) (p : PageId)
    (leaf : LeafNodeInt) (hleaf : bm.leafAt L p = some leaf) (hinv : LeafInv L leaf)
    (hL : 1 ≤ L)
    (hroom : (leaf.ridArray.getD (L - 1) default).page_number = INVALID_NUMBER) :
    ∃ n, insertLeafNode L key rid leaf (findIndex leaf.keyArray key leaf.size) = some n ∧
      (insertIntoLeaf L bm key rid p).2 = .returned (0, 0) ∧
      (insertIntoLeaf L bm key rid p).1.page p = some (.leaf n) ∧
      (∀ q, q ≠ p → (insertIntoLeaf L bm key rid p).1.page q = bm.page q) ∧
      (insertIntoLeaf L bm key rid p).1.pages.length = bm.pages.length := by
  obtain ⟨hi, _, _⟩ := findIndex_keys leaf key (by rw [hinv.keyLen]; exact hinv.sizeLe)
    hinv.sorted
  obtain ⟨n, hn, _⟩ := insertLeafNode_occupied L key rid leaf _ hinv.keyLen hinv.ridLen hi
    (hinv.size_lt_of_room hL hroom)
  have hp : p ≠ INVALID_NUMBER ∧ p ≤ bm.pages.length := by
    apply (BufMgr.page_isSome_iff bm p).mp
    unfold BufMgr.leafAt at hleaf
    cases hpg : bm.page p with
    | none => simp [hpg] at hleaf
    | some pg => exact ⟨pg, rfl⟩
  refine ⟨n, hn, ?_, ?_, ?_, ?_⟩
  all_goals rw [insertIntoLeaf_room L bm key rid p leaf hleaf hroom, hn]
  · simp only
    rw [BufMgr.page_of_pages_eq (BufMgr.unPinPage_pages _ _ _),
      BufMgr.page_setPage_same _ _ _ hp]
  · intro q hq
    simp only
    rw [BufMgr.page_of_pages_eq (BufMgr.unPinPage_pages _ _ _)]
    by_cases hq0 : q = INVALID_NUMBER
    · simp [BufMgr.page, hq0]
    · exact BufMgr.page_setPage_other _ _ _ _ hq hq0
  · simp only [BufMgr.unPinPage_pages, BufMgr.setPage_length]

theorem pairwise_insert_lt (ks : List Int) (i : Nat) (key : Int) (hs : ks.Pairwise (· < ·))
    (hle : ∀ a, a ∈ ks.take i → a < key) (hge : ∀ b, b ∈ ks.drop i → key < b) :
    (ks.take i ++ key :: ks.drop i).Pairwise (· < ·) := by
  rw [List.pairwise_append]
  refine ⟨hs.sublist (List.take_sublist _ _), ?_, ?_⟩
  · rw [List.pairwise_cons]
    exact ⟨hge, hs.sublist (List.drop_sublist _ _)⟩
  · intro a ha b hb
    rcases List.mem_cons.mp hb with hb | hb
    · rw [hb]; exact hle a ha
    · exact lt_trans (hle a ha) (hge b hb)

theorem LeafOK.mono_keys {L : Nat} {ks : List Int} {n : LeafNodeInt} (h : LeafOK L ks n)
    (key : Int) : LeafOK L (key :: ks) n :=
  ⟨h.inv, h.strict, fun k hk => List.mem_cons_of_mem _ (h.sub k hk)⟩

/-- The keys of a leaf with the new key inserted at the search position are
strictly increasing when the key is not stored yet. -/
theorem LeafOK.insert_strict {L : Nat} {ks : List Int} {leaf : LeafNodeInt}
    (h : LeafOK L ks leaf) (key : Int) (hfresh : key ∉ ks) :
    (leaf.keys.take (findIndex leaf.keyArray key leaf.size)
      ++ key :: leaf.keys.drop (findIndex leaf.keyArray key leaf.size)).Pairwise (· < ·) := by
  obtain ⟨_, hle, hge⟩ := findIndex_keys leaf key (by rw [h.inv.keyLen]; exact h.inv.sizeLe)
    h.inv.sorted
  apply pairwise_insert_lt _ _ _ h.strict
  · intro a ha
    have h1 := hle a ha
    have h2 : a ≠ key := by
      intro hc
      rw [hc] at ha
      exact hfresh (h.sub key (List.mem_of_mem_take ha))
    exact lt_of_le_of_ne h1 h2
  · exact hge

theorem mem_insert_iff (ks : List Int) (i : Nat) (key k : Int) :
    k ∈ ks.take i ++ key :: ks.drop i ↔ k = key ∨ k ∈ ks := by
  rw [List.mem_append, List.mem_cons]
  constructor
  · rintro (h | h | h)
    · exact Or.inr (List.mem_of_mem_take h)
    · exact Or.inl h
    · exact Or.inr (List.mem_of_mem_drop h)
  · rintro (h | h)
    · exact Or.inr (Or.inl h)
    · rw [← List.take_append_drop i ks, List.mem_append] at h
      rcases h with h | h
      · exact Or.inl h
      · exact Or.inr (Or.inr h)

/-- In-place insertion of a key that is not stored yet keeps what the
two-level proof records of a leaf. -/
theorem LeafOK.insert {L : Nat} {ks : List Int} {leaf n : LeafNodeInt} (h : LeafOK L ks leaf)
    (key : Int) (rid : RecordId) (hfresh : key ∉ ks) (hrid : rid.page_number ≠ INVALID_NUMBER)
    (hsize : leaf.size < L)
    (hn : insertLeafNode L key rid leaf (findIndex leaf.keyArray key leaf.size) = some n) :
    LeafOK L (key :: ks) n ∧ n.rightSibPageNo = leaf.rightSibPageNo ∧
      (∀ k, k ∈ n.keys ↔ k = key ∨ k ∈ leaf.keys) := by
  obtain ⟨hi, hle, hge⟩ := findIndex_keys leaf key (by rw [h.inv.keyLen]; exact h.inv.sizeLe)
    h.inv.sorted
  obtain ⟨n1, hn1, hinv1, _, hsib, hkeys, _⟩ := insertLeafNode_LeafInv L key rid leaf _ h.inv hi
    hsize hrid hle (fun b hb => le_of_lt (hge b hb))
  rw [hn] at hn1
  cases hn1
  have hmem : ∀ k, k ∈ n.keys ↔ k = key ∨ k ∈ leaf.keys := by
    intro k
    rw [hkeys]
    exact mem_insert_iff _ _ _ _
  refine ⟨⟨hinv1, ?_, ?_⟩, hsib, hmem⟩
  · rw [hkeys]
    exact h.insert_strict key hfresh
  · intro k hk
    rcases (hmem k).mp hk with hk | hk
    · rw [hk]; exact List.mem_cons_self _ _
    · exact List.mem_cons_of_mem _ (h.sub k hk)

/-- The split of a full leaf by a key that is not stored yet: both leaves
keep what the two-level proof records, every key of the left leaf is below
every key of the right leaf, and the separator is the first key of the
right leaf. -/
theorem LeafOK.split {L : Nat} {ks : List Int} {leaf : LeafNodeInt} (h : LeafOK L ks leaf)
    (key : Int) (rid : RecordId) (hfresh : key ∉ ks) (hrid : rid.page_number ≠ INVALID_NUMBER)
    (hL : 1 ≤ L) (hfull : leaf.size = L) :
    ∃ cur new, splitLeaf L key rid leaf (findIndex leaf.keyArray key leaf.size) = some (cur, new) ∧
      LeafOK L (key :: ks) cur ∧ LeafOK L (key :: ks) new ∧
      (∀ k, k ∈ cur.keys → k = key ∨ k ∈ leaf.keys) ∧
      (∀ k, k ∈ new.keys → k = key ∨ k ∈ leaf.keys) ∧
      (∀ a, a ∈ cur.keys → a < new.keyArray.getD 0 0) ∧
      (∀ b, b ∈ new.keys → new.keyArray.getD 0 0 ≤ b) ∧
      new.keyArray.getD 0 0 ∈ new.keys ∧
      cur.rightSibPageNo = leaf.rightSibPageNo := by
  obtain ⟨cur, new, hsplit, hboth, ⟨_, _, hnk, _⟩, hkeys, _, hcsib, _, hnsize, _, _⟩ :=
    splitLeaf_spec L key rid leaf h.inv hfull hL
  obtain ⟨hcinv, hninv⟩ := hboth hrid
  have hstrict := h.insert_strict key hfresh
  rw [← hkeys, List.pairwise_append] at hstrict
  obtain ⟨hcs, hns, hcross⟩ := hstrict
  have hmemc : ∀ k, k ∈ cur.keys → k = key ∨ k ∈ leaf.keys := by
    intro k hk
    apply (mem_insert_iff leaf.keys (findIndex leaf.keyArray key leaf.size) key k).mp
    rw [← hkeys]
    exact List.mem_append_left _ hk
  have hmemn : ∀ k, k ∈ new.keys → k = key ∨ k ∈ leaf.keys := by
    intro k hk
    apply (mem_insert_iff leaf.keys (findIndex leaf.keyArray key leaf.size) key k).mp
    rw [← hkeys]
    exact List.mem_append_right _ hk
  have hsub : ∀ k, k = key ∨ k ∈ leaf.keys → k ∈ key :: ks := by
    rintro k (hk | hk)
    · rw [hk]; exact List.mem_cons_self _ _
    · exact List.mem_cons_of_mem _ (h.sub k hk)
  have hhead := keys_eq_head_cons new hnsize (by rw [hnk]; exact hL)
  have hmem : new.keyArray.getD 0 0 ∈ new.keys := by rw [hhead]; exact List.mem_cons_self _ _
  refine ⟨cur, new, hsplit, ⟨hcinv, hcs, fun k hk => hsub k (hmemc k hk)⟩,
    ⟨hninv, hns, fun k hk => hsub k (hmemn k hk)⟩, hmemc, hmemn, ?_, ?_, hmem, hcsib⟩
  · intro a ha
    exact hcross a ha _ hmem
  · intro b hb
    have hb1 : b ∈ new.keys := hb
    rw [hhead] at hb1 hns
    rcases List.mem_cons.mp hb1 with hb1 | hb1
    · rw [hb1]
    · exact le_of_lt ((List.pairwise_cons.mp hns).1 b hb1)

theorem insertEntry_of_helper_zero (L M fuel : Nat) (s : BTreeIndex) (key : Int) (rid : RecordId)
    (bm : BufMgr) (k : Int)
    (h : insertEntryHelper L M fuel s.bufMgr key rid s.rootPageNum s.rootIsLeaf
      = (bm, .returned (k, 0))) :
    insertEntry L M fuel s key rid = ({ s with bufMgr := bm }, .returned ()) := by
  unfold insertEntry
  rw [h]
  simp only [ne_eq, not_true_eq_false, if_false]

theorem LeafOK.with_rightSib {L : Nat} {ks : List Int} {n : LeafNodeInt} (h : LeafOK L ks n)
    (sib : PageId) : LeafOK L ks { n with rightSibPageNo := sib } :=
  ⟨h.inv.of_rightSib sib, h.strict, h.sub⟩

theorem rootSplit_length (bm bm3 : BufMgr) (NR H : Page) (hdr : PageId)
    (hread : (bm.allocPage.2.setPage bm.allocPage.1 NR).readPage hdr = some bm3) :
    (((bm3.setPage hdr H).unPinPage bm.allocPage.1 true).unPinPage hdr true).pages.length
      = bm.pages.length + 1 := by
  rw [BufMgr.unPinPage_pages, BufMgr.unPinPage_pages, BufMgr.setPage_length,
    BufMgr.readPage_pages hread, BufMgr.setPage_length]
  simp [BufMgr.allocPage_pages]

/-- The state of the file after the leaf case of `insertEntryHelper` has split
the leaf `leaf` of page `p`. -/
theorem insertIntoLeaf_split_pages (L : Nat) (bm : BufMgr) (key : Int) (rid : RecordId)
    (p : PageId) (leaf cur new : LeafNodeInt) (hpage : bm.page p = some (.leaf leaf))
    (hfull : (leaf.ridArray.getD (L - 1) default).page_number ≠ INVALID_NUMBER)
    (hsplit : splitLeaf L key rid leaf (findIndex leaf.keyArray key leaf.size) = some (cur, new)) :
    (insertIntoLeaf L bm key rid p).2 = .returned (new.keyArray.getD 0 0, bm.pages.length + 1) ∧
    (insertIntoLeaf L bm key rid p).1.page p
      = some (.leaf { cur with rightSibPageNo := bm.pages.length + 1 }) ∧
    (insertIntoLeaf L bm key rid p).1.page (bm.pages.length + 1)
      = some (.leaf { new with rightSibPageNo := cur.rightSibPageNo }) ∧
    (insertIntoLeaf L bm key rid p).1.pages.length = bm.pages.length + 1 ∧
    (∀ q, q ≠ p → q ≠ bm.pages.length + 1 →
      (insertIntoLeaf L bm key rid p).1.page q = bm.page q) := by
  have hleaf := BufMgr.leafAt_of_page L hpage
  have hR : bm.allocPage.1 = bm.pages.length + 1 := rfl
  rw [insertIntoLeaf_full L bm key rid p leaf hleaf hfull, hsplit]
  simp only [hR]
  obtain ⟨s1, s2, s3, s4⟩ := splitPages_spec bm p
    (.leaf { cur with rightSibPageNo := bm.pages.length + 1 })
    (.leaf { new with rightSibPageNo := cur.rightSibPageNo }) (BufMgr.valid_of_page hpage)
  simp only [hR] at s1 s2 s3 s4
  exact ⟨trivial, s1, s2, s3, s4⟩

theorem two_pages (a b p : PageId) (ha : a ≠ INVALID_NUMBER) (hb : b ≠ INVALID_NUMBER)
    (hp : p ≠ INVALID_NUMBER) (ha2 : a ≤ 2) (hb2 : b ≤ 2) (hp2 : p ≤ 2) (hab : a ≠ b) :
    p = a ∨ p = b := by
  unfold PageId INVALID_NUMBER at *
  omega

/-- Insertion into an index whose root is a leaf with room. -/
theorem LeafRootInv.leaf_step_room (L M fuel : Nat) (ks : List Int) (s : BTreeIndex) (key : Int)
    (rid : RecordId) (hL : 1 ≤ L) (hfuel : 1 ≤ fuel) (h : LeafRootInv L ks s)
    (hfresh : key ∉ ks) (hrid : rid.page_number ≠ INVALID_NUMBER)
    (n : LeafNodeInt) (hroot : s.bufMgr.page s.rootPageNum = some (.leaf n))
    (hok : LeafOK L ks n) (hsib : n.rightSibPageNo = INVALID_NUMBER)
    (hroom : (n.ridArray.getD (L - 1) default).page_number = INVALID_NUMBER) :
    (insertEntry L M fuel s key rid).2 = .returned () ∧
    LeafRootInv L (key :: ks) (insertEntry L M fuel s key rid).1 := by
  obtain ⟨f, rfl⟩ : ∃ f, fuel = f + 1 := ⟨fuel - 1, by omega⟩
  obtain ⟨m, hhdr⟩ := h.hdr
  obtain ⟨bm1, hread, hpg⟩ := BufMgr.readPage_of_page hroot
  have hleaf1 : bm1.leafAt L s.rootPageNum = some n := by
    rw [BufMgr.leafAt_of_pages_eq hpg]
    exact BufMgr.leafAt_of_page L hroot
  obtain ⟨n1, hn1, hret, hpage, hother, hlen⟩ :=
    insertIntoLeaf_insert L bm1 key rid s.rootPageNum n hleaf1 hok.inv hL hroom
  have hhelper : insertEntryHelper L M (f + 1) s.bufMgr key rid s.rootPageNum s.rootIsLeaf
      = ((insertIntoLeaf L bm1 key rid s.rootPageNum).1, .returned (0, 0)) := by
    rw [h.isLeaf, insertEntryHelper_leaf L M f s.bufMgr bm1 key rid s.rootPageNum hread]
    exact Prod.ext rfl hret
  rw [insertEntry_of_helper_zero L M (f + 1) s key rid _ 0 hhelper]
  refine ⟨rfl, ?_⟩
  obtain ⟨hok1, hsib1, _⟩ := hok.insert key rid hfresh hrid (hok.inv.size_lt_of_room hL hroom) hn1
  have hne : s.headerPageNum ≠ s.rootPageNum :=
    BufMgr.page_ne_of_kind hhdr hroot (by intro hc; cases hc)
  refine ⟨h.isLeaf, ?_, ⟨m, ?_⟩, ⟨n1, hpage, hok1, by rw [hsib1, hsib]⟩⟩
  · show (insertIntoLeaf L bm1 key rid s.rootPageNum).1.pages.length = 2
    rw [hlen, hpg]
    exact h.len
  · show (insertIntoLeaf L bm1 key rid s.rootPageNum).1.page s.headerPageNum = _
    rw [hother _ hne, BufMgr.page_of_pages_eq hpg]
    exact hhdr

/-- Insertion into an index whose root is a full leaf: the leaf splits and a
new root of level 1 is installed. -/
theorem LeafRootInv.leaf_step_full (L M fuel : Nat) (ks : List Int) (s : BTreeIndex) (key : Int)
    (rid : RecordId) (hM : 1 ≤ M) (hfuel : 1 ≤ fuel) (h : LeafRootInv L ks s)
    (hfresh : key ∉ ks) (hrid : rid.page_number ≠ INVALID_NUMBER)
    (n : LeafNodeInt) (hroot : s.bufMgr.page s.rootPageNum = some (.leaf n))
    (hok : LeafOK L ks n) (hsib : n.rightSibPageNo = INVALID_NUMBER)
    (hfull : (n.ridArray.getD (L - 1) default).page_number ≠ INVALID_NUMBER) :
    (insertEntry L M fuel s key rid).2 = .returned () ∧
    ∃ r, NodeRootInv L M (key :: ks) (insertEntry L M fuel s key rid).1 r := by
  obtain ⟨f, rfl⟩ : ∃ f, fuel = f + 1 := ⟨fuel - 1, by omega⟩
  obtain ⟨m, hhdr⟩ := h.hdr
  obtain ⟨bm1, hread, hpg⟩ := BufMgr.readPage_of_page hroot
  have hroot1 : bm1.page s.rootPageNum = some (.leaf n) := by
    rw [BufMgr.page_of_pages_eq hpg]
    exact hroot
  obtain ⟨hL, hsize⟩ := hok.inv.full_of_not_room hfull
  obtain ⟨cur, new, hsplit, hcur, hnew, _, _, hlt, hge, _, hcsib⟩ :=
    hok.split key rid hfresh hrid hL hsize
  obtain ⟨e1, e2, e3, e4, e5⟩ :=
    insertIntoLeaf_split_pages L bm1 key rid s.rootPageNum n cur new hroot1 hfull hsplit
  have hlen1 : bm1.pages.length = 2 := by rw [hpg]; exact h.len
  rw [hlen1] at e1 e2 e3 e4 e5
  have hhelper : insertEntryHelper L M (f + 1) s.bufMgr key rid s.rootPageNum s.rootIsLeaf
      = ((insertIntoLeaf L bm1 key rid s.rootPageNum).1, .returned (new.keyArray.getD 0 0, 3)) := by
    rw [h.isLeaf, insertEntryHelper_leaf L M f s.bufMgr bm1 key rid s.rootPageNum hread]
    exact Prod.ext rfl e1
  obtain ⟨bm3, hread3, hins⟩ := insertEntry_root_split L M (f + 1) s key rid m _ _ 3 hhdr hhelper
    (by decide)
  have hvr := BufMgr.valid_of_page hroot
  have hvh := BufMgr.valid_of_page hhdr
  rw [h.len] at hvr hvh
  have hne : s.headerPageNum ≠ s.rootPageNum :=
    BufMgr.page_ne_of_kind hhdr hroot (by intro hc; cases hc)
  have hh3 : s.headerPageNum ≠ 3 := by
    have := hvh.2
    unfold PageId at *
    omega
  have hr3 : s.rootPageNum ≠ 3 := by
    have := hvr.2
    unfold PageId at *
    omega
  have hb : (insertIntoLeaf L bm1 key rid s.rootPageNum).1.page s.headerPageNum
      = some (.header m) := by
    rw [e5 _ hne hh3, BufMgr.page_of_pages_eq hpg]
    exact hhdr
  have hR : (insertIntoLeaf L bm1 key rid s.rootPageNum).1.allocPage.1 = 4 := by
    show (insertIntoLeaf L bm1 key rid s.rootPageNum).1.pages.length + 1 = 4
    rw [e4]
  obtain ⟨g1, g2, g3⟩ := rootSplit_pages _ bm3 _ s.headerPageNum m
    { m with rootPageNo := (insertIntoLeaf L bm1 key rid s.rootPageNum).1.allocPage.1 } hb hread3
  have glen := rootSplit_length _ bm3 _
    (.header { m with rootPageNo := (insertIntoLeaf L bm1 key rid s.rootPageNum).1.allocPage.1 })
    s.headerPageNum hread3
  rw [e4] at g1 g3 glen
  rw [hins]
  refine ⟨rfl, { level := if s.rootIsLeaf = true then 1 else 0,
                 keyArray := (List.replicate M 0).set 0 (new.keyArray.getD 0 0),
                 pageNoArray := ((List.replicate (M + 1) 0).set 0 s.rootPageNum).set 1 3,
                 size := 1 }, ?_⟩
  have hh4 : s.headerPageNum ≠ 4 := by
    have := hvh.2
    unfold PageId at *
    omega
  have hr4 : s.rootPageNum ≠ 4 := by
    have := hvr.2
    unfold PageId at *
    omega
  have hpR : ((List.replicate (M + 1) (0 : PageId)).set 0 s.rootPageNum).set 1 3
      = s.rootPageNum :: 3 :: List.replicate (M - 1) INVALID_NUMBER :=
    newRoot_pageNoArray M hM _ _
  have hkR : (List.replicate M (0 : Int)).set 0 (new.keyArray.getD 0 0)
      = new.keyArray.getD 0 0 :: List.replicate (M - 1) 0 := newRoot_keyArray M hM _
  have hcpage : ∀ q, q ≠ 4 → q ≠ s.headerPageNum →
      (((bm3.setPage s.headerPageNum (.header { m with rootPageNo :=
        (insertIntoLeaf L bm1 key rid s.rootPageNum).1.allocPage.1 })).unPinPage
        (insertIntoLeaf L bm1 key rid s.rootPageNum).1.allocPage.1 true).unPinPage
        s.headerPageNum true).page q = (insertIntoLeaf L bm1 key rid s.rootPageNum).1.page q :=
    g3
  constructor
  · rfl
  · exact ⟨_, g2⟩
  · show _ = some (.nonLeaf _)
    have g1b : (((bm3.setPage s.headerPageNum (.header { m with rootPageNo :=
        (insertIntoLeaf L bm1 key rid s.rootPageNum).1.allocPage.1 })).unPinPage
        (insertIntoLeaf L bm1 key rid s.rootPageNum).1.allocPage.1 true).unPinPage
        s.headerPageNum true).page 4 = _ := g1
    exact (congrArg _ hR).trans g1b
  · intro p nn hp
    simp only [hR]
    by_contra hne4
    by_cases hph : p = s.headerPageNum
    · rw [hph, g2] at hp
      cases hp
    · rw [hcpage p hne4 hph] at hp
      by_cases hpr : p = s.rootPageNum
      · rw [hpr, e2] at hp
        cases hp
      · by_cases hp3 : p = 3
        · rw [hp3, e3] at hp
          cases hp
        · rw [e5 p hpr hp3, BufMgr.page_of_pages_eq hpg] at hp
          have hv := BufMgr.valid_of_page hp
          rw [h.len] at hv
          rcases two_pages _ _ p hvh.1 hvr.1 hv.1 hvh.2 hvr.2 hv.2 hne with h1 | h1
          · exact hph h1
          · exact hpr h1
  · simp [h.isLeaf]
  · simp
  · simp
  · exact le_refl 1
  · exact hM
  · show _ = 1 + 3
    rw [glen]
  · intro a b hab hb1
    have hb0 : b = 0 := by
      have : b < 1 := hb1
      omega
    have ha0 : a = 0 := by omega
    rw [ha0, hb0]
  · intro j hj1 hjM
    show (((List.replicate (M + 1) (0 : PageId)).set 0 s.rootPageNum).set 1 3).getD j 0 = _
    rw [hpR]
    have hj : 1 < j := hj1
    obtain ⟨j2, rfl⟩ : ∃ j2, j = j2 + 2 := ⟨j - 2, by omega⟩
    simp [List.getD_eq_getElem?_getD, List.getElem?_replicate, INVALID_NUMBER]
    split <;> rfl
  · intro i hi
    have hi1 : i ≤ 1 := hi
    have hi2 : i = 0 ∨ i = 1 := by omega
    show ∃ nn, _ = some (Page.leaf nn) ∧ _ ∧ (∀ k, k ∈ nn.keys → i < 1 → k <
        ((List.replicate M (0 : Int)).set 0 (new.keyArray.getD 0 0)).getD i 0) ∧
      (∀ k, k ∈ nn.keys → 0 < i →
        ((List.replicate M (0 : Int)).set 0 (new.keyArray.getD 0 0)).getD (i - 1) 0 ≤ k) ∧
      nn.rightSibPageNo = if i < 1 then
        (((List.replicate (M + 1) (0 : PageId)).set 0 s.rootPageNum).set 1 3).getD (i + 1) 0
        else INVALID_NUMBER
    rw [hpR, hkR]
    rcases hi2 with rfl | rfl
    · refine ⟨_, ?_, hcur.with_rightSib 3, ?_, ?_, ?_⟩
      · show _ = some (Page.leaf { cur with rightSibPageNo := 3 })
        have : (s.rootPageNum :: 3 :: List.replicate (M - 1) INVALID_NUMBER).getD 0 0
            = s.rootPageNum := rfl
        simp only [hpR, this]
        rw [hcpage _ hr4 (Ne.symm hne)]
        exact e2
      · intro k hk _
        exact hlt k hk
      · intro k _ h0
        exact absurd h0 (by decide)
      · rfl
    · refine ⟨_, ?_, hnew.with_rightSib cur.rightSibPageNo, ?_, ?_, ?_⟩
      · show _ = some (Page.leaf { new with rightSibPageNo := cur.rightSibPageNo })
        have : (s.rootPageNum :: 3 :: List.replicate (M - 1) INVALID_NUMBER).getD 1 0
            = 3 := rfl
        simp only [hpR, this]
        rw [hcpage 3 (by decide) (Ne.symm hh3)]
        exact e3
      · intro k _ h0
        exact absurd h0 (by decide)
      · intro k hk _
        exact hge k hk
      · show cur.rightSibPageNo = _
        rw [hcsib, hsib]
        rfl
  · intro i j hi hj hij
    have hi1 : i ≤ 1 := hi
    have hj1 : j ≤ 1 := hj
    have hij2 : (((List.replicate (M + 1) (0 : PageId)).set 0 s.rootPageNum).set 1 3).getD i 0
        = (((List.replicate (M + 1) (0 : PageId)).set 0 s.rootPageNum).set 1 3).getD j 0 := hij
    rw [hpR] at hij2
    have hi2 : i = 0 ∨ i = 1 := by omega
    have hj2 : j = 0 ∨ j = 1 := by omega
    rcases hi2 with rfl | rfl <;> rcases hj2 with rfl | rfl
    · rfl
    · exact absurd hij2 hr3
    · exact absurd hij2.symm hr3
    · rfl

/-! ### The file never shrinks -/

theorem BufMgr.split_length (bm : BufMgr) (p : PageId) (X Y : Page) :
    (BufMgr.unPinPage (BufMgr.unPinPage (BufMgr.setPage (BufMgr.setPage
        (BufMgr.setPage bm.allocPage.2 bm.allocPage.1 .zero) p X) bm.allocPage.1 Y) p true)
        bm.allocPage.1 true).pages.length = bm.pages.length + 1 := by
  simp only [BufMgr.unPinPage_pages, BufMgr.setPage_length, BufMgr.allocPage_pages,
    List.length_append, List.length_singleton]

theorem insertIntoLeaf_length_le (L : Nat) (bm : BufMgr) (key : Int) (rid : RecordId)
    (p : PageId) : bm.pages.length ≤ (insertIntoLeaf L bm key rid p).1.pages.length := by
  cases hleaf : bm.leafAt L p with
  | none =>
    unfold insertIntoLeaf
    simp only [hleaf]
    exact le_refl _
  | some leaf =>
    by_cases hroom : (leaf.ridArray.getD (L - 1) default).page_number = INVALID_NUMBER
    · rw [insertIntoLeaf_room L bm key rid p leaf hleaf hroom]
      cases insertLeafNode L key rid leaf (findIndex leaf.keyArray key leaf.size) with
      | none => exact le_refl _
      | some n =>
        simp only [BufMgr.unPinPage_pages, BufMgr.setPage_length]
        exact le_refl _
    · rw [insertIntoLeaf_full L bm key rid p leaf hleaf hroom]
      cases splitLeaf L key rid leaf (findIndex leaf.keyArray key leaf.size) with
      | none =>
        simp only [BufMgr.setPage_length, BufMgr.allocPage_pages, List.length_append,
          List.length_singleton]
        omega
      | some r =>
        obtain ⟨cur, new⟩ := r
        simp only [BufMgr.split_length]
        omega

theorem insertIntoNonLeaf_length_le (M : Nat) (bm : BufMgr) (p : PageId) (k : Int)
    (c : PageId) : bm.pages.length ≤ (insertIntoNonLeaf M bm p k c).1.pages.length := by
  cases hnode : bm.nonLeafAt M p with
  | none =>
    unfold insertIntoNonLeaf
    simp only [hnode]
    exact le_refl _
  | some node =>
    by_cases hroom : node.pageNoArray.getD M 0 = INVALID_NUMBER
    · rw [insertIntoNonLeaf_room M bm p k c node hnode hroom]
      cases insertNonLeafNode M k c node (findIndex node.keyArray k node.size) with
      | none => exact le_refl _
      | some n =>
        simp only [BufMgr.unPinPage_pages, BufMgr.setPage_length]
        exact le_refl _
    · rw [insertIntoNonLeaf_full M bm p k c node hnode hroom]
      cases splitNonLeaf M k c node (findIndex node.keyArray k node.size) with
      | none =>
        simp only [BufMgr.setPage_length, BufMgr.allocPage_pages, List.length_append,
          List.length_singleton]
        omega
      | some r =>
        obtain ⟨cur, new, mv⟩ := r
        simp only [BufMgr.split_length]
        omega

theorem insertEntryHelper_length_le (L M : Nat) (key : Int) (rid : RecordId) :
    ∀ (fuel : Nat) (bm : BufMgr) (p : PageId) (isLeaf : Bool),
      bm.pages.length ≤ (insertEntryHelper L M fuel bm key rid p isLeaf).1.pages.length := by
  intro fuel
  induction fuel with
  | zero => intro bm p isLeaf; exact le_refl _
  | succ n ih =>
    intro bm p isLeaf
    unfold insertEntryHelper
    cases hread : bm.readPage p with
    | none => exact le_refl _
    | some bm1 =>
      have h1 : bm.pages.length = bm1.pages.length := by rw [BufMgr.readPage_pages hread]
      simp only
      cases isLeaf with
      | true =>
        simp only [if_true]
        rw [h1]
        exact insertIntoLeaf_length_le L bm1 key rid p
      | false =>
        simp only [Bool.false_eq_true, if_false]
        cases hnode : bm1.nonLeafAt M p with
        | none => exact le_of_eq h1
        | some node =>
          simp only
          have h2 := ih bm1 (node.pageNoArray.getD (findIndex node.keyArray key node.size) 0)
            (decide (node.level = 1))
          split
          · rename_i bm2 mk cid heq
            rw [heq] at h2
            split
            · rw [BufMgr.unPinPage_pages]
              exact le_trans (le_of_eq h1) h2
            · exact le_trans (le_trans (le_of_eq h1) h2)
                (insertIntoNonLeaf_length_le M bm2 p mk cid)
          · rename_i bm2 o hne heq
            rw [heq] at h2
            exact le_trans (le_of_eq h1) h2

theorem insertEntry_length_ge_helper (L M fuel : Nat) (s : BTreeIndex) (key : Int)
    (rid : RecordId) :
    (insertEntryHelper L M fuel s.bufMgr key rid s.rootPageNum s.rootIsLeaf).1.pages.length
      ≤ (insertEntry L M fuel s key rid).1.bufMgr.pages.length := by
  unfold insertEntry
  split
  · rename_i bm k c heq
    rw [heq]
    split
    · simp only
      split
      · simp only [BufMgr.setPage_length, BufMgr.allocPage_pages, List.length_append,
          List.length_singleton]
        omega
      · rename_i bm3 hread
        have h3 := BufMgr.readPage_pages hread
        split
        · simp only [h3, BufMgr.setPage_length, BufMgr.allocPage_pages, List.length_append,
            List.length_singleton]
          omega
        · simp only [BufMgr.unPinPage_pages, h3, BufMgr.setPage_length, BufMgr.allocPage_pages,
            List.length_append, List.length_singleton]
          omega
    · exact le_refl _
  · rename_i bm e heq
    rw [heq]
  · rename_i bm heq
    rw [heq]
  · rename_i bm heq
    rw [heq]

theorem insertEntry_length_le (L M fuel : Nat) (s : BTreeIndex) (key : Int) (rid : RecordId) :
    s.bufMgr.pages.length ≤ (insertEntry L M fuel s key rid).1.bufMgr.pages.length :=
  le_trans (insertEntryHelper_length_le L M key rid fuel s.bufMgr s.rootPageNum s.rootIsLeaf)
    (insertEntry_length_ge_helper L M fuel s key rid)

theorem bulkLoad_length_le (L M fuel : Nat) :
    ∀ (relation : List (Int × RecordId)) (s : BTreeIndex),
      s.bufMgr.pages.length ≤ (bulkLoad L M fuel s relation).1.bufMgr.pages.length := by
  intro relation
  induction relation with
  | nil => intro s; exact le_refl _
  | cons kr rest ih =>
    intro s
    obtain ⟨key, rid⟩ := kr
    unfold bulkLoad
    have h1 := insertEntry_length_le L M fuel s key rid
    split
    · rename_i s1 heq
      rw [heq] at h1
      exact le_trans h1 (ih s1)
    · rename_i s1 o hne heq
      rw [heq] at h1
      exact h1

/-- One step of `insertEntryHelper` at a node of level 1: the recursive call
is the leaf case on the child. -/
theorem insertEntryHelper_level1 (L M f : Nat) (bm bm1 bm1c : BufMgr) (key : Int)
    (rid : RecordId) (p : PageId) (node : NonLeafNodeInt)
    (hread : bm.readPage p = some bm1) (hnode : bm1.nonLeafAt M p = some node)
    (hlevel : node.level = 1)
    (hreadc : bm1.readPage (node.pageNoArray.getD (findIndex node.keyArray key node.size) 0)
      = some bm1c) :
    insertEntryHelper L M (f + 2) bm key rid p false =
      match insertIntoLeaf L bm1c key rid
          (node.pageNoArray.getD (findIndex node.keyArray key node.size) 0) with
      | (bm2, .returned (k, cid)) =>
        if cid = 0 then (bm2.unPinPage p false, .returned (0, 0))
        else insertIntoNonLeaf M bm2 p k cid
      | (bm2, o) => (bm2, o) := by
  have hinner := insertEntryHelper_leaf L M f bm1 bm1c key rid
    (node.pageNoArray.getD (findIndex node.keyArray key node.size) 0) hreadc
  rw [insertEntryHelper]
  simp only [hread, Bool.false_eq_true, if_false, hnode, hlevel, decide_True, hinner]
  all_goals rfl

theorem findIndex_unique (keyArray : List Int) (x : Int) (size j : Nat) (hj : j ≤ size)
    (hle : ∀ i, i < j → keyArray.getD i 0 ≤ x) (hgt : j < size → x < keyArray.getD j 0) :
    findIndex keyArray x size = j := by
  obtain ⟨h1, h2, h3⟩ := findIndex_spec keyArray x size
  rcases Nat.lt_trichotomy (findIndex keyArray x size) j with h | h | h
  · have a := hle _ h
    have b := h3 (by omega)
    omega
  · exact h
  · have a := h2 j h
    have b := hgt (by omega)
    omega

/-- The descent of `insertEntryHelper` in an index whose root is the only
internal node: the call is the leaf case on the child that the search of the
root selects. -/
theorem NodeRootInv.descend {L M : Nat} {ks : List Int} {s : BTreeIndex} {r : NonLeafNodeInt}
    (h : NodeRootInv L M ks s r) (key : Int) (rid : RecordId) (f : Nat) :
    ∃ bm1c, bm1c.pages = s.bufMgr.pages ∧
      insertEntryHelper L M (f + 2) s.bufMgr key rid s.rootPageNum s.rootIsLeaf =
        match insertIntoLeaf L bm1c key rid
            (r.pageNoArray.getD (findIndex r.keyArray key r.size) 0) with
        | (bm2, .returned (k, cid)) =>
          if cid = 0 then (bm2.unPinPage s.rootPageNum false, .returned (0, 0))
          else insertIntoNonLeaf M bm2 s.rootPageNum k cid
        | (bm2, o) => (bm2, o) := by
  obtain ⟨bm1, hread, hpg⟩ := BufMgr.readPage_of_page h.root
  have hnode : bm1.nonLeafAt M s.rootPageNum = some r := by
    rw [BufMgr.nonLeafAt_of_pages_eq hpg]
    exact BufMgr.nonLeafAt_of_page M h.root
  obtain ⟨n, hpc, _⟩ := h.child _ (findIndex_spec r.keyArray key r.size).1
  have hpc1 : bm1.page (r.pageNoArray.getD (findIndex r.keyArray key r.size) 0)
      = some (.leaf n) := by
    rw [BufMgr.page_of_pages_eq hpg]
    exact hpc
  obtain ⟨bm1c, hreadc, hpgc⟩ := BufMgr.readPage_of_page hpc1
  refine ⟨bm1c, by rw [hpgc, hpg], ?_⟩
  rw [h.notLeaf]
  exact insertEntryHelper_level1 L M f s.bufMgr bm1 bm1c key rid s.rootPageNum r hread hnode
    h.level hreadc

theorem NodeRootInv.child_ne_root {L M : Nat} {ks : List Int} {s : BTreeIndex}
    {r : NonLeafNodeInt} (h : NodeRootInv L M ks s r) (i : Nat) (hi : i ≤ r.size) :
    r.pageNoArray.getD i 0 ≠ s.rootPageNum ∧ r.pageNoArray.getD i 0 ≠ s.headerPageNum ∧
    r.pageNoArray.getD i 0 ≠ INVALID_NUMBER ∧ r.pageNoArray.getD i 0 ≤ s.bufMgr.pages.length := by
  obtain ⟨n, hpc, _⟩ := h.child i hi
  obtain ⟨m, hhdr⟩ := h.hdr
  have hv := BufMgr.valid_of_page hpc
  exact ⟨BufMgr.page_ne_of_kind hpc h.root (by intro hc; cases hc),
    BufMgr.page_ne_of_kind hpc hhdr (by intro hc; cases hc), hv.1, hv.2⟩

theorem NodeRootInv.root_ne_hdr {L M : Nat} {ks : List Int} {s : BTreeIndex}
    {r : NonLeafNodeInt} (h : NodeRootInv L M ks s r) :
    s.rootPageNum ≠ s.headerPageNum ∧ s.rootPageNum ≤ s.bufMgr.pages.length ∧
    s.headerPageNum ≤ s.bufMgr.pages.length := by
  obtain ⟨m, hhdr⟩ := h.hdr
  exact ⟨BufMgr.page_ne_of_kind h.root hhdr (by intro hc; cases hc),
    (BufMgr.valid_of_page h.root).2, (BufMgr.valid_of_page hhdr).2⟩

/-- Insertion into an index whose root is the only internal node, when the
leaf that receives the key has room. -/
theorem NodeRootInv.node_step_room {L M : Nat} {ks : List Int} {s : BTreeIndex} {r : NonLeafNodeInt}
    (h : NodeRootInv L M ks s r) (fuel : Nat) (key : Int) (rid : RecordId) (hL : 1 ≤ L)
    (hfuel : 2 ≤ fuel) (hfresh : key ∉ ks) (hrid : rid.page_number ≠ INVALID_NUMBER)
    (n : LeafNodeInt)
    (hpc : s.bufMgr.page (r.pageNoArray.getD (findIndex r.keyArray key r.size) 0)
      = some (.leaf n))
    (hroom : (n.ridArray.getD (L - 1) default).page_number = INVALID_NUMBER) :
    (insertEntry L M fuel s key rid).2 = .returned () ∧
    NodeRootInv L M (key :: ks) (insertEntry L M fuel s key rid).1 r := by
  obtain ⟨f, rfl⟩ : ∃ f, fuel = f + 2 := ⟨fuel - 2, by omega⟩
  obtain ⟨hj, hkle, hkgt⟩ := findIndex_spec r.keyArray key r.size
  obtain ⟨bm1c, hpgc, hhelper⟩ := h.descend key rid f
  obtain ⟨n0, hpc0, hok, hhi, hlo, hsib⟩ := h.child _ hj
  rw [hpc] at hpc0
  cases hpc0
  have hleaf : bm1c.leafAt L (r.pageNoArray.getD (findIndex r.keyArray key r.size) 0)
      = some n := by
    rw [BufMgr.leafAt_of_pages_eq hpgc]
    exact BufMgr.leafAt_of_page L hpc
  obtain ⟨n1, hn1, hret, hpage, hother, hlen⟩ := insertIntoLeaf_insert L bm1c key rid _ n hleaf
    hok.inv hL hroom
  have hX : insertIntoLeaf L bm1c key rid
      (r.pageNoArray.getD (findIndex r.keyArray key r.size) 0)
      = ((insertIntoLeaf L bm1c key rid
          (r.pageNoArray.getD (findIndex r.keyArray key r.size) 0)).1, .returned (0, 0)) :=
    Prod.ext rfl hret
  rw [hX] at hhelper
  simp only [if_true] at hhelper
  rw [insertEntry_of_helper_zero L M (f + 2) s key rid _ 0 hhelper]
  refine ⟨rfl, ?_⟩
  obtain ⟨hok1, hsib1, hmem1⟩ := hok.insert key rid hfresh hrid (hok.inv.size_lt_of_room hL hroom)
    hn1
  obtain ⟨hcr, hch, _, _⟩ := h.child_ne_root _ hj
  have hpage2 : ∀ q, (BufMgr.unPinPage (insertIntoLeaf L bm1c key rid
      (r.pageNoArray.getD (findIndex r.keyArray key r.size) 0)).1 s.rootPageNum false).page q
      = (insertIntoLeaf L bm1c key rid
      (r.pageNoArray.getD (findIndex r.keyArray key r.size) 0)).1.page q :=
    BufMgr.page_of_pages_eq (BufMgr.unPinPage_pages _ _ _)
  have hsame : ∀ q, q ≠ r.pageNoArray.getD (findIndex r.keyArray key r.size) 0 →
      (BufMgr.unPinPage (insertIntoLeaf L bm1c key rid
      (r.pageNoArray.getD (findIndex r.keyArray key r.size) 0)).1 s.rootPageNum false).page q
      = s.bufMgr.page q := by
    intro q hq
    rw [hpage2, hother q hq, BufMgr.page_of_pages_eq hpgc]
  obtain ⟨m, hhdr⟩ := h.hdr
  constructor
  · exact h.notLeaf
  · exact ⟨m, by
      show (BufMgr.unPinPage _ _ _).page s.headerPageNum = _
      rw [hsame _ (Ne.symm hch)]; exact hhdr⟩
  · show (BufMgr.unPinPage _ _ _).page s.rootPageNum = _
    rw [hsame _ (Ne.symm hcr)]
    exact h.root
  · intro p nn hp
    by_cases hpcq : p = r.pageNoArray.getD (findIndex r.keyArray key r.size) 0
    · have hp2 : (BufMgr.unPinPage _ _ _).page p = some (Page.nonLeaf nn) := hp
      rw [hpage2, hpcq, hpage] at hp2
      cases hp2
    · have hp2 : (BufMgr.unPinPage _ _ _).page p = some (Page.nonLeaf nn) := hp
      rw [hsame p hpcq] at hp2
      exact h.onlyRoot p nn hp2
  · exact h.level
  · exact h.keyLen
  · exact h.pageLen
  · exact h.sizePos
  · exact h.sizeLe
  · show (BufMgr.unPinPage _ _ _).pages.length = _
    rw [BufMgr.unPinPage_pages, hlen, hpgc]
    exact h.len
  · exact h.keysSorted
  · exact h.trailing
  · intro i hi
    by_cases hij : i = findIndex r.keyArray key r.size
    · subst hij
      refine ⟨n1, ?_, hok1, ?_, ?_, by rw [hsib1]; exact hsib⟩
      · show (BufMgr.unPinPage _ _ _).page _ = _
        rw [hpage2]
        exact hpage
      · intro k hk hlt
        rcases (hmem1 k).mp hk with hk1 | hk1
        · rw [hk1]
          exact hkgt hlt
        · exact hhi k hk1 hlt
      · intro k hk hpos
        rcases (hmem1 k).mp hk with hk1 | hk1
        · rw [hk1]
          exact hkle _ (by omega)
        · exact hlo k hk1 hpos
    · obtain ⟨ni, hpi, hoki, hhii, hloi, hsibi⟩ := h.child i hi
      refine ⟨ni, ?_, hoki.mono_keys key, hhii, hloi, hsibi⟩
      show (BufMgr.unPinPage _ _ _).page _ = _
      rw [hsame _ (fun hc => hij (h.inj i _ hi hj hc))]
      exact hpi
  · exact h.inj

/-- The bounds of the keys of the leaf under child `j` of the root, with the
new key: the separators before `j` are below them and those from `j` on
above. -/
theorem NodeRootInv.bounds {L M : Nat} {ks : List Int} {s : BTreeIndex} {r : NonLeafNodeInt}
    (h : NodeRootInv L M ks s r) (key : Int) (n : LeafNodeInt)
    (hpc : s.bufMgr.page (r.pageNoArray.getD (findIndex r.keyArray key r.size) 0)
      = some (.leaf n)) (a : Int) (ha : a = key ∨ a ∈ n.keys) :
    (∀ i, i < findIndex r.keyArray key r.size → r.keyArray.getD i 0 ≤ a) ∧
    (∀ i, findIndex r.keyArray key r.size ≤ i → i < r.size → a < r.keyArray.getD i 0) := by
  obtain ⟨hj, hkle, hkgt⟩ := findIndex_spec r.keyArray key r.size
  obtain ⟨n0, hpc0, hok, hhi, hlo, hsib⟩ := h.child _ hj
  rw [hpc] at hpc0
  cases hpc0
  constructor
  · intro i hi
    rcases ha with ha | ha
    · rw [ha]
      exact hkle i hi
    · have h1 := hlo a ha (by omega)
      have h2 := h.keysSorted i (findIndex r.keyArray key r.size - 1) (by omega) (by omega)
      omega
  · intro i hi1 hi2
    have h2 := h.keysSorted (findIndex r.keyArray key r.size) i hi1 hi2
    rcases ha with ha | ha
    · rw [ha]
      have := hkgt (by omega)
      omega
    · have h1 := hhi a ha (by omega)
      omega

/-- The arrays of the root after `insertNonLeafNode` has placed the separator
`sep` and the new child `R` behind child `j`. -/
theorem insertNonLeafNode_getD (M : Nat) (sep : Int) (R : PageId) (r : NonLeafNodeInt) (j : Nat)
    (hk : r.keyArray.length = M) (hp : r.pageNoArray.length = M + 1) (hj : j < M) :
    ∃ r1, insertNonLeafNode M sep R r j = some r1 ∧ r1.level = r.level ∧
      r1.size = r.size + 1 ∧ r1.keyArray.length = M ∧ r1.pageNoArray.length = M + 1 ∧
      (∀ i, r1.keyArray.getD i 0 = if i < j then r.keyArray.getD i 0 else if i = j then sep
        else if i < M then r.keyArray.getD (i - 1) 0 else 0) ∧
      (∀ i, r1.pageNoArray.getD i 0 = if i < j + 1 then r.pageNoArray.getD i 0
        else if i = j + 1 then R
        else if i < M + 1 then r.pageNoArray.getD (i - 1) 0 else 0) := by
  refine ⟨_, insertNonLeafNode_eq M sep R r j hk hp hj, rfl, rfl, ?_, ?_, ?_, ?_⟩
  · have := shiftInsert_length r.keyArray j sep (by rw [hk]; exact hj)
    rw [hk] at this
    exact this
  · have := shiftInsert_length r.pageNoArray (j + 1) R (by rw [hp]; omega)
    rw [hp] at this
    have e : M + 1 - (j + 1) - 1 = M - j - 1 := by omega
    rw [e] at this
    exact this
  · intro i
    have := shiftInsert_getD r.keyArray j sep 0 (by rw [hk]; exact hj) i
    rw [hk] at this
    exact this
  · intro i
    have := shiftInsert_getD r.pageNoArray (j + 1) R 0 (by rw [hp]; omega) i
    rw [hp] at this
    have e : M + 1 - (j + 1) - 1 = M - j - 1 := by omega
    rw [e] at this
    exact this

/-- The invariant after a leaf split below a root with room: `F` is the file
after the call, `cur` and `new` are the two leaves as stored, `r1` is the root
with the separator `sep` and the new page behind child `j`. -/
theorem NodeRootInv.after_split {L M : Nat} {ks : List Int} {s : BTreeIndex}
    {r : NonLeafNodeInt} (h : NodeRootInv L M ks s r) (F : BufMgr) (key sep : Int) (j : Nat)
    (n cur new : LeafNodeInt) (r1 : NonLeafNodeInt) (hj : j ≤ r.size) (hsize : r.size < M)
    (hpc : s.bufMgr.page (r.pageNoArray.getD j 0) = some (.leaf n))
    (hnsibOld : n.rightSibPageNo
      = if j < r.size then r.pageNoArray.getD (j + 1) 0 else INVALID_NUMBER)
    (hcur : LeafOK L (key :: ks) cur) (hnew : LeafOK L (key :: ks) new)
    (hcsib : cur.rightSibPageNo = s.bufMgr.pages.length + 1)
    (hnsib : new.rightSibPageNo = n.rightSibPageNo)
    (hlt : ∀ a, a ∈ cur.keys → a < sep) (hge : ∀ b, b ∈ new.keys → sep ≤ b)
    (hcb : ∀ a, a ∈ cur.keys → ∀ i, i < j → r.keyArray.getD i 0 ≤ a)
    (hnb : ∀ a, a ∈ new.keys → ∀ i, j ≤ i → i < r.size → a < r.keyArray.getD i 0)
    (hsepL : ∀ i, i < j → r.keyArray.getD i 0 ≤ sep)
    (hsepR : ∀ i, j ≤ i → i < r.size → sep < r.keyArray.getD i 0)
    (hFroot : F.page s.rootPageNum = some (.nonLeaf r1))
    (hFc : F.page (r.pageNoArray.getD j 0) = some (.leaf cur))
    (hFR : F.page (s.bufMgr.pages.length + 1) = some (.leaf new))
    (hFother : ∀ q, q ≠ s.rootPageNum → q ≠ r.pageNoArray.getD j 0 →
      q ≠ s.bufMgr.pages.length + 1 → F.page q = s.bufMgr.page q)
    (hFlen : F.pages.length = s.bufMgr.pages.length + 1)
    (hlevel : r1.level = r.level) (hsz : r1.size = r.size + 1)
    (hkl : r1.keyArray.length = M) (hpl : r1.pageNoArray.length = M + 1)
    (hK : ∀ i, r1.keyArray.getD i 0 = if i < j then r.keyArray.getD i 0 else if i = j then sep
        else if i < M then r.keyArray.getD (i - 1) 0 else 0)
    (hP : ∀ i, r1.pageNoArray.getD i 0 = if i < j + 1 then r.pageNoArray.getD i 0
        else if i = j + 1 then s.bufMgr.pages.length + 1
        else if i < M + 1 then r.pageNoArray.getD (i - 1) 0 else 0) :
    NodeRootInv L M (key :: ks) { s with bufMgr := F } r1 := by
  obtain ⟨m, hhdr⟩ := h.hdr
  obtain ⟨hrh, hrle, hhle⟩ := h.root_ne_hdr
  have hcne : ∀ i, i ≤ r.size → r.pageNoArray.getD i 0 ≠ s.rootPageNum ∧
      r.pageNoArray.getD i 0 ≠ s.headerPageNum ∧
      r.pageNoArray.getD i 0 ≠ s.bufMgr.pages.length + 1 := by
    intro i hi
    obtain ⟨a, b, _, d⟩ := h.child_ne_root i hi
    refine ⟨a, b, ?_⟩
    unfold PageId at *
    omega
  have hrR : s.rootPageNum ≠ s.bufMgr.pages.length + 1 := by
    unfold PageId at *
    omega
  have hhR : s.headerPageNum ≠ s.bufMgr.pages.length + 1 := by
    unfold PageId at *
    omega
  have hold : ∀ i, i ≤ r.size → i ≠ j →
      F.page (r.pageNoArray.getD i 0) = s.bufMgr.page (r.pageNoArray.getD i 0) := by
    intro i hi hij
    exact hFother _ (hcne i hi).1 (fun hc => hij (h.inj i j hi hj hc)) (hcne i hi).2.2
  constructor
  · exact h.notLeaf
  · exact ⟨m, by
      show F.page s.headerPageNum = _
      rw [hFother _ (Ne.symm hrh) (Ne.symm (hcne j hj).2.1) hhR]
      exact hhdr⟩
  · exact hFroot
  · intro p nn hp
    have hp2 : F.page p = some (Page.nonLeaf nn) := hp
    by_contra hpr
    by_cases hpc2 : p = r.pageNoArray.getD j 0
    · rw [hpc2, hFc] at hp2
      cases hp2
    · by_cases hpR : p = s.bufMgr.pages.length + 1
      · rw [hpR, hFR] at hp2
        cases hp2
      · rw [hFother p hpr hpc2 hpR] at hp2
        exact hpr (h.onlyRoot p nn hp2)
  · rw [hlevel]
    exact h.level
  · exact hkl
  · exact hpl
  · omega
  · omega
  · show F.pages.length = _
    rw [hFlen, h.len, hsz]
  · intro a b hab hb
    rw [hsz] at hb
    rw [hK a, hK b]
    by_cases ha1 : a < j
    · by_cases hb1 : b < j
      · simp only [ha1, hb1, if_true]
        exact h.keysSorted a b hab (by omega)
      · by_cases hb2 : b = j
        · simp only [ha1, hb1, hb2, if_true, if_false, lt_irrefl]
          exact hsepL a ha1
        · have hbM : b < M := by omega
          simp only [ha1, hb1, hb2, hbM, if_true, if_false]
          exact h.keysSorted a (b - 1) (by omega) (by omega)
    · by_cases ha2 : a = j
      · by_cases hb2 : b = j
        · simp only [ha2, hb2, lt_irrefl, if_true, if_false, le_refl]
        · have hb1 : ¬ b < j := by omega
          have hbM : b < M := by omega
          simp only [ha2, hb1, hb2, hbM, lt_irrefl, if_true, if_false]
          exact le_of_lt (hsepR (b - 1) (by omega) (by omega))
      · have hb1 : ¬ b < j := by omega
        have hb2 : ¬ b = j := by omega
        have hbM : b < M := by omega
        have haM : a < M := by omega
        simp only [ha1, ha2, hb1, hb2, haM, hbM, if_true, if_false]
        exact h.keysSorted (a - 1) (b - 1) (by omega) (by omega)
  · intro i hi1 hi2
    rw [hsz] at hi1
    rw [hP i]
    have e1 : ¬ i < j + 1 := by omega
    have e2 : ¬ i = j + 1 := by omega
    have e3 : i < M + 1 := by omega
    simp only [e1, e2, e3, if_true, if_false]
    exact h.trailing (i - 1) (by omega) (by omega)
  · intro i hi
    rw [hsz] at hi
    rw [hsz]
    by_cases hi1 : i < j
    · obtain ⟨ni, hpi, hoki, hhii, hloi, hsibi⟩ := h.child i (by omega)
      have hPi : r1.pageNoArray.getD i 0 = r.pageNoArray.getD i 0 := by
        rw [hP i]
        simp only [show i < j + 1 by omega, if_true]
      have hPi1 : r1.pageNoArray.getD (i + 1) 0 = r.pageNoArray.getD (i + 1) 0 := by
        rw [hP (i + 1)]
        simp only [show i + 1 < j + 1 by omega, if_true]
      have hKi : r1.keyArray.getD i 0 = r.keyArray.getD i 0 := by
        rw [hK i]
        simp only [hi1, if_true]
      have hKi1 : r1.keyArray.getD (i - 1) 0 = r.keyArray.getD (i - 1) 0 := by
        rw [hK (i - 1)]
        simp only [show i - 1 < j by omega, if_true]
      refine ⟨ni, ?_, hoki.mono_keys key, ?_, ?_, ?_⟩
      · show F.page _ = _
        rw [hPi, hold i (by omega) (by omega)]
        exact hpi
      · intro k hk _
        rw [hKi]
        exact hhii k hk (by omega)
      · intro k hk hpos
        rw [hKi1]
        exact hloi k hk hpos
      · rw [hsibi, hPi1]
        simp only [show i < r.size by omega, show i < r.size + 1 by omega, if_true]
    · by_cases hi2 : i = j
      · subst hi2
        have hPi : r1.pageNoArray.getD i 0 = r.pageNoArray.getD i 0 := by
          rw [hP i]
          simp only [show i < i + 1 by omega, if_true]
        have hPi1 : r1.pageNoArray.getD (i + 1) 0 = s.bufMgr.pages.length + 1 := by
          rw [hP (i + 1)]
          simp only [lt_irrefl, if_true, if_false]
        have hKi : r1.keyArray.getD i 0 = sep := by
          rw [hK i]
          simp only [lt_irrefl, if_true, if_false]
        have hKi1 : 0 < i → r1.keyArray.getD (i - 1) 0 = r.keyArray.getD (i - 1) 0 := by
          intro hpos
          rw [hK (i - 1)]
          simp only [show i - 1 < i by omega, if_true]
        refine ⟨cur, ?_, hcur, ?_, ?_, ?_⟩
        · show F.page _ = _
          rw [hPi]
          exact hFc
        · intro k hk _
          rw [hKi]
          exact hlt k hk
        · intro k hk hpos
          rw [hKi1 hpos]
          exact hcb k hk (i - 1) (by omega)
        · rw [hcsib, hPi1]
          simp only [show i < r.size + 1 by omega, if_true]
      · by_cases hi3 : i = j + 1
        · subst hi3
          have hPi : r1.pageNoArray.getD (j + 1) 0 = s.bufMgr.pages.length + 1 := by
            rw [hP (j + 1)]
            simp only [lt_irrefl, if_true, if_false]
          have hPi1 : j + 1 < r.size + 1 →
              r1.pageNoArray.getD (j + 1 + 1) 0 = r.pageNoArray.getD (j + 1) 0 := by
            intro hlt1
            rw [hP (j + 1 + 1)]
            simp only [show ¬ j + 1 + 1 < j + 1 by omega, show ¬ j + 1 + 1 = j + 1 by omega,
              show j + 1 + 1 < M + 1 by omega, if_true, if_false]
            rfl
          have hKi : j + 1 < r.size + 1 →
              r1.keyArray.getD (j + 1) 0 = r.keyArray.getD j 0 := by
            intro hlt1
            rw [hK (j + 1)]
            simp only [show ¬ j + 1 < j by omega, show ¬ j + 1 = j by omega,
              show j + 1 < M by omega, if_true, if_false]
            rfl
          have hKi1 : r1.keyArray.getD (j + 1 - 1) 0 = sep := by
            rw [hK (j + 1 - 1)]
            simp only [show j + 1 - 1 = j by omega, lt_irrefl, if_true, if_false]
          refine ⟨new, ?_, hnew, ?_, ?_, ?_⟩
          · show F.page _ = _
            rw [hPi]
            exact hFR
          · intro k hk hlt1
            rw [hKi hlt1]
            exact hnb k hk j (le_refl j) (by omega)
          · intro k hk _
            rw [hKi1]
            exact hge k hk
          · rw [hnsib, hnsibOld]
            by_cases hjs : j < r.size
            · simp only [hjs, show j + 1 < r.size + 1 by omega, if_true]
              exact (hPi1 (by omega)).symm
            · simp only [hjs, show ¬ j + 1 < r.size + 1 by omega, if_false]
        · obtain ⟨ni, hpi, hoki, hhii, hloi, hsibi⟩ := h.child (i - 1) (by omega)
          have hPi : r1.pageNoArray.getD i 0 = r.pageNoArray.getD (i - 1) 0 := by
            rw [hP i]
            simp only [show ¬ i < j + 1 by omega, hi3, show i < M + 1 by omega, if_true,
              if_false]
          have hPi1 : i < r.size + 1 →
              r1.pageNoArray.getD (i + 1) 0 = r.pageNoArray.getD (i - 1 + 1) 0 := by
            intro hlt1
            rw [hP (i + 1)]
            simp only [show ¬ i + 1 < j + 1 by omega, show ¬ i + 1 = j + 1 by omega,
              show i + 1 < M + 1 by omega, if_true, if_false]
            congr 1
            omega
          have hKi : i < r.size + 1 → r1.keyArray.getD i 0 = r.keyArray.getD (i - 1) 0 := by
            intro hlt1
            rw [hK i]
            simp only [hi1, hi2, show i < M by omega, if_true, if_false]
          have hKi1 : r1.keyArray.getD (i - 1) 0 = r.keyArray.getD (i - 1 - 1) 0 := by
            rw [hK (i - 1)]
            simp only [show ¬ i - 1 < j by omega, show ¬ i - 1 = j by omega,
              show i - 1 < M by omega, if_true, if_false]
          refine ⟨ni, ?_, hoki.mono_keys key, ?_, ?_, ?_⟩
          · show F.page _ = _
            rw [hPi, hold (i - 1) (by omega) (by omega)]
            exact hpi
          · intro k hk hlt1
            rw [hKi hlt1]
            exact hhii k hk (by omega)
          · intro k hk _
            rw [hKi1]
            exact hloi k hk (by omega)
          · rw [hsibi]
            by_cases his : i < r.size + 1
            · simp only [his, show i - 1 < r.size by omega, if_true]
              exact (hPi1 his).symm
            · simp only [his, show ¬ i - 1 < r.size by omega, if_false]
  · intro a b ha hb hab
    rw [hsz] at ha hb
    rw [hP a, hP b] at hab
    have hval : ∀ i, i ≤ r.size → r.pageNoArray.getD i 0 ≠ s.bufMgr.pages.length + 1 :=
      fun i hi => (hcne i hi).2.2
    by_cases ha1 : a < j + 1
    · by_cases hb1 : b < j + 1
      · simp only [ha1, hb1, if_true] at hab
        exact h.inj a b (by omega) (by omega) hab
      · by_cases hb2 : b = j + 1
        · simp only [ha1, hb1, hb2, lt_irrefl, if_true, if_false] at hab
          exact absurd hab (hval a (by omega))
        · simp only [ha1, hb1, hb2, show b < M + 1 by omega, if_true, if_false] at hab
          have := h.inj a (b - 1) (by omega) (by omega) hab
          omega
    · by_cases ha2 : a = j + 1
      · by_cases hb1 : b < j + 1
        · simp only [ha1, ha2, hb1, lt_irrefl, if_true, if_false] at hab
          exact absurd hab.symm (hval b (by omega))
        · by_cases hb2 : b = j + 1
          · omega
          · simp only [ha2, hb1, hb2, lt_irrefl, show b < M + 1 by omega, if_true,
              if_false] at hab
            exact absurd hab.symm (hval (b - 1) (by omega))
      · by_cases hb1 : b < j + 1
        · simp only [ha1, ha2, hb1, show a < M + 1 by omega, if_true, if_false] at hab
          have := h.inj (a - 1) b (by omega) (by omega) hab
          omega
        · by_cases hb2 : b = j + 1
          · simp only [ha1, ha2, hb1, hb2, lt_irrefl, show a < M + 1 by omega, if_true,
              if_false] at hab
            exact absurd hab (hval (a - 1) (by omega))
          · simp only [ha1, ha2, hb1, hb2, show a < M + 1 by omega, show b < M + 1 by omega,
              if_true, if_false] at hab
            have := h.inj (a - 1) (b - 1) (by omega) (by omega) hab
            omega

/-- The helper call in an index whose root is the only internal node, when
the leaf that receives the key is full: the leaf splits and the root receives
the separator. -/
theorem NodeRootInv.helper_split {L M : Nat} {ks : List Int} {s : BTreeIndex}
    {r : NonLeafNodeInt} (h : NodeRootInv L M ks s r) (f : Nat) (key : Int) (rid : RecordId)
    (hfresh : key ∉ ks) (hrid : rid.page_number ≠ INVALID_NUMBER) (n : LeafNodeInt)
    (hpc : s.bufMgr.page (r.pageNoArray.getD (findIndex r.keyArray key r.size) 0)
      = some (.leaf n))
    (hfull : (n.ridArray.getD (L - 1) default).page_number ≠ INVALID_NUMBER) :
    ∃ (X : BufMgr) (cur new : LeafNodeInt),
      insertEntryHelper L M (f + 2) s.bufMgr key rid s.rootPageNum s.rootIsLeaf
        = insertIntoNonLeaf M X s.rootPageNum (new.keyArray.getD 0 0)
            (s.bufMgr.pages.length + 1) ∧
      LeafOK L (key :: ks) cur ∧ LeafOK L (key :: ks) new ∧
      (∀ k, k ∈ cur.keys → k = key ∨ k ∈ n.keys) ∧
      (∀ k, k ∈ new.keys → k = key ∨ k ∈ n.keys) ∧
      (∀ a, a ∈ cur.keys → a < new.keyArray.getD 0 0) ∧
      (∀ b, b ∈ new.keys → new.keyArray.getD 0 0 ≤ b) ∧
      new.keyArray.getD 0 0 ∈ new.keys ∧
      X.page (r.pageNoArray.getD (findIndex r.keyArray key r.size) 0)
        = some (.leaf { cur with rightSibPageNo := s.bufMgr.pages.length + 1 }) ∧
      X.page (s.bufMgr.pages.length + 1)
        = some (.leaf { new with rightSibPageNo := n.rightSibPageNo }) ∧
      X.pages.length = s.bufMgr.pages.length + 1 ∧
      (∀ q, q ≠ r.pageNoArray.getD (findIndex r.keyArray key r.size) 0 →
        q ≠ s.bufMgr.pages.length + 1 → X.page q = s.bufMgr.page q) := by
  obtain ⟨hj, hkle, hkgt⟩ := findIndex_spec r.keyArray key r.size
  obtain ⟨bm1c, hpgc, hhelper⟩ := h.descend key rid f
  obtain ⟨n0, hpc0, hok, hhi, hlo, hsib⟩ := h.child _ hj
  rw [hpc] at hpc0
  cases hpc0
  obtain ⟨hL, hnsize⟩ := hok.inv.full_of_not_room hfull
  obtain ⟨cur, new, hsplit, hcur, hnew, hcmem, hnmem, hlt, hge, hsepmem, hcsib⟩ :=
    hok.split key rid hfresh hrid hL hnsize
  have hpc1 : bm1c.page (r.pageNoArray.getD (findIndex r.keyArray key r.size) 0)
      = some (.leaf n) := by
    rw [BufMgr.page_of_pages_eq hpgc]
    exact hpc
  obtain ⟨e1, e2, e3, e4, e5⟩ := insertIntoLeaf_split_pages L bm1c key rid _ n cur new hpc1
    hfull hsplit
  have hlenc : bm1c.pages.length = s.bufMgr.pages.length := by rw [hpgc]
  rw [hlenc] at e1 e2 e3 e4 e5
  have hX : insertIntoLeaf L bm1c key rid
      (r.pageNoArray.getD (findIndex r.keyArray key r.size) 0)
      = ((insertIntoLeaf L bm1c key rid
          (r.pageNoArray.getD (findIndex r.keyArray key r.size) 0)).1,
          .returned (new.keyArray.getD 0 0, s.bufMgr.pages.length + 1)) :=
    Prod.ext rfl e1
  rw [hX] at hhelper
  have hR0 : ¬ (s.bufMgr.pages.length + 1 = 0) := by omega
  simp only [hR0, if_false] at hhelper
  refine ⟨_, cur, new, hhelper, hcur, hnew, hcmem, hnmem, hlt, hge, hsepmem, e2, ?_, e4, ?_⟩
  · rw [e3, hcsib]
  · intro q hq1 hq2
    rw [e5 q hq1 hq2, BufMgr.page_of_pages_eq hpgc]

/-- Insertion into an index whose root is the only internal node and has
room, when the leaf that receives the key is full. -/
theorem NodeRootInv.node_step_split {L M : Nat} {ks : List Int} {s : BTreeIndex}
    {r : NonLeafNodeInt} (h : NodeRootInv L M ks s r) (fuel : Nat) (key : Int) (rid : RecordId)
    (hfuel : 2 ≤ fuel) (hfresh : key ∉ ks) (hrid : rid.page_number ≠ INVALID_NUMBER)
    (n : LeafNodeInt)
    (hpc : s.bufMgr.page (r.pageNoArray.getD (findIndex r.keyArray key r.size) 0)
      = some (.leaf n))
    (hfull : (n.ridArray.getD (L - 1) default).page_number ≠ INVALID_NUMBER)
    (hsize : r.size < M) :
    (insertEntry L M fuel s key rid).2 = .returned () ∧
    ∃ r1, NodeRootInv L M (key :: ks) (insertEntry L M fuel s key rid).1 r1 := by
  obtain ⟨f, rfl⟩ : ∃ f, fuel = f + 2 := ⟨fuel - 2, by omega⟩
  obtain ⟨hj, hkle, hkgt⟩ := findIndex_spec r.keyArray key r.size
  obtain ⟨X, cur, new, hhelper, hcur, hnew, hcmem, hnmem, hlt, hge, hsepmem, x1, x2, x3, x4⟩ :=
    h.helper_split f key rid hfresh hrid n hpc hfull
  obtain ⟨n0, hpc0, hok, hhi, hlo, hsib⟩ := h.child _ hj
  rw [hpc] at hpc0
  cases hpc0
  obtain ⟨hcr, hch, hc0, hcle⟩ := h.child_ne_root _ hj
  obtain ⟨hrh, hrle, hhle⟩ := h.root_ne_hdr
  have hrR : s.rootPageNum ≠ s.bufMgr.pages.length + 1 := by
    unfold PageId at *
    omega
  have hXroot : X.page s.rootPageNum = some (.nonLeaf r) := by
    rw [x4 _ (Ne.symm hcr) hrR]
    exact h.root
  have hroomR : r.pageNoArray.getD M 0 = INVALID_NUMBER := h.trailing M hsize (le_refl M)
  have hsepb := h.bounds key n hpc (new.keyArray.getD 0 0) (hnmem _ hsepmem)
  have hidx : findIndex r.keyArray (new.keyArray.getD 0 0) r.size
      = findIndex r.keyArray key r.size :=
    findIndex_unique _ _ _ _ hj hsepb.1 (fun hlt1 => hsepb.2 _ (le_refl _) hlt1)
  obtain ⟨r1, hr1, hlevel, hsz, hkl, hpl, hK, hP⟩ := insertNonLeafNode_getD M
    (new.keyArray.getD 0 0) (s.bufMgr.pages.length + 1) r (findIndex r.keyArray key r.size)
    h.keyLen h.pageLen (by omega)
  rw [insertIntoNonLeaf_room M X s.rootPageNum _ _ r (BufMgr.nonLeafAt_of_page M hXroot) hroomR,
    hidx, hr1] at hhelper
  rw [insertEntry_of_helper_zero L M (f + 2) s key rid _ 0 hhelper]
  refine ⟨rfl, r1, ?_⟩
  have hvroot : s.rootPageNum ≠ INVALID_NUMBER ∧ s.rootPageNum ≤ X.pages.length :=
    ⟨(BufMgr.valid_of_page h.root).1, by rw [x3]; unfold PageId at *; omega⟩
  apply h.after_split ((X.setPage s.rootPageNum (.nonLeaf r1)).unPinPage s.rootPageNum true) key
    (new.keyArray.getD 0 0) (findIndex r.keyArray key r.size) n
    { cur with rightSibPageNo := s.bufMgr.pages.length + 1 }
    { new with rightSibPageNo := n.rightSibPageNo } r1 hj hsize hpc hsib
    (hcur.with_rightSib _) (hnew.with_rightSib _) rfl rfl hlt hge
  · intro a ha i hi
    exact (h.bounds key n hpc a (hcmem a ha)).1 i hi
  · intro a ha i hi1 hi2
    exact (h.bounds key n hpc a (hnmem a ha)).2 i hi1 hi2
  · exact hsepb.1
  · exact hsepb.2
  · rw [BufMgr.page_of_pages_eq (BufMgr.unPinPage_pages _ _ _),
      BufMgr.page_setPage_same _ _ _ hvroot]
  · rw [BufMgr.page_setPage_unPin_other _ _ _ _ _ hcr]
    exact x1
  · rw [BufMgr.page_setPage_unPin_other _ _ _ _ _ (Ne.symm hrR)]
    exact x2
  · intro q hq1 hq2 hq3
    rw [BufMgr.page_setPage_unPin_other _ _ _ _ _ hq1]
    exact x4 q hq2 hq3
  · rw [BufMgr.unPinPage_pages, BufMgr.setPage_length]
    exact x3
  · exact hlevel
  · exact hsz
  · exact hkl
  · exact hpl
  · exact hK
  · exact hP

/-- Insertion into an index whose root is full, when the leaf that receives
the key is full too: the file grows beyond `M + 3` pages. -/
theorem NodeRootInv.node_step_escape {L M : Nat} {ks : List Int} {s : BTreeIndex}
    {r : NonLeafNodeInt} (h : NodeRootInv L M ks s r) (fuel : Nat) (key : Int) (rid : RecordId)
    (hfuel : 2 ≤ fuel) (hfresh : key ∉ ks) (hrid : rid.page_number ≠ INVALID_NUMBER)
    (n : LeafNodeInt)
    (hpc : s.bufMgr.page (r.pageNoArray.getD (findIndex r.keyArray key r.size) 0)
      = some (.leaf n))
    (hfull : (n.ridArray.getD (L - 1) default).page_number ≠ INVALID_NUMBER)
    (hsize : r.size = M) :
    M + 3 < (insertEntry L M fuel s key rid).1.bufMgr.pages.length := by
  obtain ⟨f, rfl⟩ : ∃ f, fuel = f + 2 := ⟨fuel - 2, by omega⟩
  obtain ⟨X, cur, new, hhelper, _, _, _, _, _, _, _, _, _, x3, _⟩ :=
    h.helper_split f key rid hfresh hrid n hpc hfull
  have h1 := insertEntry_length_ge_helper L M (f + 2) s key rid
  rw [hhelper] at h1
  have h2 := insertIntoNonLeaf_length_le M X s.rootPageNum (new.keyArray.getD 0 0)
    (s.bufMgr.pages.length + 1)
  have h3 := h.len
  omega

/-- One insertion of a new key into an index in which no internal node has
split: the call returns and the invariant holds again, or the file has grown
beyond `M + 3` pages. -/
theorem TreeInv.step (L M fuel : Nat) (ks : List Int) (s : BTreeIndex) (key : Int)
    (rid : RecordId) (hL : 1 ≤ L) (hM : 1 ≤ M) (hfuel : 2 ≤ fuel) (h : TreeInv L M ks s)
    (hfresh : key ∉ ks) (hrid : rid.page_number ≠ INVALID_NUMBER) :
    ((insertEntry L M fuel s key rid).2 = .returned () ∧
      TreeInv L M (key :: ks) (insertEntry L M fuel s key rid).1) ∨
    M + 3 < (insertEntry L M fuel s key rid).1.bufMgr.pages.length := by
  rcases h with h | ⟨r, h⟩
  · obtain ⟨n, hroot, hok, hsib⟩ := h.root
    by_cases hroom : (n.ridArray.getD (L - 1) default).page_number = INVALID_NUMBER
    · obtain ⟨h1, h2⟩ := h.leaf_step_room L M fuel ks s key rid hL (by omega) hfresh hrid n hroot hok
        hsib hroom
      exact Or.inl ⟨h1, Or.inl h2⟩
    · obtain ⟨h1, h2⟩ := h.leaf_step_full L M fuel ks s key rid hM (by omega) hfresh hrid n hroot hok
        hsib hroom
      exact Or.inl ⟨h1, Or.inr h2⟩
  · obtain ⟨n, hpc, _⟩ := h.child _ (findIndex_spec r.keyArray key r.size).1
    by_cases hroom : (n.ridArray.getD (L - 1) default).page_number = INVALID_NUMBER
    · obtain ⟨h1, h2⟩ := h.node_step_room fuel key rid hL hfuel hfresh hrid n hpc hroom
      exact Or.inl ⟨h1, Or.inr ⟨r, h2⟩⟩
    · by_cases hsize : r.size < M
      · obtain ⟨h1, h2⟩ := h.node_step_split fuel key rid hfuel hfresh hrid n hpc hroom hsize
        exact Or.inl ⟨h1, Or.inr h2⟩
      · exact Or.inr (h.node_step_escape fuel key rid hfuel hfresh hrid n hpc hroom
          (le_antisymm h.sizeLe (not_lt.mp hsize)))

/-- The bulk load of pairwise distinct keys into an index in which no
internal node has split. -/
theorem TreeInv.of_bulkLoad (L M fuel : Nat) (hL : 1 ≤ L) (hM : 1 ≤ M) (hfuel : 2 ≤ fuel) :
    ∀ (relation : List (Int × RecordId)) (ks : List Int) (s : BTreeIndex),
      TreeInv L M ks s → (∀ e, e ∈ relation → e.1 ∉ ks) → (relation.map Prod.fst).Nodup →
      (∀ e, e ∈ relation → e.2.page_number ≠ INVALID_NUMBER) →
      ((bulkLoad L M fuel s relation).2 = .returned () ∧
        ∃ ks1, TreeInv L M ks1 (bulkLoad L M fuel s relation).1) ∨
      M + 3 < (bulkLoad L M fuel s relation).1.bufMgr.pages.length := by
  intro relation
  induction relation with
  | nil =>
    intro ks s h _ _ _
    exact Or.inl ⟨rfl, ks, h⟩
  | cons kr rest ih =>
    intro ks s h hfresh hnd hrid
    obtain ⟨key, rid⟩ := kr
    have hnd1 : key ∉ rest.map Prod.fst ∧ (rest.map Prod.fst).Nodup := by
      simpa using hnd
    have hstep := TreeInv.step L M fuel ks s key rid hL hM hfuel h
      (hfresh (key, rid) (List.mem_cons_self _ _)) (hrid (key, rid) (List.mem_cons_self _ _))
    have hmono := bulkLoad_length_le L M fuel rest (insertEntry L M fuel s key rid).1
    cases hres : insertEntry L M fuel s key rid with
    | mk s1 o =>
      rw [hres] at hstep hmono
      rcases hstep with ⟨h1, h2⟩ | h3
      · have ho : o = .returned () := h1
        subst ho
        have hb : bulkLoad L M fuel s ((key, rid) :: rest) = bulkLoad L M fuel s1 rest := by
          rw [bulkLoad, hres]
        rw [hb]
        apply ih (key :: ks) s1 h2 _ hnd1.2
          (fun e he => hrid e (List.mem_cons_of_mem _ he))
        intro e he hmem
        rcases List.mem_cons.mp hmem with hk | hk
        · exact hnd1.1 (hk ▸ List.mem_map_of_mem Prod.fst he)
        · exact hfresh e (List.mem_cons_of_mem _ he) hk
      · right
        have hge : M + 3 < (bulkLoad L M fuel s1 rest).1.bufMgr.pages.length :=
          lt_of_lt_of_le h3 hmono
        cases o with
        | returned u =>
          have hb : bulkLoad L M fuel s ((key, rid) :: rest) = bulkLoad L M fuel s1 rest := by
            rw [bulkLoad, hres]
          rw [hb]
          exact hge
        | threw e =>
          have hb : bulkLoad L M fuel s ((key, rid) :: rest) = (s1, .threw e) := by
            rw [bulkLoad, hres]
          rw [hb]
          exact h3
        | undefined =>
          have hb : bulkLoad L M fuel s ((key, rid) :: rest) = (s1, .undefined) := by
            rw [bulkLoad, hres]
          rw [hb]
          exact h3
        | outOfFuel =>
          have hb : bulkLoad L M fuel s ((key, rid) :: rest) = (s1, .outOfFuel) := by
            rw [bulkLoad, hres]
          rw [hb]
          exact h3

/-- The index that the constructor creates in a new file, before the bulk
load: a header page and an empty root leaf. -/
theorem construct_new (L M fuel : Nat) (uninit : BTreeIndex) (relationName : List Char)
    (relation : List (Int × RecordId)) (attrByteOffset : Int) (attrType : Datatype) :
    ∃ s1, BTreeIndex.construct L M fuel uninit none relationName relation attrByteOffset attrType
        = bulkLoad L M fuel s1 relation ∧ LeafRootInv L [] s1 := by
  refine ⟨_, rfl, ?_⟩
  constructor
  · rfl
  · rfl
  · exact ⟨_, rfl⟩
  · refine ⟨_, rfl, ⟨?_, ?_, ?_⟩, rfl⟩
    · have := zeroed_LeafInv L
      exact this
    · simp [LeafNodeInt.keys]
    · intro k hk
      simp [LeafNodeInt.keys] at hk

/-- The constructor on a relation with pairwise distinct keys: it returns
with an index in which no internal node has split, or the file has more than
`M + 3` pages. -/
theorem construct_TreeInv (L M fuel : Nat) (uninit : BTreeIndex) (relationName : List Char)
    (relation : List (Int × RecordId)) (attrByteOffset : Int) (attrType : Datatype)
    (hL : 1 ≤ L) (hM : 1 ≤ M) (hfuel : 2 ≤ fuel) (hdist : (relation.map Prod.fst).Nodup)
    (hrid : ∀ e, e ∈ relation → e.2.page_number ≠ INVALID_NUMBER)
    (hlen : (BTreeIndex.construct L M fuel uninit none relationName relation attrByteOffset
      attrType).1.bufMgr.pages.length ≤ M + 3) :
    (BTreeIndex.construct L M fuel uninit none relationName relation attrByteOffset
      attrType).2 = .returned () ∧
    ∃ ks, TreeInv L M ks (BTreeIndex.construct L M fuel uninit none relationName relation
      attrByteOffset attrType).1 := by
  obtain ⟨s1, he, hinv⟩ := construct_new L M fuel uninit relationName relation attrByteOffset
    attrType
  rw [he] at hlen ⊢
  rcases TreeInv.of_bulkLoad L M fuel hL hM hfuel relation [] s1 (Or.inl hinv)
    (fun e _ hm => by cases hm) hdist hrid with h | h
  · exact h
  · omega

/-! ### Routing and the leaf chain in an index without internal split -/

theorem foldr_append_singletons {α : Type} (l : List α) :
    (l.map (fun c => [c])).foldr (· ++ ·) [] = l := by
  induction l with
  | nil => rfl
  | cons a rest ih => simp [ih]

theorem LeafRootInv.no_node {L : Nat} {ks : List Int} {s : BTreeIndex}
    (h : LeafRootInv L ks s) (p : PageId) (n : NonLeafNodeInt) :
    s.bufMgr.page p ≠ some (.nonLeaf n) := by
  intro hp
  obtain ⟨m, hhdr⟩ := h.hdr
  obtain ⟨leaf, hroot, _⟩ := h.root
  have hv := BufMgr.valid_of_page hp
  have hvh := BufMgr.valid_of_page hhdr
  have hvr := BufMgr.valid_of_page hroot
  rw [h.len] at hv hvh hvr
  have hne : s.headerPageNum ≠ s.rootPageNum :=
    BufMgr.page_ne_of_kind hhdr hroot (by intro hc; cases hc)
  rcases two_pages _ _ p hvh.1 hvr.1 hv.1 hvh.2 hvr.2 hv.2 hne with h1 | h1
  · rw [h1, hhdr] at hp
    cases hp
  · rw [h1, hroot] at hp
    cases hp

theorem subtreeKeys_leaf (L M : Nat) (bm : BufMgr) (d : Nat) (p : PageId) (n : LeafNodeInt)
    (h : bm.page p = some (.leaf n)) : subtreeKeys L M bm (d + 1) p true = n.keys := by
  simp only [subtreeKeys, if_true, BufMgr.leafAt_of_page L h]

/-- Routing correctness in an index in which no internal node has split. -/
theorem TreeInv.routing {L M : Nat} {ks : List Int} {s : BTreeIndex} (h : TreeInv L M ks s)
    (p : PageId) (n : NonLeafNodeInt) (hp : s.bufMgr.page p = some (.nonLeaf n)) (d : Nat) :
    routingHolds L M s.bufMgr (d + 1) n := by
  rcases h with h | ⟨r, h⟩
  · exact absurd hp (h.no_node p n)
  · have hpr := h.onlyRoot p n hp
    rw [hpr, h.root] at hp
    cases hp
    intro i hi
    simp only [h.level, decide_True]
    obtain ⟨n0, hp0, _, hhi0, _, _⟩ := h.child i (by omega)
    obtain ⟨n1, hp1, _, _, hlo1, _⟩ := h.child (i + 1) (by omega)
    rw [subtreeKeys_leaf L M _ d _ n0 hp0, subtreeKeys_leaf L M _ d _ n1 hp1]
    exact ⟨fun k hk => hhi0 k hk hi, fun k hk => hlo1 k hk (by omega)⟩

theorem NodeRootInv.chain_from {L M : Nat} {ks : List Int} {s : BTreeIndex}
    {r : NonLeafNodeInt} (h : NodeRootInv L M ks s r) :
    ∀ (t i : Nat), i + t = r.size → ∀ fuel, t + 2 ≤ fuel →
      leafChain L s.bufMgr fuel (r.pageNoArray.getD i 0)
        = some ((r.pageNoArray.take (r.size + 1)).drop i) := by
  intro t
  induction t with
  | zero =>
    intro i hi fuel hfuel
    obtain ⟨f, rfl⟩ : ∃ f, fuel = f + 2 := ⟨fuel - 2, by omega⟩
    obtain ⟨n, hp, _, _, _, hsib⟩ := h.child i (by omega)
    obtain ⟨_, _, hc0, _⟩ := h.child_ne_root i (by omega)
    have hsib0 : n.rightSibPageNo = INVALID_NUMBER := by
      rw [hsib]
      simp only [show ¬ i < r.size by omega, if_false]
    have hdrop : (r.pageNoArray.take (r.size + 1)).drop i = [r.pageNoArray.getD i 0] := by
      have hi2 : i = r.size := by omega
      rw [hi2, List.drop_take]
      have e : r.size + 1 - r.size = 1 := by omega
      rw [e]
      have hlt : r.size < r.pageNoArray.length := by
        rw [h.pageLen]
        have := h.sizeLe
        omega
      rw [List.getD_eq_getElem?_getD, List.getElem?_eq_getElem hlt]
      rw [List.drop_eq_getElem_cons hlt]
      rfl
    rw [hdrop]
    simp only [leafChain, hc0, if_false, BufMgr.leafAt_of_page L hp, hsib0, if_true,
      Option.map_some']
  | succ t ih =>
    intro i hi fuel hfuel
    obtain ⟨f, rfl⟩ : ∃ f, fuel = f + 1 := ⟨fuel - 1, by omega⟩
    obtain ⟨n, hp, _, _, _, hsib⟩ := h.child i (by omega)
    obtain ⟨_, _, hc0, _⟩ := h.child_ne_root i (by omega)
    have hsib1 : n.rightSibPageNo = r.pageNoArray.getD (i + 1) 0 := by
      rw [hsib]
      simp only [show i < r.size by omega, if_true]
    have hlt : i < (r.pageNoArray.take (r.size + 1)).length := by
      rw [List.length_take, h.pageLen]
      have := h.sizeLe
      omega
    have hdrop : (r.pageNoArray.take (r.size + 1)).drop i
        = r.pageNoArray.getD i 0 :: (r.pageNoArray.take (r.size + 1)).drop (i + 1) := by
      rw [List.drop_eq_getElem_cons hlt]
      congr 1
      rw [List.getElem_take, List.getD_eq_getElem?_getD, List.getElem?_eq_getElem]
      rfl
    rw [hdrop]
    simp only [leafChain, hc0, if_false, BufMgr.leafAt_of_page L hp, hsib1]
    rw [ih (i + 1) (by omega) f (by omega)]
    rfl

/-- The leaf chain in an index in which no internal node has split: the walk
along `rightSibPageNo` from the leftmost leaf ends, visits the leaves of the
tree from left to right, each once, and the keys of a leaf are below the keys
of its right sibling. -/
theorem TreeInv.chain {L M : Nat} {ks : List Int} {s : BTreeIndex} (h : TreeInv L M ks s)
    (d : Nat) :
    leafChain L s.bufMgr s.bufMgr.pages.length
        (leftmostLeaf M s.bufMgr (d + 2) s.rootPageNum s.rootIsLeaf)
      = some (treeLeaves M s.bufMgr (d + 2) s.rootPageNum s.rootIsLeaf) ∧
    (treeLeaves M s.bufMgr (d + 2) s.rootPageNum s.rootIsLeaf).Nodup ∧
    chainOrdered L s.bufMgr (treeLeaves M s.bufMgr (d + 2) s.rootPageNum s.rootIsLeaf) := by
  rcases h with h | ⟨r, h⟩
  · obtain ⟨n, hroot, _, hsib⟩ := h.root
    have hr0 := (BufMgr.valid_of_page hroot).1
    have e1 : treeLeaves M s.bufMgr (d + 2) s.rootPageNum s.rootIsLeaf = [s.rootPageNum] := by
      simp only [treeLeaves, h.isLeaf, if_true]
    have e2 : leftmostLeaf M s.bufMgr (d + 2) s.rootPageNum s.rootIsLeaf = s.rootPageNum := by
      simp only [leftmostLeaf, h.isLeaf, if_true]
    rw [e1, e2, h.len]
    refine ⟨?_, by simp, ?_⟩
    · simp only [leafChain, hr0, if_false, BufMgr.leafAt_of_page L hroot, hsib, if_true,
        Option.map_some']
    · intro i hi
      simp at hi
  · have hnode := BufMgr.nonLeafAt_of_page M h.root
    have hlenP : (r.pageNoArray.take (r.size + 1)).length = r.size + 1 := by
      rw [List.length_take, h.pageLen]
      have := h.sizeLe
      omega
    have e1 : treeLeaves M s.bufMgr (d + 2) s.rootPageNum s.rootIsLeaf
        = r.pageNoArray.take (r.size + 1) := by
      simp only [treeLeaves, h.notLeaf, Bool.false_eq_true, if_false, hnode, h.level,
        decide_True, if_true]
      exact foldr_append_singletons _
    have e2 : leftmostLeaf M s.bufMgr (d + 2) s.rootPageNum s.rootIsLeaf
        = r.pageNoArray.getD 0 0 := by
      simp only [leftmostLeaf, h.notLeaf, Bool.false_eq_true, if_false, hnode, h.level,
        decide_True, if_true]
    have hget : ∀ i, i < r.size + 1 →
        (r.pageNoArray.take (r.size + 1)).getD i 0 = r.pageNoArray.getD i 0 :=
      fun i hi => getD_take_of_lt _ _ _ _ hi
    rw [e1, e2]
    refine ⟨?_, ?_, ?_⟩
    · have := h.chain_from r.size 0 (by omega) s.bufMgr.pages.length (by rw [h.len]; omega)
      rw [List.drop_zero] at this
      exact this
    · rw [List.nodup_iff_getElem?_ne_getElem?]
      intro i j hij hj hc
      rw [hlenP] at hj
      have h1 := hget i (by omega)
      have h2 := hget j hj
      rw [List.getD_eq_getElem?_getD, hc, ← List.getD_eq_getElem?_getD, h2] at h1
      have := h.inj j i (by omega) (by omega) h1
      omega
    · intro i hi n0 n1 hn0 hn1 a ha b hb
      rw [hlenP] at hi
      rw [hget i (by omega)] at hn0
      rw [hget (i + 1) hi] at hn1
      obtain ⟨m0, hp0, _, hhi0, _, _⟩ := h.child i (by omega)
      obtain ⟨m1, hp1, _, _, hlo1, _⟩ := h.child (i + 1) (by omega)
      rw [BufMgr.leafAt_of_page L hp0] at hn0
      rw [BufMgr.leafAt_of_page L hp1] at hn1
      cases hn0
      cases hn1
      have h1 := hhi0 a ha (by omega)
      have h2 := hlo1 b hb (by omega)
      simp only [Nat.add_sub_cancel] at h2
      omega

/-! ## Routing correctness (C12) -/

/-- C12, counterexample, evaluated with `L = M = 2`: the key `5` inserted
three times.  The third insertion splits the root leaf into `[5]` (page 2)
and `[5, 5]` (page 3) and installs the root `keyArray = 5`, children `2, 3`.
The key `5` stored in the leaf under child `0` is not `< keyArray[0] = 5`. -/
theorem c12_duplicate_key_left_of_separator :
    (buildIndex 2 2 [5, 5, 5]).2 = .returned () ∧
    (buildIndex 2 2 [5, 5, 5]).1.bufMgr.page 4
      = some (.nonLeaf { level := 1, keyArray := [5, 0], pageNoArray := [2, 3, 0], size := 1 }) ∧
    subtreeKeys 2 2 (buildIndex 2 2 [5, 5, 5]).1.bufMgr 1 2 true = [5] ∧
    ¬ routingHolds 2 2 (buildIndex 2 2 [5, 5, 5]).1.bufMgr 1
      { level := 1, keyArray := [5, 0], pageNoArray := [2, 3, 0], size := 1 } := by
  refine ⟨by decide, by decide, by decide, ?_⟩
  intro h
  exact absurd ((h 0 (by decide)).1 5 (by decide)) (by decide)

/-- C12, amended.  The constructor builds a new index over a relation whose
keys are pairwise distinct and whose record ids are valid, with
`L >= 1`, `M >= 1`.  If the file holds at most `M + 3` pages afterwards (no
internal node has split), the constructor has returned (every `insertEntry`
returned) and routing holds in every internal node of the file: for every
`i < size`, every key stored in the leaf under child `i` is `< keyArray[i]`
and every key stored in the leaf under child `i + 1` is `>= keyArray[i]`. -/
theorem c12_routing_holds_before_internal_split (L M fuel : Nat) (uninit : BTreeIndex)
    (relationName : List Char) (relation : List (Int × RecordId)) (attrByteOffset : Int)
    (attrType : Datatype) (hL : 1 ≤ L) (hM : 1 ≤ M) (hfuel : 2 ≤ fuel)
    (hdist : (relation.map Prod.fst).Nodup)
    (hrid : ∀ e, e ∈ relation → e.2.page_number ≠ INVALID_NUMBER)
    (hlen : (BTreeIndex.construct L M fuel uninit none relationName relation attrByteOffset
      attrType).1.bufMgr.pages.length ≤ M + 3) :
    (BTreeIndex.construct L M fuel uninit none relationName relation attrByteOffset
      attrType).2 = .returned () ∧
    ∀ p n, (BTreeIndex.construct L M fuel uninit none relationName relation attrByteOffset
        attrType).1.bufMgr.page p = some (.nonLeaf n) →
      ∀ d, routingHolds L M (BTreeIndex.construct L M fuel uninit none relationName relation
        attrByteOffset attrType).1.bufMgr (d + 1) n := by
  obtain ⟨hret, ks, hinv⟩ := construct_TreeInv L M fuel uninit relationName relation
    attrByteOffset attrType hL hM hfuel hdist hrid hlen
  exact ⟨hret, fun p n hp d => hinv.routing p n hp d⟩

theorem c12_witness :
    (buildIndex 4 4 [3, 1, 4, 5, 9, 2, 6]).2 = .returned () ∧
    ∀ p n, (buildIndex 4 4 [3, 1, 4, 5, 9, 2, 6]).1.bufMgr.page p = some (.nonLeaf n) →
      ∀ d, routingHolds 4 4 (buildIndex 4 4 [3, 1, 4, 5, 9, 2, 6]).1.bufMgr (d + 1) n :=
  c12_routing_holds_before_internal_split 4 4 8 BTreeIndex.blank ['r', 'e', 'l', 'A']
    ([3, 1, 4, 5, 9, 2, 6].map fun k => (k, testRid k)) 0 .INTEGER (by decide) (by decide)
    (by decide) (by decide) (by decide) (by decide)

/-! ## Leaf chain totality (C13) -/

/-- C13, counterexample, evaluated with `L = 2`, `M = 3`: the keys
`7, 7, 7, 1, 2, 8` inserted in this order.  The split of the leaf `[1, 7]`
by key `2` hands the separator `7` to the root, which holds the key `7`
already: the search of the root places the new leaf (page 5) behind page 3
instead of behind page 2.  The tree has the leaves `2, 3, 5` from left to
right, the chain from the leftmost leaf is `2, 5, 3`, and key `8` then goes
to page 5, whose right sibling (page 3) holds the smaller keys `7, 7`. -/
theorem c13_duplicate_keys_break_chain_order :
    (buildIndex 2 3 [7, 7, 7, 1, 2, 8]).2 = .returned () ∧
    (buildIndex 2 3 [7, 7, 7, 1, 2, 8]).1.rootPageNum = 4 ∧
    (buildIndex 2 3 [7, 7, 7, 1, 2, 8]).1.rootIsLeaf = false ∧
    (buildIndex 2 3 [7, 7, 7, 1, 2, 8]).1.bufMgr.page 4
      = some (.nonLeaf { level := 1, keyArray := [7, 7, 0], pageNoArray := [2, 3, 5, 0],
                         size := 2 }) ∧
    treeLeaves 3 (buildIndex 2 3 [7, 7, 7, 1, 2, 8]).1.bufMgr 2 4 false = [2, 3, 5] ∧
    leafChain 2 (buildIndex 2 3 [7, 7, 7, 1, 2, 8]).1.bufMgr 5
      (leftmostLeaf 3 (buildIndex 2 3 [7, 7, 7, 1, 2, 8]).1.bufMgr 2 4 false) = some [2, 5, 3] ∧
    ((buildIndex 2 3 [7, 7, 7, 1, 2, 8]).1.bufMgr.leafAt 2 5).map (fun n => n.keys)
      = some [7, 8] ∧
    ((buildIndex 2 3 [7, 7, 7, 1, 2, 8]).1.bufMgr.leafAt 2 3).map (fun n => n.keys)
      = some [7, 7] ∧
    ¬ chainOrdered 2 (buildIndex 2 3 [7, 7, 7, 1, 2, 8]).1.bufMgr [2, 5, 3] := by
  refine ⟨by decide, by decide, by decide, by decide, by decide, by decide, by decide,
    by decide, ?_⟩
  intro h
  exact absurd (h 1 (by decide) _ _ rfl rfl 8 (by decide) 7 (by decide)) (by decide)

/-- C13, amended.  The constructor builds a new index over a relation whose
keys are pairwise distinct and whose record ids are valid, with `L >= 1`,
`M >= 1`.  If the file holds at most `M + 3` pages afterwards (no internal
node has split), the constructor has returned, and the walk along
`rightSibPageNo` from the leftmost leaf ends at a leaf whose `rightSibPageNo`
is `INVALID` and visits exactly the leaves of the tree from left to right,
each once, every key of a leaf being `<=` every key of its right sibling.
Moreover every split of a full leaf threads the new leaf between the split
leaf and its former right sibling. -/
theorem c13_leaf_chain_before_internal_split (L M fuel : Nat) (uninit : BTreeIndex)
    (relationName : List Char) (relation : List (Int × RecordId)) (attrByteOffset : Int)
    (attrType : Datatype) (hL : 1 ≤ L) (hM : 1 ≤ M) (hfuel : 2 ≤ fuel)
    (hdist : (relation.map Prod.fst).Nodup)
    (hrid : ∀ e, e ∈ relation → e.2.page_number ≠ INVALID_NUMBER)
    (hlen : (BTreeIndex.construct L M fuel uninit none relationName relation attrByteOffset
      attrType).1.bufMgr.pages.length ≤ M + 3) :
    (BTreeIndex.construct L M fuel uninit none relationName relation attrByteOffset
      attrType).2 = .returned () ∧
    (∀ d, leafChain L (BTreeIndex.construct L M fuel uninit none relationName relation
          attrByteOffset attrType).1.bufMgr
        (BTreeIndex.construct L M fuel uninit none relationName relation
          attrByteOffset attrType).1.bufMgr.pages.length
        (leftmostLeaf M (BTreeIndex.construct L M fuel uninit none relationName relation
          attrByteOffset attrType).1.bufMgr (d + 2)
          (BTreeIndex.construct L M fuel uninit none relationName relation
            attrByteOffset attrType).1.rootPageNum
          (BTreeIndex.construct L M fuel uninit none relationName relation
            attrByteOffset attrType).1.rootIsLeaf)
      = some (treeLeaves M (BTreeIndex.construct L M fuel uninit none relationName relation
          attrByteOffset attrType).1.bufMgr (d + 2)
          (BTreeIndex.construct L M fuel uninit none relationName relation
            attrByteOffset attrType).1.rootPageNum
          (BTreeIndex.construct L M fuel uninit none relationName relation
            attrByteOffset attrType).1.rootIsLeaf) ∧
      (treeLeaves M (BTreeIndex.construct L M fuel uninit none relationName relation
          attrByteOffset attrType).1.bufMgr (d + 2)
          (BTreeIndex.construct L M fuel uninit none relationName relation
            attrByteOffset attrType).1.rootPageNum
          (BTreeIndex.construct L M fuel uninit none relationName relation
            attrByteOffset attrType).1.rootIsLeaf).Nodup ∧
      chainOrdered L (BTreeIndex.construct L M fuel uninit none relationName relation
          attrByteOffset attrType).1.bufMgr
        (treeLeaves M (BTreeIndex.construct L M fuel uninit none relationName relation
          attrByteOffset attrType).1.bufMgr (d + 2)
          (BTreeIndex.construct L M fuel uninit none relationName relation
            attrByteOffset attrType).1.rootPageNum
          (BTreeIndex.construct L M fuel uninit none relationName relation
            attrByteOffset attrType).1.rootIsLeaf)) ∧
    (∀ (bm : BufMgr) (key : Int) (rid : RecordId) (p : PageId) (leaf : LeafNodeInt),
      bm.leafAt L p = some leaf → LeafInv L leaf → leaf.size = L →
      ∃ cur new,
        (insertIntoLeaf L bm key rid p).2
          = .returned (new.keyArray.getD 0 0, bm.pages.length + 1) ∧
        (insertIntoLeaf L bm key rid p).1.leafAt L p = some cur ∧
        (insertIntoLeaf L bm key rid p).1.leafAt L (bm.pages.length + 1) = some new ∧
        cur.rightSibPageNo = bm.pages.length + 1 ∧
        new.rightSibPageNo = leaf.rightSibPageNo) := by
  obtain ⟨hret, ks, hinv⟩ := construct_TreeInv L M fuel uninit relationName relation
    attrByteOffset attrType hL hM hfuel hdist hrid hlen
  refine ⟨hret, fun d => hinv.chain d, ?_⟩
  intro bm key rid p leaf hleaf hleafInv hsize
  obtain ⟨cur, new, hsplit, e1, e2, e3, _, _⟩ := insertIntoLeaf_split L bm key rid p leaf hleaf
    hleafInv hL hsize
  obtain ⟨cur1, new1, hsplit1, _, _, _, _, hcsib, _⟩ := splitLeaf_spec L key rid leaf hleafInv
    hsize hL
  rw [hsplit] at hsplit1
  cases hsplit1
  exact ⟨{ cur with rightSibPageNo := bm.pages.length + 1 },
    { new with rightSibPageNo := cur.rightSibPageNo }, e1, e2, e3, rfl, hcsib⟩

theorem c13_witness :
    (buildIndex 4 4 [3, 1, 4, 5, 9, 2, 6]).2 = .returned () ∧
    leafChain 4 (buildIndex 4 4 [3, 1, 4, 5, 9, 2, 6]).1.bufMgr
        (buildIndex 4 4 [3, 1, 4, 5, 9, 2, 6]).1.bufMgr.pages.length
        (leftmostLeaf 4 (buildIndex 4 4 [3, 1, 4, 5, 9, 2, 6]).1.bufMgr 2
          (buildIndex 4 4 [3, 1, 4, 5, 9, 2, 6]).1.rootPageNum
          (buildIndex 4 4 [3, 1, 4, 5, 9, 2, 6]).1.rootIsLeaf)
      = some (treeLeaves 4 (buildIndex 4 4 [3, 1, 4, 5, 9, 2, 6]).1.bufMgr 2
          (buildIndex 4 4 [3, 1, 4, 5, 9, 2, 6]).1.rootPageNum
          (buildIndex 4 4 [3, 1, 4, 5, 9, 2, 6]).1.rootIsLeaf) :=
  match c13_leaf_chain_before_internal_split 4 4 8 BTreeIndex.blank ['r', 'e', 'l', 'A']
    ([3, 1, 4, 5, 9, 2, 6].map fun k => (k, testRid k)) 0 .INTEGER (by decide) (by decide)
    (by decide) (by decide) (by decide) (by decide) with
  | ⟨h1, h2, _⟩ => ⟨h1, (h2 0).1⟩

/-! ## Scans are read-only (C31) -/

theorem BufFrame.buf_same (bm : BufMgr) : BufFrame bm bm :=
  ⟨rfl, [], by simp, fun e he => by cases he⟩

theorem BufFrame.buf_then {a b c : BufMgr} (h1 : BufFrame a b) (h2 : BufFrame b c) :
    BufFrame a c := by
  obtain ⟨p1, s1, l1, d1⟩ := h1
  obtain ⟨p2, s2, l2, d2⟩ := h2
  refine ⟨by rw [p2, p1], s1 ++ s2, by rw [l2, l1, List.append_assoc], ?_⟩
  intro e he
  rcases List.mem_append.mp he with h | h
  · exact d1 e h
  · exact d2 e h

theorem BufFrame.unPin_clean (bm : BufMgr) (p : PageId) : BufFrame bm (bm.unPinPage p false) :=
  ⟨rfl, [(p, false)], rfl, fun e he => by
    rw [List.mem_singleton] at he
    rw [he]⟩

theorem BufFrame.read {bm bm1 : BufMgr} {p : PageId} (h : bm.readPage p = some bm1) :
    BufFrame bm bm1 := by
  obtain ⟨hp, hl, _⟩ := BufMgr.readPage_spec h
  exact ⟨hp, [], by rw [hl]; simp, fun e he => by cases he⟩

theorem ScanFrame.scan_same (s : BTreeIndex) : ScanFrame s s :=
  ⟨rfl, rfl, rfl, rfl, rfl, BufFrame.buf_same _⟩

theorem ScanFrame.scan_then {a b c : BTreeIndex} (h1 : ScanFrame a b) (h2 : ScanFrame b c) :
    ScanFrame a c := by
  obtain ⟨a1, a2, a3, a4, a5, a6⟩ := h1
  obtain ⟨b1, b2, b3, b4, b5, b6⟩ := h2
  exact ⟨by rw [b1, a1], by rw [b2, a2], by rw [b3, a3], by rw [b4, a4], by rw [b5, a5],
    a6.buf_then b6⟩

theorem startScanDescend_frame (M : Nat) :
    ∀ (fuel : Nat) (s : BTreeIndex), ScanFrame s (startScanDescend M fuel s).1 := by
  intro fuel
  induction fuel with
  | zero => intro s; exact ScanFrame.scan_same s
  | succ n ih =>
    intro s
    unfold startScanDescend
    cases hnode : s.bufMgr.nonLeafAt M s.currentPageData with
    | none => exact ScanFrame.scan_same s
    | some inner =>
      simp only
      have h1 : ScanFrame s { s with
          bufMgr := s.bufMgr.unPinPage s.currentPageNum false
          currentPageNum := inner.pageNoArray.getD
            (descendIndexFrom inner.keyArray s.lowValInt M 0) 0 } :=
        ⟨rfl, rfl, rfl, rfl, rfl, BufFrame.unPin_clean _ _⟩
      split
      · exact h1
      · rename_i bm hread
        have h2 : ScanFrame s { s with
            bufMgr := bm
            currentPageNum := inner.pageNoArray.getD
              (descendIndexFrom inner.keyArray s.lowValInt M 0) 0
            currentPageData := inner.pageNoArray.getD
              (descendIndexFrom inner.keyArray s.lowValInt M 0) 0 } :=
          ⟨rfl, rfl, rfl, rfl, rfl, (BufFrame.unPin_clean _ _).buf_then (BufFrame.read hread)⟩
        split
        · exact h2
        · exact h2.scan_then (ih _)

theorem startScanLeaves_frame (L : Nat) :
    ∀ (fuel : Nat) (s : BTreeIndex), ScanFrame s (startScanLeaves L fuel s).1 := by
  intro fuel
  induction fuel with
  | zero => intro s; exact ScanFrame.scan_same s
  | succ n ih =>
    intro s
    unfold startScanLeaves
    cases hleaf : s.bufMgr.leafAt L s.currentPageData with
    | none => exact ScanFrame.scan_same s
    | some leaf =>
      simp only
      have h1 : ScanFrame s { s with bufMgr := s.bufMgr.unPinPage s.currentPageNum false } :=
        ⟨rfl, rfl, rfl, rfl, rfl, BufFrame.unPin_clean _ _⟩
      split
      · exact h1
      · exact ⟨rfl, rfl, rfl, rfl, rfl, BufFrame.buf_same _⟩
      · split
        · exact h1
        · split
          · exact h1
          · rename_i bm hread
            have h2 : ScanFrame s { s with
                bufMgr := bm, currentPageData := s.currentPageNum } :=
              ⟨rfl, rfl, rfl, rfl, rfl, (BufFrame.unPin_clean _ _).buf_then (BufFrame.read hread)⟩
            exact h2.scan_then (ih _)

theorem startScan_frame (L M fuel : Nat) (s : BTreeIndex) (lowVal : Int) (lowOp : Operator)
    (highVal : Int) (highOp : Operator) :
    ScanFrame s (startScan L M fuel s lowVal lowOp highVal highOp).1 := by
  unfold startScan
  simp only
  split
  · exact ⟨rfl, rfl, rfl, rfl, rfl, BufFrame.buf_same _⟩
  · split
    · exact ⟨rfl, rfl, rfl, rfl, rfl, BufFrame.buf_same _⟩
    · split
      · exact ⟨rfl, rfl, rfl, rfl, rfl, BufFrame.buf_same _⟩
      · split
        · exact ⟨rfl, rfl, rfl, rfl, rfl, BufFrame.buf_same _⟩
        · rename_i bm hread
          have h3 : ScanFrame s { s with
              bufMgr := bm
              scanExecuting := true
              lowValInt := lowVal
              highValInt := highVal
              lowOp := lowOp
              highOp := highOp
              currentPageNum := s.rootPageNum
              currentPageData := s.rootPageNum } :=
            ⟨rfl, rfl, rfl, rfl, rfl, BufFrame.read hread⟩
          split
          · exact h3.scan_then (startScanLeaves_frame L fuel _)
          · have h4 := startScanDescend_frame M fuel { s with
              bufMgr := bm
              scanExecuting := true
              lowValInt := lowVal
              highValInt := highVal
              lowOp := lowOp
              highOp := highOp
              currentPageNum := s.rootPageNum
              currentPageData := s.rootPageNum }
            split
            · rename_i s4 heq
              rw [heq] at h4
              exact (h3.scan_then h4).scan_then (startScanLeaves_frame L fuel s4)
            · rename_i s4 o hne heq
              rw [heq] at h4
              exact h3.scan_then h4

theorem scanNext_frame (L : Nat) (s : BTreeIndex) (outRid : RecordId) :
    ScanFrame s (scanNext L s outRid).1 := by
  unfold scanNext
  split
  · exact ScanFrame.scan_same s
  · split
    · exact ScanFrame.scan_same s
    · split
      · split
        · exact ScanFrame.scan_same s
        · split
          · exact ScanFrame.scan_same s
          · simp only
            split
            · have h1 : ScanFrame s { s with
                  nextEntry := s.nextEntry + 1
                  bufMgr := s.bufMgr.unPinPage s.currentPageNum false } :=
                ⟨rfl, rfl, rfl, rfl, rfl, BufFrame.unPin_clean _ _⟩
              split
              · exact h1
              · split
                · exact ⟨rfl, rfl, rfl, rfl, rfl, BufFrame.unPin_clean _ _⟩
                · rename_i bm hread
                  exact ⟨rfl, rfl, rfl, rfl, rfl,
                    (BufFrame.unPin_clean _ _).buf_then (BufFrame.read hread)⟩
            · exact ⟨rfl, rfl, rfl, rfl, rfl, BufFrame.buf_same _⟩
      · exact ScanFrame.scan_same s

theorem endScan_frame (s : BTreeIndex) : ScanFrame s (endScan s).1 := by
  unfold endScan
  split
  · exact ScanFrame.scan_same s
  · simp only
    split
    · exact ⟨rfl, rfl, rfl, rfl, rfl, BufFrame.unPin_clean _ _⟩
    · exact ⟨rfl, rfl, rfl, rfl, rfl, BufFrame.buf_same _⟩
/-- C31: `startScan`, `scanNext` and `endScan` are read-only.  Whatever the
handle, the arguments and the fuel, and however the call ends, the state
after the call has the pages of the file unchanged (node pages and header
page alike), the same `headerPageNum`, `rootPageNum`, `rootIsLeaf`,
`attrByteOffset` and `attributeType`, and the unpin log of the buffer manager
has grown only by calls with `dirty = false`: besides pin counts, only the
scan fields of the handle differ. -/
theorem c31_scans_are_read_only (L M fuel : Nat) (s : BTreeIndex) (lowVal : Int)
    (lowOp : Operator) (highVal : Int) (highOp : Operator) (outRid : RecordId) :
    ScanFrame s (startScan L M fuel s lowVal lowOp highVal highOp).1 ∧
    ScanFrame s (scanNext L s outRid).1 ∧
    ScanFrame s (endScan s).1 :=
  ⟨startScan_frame L M fuel s lowVal lowOp highVal highOp, scanNext_frame L s outRid,
    endScan_frame s⟩
/-! ## Index bounds of the scan (C32) -/

/-- C32, evaluated with `L = M = 2` on the index over the keys `1, 2, 3, 0`
inserted in this order: the root (page 4) has the key `2` and the children
`2, 3`; the leaf of page 2 is full, `[0, 1]`, and has the right sibling page
3.  `startScan(0, GTE, 3, LTE)` puts the cursor on slot 0 of page 2 and the
first `scanNext` returns the rid of key `0` with `nextEntry = 1`.  The second
`scanNext` reads `keyArray[1]` and `ridArray[1]`, increments `nextEntry` to
`2 = L` and then reads `ridArray[2]`, one slot behind the array, before it
tests `nextEntry >= L`; the call returns the rid of key `1` and moves to
page 3. -/
theorem c32_scanNext_reads_ridArray_at_L :
    (buildIndex 2 2 [1, 2, 3, 0]).2 = .returned () ∧
    (buildIndex 2 2 [1, 2, 3, 0]).1.bufMgr.nonLeafAt 2 4
      = some { level := 1, keyArray := [2, 0], pageNoArray := [2, 3, 0], size := 1 } ∧
    (buildIndex 2 2 [1, 2, 3, 0]).1.bufMgr.leafAt 2 2
      = some { keyArray := [0, 1], ridArray := [testRid 0, testRid 1], rightSibPageNo := 3,
               size := 2 } ∧
    (startScan 2 2 8 (buildIndex 2 2 [1, 2, 3, 0]).1 0 .GTE 3 .LTE).2 = .returned () ∧
    (startScan 2 2 8 (buildIndex 2 2 [1, 2, 3, 0]).1 0 .GTE 3 .LTE).1.currentPageNum = 2 ∧
    (startScan 2 2 8 (buildIndex 2 2 [1, 2, 3, 0]).1 0 .GTE 3 .LTE).1.nextEntry = 0 ∧
    (scanNext 2 (startScan 2 2 8 (buildIndex 2 2 [1, 2, 3, 0]).1 0 .GTE 3 .LTE).1 ⟨0, 0⟩).2
      = (testRid 0, .returned ()) ∧
    (scanNext 2 (startScan 2 2 8 (buildIndex 2 2 [1, 2, 3, 0]).1 0 .GTE 3 .LTE).1
      ⟨0, 0⟩).1.nextEntry = 1 ∧
    scanNextReads 2 (scanNext 2 (startScan 2 2 8 (buildIndex 2 2 [1, 2, 3, 0]).1 0 .GTE 3
      .LTE).1 ⟨0, 0⟩).1 = [.key 1, .rid 1, .rid 2] ∧
    (scanNext 2 (scanNext 2 (startScan 2 2 8 (buildIndex 2 2 [1, 2, 3, 0]).1 0 .GTE 3
      .LTE).1 ⟨0, 0⟩).1 (testRid 0)).2 = (testRid 1, .returned ()) ∧
    (scanNext 2 (scanNext 2 (startScan 2 2 8 (buildIndex 2 2 [1, 2, 3, 0]).1 0 .GTE 3
      .LTE).1 ⟨0, 0⟩).1 (testRid 0)).1.currentPageNum = 3 := by
  decide

/-! ## The pin discipline of an insertion on a well-formed file (C30) -/

theorem splitLeaf_isSome (L : Nat) (key : Int) (rid : RecordId) (leaf : LeafNodeInt) (i : Nat)
    (hL : 1 ≤ L) (hi : i ≤ L) : ∃ r, splitLeaf L key rid leaf i = some r := by
  unfold splitLeaf
  simp only
  by_cases h1 : i > L / 2
  · simp only [h1, if_true]
    unfold insertLeafNode
    by_cases h2 : L % 2 = 1
    · simp only [h2, true_and, if_true]
      rw [if_pos (by omega)]
      exact ⟨_, rfl⟩
    · simp only [h2, false_and, if_false]
      rw [if_pos (by omega)]
      exact ⟨_, rfl⟩
  · simp only [h1, and_false, if_false]
    unfold insertLeafNode
    rw [if_pos (by omega)]
    exact ⟨_, rfl⟩

theorem FileWellFormed.same_pages {L M : Nat} {bm bm1 : BufMgr} {rank : PageId → Nat}
    (h : bm1.pages = bm.pages) (hw : FileWellFormed L M bm rank) :
    FileWellFormed L M bm1 rank := by
  have hp : ∀ q, bm1.page q = bm.page q := BufMgr.page_of_pages_eq h
  obtain ⟨h1, h2, h3⟩ := hw
  refine ⟨fun p => by rw [hp]; exact h1 p, fun p leaf hl => h2 p leaf (by rw [← hp]; exact hl),
    ?_⟩
  intro p n hn
  obtain ⟨a, b⟩ := h3 p n (by rw [← hp]; exact hn)
  refine ⟨a, fun i hi => ?_⟩
  obtain ⟨c, d⟩ := b i hi
  refine ⟨c, ?_⟩
  rw [hp]
  exact d

theorem BufMgr.page_of_nonLeafAt {bm : BufMgr} {M : Nat} {p : PageId} {n : NonLeafNodeInt}
    (hz : bm.page p ≠ some .zero) (h : bm.nonLeafAt M p = some n) :
    bm.page p = some (.nonLeaf n) := by
  unfold BufMgr.nonLeafAt at h
  cases hp : bm.page p with
  | none => rw [hp] at h; cases h
  | some pg =>
    rw [hp] at h
    cases pg with
    | zero => exact absurd hp hz
    | header m => cases h
    | leaf l => cases h
    | nonLeaf m =>
      have e : m = n := by
        simpa [Page.asNonLeaf] using h
      rw [e]

theorem FileWellFormed.childrenBelow {L M : Nat} {bm : BufMgr} {rank : PageId → Nat}
    (hw : FileWellFormed L M bm rank) : ChildrenBelow M bm rank := by
  intro p n hn i hi
  exact ((hw.2.2 p n (BufMgr.page_of_nonLeafAt (hw.1 p) hn)).2 i hi).1

theorem insertIntoLeaf_returns (L : Nat) (bm : BufMgr) (key : Int) (rid : RecordId)
    (p : PageId) (leaf : LeafNodeInt) (hL : 1 ≤ L) (hleaf : bm.leafAt L p = some leaf)
    (hs : LeafShape L leaf) :
    ∃ bm1 r, insertIntoLeaf L bm key rid p = (bm1, .returned r) := by
  obtain ⟨_, _, hsz, hsent⟩ := hs
  have hidx := (findIndex_spec leaf.keyArray key leaf.size).1
  by_cases hroom : (leaf.ridArray.getD (L - 1) default).page_number = INVALID_NUMBER
  · rw [insertIntoLeaf_room L bm key rid p leaf hleaf hroom]
    have hlt := hsent hroom
    unfold insertLeafNode
    rw [if_pos (by omega)]
    exact ⟨_, _, rfl⟩
  · rw [insertIntoLeaf_full L bm key rid p leaf hleaf hroom]
    obtain ⟨r, hr⟩ := splitLeaf_isSome L key rid leaf _ hL (le_trans hidx hsz)
    obtain ⟨cur, new⟩ := r
    rw [hr]
    exact ⟨_, _, rfl⟩

theorem insertIntoNonLeaf_returns (M : Nat) (bm : BufMgr) (p : PageId) (k : Int) (c : PageId)
    (node : NonLeafNodeInt) (hM : 2 ≤ M) (hnode : bm.nonLeafAt M p = some node)
    (hs : NodeShape M node) :
    ∃ bm1 r, insertIntoNonLeaf M bm p k c = (bm1, .returned r) := by
  obtain ⟨_, _, hsz, hsent⟩ := hs
  have hidx := (findIndex_spec node.keyArray k node.size).1
  by_cases hroom : node.pageNoArray.getD M 0 = INVALID_NUMBER
  · rw [insertIntoNonLeaf_room M bm p k c node hnode hroom]
    have hlt := hsent hroom
    unfold insertNonLeafNode
    rw [if_pos (by omega)]
    exact ⟨_, _, rfl⟩
  · rw [insertIntoNonLeaf_full M bm p k c node hnode hroom]
    obtain ⟨r, hr⟩ := splitNonLeaf_isSome M k c node _ hM (le_trans hidx hsz)
    obtain ⟨cur, new, mv⟩ := r
    rw [hr]
    exact ⟨_, _, rfl⟩

theorem InsertEffect.page_same {M : Nat} {rank : PageId → Nat} {bm bm1 : BufMgr} {r : Nat}
    (h : InsertEffect M rank bm bm1 r) (q : PageId) (hq : q ≤ bm.pages.length)
    (hr : r ≤ rank q) : bm1.page q = bm.page q := by
  obtain ⟨_, _, S, _, _, _, hch, _, htouch⟩ := h
  by_contra hne
  rcases (htouch _ _ (hch q hne)).2.2 with h1 | h1
  · unfold PageId at *
    omega
  · omega
/-- On a well-formed file, with fuel above the rank of the page,
`insertEntryHelper` returns. -/
theorem insertEntryHelper_returns (L M : Nat) (key : Int) (rid : RecordId)
    (rank : PageId → Nat) (hL : 1 ≤ L) (hM : 2 ≤ M) :
    ∀ (fuel : Nat) (bm : BufMgr) (p : PageId) (isLeaf : Bool),
      bm.pinCnt.length = bm.pages.length → FileWellFormed L M bm rank → rank p < fuel →
      (if isLeaf = true then ∃ leaf, bm.page p = some (.leaf leaf)
       else ∃ n, bm.page p = some (.nonLeaf n)) →
      ∃ bm1 r, insertEntryHelper L M fuel bm key rid p isLeaf = (bm1, .returned r) := by
  intro fuel
  induction fuel with
  | zero =>
    intro bm p isLeaf _ _ hf _
    omega
  | succ f ih =>
    intro bm p isLeaf hl hw hf hkind
    cases isLeaf with
    | true =>
      simp only [if_true] at hkind
      obtain ⟨leaf, hpage⟩ := hkind
      obtain ⟨bm1, hread, hpg⟩ := BufMgr.readPage_of_page hpage
      rw [insertEntryHelper_leaf L M f bm bm1 key rid p hread]
      have hleaf : bm1.leafAt L p = some leaf := by
        rw [BufMgr.leafAt_of_pages_eq hpg]
        exact BufMgr.leafAt_of_page L hpage
      exact insertIntoLeaf_returns L bm1 key rid p leaf hL hleaf (hw.2.1 p leaf hpage)
    | false =>
      simp only [Bool.false_eq_true, if_false] at hkind
      obtain ⟨n, hpage⟩ := hkind
      obtain ⟨bm1, hread, hpg⟩ := BufMgr.readPage_of_page hpage
      obtain ⟨_, _, hpc, hp⟩ := BufMgr.readPage_spec hread
      have hnode : bm1.nonLeafAt M p = some n := by
        rw [BufMgr.nonLeafAt_of_pages_eq hpg]
        exact BufMgr.nonLeafAt_of_page M hpage
      have hl1 : bm1.pinCnt.length = bm1.pages.length := by
        rw [hpc, hpg, List.length_set, hl]
      have hw1 : FileWellFormed L M bm1 rank := FileWellFormed.same_pages hpg hw
      obtain ⟨hshape, hch⟩ := hw.2.2 p n hpage
      obtain ⟨hrk, hck⟩ := hch (findIndex n.keyArray key n.size)
        (findIndex_spec n.keyArray key n.size).1
      have hkind1 : if decide (n.level = 1) = true
          then ∃ leaf, bm1.page (n.pageNoArray.getD (findIndex n.keyArray key n.size) 0)
            = some (.leaf leaf)
          else ∃ m, bm1.page (n.pageNoArray.getD (findIndex n.keyArray key n.size) 0)
            = some (.nonLeaf m) := by
        by_cases hlv : n.level = 1
        · simp only [hlv, if_true] at hck
          simp only [hlv, decide_True, if_true]
          rw [BufMgr.page_of_pages_eq hpg]
          exact hck
        · simp only [hlv, if_false] at hck
          simp only [hlv, decide_False, Bool.false_eq_true, if_false]
          rw [BufMgr.page_of_pages_eq hpg]
          exact hck
      obtain ⟨bm2, r2, hrec⟩ := ih bm1 (n.pageNoArray.getD (findIndex n.keyArray key n.size) 0)
        (decide (n.level = 1)) hl1 hw1 (by omega) hkind1
      obtain ⟨k, cid⟩ := r2
      have heff := insertEntryHelper_effect L M key rid rank f bm1 bm2 _ _ (k, cid) hl1
        hw1.childrenBelow hrec
      have hsame : bm2.page p = bm1.page p :=
        heff.page_same p (by rw [hpg]; exact hp.2) (by omega)
      have hnode2 : bm2.nonLeafAt M p = some n := by
        unfold BufMgr.nonLeafAt
        rw [hsame]
        exact hnode
      rw [insertEntryHelper]
      simp only [hread, Bool.false_eq_true, if_false, hnode, hrec]
      by_cases hc : cid = 0
      · simp only [hc, if_true]
        exact ⟨_, _, rfl⟩
      · simp only [hc, if_false]
        exact insertIntoNonLeaf_returns M bm2 p k cid n hM hnode2 hshape
/-- The frames of `insertEntryHelper` in the unpin log: an internal node
whose child has not split is unpinned with `dirty = false`, one whose child
has split with `dirty = true`. -/
theorem insertEntryHelper_frames (L M : Nat) (key : Int) (rid : RecordId)
    (rank : PageId → Nat) :
    ∀ (fuel : Nat) (bm bm' : BufMgr) (p : PageId) (isLeaf : Bool) (r : Int × PageId),
      bm.pinCnt.length = bm.pages.length → ChildrenBelow M bm rank →
      insertEntryHelper L M fuel bm key rid p isLeaf = (bm', .returned r) →
      ∀ S, bm'.unPinLog = bm.unPinLog ++ S →
      ∀ q b, (q, b) ∈ internalFrames L M fuel bm key rid p isLeaf → (q, b) ∈ S := by
  intro fuel
  induction fuel with
  | zero =>
    intro bm bm' p isLeaf r _ _ _ S _ q b hq
    unfold internalFrames at hq
    cases hq
  | succ n ih =>
    intro bm bm' p isLeaf r hl hcb h S hS q b hq
    cases isLeaf with
    | true =>
      unfold internalFrames at hq
      simp only [if_true] at hq
      cases hq
    | false =>
      unfold insertEntryHelper at h
      unfold internalFrames at hq
      cases hread : bm.readPage p with
      | none =>
        rw [hread] at h
        cases h
      | some bm1 =>
        rw [hread] at h
        simp only [hread, Bool.false_eq_true, if_false] at h hq
        obtain ⟨hpg, hlg, hpc, hp⟩ := BufMgr.readPage_spec hread
        cases hnode : bm1.nonLeafAt M p with
        | none =>
          rw [hnode] at h
          cases h
        | some node =>
          rw [hnode] at h
          simp only [hnode] at h hq
          have hl1 : bm1.pinCnt.length = bm1.pages.length := by
            rw [hpc, hpg, List.length_set, hl]
          have hcb1 : ChildrenBelow M bm1 rank := ChildrenBelow.of_same_pages hpg hcb
          cases hrec : insertEntryHelper L M n bm1 key rid
              (node.pageNoArray.getD (findIndex node.keyArray key node.size) 0)
              (decide (node.level = 1)) with
          | mk bm2 o =>
            rw [hrec] at h hq
            cases o with
            | returned kc =>
              obtain ⟨k, cid⟩ := kc
              obtain ⟨_, _, Sc, hSc, _⟩ := insertEntryHelper_effect L M key rid rank n bm1 bm2
                _ _ (k, cid) hl1 hcb1 hrec
              rw [hlg] at hSc
              have htail : ∀ S2, S = Sc ++ S2 → ∀ x,
                  x ∈ internalFrames L M n bm1 key rid
                    (node.pageNoArray.getD (findIndex node.keyArray key node.size) 0)
                    (decide (node.level = 1)) → x ∈ S := by
                intro S2 hS2 x hx
                rw [hS2]
                exact List.mem_append_left _
                  (ih bm1 bm2 _ _ (k, cid) hl1 hcb1 hrec Sc (by rw [hSc, hlg]) x.1 x.2 hx)
              simp only at h hq
              by_cases hcid : cid = 0
              · simp only [hcid, if_true] at h
                have e : bm' = bm2.unPinPage p false := (congrArg Prod.fst h).symm
                have hS2 : S = Sc ++ [(p, false)] := by
                  have e2 : bm'.unPinLog = bm.unPinLog ++ (Sc ++ [(p, false)]) := by
                    rw [e]
                    unfold BufMgr.unPinPage
                    simp only [hSc, List.append_assoc]
                  rw [hS] at e2
                  exact List.append_cancel_left e2
                rcases List.mem_cons.mp hq with hq1 | hq1
                · rw [hq1, hS2, hcid]
                  simp
                · exact htail _ hS2 _ hq1
              · simp only [hcid, if_false] at h
                rcases (insertIntoNonLeaf_shape M bm2 bm' p k cid r h).2 with
                  ⟨X, e⟩ | ⟨X, Y, e⟩
                · have hS2 : S = Sc ++ [(p, true)] := by
                    have e2 : bm'.unPinLog = bm.unPinLog ++ (Sc ++ [(p, true)]) := by
                      rw [e]
                      unfold BufMgr.unPinPage
                      simp only [BufMgr.unPinLog_setPage, hSc, List.append_assoc]
                    rw [hS] at e2
                    exact List.append_cancel_left e2
                  rcases List.mem_cons.mp hq with hq1 | hq1
                  · rw [hq1, hS2]
                    simp [hcid]
                  · exact htail _ hS2 _ hq1
                · have hS2 : S = Sc ++ [(p, true), (bm2.pages.length + 1, true)] := by
                    have e2 : bm'.unPinLog
                        = bm.unPinLog ++ (Sc ++ [(p, true), (bm2.pages.length + 1, true)]) := by
                      rw [e, BufMgr.unPinLog_split, hSc, List.append_assoc]
                    rw [hS] at e2
                    exact List.append_cancel_left e2
                  rcases List.mem_cons.mp hq with hq1 | hq1
                  · rw [hq1, hS2]
                    simp [hcid]
                  · exact htail _ hS2 _ hq1
            | threw e => cases h
            | undefined => cases h
            | outOfFuel => cases h
/-- The effect of `insertEntry` on pins, unpin log and pages whenever it
returns, on a file whose child pointers follow a rank. -/
theorem insertEntry_effect_of_returned (L M fuel : Nat) (s : BTreeIndex) (key : Int)
    (rid : RecordId) (rank : PageId → Nat) (m : IndexMetaInfo)
    (hl : s.bufMgr.pinCnt.length = s.bufMgr.pages.length)
    (hcb : ChildrenBelow M s.bufMgr rank)
    (hhdr : s.bufMgr.page s.headerPageNum = some (.header m))
    (hret : (insertEntry L M fuel s key rid).2 = .returned ()) :
    (insertEntry L M fuel s key rid).1.bufMgr.pinCnt
      = s.bufMgr.pinCnt ++ List.replicate
          ((insertEntry L M fuel s key rid).1.bufMgr.pages.length - s.bufMgr.pages.length) 0 ∧
    ∃ suffix,
      (insertEntry L M fuel s key rid).1.bufMgr.unPinLog = s.bufMgr.unPinLog ++ suffix ∧
      (suffix.map Prod.fst).Nodup ∧
      (∀ q, (insertEntry L M fuel s key rid).1.bufMgr.page q ≠ s.bufMgr.page q →
        (q, true) ∈ suffix) ∧
      (∀ q, (q, false) ∈ suffix →
        (insertEntry L M fuel s key rid).1.bufMgr.page q = s.bufMgr.page q ∧
        ∃ n, s.bufMgr.nonLeafAt M q = some n) ∧
      (∀ q b, (q, b) ∈ internalFrames L M fuel s.bufMgr key rid s.rootPageNum s.rootIsLeaf →
        (q, b) ∈ suffix) := by
  cases hh : insertEntryHelper L M fuel s.bufMgr key rid s.rootPageNum s.rootIsLeaf with
  | mk bm o =>
    cases o with
    | threw e =>
      unfold insertEntry at hret
      rw [hh] at hret
      cases hret
    | undefined =>
      unfold insertEntry at hret
      rw [hh] at hret
      cases hret
    | outOfFuel =>
      unfold insertEntry at hret
      rw [hh] at hret
      cases hret
    | returned kc =>
      obtain ⟨k, c⟩ := kc
      obtain ⟨hle, hpin, S, hlog, hnd, hnoh, hch, hun, htouch⟩ :=
        insertEntryHelper_effect L M key rid rank fuel s.bufMgr bm s.rootPageNum s.rootIsLeaf
          (k, c) hl hcb hh
      have hfr := insertEntryHelper_frames L M key rid rank fuel s.bufMgr bm s.rootPageNum
        s.rootIsLeaf (k, c) hl hcb hh S hlog
      by_cases hc : c = 0
      · have e : insertEntry L M fuel s key rid = ({ s with bufMgr := bm }, .returned ()) := by
          unfold insertEntry
          rw [hh]
          simp only [hc, ne_eq, not_true_eq_false, if_false]
        rw [e]
        exact ⟨hpin, S, hlog, hnd, hch, hun, hfr⟩
      · obtain ⟨bm3, hread, e⟩ := insertEntry_root_split L M fuel s key rid m bm k c hhdr hh hc
        have hb : bm.page s.headerPageNum = some (.header m) := by
          have := insertEntryHelper_header L M key rid s.headerPageNum m fuel s.bufMgr
            s.rootPageNum s.rootIsLeaf hhdr
          rw [hh] at this
          exact this
        have hv := BufMgr.valid_of_page hb
        have hv0 := BufMgr.valid_of_page hhdr
        have hl2 : bm.pinCnt.length = bm.pages.length := by
          rw [hpin]
          simp only [List.length_append, List.length_replicate, hl]
          omega
        obtain ⟨r1, r2, r3⟩ := BufMgr.pinCnt_rootSplit bm bm3 _
          (.header { m with rootPageNo := bm.allocPage.1 }) s.headerPageNum hl2 hv.2 hread
        obtain ⟨g1, g2, g3⟩ := rootSplit_pages bm bm3 _ s.headerPageNum m
          { m with rootPageNo := bm.allocPage.1 } hb hread
        have hSnew : ∀ q d, (q, d) ∈ S → q ≠ bm.pages.length + 1 := by
          intro q d hq
          have := (htouch q d hq).2.1
          unfold PageId at *
          omega
        have hShdr : ∀ q d, (q, d) ∈ S → q ≠ s.headerPageNum := by
          intro q d hq e
          subst e
          exact hnoh _ d hq m hhdr
        rw [e]
        simp only
        refine ⟨?_, S ++ [(bm.pages.length + 1, true), (s.headerPageNum, true)], ?_, ?_, ?_, ?_,
          fun q b hq => List.mem_append_left _ (hfr q b hq)⟩
        · rw [r1, r3, hpin, List.append_assoc]
          congr 1
          have e : bm.pages.length + 1 - s.bufMgr.pages.length
              = (bm.pages.length - s.bufMgr.pages.length) + 1 := by omega
          rw [e, List.replicate_succ']
        · rw [r2, hlog, List.append_assoc]
        · have e : S ++ [(bm.pages.length + 1, true), (s.headerPageNum, true)]
              = (S ++ [(bm.pages.length + 1, true)]) ++ [(s.headerPageNum, true)] := by simp
          rw [e]
          apply nodup_snoc _ _ _ (nodup_snoc S _ true hnd hSnew)
          intro q d hq
          rcases List.mem_append.mp hq with h | h
          · exact hShdr q d h
          · simp only [List.mem_singleton, Prod.mk.injEq] at h
            obtain ⟨rfl, rfl⟩ := h
            have := hv.2
            unfold PageId at *
            omega
        · intro q hq
          by_cases e1 : q = bm.pages.length + 1
          · subst e1
            simp
          · by_cases e2 : q = s.headerPageNum
            · subst e2
              simp
            · rw [g3 q e1 e2] at hq
              exact List.mem_append_left _ (hch q hq)
        · intro q hq
          have hq1 : (q, false) ∈ S := by simpa using hq
          obtain ⟨h1, n, h2⟩ := hun q hq1
          exact ⟨by rw [g3 q (hSnew _ _ hq1) (hShdr _ _ hq1), h1], n, h2⟩
/-- C30 (pin discipline of an insertion).  On a well-formed index file (no
zeroed page, every leaf and internal page of the shape on which the code
stays inside its arrays, children of level-1 nodes leaves and of other nodes
internal nodes, no page its own descendant, expressed by a rank), with
`L >= 1`, `M >= 2`, a pin-count table that covers the file, a header page and
a root page of the kind that `rootIsLeaf` tells, and fuel above the rank of
the root, `insertEntry` returns, and after the call: every page has the pin
count it had before and each new page has count `0`; the call unpins no page
twice; every page whose contents differ from before (new pages included) was
unpinned with `dirty = true`; every page that was unpinned with
`dirty = false` is an internal node whose contents are unchanged; and every
internal node that the descent visited was unpinned with `dirty = false` when
the call on its child handed back no new page (the child did not split) and
with `dirty = true` when it did; a root that is an internal node is among the
visited nodes. -/
theorem c30_insertEntry_pins_balanced (L M fuel : Nat) (s : BTreeIndex) (key : Int)
    (rid : RecordId) (rank : PageId → Nat) (m : IndexMetaInfo) (hL : 1 ≤ L) (hM : 2 ≤ M)
    (hl : s.bufMgr.pinCnt.length = s.bufMgr.pages.length)
    (hwf : FileWellFormed L M s.bufMgr rank)
    (hhdr : s.bufMgr.page s.headerPageNum = some (.header m))
    (hroot : if s.rootIsLeaf = true then ∃ leaf, s.bufMgr.page s.rootPageNum = some (.leaf leaf)
      else ∃ n, s.bufMgr.page s.rootPageNum = some (.nonLeaf n))
    (hfuel : rank s.rootPageNum < fuel) :
    (insertEntry L M fuel s key rid).2 = .returned () ∧
    (insertEntry L M fuel s key rid).1.bufMgr.pinCnt
      = s.bufMgr.pinCnt ++ List.replicate
          ((insertEntry L M fuel s key rid).1.bufMgr.pages.length - s.bufMgr.pages.length) 0 ∧
    ∃ suffix,
      (insertEntry L M fuel s key rid).1.bufMgr.unPinLog = s.bufMgr.unPinLog ++ suffix ∧
      (suffix.map Prod.fst).Nodup ∧
      (∀ q, (insertEntry L M fuel s key rid).1.bufMgr.page q ≠ s.bufMgr.page q →
        (q, true) ∈ suffix) ∧
      (∀ q, (q, false) ∈ suffix →
        (insertEntry L M fuel s key rid).1.bufMgr.page q = s.bufMgr.page q ∧
        ∃ n, s.bufMgr.nonLeafAt M q = some n) ∧
      (∀ q b, (q, b) ∈ internalFrames L M fuel s.bufMgr key rid s.rootPageNum s.rootIsLeaf →
        (q, b) ∈ suffix) ∧
      (s.rootIsLeaf = false → ∃ b,
        (s.rootPageNum, b) ∈ internalFrames L M fuel s.bufMgr key rid s.rootPageNum
          s.rootIsLeaf) := by
  obtain ⟨bm, r, hh⟩ := insertEntryHelper_returns L M key rid rank hL hM fuel s.bufMgr
    s.rootPageNum s.rootIsLeaf hl hwf hfuel hroot
  obtain ⟨k, c⟩ := r
  have hret : (insertEntry L M fuel s key rid).2 = .returned () := by
    by_cases hc : c = 0
    · subst hc
      rw [insertEntry_of_helper_zero L M fuel s key rid bm k hh]
    · obtain ⟨bm3, _, e⟩ := insertEntry_root_split L M fuel s key rid m bm k c hhdr hh hc
      rw [e]
  have hvisit : s.rootIsLeaf = false → ∃ b,
      (s.rootPageNum, b) ∈ internalFrames L M fuel s.bufMgr key rid s.rootPageNum
        s.rootIsLeaf := by
    intro hlf
    rw [hlf] at hroot ⊢
    obtain ⟨n, hn⟩ : ∃ n, s.bufMgr.page s.rootPageNum = some (.nonLeaf n) := by
      simpa using hroot
    obtain ⟨f, rfl⟩ : ∃ f, fuel = f + 1 := ⟨fuel - 1, by omega⟩
    obtain ⟨bm1, hr, hp⟩ := BufMgr.readPage_of_page hn
    have hn1 : bm1.nonLeafAt M s.rootPageNum = some n := by
      rw [BufMgr.nonLeafAt_of_pages_eq hp]
      exact BufMgr.nonLeafAt_of_page M hn
    unfold internalFrames
    simp only [Bool.false_eq_true, if_false, hr, hn1]
    exact ⟨_, List.mem_cons_self _ _⟩
  obtain ⟨h2, suffix, h3, h4, h5, h6, h7⟩ := insertEntry_effect_of_returned L M fuel s key rid
    rank m hl hwf.childrenBelow hhdr hret
  exact ⟨hret, h2, suffix, h3, h4, h5, h6, h7, hvisit⟩
/-- The index over the keys `0, 1, 2, 3, 4` with `L = M = 4` is a well-formed
file: header (page 1), leaves `[0, 1]` (page 2) and `[2, 3, 4]` (page 3), and
the root of level 1 (page 4) with rank 1 above its children of rank 0. -/
theorem wellFormed_two_level_example :
    FileWellFormed 4 4 (buildIndex 4 4 [0, 1, 2, 3, 4]).1.bufMgr
      (fun p => if p = 4 then 1 else 0) := by
  have hcases : ∀ (p : PageId) (pg : Page),
      (buildIndex 4 4 [0, 1, 2, 3, 4]).1.bufMgr.page p = some pg →
      p = 1 ∨ p = 2 ∨ p = 3 ∨ p = 4 := by
    intro p pg hp
    have hv := BufMgr.valid_of_page hp
    have h0 : p ≠ 0 := hv.1
    have h4 : p ≤ 4 := hv.2
    unfold PageId at *
    omega
  have h1 : (buildIndex 4 4 [0, 1, 2, 3, 4]).1.bufMgr.page 1
      = some (.header ⟨['r', 'e', 'l', 'A'], 0, .INTEGER, 4⟩) := by decide
  have h2 : (buildIndex 4 4 [0, 1, 2, 3, 4]).1.bufMgr.page 2
      = some (.leaf ⟨[0, 1, 0, 0], [⟨1, 0⟩, ⟨1, 1⟩, ⟨0, 2⟩, ⟨0, 3⟩], 3, 2⟩) := by decide
  have h3 : (buildIndex 4 4 [0, 1, 2, 3, 4]).1.bufMgr.page 3
      = some (.leaf ⟨[2, 3, 4, 0], [⟨1, 2⟩, ⟨1, 3⟩, ⟨1, 4⟩, ⟨0, 0⟩], 0, 3⟩) := by decide
  have h4 : (buildIndex 4 4 [0, 1, 2, 3, 4]).1.bufMgr.page 4
      = some (.nonLeaf ⟨1, [2, 0, 0, 0], [2, 3, 0, 0, 0], 1⟩) := by decide
  refine ⟨?_, ?_, ?_⟩
  · intro p hp
    rcases hcases p _ hp with rfl | rfl | rfl | rfl
    · rw [h1] at hp; cases hp
    · rw [h2] at hp; cases hp
    · rw [h3] at hp; cases hp
    · rw [h4] at hp; cases hp
  · intro p leaf hp
    rcases hcases p _ hp with rfl | rfl | rfl | rfl
    · rw [h1] at hp; cases hp
    · rw [h2] at hp
      cases hp
      unfold LeafShape
      decide
    · rw [h3] at hp
      cases hp
      unfold LeafShape
      decide
    · rw [h4] at hp; cases hp
  · intro p n hp
    rcases hcases p _ hp with rfl | rfl | rfl | rfl
    · rw [h1] at hp; cases hp
    · rw [h2] at hp; cases hp
    · rw [h3] at hp; cases hp
    · rw [h4] at hp
      cases hp
      refine ⟨by unfold NodeShape; decide, ?_⟩
      intro i hi
      have hi2 : i = 0 ∨ i = 1 := by
        have : i ≤ 1 := hi
        omega
      rcases hi2 with rfl | rfl
      · exact ⟨by decide, by
          simp only [if_true]
          exact ⟨_, h2⟩⟩
      · exact ⟨by decide, by
          simp only [if_true]
          exact ⟨_, h3⟩⟩

/-- Instance of C30: inserting key 5 into the two-level index over `0 .. 4`
(`L = M = 4`) returns; the leaf `[2, 3, 4]` has room, so the root (page 4) is
unpinned with `dirty == false` and is unchanged. -/
theorem c30_witness :
    (insertEntry 4 4 3 (buildIndex 4 4 [0, 1, 2, 3, 4]).1 5 (testRid 5)).2 = .returned () ∧
    (insertEntry 4 4 3 (buildIndex 4 4 [0, 1, 2, 3, 4]).1 5 (testRid 5)).1.bufMgr.pinCnt
      = (buildIndex 4 4 [0, 1, 2, 3, 4]).1.bufMgr.pinCnt ++ List.replicate
          ((insertEntry 4 4 3 (buildIndex 4 4 [0, 1, 2, 3, 4]).1 5
            (testRid 5)).1.bufMgr.pages.length
            - (buildIndex 4 4 [0, 1, 2, 3, 4]).1.bufMgr.pages.length) 0 ∧
    ∃ suffix,
      (insertEntry 4 4 3 (buildIndex 4 4 [0, 1, 2, 3, 4]).1 5 (testRid 5)).1.bufMgr.unPinLog
        = (buildIndex 4 4 [0, 1, 2, 3, 4]).1.bufMgr.unPinLog ++ suffix ∧
      (suffix.map Prod.fst).Nodup ∧
      (4, false) ∈ suffix ∧
      (insertEntry 4 4 3 (buildIndex 4 4 [0, 1, 2, 3, 4]).1 5 (testRid 5)).1.bufMgr.page 4
        = (buildIndex 4 4 [0, 1, 2, 3, 4]).1.bufMgr.page 4 :=
  match c30_insertEntry_pins_balanced 4 4 3 (buildIndex 4 4 [0, 1, 2, 3, 4]).1 5 (testRid 5)
    (fun p => if p = 4 then 1 else 0)
    { relationName := ['r', 'e', 'l', 'A'], attrByteOffset := 0, attrType := .INTEGER,
      rootPageNo := 4 }
    (by decide) (by decide) (by decide) wellFormed_two_level_example (by decide)
    ⟨_, (by decide : (buildIndex 4 4 [0, 1, 2, 3, 4]).1.bufMgr.page 4
      = some (.nonLeaf ⟨1, [2, 0, 0, 0], [2, 3, 0, 0, 0], 1⟩))⟩
    (by decide) with
  | ⟨h1, h2, suffix, h3, h4, _, h6, h7, _⟩ =>
    ⟨h1, h2, suffix, h3, h4, h7 4 false (by decide), (h6 4 (h7 4 false (by decide))).1⟩

end badgerdb
